import Mathlib

/-!
# Agglomerative block-matrix AMG coarsening (`BlockMatrixAgglomeration.C`)

Shallow embedding of `Foam::BlockMatrixAgglomeration<Type>`:

* C++ `label` values are `Int` (unbounded: label overflow is not modelled),
  array sizes are `Nat`;
* C++ lists (`labelList`, `scalarField`, `Field<Type>`) are `List`s; every
  element access goes through `readAt` / `writeAt`, which return `none` when
  the index is outside the list (undefined behaviour in the C++), so every
  operation returns an `Option`;
* `scalar` arithmetic is abstracted by a record of operations (`ScalarOps`),
  so that the structural results hold for any arithmetic, and instantiated
  with exact rationals for concrete runs;
* the parallel reductions `reduce(..)` are modelled by the contribution of
  the other partitions (`ParEnv`), the single-partition run being the neutral
  contribution.
-/

namespace Foam

/-! ## Checked array access -/

/-- Checked read `xs[i]` with a `label` index. -/
def readAt {β : Type} (xs : List β) (i : Int) : Option β :=
  if 0 ≤ i then xs[i.toNat]? else none

/-- Checked write `xs[i] = v` with a `label` index. -/
def writeAt {β : Type} (xs : List β) (i : Int) (v : β) : Option (List β) :=
  if 0 ≤ i ∧ i.toNat < xs.length then some (xs.set i.toNat v) else none

/-! ## Transfer operators -/

/-- Body of the loop of `restrictResidual`:
`coarseRes[agglomIndex_[i]] += res[i]`. -/
def restrictResidualStep {β : Type} [Add β] (agglomIndex : List Int) (res : List β)
    (coarseRes : List β) (i : Nat) : Option (List β) := do
  let k ← readAt agglomIndex (i : Int)
  let r ← readAt res (i : Int)
  let c ← readAt coarseRes k
  writeAt coarseRes k (c + r)

/-- Embedding of `BlockMatrixAgglomeration::restrictResidual(res, coarseRes)`:
`coarseRes = zero; forAll (res, i) coarseRes[agglomIndex_[i]] += res[i];`.
The result is the final content of `coarseRes`. -/
def restrictResidual {β : Type} [Zero β] [Add β] (agglomIndex : List Int) (res : List β)
    (coarseRes : List β) : Option (List β) :=
  (List.range res.length).foldlM (restrictResidualStep agglomIndex res)
    (List.replicate coarseRes.length 0)

/-- Body of the loop of `prolongateCorrection`:
`x[i] += coarseX[agglomIndex_[i]]`. -/
def prolongateCorrectionStep {β : Type} [Add β] (agglomIndex : List Int) (coarseX : List β)
    (x : List β) (i : Nat) : Option (List β) := do
  let k ← readAt agglomIndex (i : Int)
  let c ← readAt coarseX k
  let xi ← readAt x (i : Int)
  writeAt x (i : Int) (xi + c)

/-- Embedding of `BlockMatrixAgglomeration::prolongateCorrection(x, coarseX)`:
`forAll (x, i) x[i] += coarseX[agglomIndex_[i]];`.
The result is the final content of `x`. -/
def prolongateCorrection {β : Type} [Add β] (agglomIndex : List Int) (x : List β)
    (coarseX : List β) : Option (List β) :=
  (List.range x.length).foldlM (prolongateCorrectionStep agglomIndex coarseX) x

/-- Number of fine equations of cluster `k`. -/
def clusterSize (agglomIndex : List Int) (k : Nat) : Nat :=
  ((Finset.range agglomIndex.length).filter (fun i => agglomIndex[i]? = some (k : Int))).card

/-- An agglomeration map with every value in `[0, nCoarseEqns)`. -/
def ValidAgglom (agglomIndex : List Int) (nCoarseEqns : Nat) : Prop :=
  ∀ a ∈ agglomIndex, 0 ≤ a ∧ a < (nCoarseEqns : Int)

/-- Inner product of two vectors, over the index range of the first. -/
def innerProduct {R : Type} [CommSemiring R] (a b : List R) : R :=
  ∑ i in Finset.range a.length, a.getD i 0 * b.getD i 0

/-! ## Scalars, matrix and parallel environment -/

/-- Operations on `scalar` used by the clustering (`*`, `/`, `max`, `>`, `>=`
and the literal `0`), and the static constant `weightFactor_`. -/
structure ScalarOps (α : Type) where
  zero : α
  mul : α → α → α
  div : α → α → α
  max : α → α → α
  gt : α → α → Bool
  ge : α → α → Bool
  weightFactor : α

/-- Exact rational arithmetic, with `weightFactor_ = 0.65`. The `scalar` of the
code is a floating-point type: this instance does not model its rounding, so
a comparison that is a tie in exact arithmetic (or a division by a zero
diagonal) can come out differently in the code. -/
def ratOps : ScalarOps ℚ where
  zero := 0
  mul := fun a b => a * b
  div := fun a b => a / b
  max := fun a b => if a ≤ b then b else a
  gt := fun a b => decide (a > b)
  ge := fun a b => decide (a ≥ b)
  weightFactor := 13 / 20

/-- What the clustering reads from the fine matrix `matrix_`:
`lduAddr().size()`, the addressing, the symmetry classification and the
coefficient magnitudes returned by `normPtr_->coeffMag` for `diag()`,
`upper()` and `lower()` (the last two are read only for the classifications
that have them). -/
structure BlockLduMatrix (α : Type) where
  nRows : Nat
  upperAddr : List Int
  lowerAddr : List Int
  symmetric : Bool
  asymmetric : Bool
  magDiag : List α
  magUpper : List α
  magLower : List α

/-- Contribution of the other partitions to the two reductions of
`calcAgglomeration`: the sum of their `nSolo` and the conjunction of their
`coarsen_`. -/
structure ParEnv where
  nSoloOthers : Int
  coarsenOthers : Bool

/-- Run on a single partition: both reductions are the identity. -/
def singlePartition : ParEnv := ⟨0, true⟩

/-- Member data of `BlockMatrixAgglomeration` written by the clustering. -/
structure AgglomState where
  agglomIndex : List Int
  nCoarseEqns : Int
  coarsen : Bool
deriving DecidableEq

/-! ## Row-based addressing -/

/-- Body `rowOffset[addr[coeffI]]++` of the counting loops. -/
def countCoeffsStep (addr : List Int) (rowOffset : List Int) (coeffI : Nat) :
    Option (List Int) := do
  let a ← readAt addr (coeffI : Int)
  let v ← readAt rowOffset a
  writeAt rowOffset a (v + 1)

/-- Loop `forAll (addr, coeffI) rowOffset[addr[coeffI]]++`. -/
def countCoeffs (addr : List Int) (rowOffset : List Int) : Option (List Int) :=
  (List.range addr.length).foldlM (countCoeffsStep addr) rowOffset

/-- Body `rowOffset[eqnI] = rowOffset[eqnI + 1] - rowOffset[eqnI]`. -/
def offsetsFromCountsStep (rowOffset : List Int) (eqnI : Nat) : Option (List Int) := do
  let next ← readAt rowOffset ((eqnI : Int) + 1)
  let cnt ← readAt rowOffset (eqnI : Int)
  writeAt rowOffset (eqnI : Int) (next - cnt)

/-- Loop `for (eqnI = nRows - 1; eqnI >= 0; --eqnI)
rowOffset[eqnI] = rowOffset[eqnI + 1] - rowOffset[eqnI]`. -/
def offsetsFromCounts (nRows : Nat) (rowOffset : List Int) : Option (List Int) :=
  (List.range nRows).reverse.foldlM offsetsFromCountsStep rowOffset

/-- The table `rowOffset` of `calcAgglomeration`. -/
def calcRowOffset (nRows : Nat) (upperAddr lowerAddr : List Int) : Option (List Int) := do
  let rowOffset := List.replicate (nRows + 1) (0 : Int)
  let rowOffset ← countCoeffs upperAddr rowOffset
  let rowOffset ← countCoeffs lowerAddr rowOffset
  let nCoeffs := rowOffset.foldl (fun n v => n + v) 0
  let rowOffset ← writeAt rowOffset nRows nCoeffs
  let rowOffset ← offsetsFromCounts nRows rowOffset
  writeAt rowOffset 0 0

/-- The arrays `cols`, `cIndex` and the counter `nPerRow` while they are filled. -/
structure RowFill where
  cols : List Int
  cIndex : List Int
  nPerRow : List Int

/-- Body of a filling loop:
`cols[rowOffset[rowAddr[coeffI]] + nPerRow[rowAddr[coeffI]]] = colAddr[coeffI]`,
the same position of `cIndex` is set to `coeffI`, and
`nPerRow[rowAddr[coeffI]]++`. -/
def fillRowsStep (rowOffset rowAddr colAddr : List Int) (f : RowFill) (coeffI : Nat) :
    Option RowFill := do
  let r ← readAt rowAddr (coeffI : Int)
  let off ← readAt rowOffset r
  let n ← readAt f.nPerRow r
  let c ← readAt colAddr (coeffI : Int)
  let cols ← writeAt f.cols (off + n) c
  let cIndex ← writeAt f.cIndex (off + n) (coeffI : Int)
  let nPerRow ← writeAt f.nPerRow r (n + 1)
  pure { cols := cols, cIndex := cIndex, nPerRow := nPerRow }

/-- One filling loop `forAll (rowAddr, coeffI)`. -/
def fillRows (rowOffset rowAddr colAddr : List Int) (f : RowFill) : Option RowFill :=
  (List.range rowAddr.length).foldlM (fillRowsStep rowOffset rowAddr colAddr) f

/-- The arrays `cols` and `cIndex` of `calcAgglomeration`.  Storage that the
C++ leaves uninitialised holds `-1`, which is no valid index: a later use of
an entry that was never written fails. `nPerRow` is `agglomIndex_`, reset to
zero. -/
def calcCols (rowOffset upperAddr lowerAddr : List Int) (agglomIndex : List Int) :
    Option RowFill := do
  let f : RowFill :=
    { cols := List.replicate (upperAddr.length + lowerAddr.length) (-1)
      cIndex := List.replicate (upperAddr.length + lowerAddr.length) (-1)
      nPerRow := List.replicate agglomIndex.length 0 }
  let f ← fillRows rowOffset upperAddr lowerAddr f
  fillRows rowOffset lowerAddr upperAddr f

/-! ## Weak (solo) equations -/

/-- Body of the loop over the coefficients that takes out of cluster zero
each end of a coefficient larger than the scaled diagonal of that end. -/
def markStrongStep {α : Type} (ops : ScalarOps α) (upperAddr lowerAddr : List Int)
    (magOffDiag magScaledDiag : List α) (zeroCluster : List Bool) (coeffI : Nat) :
    Option (List Bool) := do
  let mo ← readAt magOffDiag (coeffI : Int)
  let u ← readAt upperAddr (coeffI : Int)
  let su ← readAt magScaledDiag u
  let zeroCluster ← if ops.gt mo su = true then writeAt zeroCluster u false else pure zeroCluster
  let mo ← readAt magOffDiag (coeffI : Int)
  let l ← readAt lowerAddr (coeffI : Int)
  let sl ← readAt magScaledDiag l
  if ops.gt mo sl = true then writeAt zeroCluster l false else pure zeroCluster

/-- Loop `forAll (magOffDiag, coeffI)` marking the strongly connected
equations. -/
def markStrong {α : Type} (ops : ScalarOps α) (upperAddr lowerAddr : List Int)
    (magOffDiag magScaledDiag : List α) (zeroCluster : List Bool) : Option (List Bool) :=
  (List.range magOffDiag.length).foldlM
    (markStrongStep ops upperAddr lowerAddr magOffDiag magScaledDiag) zeroCluster

/-- Body of the loop collecting the solo equations; the state is
`(nSolo, agglomIndex_)`. -/
def collectSoloStep (zeroCluster : List Bool) (nCoarseEqns : Int) (s : Int × List Int)
    (eqnI : Nat) : Option (Int × List Int) := do
  let z ← readAt zeroCluster (eqnI : Int)
  if z = true then
    let agglomIndex ← writeAt s.2 (eqnI : Int) nCoarseEqns
    pure (s.1 + 1, agglomIndex)
  else pure s

/-- Loop `forAll (zeroCluster, eqnI)` collecting the solo equations. -/
def collectSolo (zeroCluster : List Bool) (nCoarseEqns : Int) (agglomIndex : List Int) :
    Option (Int × List Int) :=
  (List.range zeroCluster.length).foldlM (collectSoloStep zeroCluster nCoarseEqns)
    (0, agglomIndex)

/-! ## Greedy growth -/

/-- Data of `calcAgglomeration` that the main loop only reads. -/
structure ClusterCtx (α : Type) where
  rowOffset : List Int
  cols : List Int
  cIndex : List Int
  magDiag : List α
  magOffDiag : List α
  groupSize : Int

/-- Locals of one pass over a row: the best ungrouped and the best grouped
neighbour found so far. -/
structure ScanState (α : Type) where
  indexUngrouped : Int
  weightUngrouped : α
  indexGrouped : Int
  weightGrouped : α

/-- Body of the loop over `rowCoeffI`. -/
def scanStep {α : Type} (ops : ScalarOps α) (ctx : ClusterCtx α) (agglomIndex : List Int)
    (curEqn : Int) (magRowDiag : α) (s : ScanState α) (rowCoeffI : Int) :
    Option (ScanState α) := do
  let colI ← readAt ctx.cols rowCoeffI
  let magColDiag ← readAt ctx.magDiag colI
  let ci ← readAt ctx.cIndex rowCoeffI
  let mo ← readAt ctx.magOffDiag ci
  let weight := ops.div mo (ops.max magRowDiag magColDiag)
  let aCol ← readAt agglomIndex colI
  if aCol = -1 then
    if s.indexUngrouped = -1 ∨ ops.gt weight s.weightUngrouped = true then
      pure { s with indexUngrouped := rowCoeffI, weightUngrouped := weight }
    else pure s
  else
    let aCur ← readAt agglomIndex curEqn
    if aCur ≠ aCol then
      if s.indexGrouped = -1 ∨ ops.gt weight s.weightGrouped = true then
        pure { s with indexGrouped := rowCoeffI, weightGrouped := weight }
      else pure s
    else pure s

/-- The labels `lo, lo + 1, .., hi - 1`. -/
def labelRange (lo hi : Int) : List Int :=
  (List.range (hi - lo).toNat).map (fun (j : Nat) => lo + (j : Int))

/-- Scan of the row of `curEqn`: the loop
`for (rowCoeffI = rowOffset[curEqn]; rowCoeffI < rowOffset[curEqn + 1]; rowCoeffI++)`
started with `weightUngrouped = weightGrouped = 0` and both indices `-1`. -/
def scanRow {α : Type} (ops : ScalarOps α) (ctx : ClusterCtx α) (agglomIndex : List Int)
    (curEqn : Int) (magRowDiag : α) : Option (ScanState α) := do
  let lo ← readAt ctx.rowOffset curEqn
  let hi ← readAt ctx.rowOffset (curEqn + 1)
  (labelRange lo hi).foldlM (scanStep ops ctx agglomIndex curEqn magRowDiag)
    { indexUngrouped := -1, weightUngrouped := ops.zero,
      indexGrouped := -1, weightGrouped := ops.zero }

/-- Locals and arrays changed by the growth loop of one seed. -/
structure GrowState where
  agglomIndex : List Int
  curEqn : Int
  indexUngrouped : Int
  indexGrouped : Int
  groupPassI : Int

/-- The loop `for (groupPassI = 1; groupPassI < groupSize_; groupPassI++)`,
from the test of its condition on; `fuel` bounds the number of times the
condition is tested (`groupSize_` passes at most, so `groupSize_ + 1` is
enough) and `none` is also the result when it runs out. -/
def growLoop {α : Type} (ops : ScalarOps α) (ctx : ClusterCtx α) (sizeOfGroups : List Int)
    (magRowDiag : α) : Nat → GrowState → Option GrowState
  | 0, _ => none
  | fuel + 1, g =>
    if g.groupPassI < ctx.groupSize then do
      let s ← scanRow ops ctx g.agglomIndex g.curEqn magRowDiag
      if s.indexUngrouped ≠ -1 ∧
          (s.indexGrouped = -1 ∨
            ops.ge s.weightUngrouped (ops.mul ops.weightFactor s.weightGrouped) = true) then do
        let nextEqn ← readAt ctx.cols s.indexUngrouped
        let aCur ← readAt g.agglomIndex g.curEqn
        let agglomIndex ← writeAt g.agglomIndex nextEqn aCur
        let aCur2 ← readAt agglomIndex g.curEqn
        let _ ← readAt sizeOfGroups aCur2
        growLoop ops ctx sizeOfGroups magRowDiag fuel
          { agglomIndex := agglomIndex, curEqn := nextEqn,
            indexUngrouped := s.indexUngrouped, indexGrouped := s.indexGrouped,
            groupPassI := g.groupPassI + 1 }
      else
        pure { g with indexUngrouped := s.indexUngrouped, indexGrouped := s.indexGrouped }
    else pure g

/-- Arrays and counter changed by the main loop over the equations. -/
structure ClusterState where
  agglomIndex : List Int
  sizeOfGroups : List Int
  nCoarseEqns : Int

/-- Condition of the `if` that follows the growth loop:
`groupPassI > 1 || indexGrouped == -1 ||
sizeOfGroups[agglomIndex_[cols[indexGrouped]]] > (groupSize_ + 2)`,
evaluated left to right. -/
def sealTest {α : Type} (ctx : ClusterCtx α) (sizeOfGroups : List Int) (g : GrowState) :
    Option Bool :=
  if g.groupPassI > 1 ∨ g.indexGrouped = -1 then pure true
  else do
    let c ← readAt ctx.cols g.indexGrouped
    let ac ← readAt g.agglomIndex c
    let sz ← readAt sizeOfGroups ac
    pure (decide (sz > ctx.groupSize + 2))

/-- First branch after the growth loop, the current cluster becomes a new one:
`sizeOfGroups[agglomIndex_[eqnI]]++; nCoarseEqns_++`. -/
def sealGroup (st : ClusterState) (g : GrowState) (eqnI : Nat) : Option ClusterState := do
  let ae ← readAt g.agglomIndex (eqnI : Int)
  let sz ← readAt st.sizeOfGroups ae
  let sizeOfGroups ← writeAt st.sizeOfGroups ae (sz + 1)
  pure { agglomIndex := g.agglomIndex, sizeOfGroups := sizeOfGroups,
         nCoarseEqns := st.nCoarseEqns + 1 }

/-- Second branch after the growth loop, the seed joins the cluster of its
best grouped neighbour:
`agglomIndex_[eqnI] = agglomIndex_[cols[indexGrouped]];
sizeOfGroups[agglomIndex_[cols[indexGrouped]]]++`. -/
def mergeSeed {α : Type} (ctx : ClusterCtx α) (st : ClusterState) (g : GrowState)
    (eqnI : Nat) : Option ClusterState := do
  let c ← readAt ctx.cols g.indexGrouped
  let ac ← readAt g.agglomIndex c
  let agglomIndex ← writeAt g.agglomIndex (eqnI : Int) ac
  let c2 ← readAt ctx.cols g.indexGrouped
  let ac2 ← readAt agglomIndex c2
  let sz ← readAt st.sizeOfGroups ac2
  let sizeOfGroups ← writeAt st.sizeOfGroups ac2 (sz + 1)
  pure { agglomIndex := agglomIndex, sizeOfGroups := sizeOfGroups,
         nCoarseEqns := st.nCoarseEqns }

/-- Body of the main loop `for (eqnI = 0; eqnI < nRows; eqnI++)`. -/
def eqnStep {α : Type} (ops : ScalarOps α) (ctx : ClusterCtx α) (st : ClusterState)
    (eqnI : Nat) : Option ClusterState := do
  let a ← readAt st.agglomIndex (eqnI : Int)
  if a = -1 then
    let agglomIndex ← writeAt st.agglomIndex (eqnI : Int) st.nCoarseEqns
    let magRowDiag ← readAt ctx.magDiag (eqnI : Int)
    let g ← growLoop ops ctx st.sizeOfGroups magRowDiag (ctx.groupSize.toNat + 1)
      { agglomIndex := agglomIndex, curEqn := (eqnI : Int), indexUngrouped := -1,
        indexGrouped := -1, groupPassI := 1 }
    let newGroup ← sealTest ctx st.sizeOfGroups g
    if newGroup = true then sealGroup st g eqnI else mergeSeed ctx st g eqnI
  else pure st

/-- The field `magOffDiag` of `calcAgglomeration`: `max(magUpper, magLower)`
for an asymmetric matrix, `magUpper` for a symmetric one, and `none` for a
matrix that is neither (diagonal only). -/
def calcMagOffDiag {α : Type} (ops : ScalarOps α) (m : BlockLduMatrix α) : Option (List α) :=
  if m.asymmetric = true then some (List.zipWith ops.max m.magUpper m.magLower)
  else if m.symmetric = true then some m.magUpper
  else none

/-- The list `zeroCluster` of `calcAgglomeration` after the loop over the
coefficients: `true` marks the weakly connected (solo) equations. -/
def calcZeroCluster {α : Type} (ops : ScalarOps α) (diagFactor : α) (m : BlockLduMatrix α)
    (magOffDiag : List α) : Option (List Bool) :=
  markStrong ops m.upperAddr m.lowerAddr magOffDiag
    (m.magDiag.map (fun d => ops.mul diagFactor d)) (List.replicate m.magDiag.length true)

/-- Embedding of `BlockMatrixAgglomeration::calcAgglomeration()`. -/
def calcAgglomeration {α : Type} (ops : ScalarOps α) (diagFactor : α) (env : ParEnv)
    (m : BlockLduMatrix α) (groupSize minCoarseEqns : Int) (st : AgglomState) :
    Option AgglomState := do
  let rowOffset ← calcRowOffset m.nRows m.upperAddr m.lowerAddr
  let f ← calcCols rowOffset m.upperAddr m.lowerAddr st.agglomIndex
  let agglomIndex : List Int := List.replicate st.agglomIndex.length (-1)
  match calcMagOffDiag ops m with
  | none =>
    pure { st with agglomIndex := List.replicate agglomIndex.length 0, nCoarseEqns := 1 }
  | some magOffDiag =>
    let sizeOfGroups : List Int := List.replicate m.nRows 0
    let nCoarseEqns : Int := 0
    let zeroCluster ← calcZeroCluster ops diagFactor m magOffDiag
    let (nSolo, agglomIndex) ← collectSolo zeroCluster nCoarseEqns agglomIndex
    let nSolo := nSolo + env.nSoloOthers
    let nCoarseEqns := if nSolo > 0 then nCoarseEqns + 1 else nCoarseEqns
    let ctx : ClusterCtx α :=
      { rowOffset := rowOffset, cols := f.cols, cIndex := f.cIndex, magDiag := m.magDiag,
        magOffDiag := magOffDiag, groupSize := groupSize }
    let cs ← (List.range m.nRows).foldlM (eqnStep ops ctx)
      { agglomIndex := agglomIndex, sizeOfGroups := sizeOfGroups, nCoarseEqns := nCoarseEqns }
    let coarsen :=
      if cs.nCoarseEqns > minCoarseEqns ∧ 3 * cs.nCoarseEqns ≤ 2 * (m.nRows : Int) then true
      else st.coarsen
    pure { agglomIndex := cs.agglomIndex, nCoarseEqns := cs.nCoarseEqns,
           coarsen := (coarsen && env.coarsenOthers) }

/-- Embedding of the constructor `BlockMatrixAgglomeration(matrix, dict,
groupSize, minCoarseEqns)`: `agglomIndex_` gets the size of the matrix
(its content, not initialised by the C++, is `-1` here), `nCoarseEqns_(0)`,
`coarsen_(false)`, then `calcAgglomeration()` runs. -/
def construct {α : Type} (ops : ScalarOps α) (diagFactor : α) (env : ParEnv)
    (m : BlockLduMatrix α) (groupSize minCoarseEqns : Int) : Option AgglomState :=
  calcAgglomeration ops diagFactor env m groupSize minCoarseEqns
    { agglomIndex := List.replicate m.nRows (-1), nCoarseEqns := 0, coarsen := false }

/-! ## Specification of the row-based addressing -/

/-- Number of coefficient ends at equation `i`: its occurrences in
`upperAddr` and in `lowerAddr`. -/
def rowCount (upperAddr lowerAddr : List Int) (i : Nat) : Nat :=
  upperAddr.count (i : Int) + lowerAddr.count (i : Int)

/-- Start of row `i` in `cols`: number of coefficient ends at the equations
before `i`. -/
def rowStart (upperAddr lowerAddr : List Int) (i : Nat) : Nat :=
  ∑ j in Finset.range i, rowCount upperAddr lowerAddr j

/-- Every entry of an addressing array is an equation index. -/
def ValidAddr (addr : List Int) (nRows : Nat) : Prop :=
  ∀ a ∈ addr, 0 ≤ a ∧ a < (nRows : Int)

/-- Position `p` of `cols` / `cIndex` records the coefficient `c` seen from
its end `i` in `rowAddr`: `cIndex[p] = c`, `rowAddr[c] = i` and `cols[p]` is
the other end `colAddr[c]`. -/
def RowEntryOf (rowAddr colAddr cols cIndex : List Int) (i p : Nat) : Prop :=
  ∃ (c : Nat) (col : Int), cIndex[p]? = some (c : Int) ∧ cols[p]? = some col ∧
    rowAddr[c]? = some (i : Int) ∧ colAddr[c]? = some col

/-- Position `p` of `cols` / `cIndex` records a fine coefficient incident to
equation `i`, seen from its upper or from its lower end. -/
def RowEntry (upperAddr lowerAddr cols cIndex : List Int) (i p : Nat) : Prop :=
  RowEntryOf upperAddr lowerAddr cols cIndex i p ∨ RowEntryOf lowerAddr upperAddr cols cIndex i p

/-- Invariant of a filling loop after `n` coefficients: sizes, the counter
`nPerRow`, and the recorded entries of every row. -/
def FillInv (rowAddr colAddr : List Int) (nRows total : Nat) (start c0 : Nat → Nat) (n : Nat)
    (f : RowFill) : Prop :=
  f.cols.length = total ∧ f.cIndex.length = total ∧ f.nPerRow.length = nRows ∧
  (∀ i, i < nRows →
    f.nPerRow[i]? = some ((c0 i + (rowAddr.take n).count (i : Int) : Nat) : Int)) ∧
  (∀ i p, i < nRows → start i ≤ p → p < start i + c0 i + (rowAddr.take n).count (i : Int) →
    RowEntry rowAddr colAddr f.cols f.cIndex i p)

/-- Well-formed fine matrix: the addressing arrays have the same length and
hold equation indices, and the magnitude fields have the sizes of the fields
they are computed from (`diag()` per equation, `upper()` and `lower()` per
coefficient, where the matrix has them). -/
structure WellFormed {α : Type} (m : BlockLduMatrix α) : Prop where
  addrLen : m.upperAddr.length = m.lowerAddr.length
  upperValid : ValidAddr m.upperAddr m.nRows
  lowerValid : ValidAddr m.lowerAddr m.nRows
  diagLen : m.magDiag.length = m.nRows
  upperLen : m.asymmetric = true ∨ m.symmetric = true → m.magUpper.length = m.upperAddr.length
  lowerLen : m.asymmetric = true → m.magLower.length = m.upperAddr.length

/-! ## Invariants of the clustering loops -/

/-- What the main loop relies on in the data it only reads: a diagonal
magnitude per equation, and for every equation `i` a row
`rowOffset[i] .. rowOffset[i + 1] - 1` of positions of `cols` / `cIndex`
holding an equation index and a coefficient index. -/
structure CtxOK {α : Type} (ctx : ClusterCtx α) (nRows : Nat) : Prop where
  lenD : ctx.magDiag.length = nRows
  rows : ∀ i, i < nRows → ∃ lo hi : Nat,
    ctx.rowOffset[i]? = some (lo : Int) ∧ ctx.rowOffset[i + 1]? = some (hi : Int) ∧
    ∀ p, lo ≤ p → p < hi → ∃ col c : Nat,
      ctx.cols[p]? = some (col : Int) ∧ col < nRows ∧
      ctx.cIndex[p]? = some (c : Int) ∧ c < ctx.magOffDiag.length

/-- The local `indexUngrouped` is `-1` or a position of `cols` holding an
equation that is not grouped yet. -/
def UngroupedOK (cols agglomIndex : List Int) (idx : Int) : Prop :=
  idx = -1 ∨ ∃ col : Nat, readAt cols idx = some (col : Int) ∧ agglomIndex[col]? = some (-1)

/-- The local `indexGrouped` is `-1` or a position of `cols` holding an
equation grouped in a cluster other than the current one `aCur`. -/
def GroupedOK (cols agglomIndex : List Int) (aCur : Int) (idx : Int) : Prop :=
  idx = -1 ∨ ∃ (col : Nat) (ac : Int), readAt cols idx = some (col : Int) ∧
    agglomIndex[col]? = some ac ∧ ac ≠ -1 ∧ ac ≠ aCur

/-- Invariant of the growth loop of the seed `eqnI` of the new cluster `K`;
`agg0` is `agglomIndex_` when the loop is entered. -/
structure GrowInv (cols : List Int) (nRows : Nat) (groupSize : Int) (agg0 : List Int) (K : Int)
    (eqnI : Nat) (g : GrowState) : Prop where
  len : g.agglomIndex.length = nRows
  cur : 0 ≤ g.curEqn ∧ g.curEqn < (nRows : Int)
  curK : g.agglomIndex[g.curEqn.toNat]? = some K
  mono : ∀ (i : Nat) (a : Int), agg0[i]? = some a → a ≠ -1 → g.agglomIndex[i]? = some a
  keep : ∀ k : Int, k ≠ -1 → k ≠ K → g.agglomIndex.count k = agg0.count k
  countK : (g.agglomIndex.count K : Int) ≤ g.groupPassI
  pass : 1 ≤ g.groupPassI ∧ g.groupPassI ≤ max groupSize 1
  first : g.groupPassI = 1 →
    g.agglomIndex = agg0 ∧ g.curEqn = (eqnI : Int) ∧ GroupedOK cols agg0 K g.indexGrouped

/-- Invariant of the main loop over the equations; `w` is the number of
reserved clusters (one when there are weak equations, else none). -/
structure MainInv (nRows : Nat) (groupSize : Int) (w : Int) (st : ClusterState) : Prop where
  lenA : st.agglomIndex.length = nRows
  lenS : st.sizeOfGroups.length = nRows
  reserved : 0 ≤ w ∧ w ≤ st.nCoarseEqns
  range : ∀ a ∈ st.agglomIndex, a = -1 ∨ (0 ≤ a ∧ a < st.nCoarseEqns)
  surj : ∀ k : Int, 0 ≤ k → k < st.nCoarseEqns → k ∈ st.agglomIndex
  sizes : ∀ k : Nat, w ≤ (k : Int) → (k : Int) < st.nCoarseEqns →
    ∃ sz : Int, st.sizeOfGroups[k]? = some sz ∧
      (st.agglomIndex.count (k : Int) : Int) + 1 ≤ max groupSize 1 + sz ∧
      sz ≤ max (groupSize + 3) 1
  fresh : ∀ k : Nat, st.nCoarseEqns ≤ (k : Int) → k < nRows → st.sizeOfGroups[k]? = some 0

/-- What one step of the main loop guarantees: the invariant again, no
grouped equation changes cluster, and equation `eqnI` is grouped. -/
def StepPost (nRows : Nat) (groupSize : Int) (w : Int) (st : ClusterState) (eqnI : Nat)
    (st' : ClusterState) : Prop :=
  MainInv nRows groupSize w st' ∧
  (∀ (i : Nat) (a : Int), st.agglomIndex[i]? = some a → a ≠ -1 →
    st'.agglomIndex[i]? = some a) ∧
  ∃ a : Int, st'.agglomIndex[eqnI]? = some a ∧ a ≠ -1

/-- The equations marked weak by `calcAgglomeration` (the list `zeroCluster`
after the loop over the coefficients); `none` for a diagonal-only matrix. -/
def weakEquations {α : Type} (ops : ScalarOps α) (diagFactor : α) (m : BlockLduMatrix α) :
    Option (List Bool) :=
  (calcMagOffDiag ops m).bind (calcZeroCluster ops diagFactor m)

/-! ## Concrete matrices -/

/-- Symmetric chain of five equations: diagonal magnitude 4, coefficients
`(0,1), (1,2), (2,3), (3,4)` of magnitude 1. -/
def chain5 : BlockLduMatrix ℚ :=
  { nRows := 5, upperAddr := [1, 2, 3, 4], lowerAddr := [0, 1, 2, 3],
    symmetric := true, asymmetric := false,
    magDiag := [4, 4, 4, 4, 4], magUpper := [1, 1, 1, 1], magLower := [] }

/-- Symmetric star of six equations: diagonal magnitude 4, coefficients
`(0,1), (0,2), (0,3), (0,4), (0,5)` of magnitude 1. -/
def star6 : BlockLduMatrix ℚ :=
  { nRows := 6, upperAddr := [1, 2, 3, 4, 5], lowerAddr := [0, 0, 0, 0, 0],
    symmetric := true, asymmetric := false,
    magDiag := [4, 4, 4, 4, 4, 4], magUpper := [1, 1, 1, 1, 1], magLower := [] }

/-- Diagonal-only matrix of five equations on the addressing of the chain. -/
def diag5 : BlockLduMatrix ℚ :=
  { nRows := 5, upperAddr := [1, 2, 3, 4], lowerAddr := [0, 1, 2, 3],
    symmetric := false, asymmetric := false,
    magDiag := [4, 4, 4, 4, 4], magUpper := [], magLower := [] }

/-- The default `aamgDiagFactor`, `1e-8`. -/
def diagFactorDefault : ℚ := 1 / 100000000

/-! ## Coarse matrix builder: coarse addressing -/

/-- Ways in which `restrictMatrix` ends without a coarse matrix: the fatal
errors raised by the code, and an array access outside its list. -/
inductive RestrictError where
  /-- Fatal error "Requesting coarse matrix when it cannot be created". -/
  | cannotCreate
  /-- Fatal error "Matrix diagonal of linear type not implemented". -/
  | diagLinear
  /-- Fatal error "Matrix diagonal of scalar type not implemented". -/
  | diagScalar
  /-- Fatal error "Matrix diagonal of square type and upper of linear type is not
  implemented". -/
  | upperLinear
  /-- Fatal error "Matrix diagonal of square type and upper of scalar type is not
  implemented". -/
  | upperScalar
  /-- Fatal error "Only present for square type coeff type" of `restrictDiag`. -/
  | restrictDiagNotSquare
  /-- A field whose active type is not square is read as a square field. -/
  | notSquare
  /-- An array is accessed outside its bounds. -/
  | outOfRange
deriving DecidableEq

/-- An access that is out of range ends the run. -/
def checked {β : Type} (o : Option β) : Except RestrictError β :=
  match o with
  | some v => Except.ok v
  | none => Except.error RestrictError.outOfRange

/-- Temporary storage of the first loop of `restrictMatrix`: the capacity
`maxNnbrs`, the number of neighbours per block `blockNnbrs`, the packed
neighbour storage `blockNbrsData`, `coeffRestrictAddr`, `initCoarseNeighb`
and the counter `nCoarseCoeffs`. -/
structure NbrStore where
  maxNnbrs : Int
  blockNnbrs : List Int
  blockNbrsData : List Int
  coeffRestrictAddr : List Int
  initCoarseNeighb : List Int
  nCoarseCoeffs : Int
deriving DecidableEq

/-- The search loop `for (int i = 0; i < ccnCoeffs; i++)` over the neighbours
already recorded for `cOwn`, run over the list of the remaining `i`: the
result is the coarse coefficient found for `cNei`, if any. -/
def findNbr (s : NbrStore) (cOwn cNei : Int) : List Nat → Option (Option Int)
  | [] => some none
  | i :: rest => do
    let prov ← readAt s.blockNbrsData (s.maxNnbrs * cOwn + (i : Int))
    let nei ← readAt s.initCoarseNeighb prov
    if nei = cNei then pure (some prov) else findNbr s cOwn cNei rest

/-- `List::setSize`: the leading elements are kept, new elements are not
initialised (they hold `-1` here, which is no valid index). -/
def setSize (xs : List Int) (n : Nat) : List Int :=
  xs.take n ++ List.replicate (n - xs.length) (-1)

/-- Body of the inner copy loop of the doubling:
`blockNbrsData[maxNnbrs*i + j] = oldBlockNbrsData[oldMaxNnbrs*i + j]`. -/
def copyNbrStep (oldMaxNnbrs maxNnbrs : Int) (oldBlockNbrsData : List Int) (i : Nat)
    (blockNbrsData : List Int) (j : Nat) : Option (List Int) := do
  let v ← readAt oldBlockNbrsData (oldMaxNnbrs * (i : Int) + (j : Int))
  writeAt blockNbrsData (maxNnbrs * (i : Int) + (j : Int)) v

/-- Body of the outer copy loop `forAll (blockNnbrs, i)` of the doubling. -/
def copyBlockStep (oldMaxNnbrs maxNnbrs : Int) (oldBlockNbrsData blockNnbrs : List Int)
    (blockNbrsData : List Int) (i : Nat) : Option (List Int) := do
  let n ← readAt blockNnbrs (i : Int)
  (List.range n.toNat).foldlM (copyNbrStep oldMaxNnbrs maxNnbrs oldBlockNbrsData i)
    blockNbrsData

/-- The doubling of the packed storage: `maxNnbrs *= 2`, the list is resized
and the recorded neighbours of every block are copied to their new place. -/
def doubleStore (nCoarseEqns : Int) (s : NbrStore) : Option NbrStore := do
  let oldMaxNnbrs := s.maxNnbrs
  let maxNnbrs := s.maxNnbrs * 2
  let oldBlockNbrsData := s.blockNbrsData
  let blockNbrsData := setSize s.blockNbrsData (maxNnbrs * nCoarseEqns).toNat
  let blockNbrsData ← (List.range s.blockNnbrs.length).foldlM
    (copyBlockStep oldMaxNnbrs maxNnbrs oldBlockNbrsData s.blockNnbrs) blockNbrsData
  pure { s with maxNnbrs := maxNnbrs, blockNbrsData := blockNbrsData }

/-- Creation of a new coarse coefficient between `cOwn` and `cNei`:
`blockNbrsData[maxNnbrs*cOwn + ccnCoeffs] = nCoarseCoeffs;
initCoarseNeighb[nCoarseCoeffs] = cNei;
coeffRestrictAddr[fineCoeffi] = nCoarseCoeffs; ccnCoeffs++; nCoarseCoeffs++`,
where `ccnCoeffs` is a reference to `blockNnbrs[cOwn]`. -/
def recordNewCoeff (s : NbrStore) (cOwn cNei ccnCoeffs : Int) (fineCoeffi : Nat) :
    Option NbrStore := do
  let data ← writeAt s.blockNbrsData (s.maxNnbrs * cOwn + ccnCoeffs) s.nCoarseCoeffs
  let nei ← writeAt s.initCoarseNeighb s.nCoarseCoeffs cNei
  let cra ← writeAt s.coeffRestrictAddr (fineCoeffi : Int) s.nCoarseCoeffs
  let nnbrs ← writeAt s.blockNnbrs cOwn (ccnCoeffs + 1)
  pure { maxNnbrs := s.maxNnbrs, blockNnbrs := nnbrs, blockNbrsData := data,
         coeffRestrictAddr := cra, initCoarseNeighb := nei,
         nCoarseCoeffs := s.nCoarseCoeffs + 1 }

/-- Body of the loop over the fine coefficients of `restrictMatrix`. -/
def addCoeffStep (agglomIndex upperAddr lowerAddr : List Int) (nCoarseEqns : Int)
    (s : NbrStore) (fineCoeffi : Nat) : Option NbrStore := do
  let u ← readAt upperAddr (fineCoeffi : Int)
  let rmUpperAddr ← readAt agglomIndex u
  let l ← readAt lowerAddr (fineCoeffi : Int)
  let rmLowerAddr ← readAt agglomIndex l
  if rmUpperAddr = rmLowerAddr then
    let cra ← writeAt s.coeffRestrictAddr (fineCoeffi : Int) (-(rmUpperAddr + 1))
    pure { s with coeffRestrictAddr := cra }
  else
    let cOwn := if rmUpperAddr > rmLowerAddr then rmLowerAddr else rmUpperAddr
    let cNei := if rmUpperAddr > rmLowerAddr then rmUpperAddr else rmLowerAddr
    let ccnCoeffs ← readAt s.blockNnbrs cOwn
    let found ← findNbr s cOwn cNei (List.range ccnCoeffs.toNat)
    match found with
    | some prov =>
      let cra ← writeAt s.coeffRestrictAddr (fineCoeffi : Int) prov
      pure { s with coeffRestrictAddr := cra }
    | none =>
      let s ← if ccnCoeffs ≥ s.maxNnbrs then doubleStore nCoarseEqns s else pure s
      recordNewCoeff s cOwn cNei ccnCoeffs fineCoeffi

/-- The arrays filled by the renumbering loop, and its counter. -/
structure Renumber where
  coarseOwner : List Int
  coarseNeighbour : List Int
  coarseCoeffMap : List Int
  coarseCoeffi : Int
deriving DecidableEq

/-- Body of the inner renumbering loop `for (int i = 0; i < ccnCoeffs; i++)`. -/
def renumberNbrStep (s : NbrStore) (cci : Nat) (r : Renumber) (i : Nat) : Option Renumber := do
  let owner ← writeAt r.coarseOwner r.coarseCoeffi (cci : Int)
  let prov ← readAt s.blockNbrsData (s.maxNnbrs * (cci : Int) + (i : Int))
  let nei ← readAt s.initCoarseNeighb prov
  let neighbour ← writeAt r.coarseNeighbour r.coarseCoeffi nei
  let prov ← readAt s.blockNbrsData (s.maxNnbrs * (cci : Int) + (i : Int))
  let map ← writeAt r.coarseCoeffMap prov r.coarseCoeffi
  pure { coarseOwner := owner, coarseNeighbour := neighbour, coarseCoeffMap := map,
         coarseCoeffi := r.coarseCoeffi + 1 }

/-- Body of the outer renumbering loop `forAll (blockNnbrs, cci)`. -/
def renumberBlockStep (s : NbrStore) (r : Renumber) (cci : Nat) : Option Renumber := do
  let ccnCoeffs ← readAt s.blockNnbrs (cci : Int)
  (List.range ccnCoeffs.toNat).foldlM (renumberNbrStep s cci) r

/-- Body of the last addressing loop: a non-negative `coeffRestrictAddr` is
replaced by its image under `coarseCoeffMap`. -/
def remapStep (coarseCoeffMap : List Int) (cra : List Int) (fineCoeffi : Nat) :
    Option (List Int) := do
  let v ← readAt cra (fineCoeffi : Int)
  if v ≥ 0 then
    let w ← readAt coarseCoeffMap v
    writeAt cra (fineCoeffi : Int) w
  else pure cra

/-- Coarse addressing built by `restrictMatrix`. -/
structure CoarseAddr where
  nCoarseCoeffs : Int
  coarseOwner : List Int
  coarseNeighbour : List Int
  coeffRestrictAddr : List Int
deriving DecidableEq

/-- The first loop of `restrictMatrix`, over all fine coefficients, started
with the capacity `maxNnbrs`. Storage that the C++ leaves uninitialised holds
`-1`; every entry of `coeffRestrictAddr` is written by the loop. -/
def collectCoarseCoeffs (maxNnbrs : Int) (agglomIndex : List Int) (nCoarseEqns : Int)
    (upperAddr lowerAddr : List Int) : Option NbrStore :=
  (List.range upperAddr.length).foldlM
    (addCoeffStep agglomIndex upperAddr lowerAddr nCoarseEqns)
    { maxNnbrs := maxNnbrs
      blockNnbrs := List.replicate nCoarseEqns.toNat 0
      blockNbrsData := List.replicate (maxNnbrs * nCoarseEqns).toNat (-1)
      coeffRestrictAddr := List.replicate upperAddr.length (-1)
      initCoarseNeighb := List.replicate upperAddr.length (-1)
      nCoarseCoeffs := 0 }

/-- The renumbering into the coarse owner / neighbour arrays and the remap of
`coeffRestrictAddr`, from the storage left by the first loop. -/
def renumberCoarseCoeffs (s : NbrStore) : Option CoarseAddr := do
  let r ← (List.range s.blockNnbrs.length).foldlM (renumberBlockStep s)
    { coarseOwner := List.replicate s.nCoarseCoeffs.toNat (-1)
      coarseNeighbour := List.replicate s.nCoarseCoeffs.toNat (-1)
      coarseCoeffMap := List.replicate s.nCoarseCoeffs.toNat (-1)
      coarseCoeffi := 0 }
  let cra ← (List.range s.coeffRestrictAddr.length).foldlM (remapStep r.coarseCoeffMap)
    s.coeffRestrictAddr
  pure { nCoarseCoeffs := s.nCoarseCoeffs, coarseOwner := r.coarseOwner,
         coarseNeighbour := r.coarseNeighbour, coeffRestrictAddr := cra }

/-- The addressing part of `restrictMatrix` with the initial capacity
`maxNnbrs` as a parameter. -/
def restrictAddressingWith (maxNnbrs : Int) (agglomIndex : List Int) (nCoarseEqns : Int)
    (upperAddr lowerAddr : List Int) : Option CoarseAddr :=
  (collectCoarseCoeffs maxNnbrs agglomIndex nCoarseEqns upperAddr lowerAddr).bind
    renumberCoarseCoeffs

/-- The addressing part of `restrictMatrix`: `maxNnbrs = 10`. -/
def restrictAddressing (agglomIndex : List Int) (nCoarseEqns : Int)
    (upperAddr lowerAddr : List Int) : Option CoarseAddr :=
  restrictAddressingWith 10 agglomIndex nCoarseEqns upperAddr lowerAddr

/-! ## Coarse matrix builder: coefficients -/

/-- Modelled from the spec: `CoeffField<Type>`, the coefficient container of
the block matrix, is declared outside the sources at hand. A field has one of
three active types, scalar, linear or square; the restriction reads the
content of square fields only, so the other two carry their size alone. -/
inductive CoeffField (Q : Type) where
  | scalar (size : Nat)
  | linear (size : Nat)
  | square (coeffs : List Q)

/-- Modelled from the spec: `CoeffField::asSquare() const`, the read access to
a field as a square field; a field whose active type is not square has no
square content, and the access is an error. -/
def CoeffField.asSquare {Q : Type} (f : CoeffField Q) : Except RestrictError (List Q) :=
  match f with
  | CoeffField.square coeffs => Except.ok coeffs
  | _ => Except.error RestrictError.notSquare

/-- Modelled from the spec: number of coefficients of a field (`size()`). -/
def CoeffField.size {Q : Type} (f : CoeffField Q) : Nat :=
  match f with
  | CoeffField.scalar n => n
  | CoeffField.linear n => n
  | CoeffField.square coeffs => coeffs.length

/-- The coefficient fields `diag()`, `upper()` and `lower()` of the fine
matrix `matrix_`; `lower` is read for an asymmetric matrix only. -/
structure BlockCoeffs (Q : Type) where
  diag : CoeffField Q
  upper : CoeffField Q
  lower : CoeffField Q

/-- The coarse matrix returned by `restrictMatrix`: its addressing and its
square coefficient fields; a symmetric coarse matrix has no lower field. -/
structure CoarseMatrix (Q : Type) where
  nCoarseEqns : Int
  coarseOwner : List Int
  coarseNeighbour : List Int
  diag : List Q
  upper : List Q
  lower : Option (List Q)

/-- Body of the summation loop of `restrictDiag`:
`activeCoarseCoeff[agglomIndex_[i]] += activeCoeff[i]`. -/
def restrictDiagStep {Q : Type} [Add Q] (agglomIndex : List Int) (activeCoeff : List Q)
    (activeCoarseCoeff : List Q) (i : Nat) : Option (List Q) := do
  let k ← readAt agglomIndex (i : Int)
  let c ← readAt activeCoarseCoeff k
  let f ← readAt activeCoeff (i : Int)
  writeAt activeCoarseCoeff k (c + f)

/-- Embedding of `BlockMatrixAgglomeration::restrictDiag(Coeff, coarseCoeff)`:
for two square fields the coarse field is set to zero and every fine
coefficient is added to the entry of its cluster; any other combination of
active types is a fatal error. The result is the content of `coarseCoeff`. -/
def restrictDiag {Q : Type} [Zero Q] [Add Q] (agglomIndex : List Int)
    (Coeff coarseCoeff : CoeffField Q) : Except RestrictError (List Q) :=
  match Coeff, coarseCoeff with
  | CoeffField.square activeCoeff, CoeffField.square activeCoarseCoeff =>
    checked ((List.range activeCoeff.length).foldlM (restrictDiagStep agglomIndex activeCoeff)
      (List.replicate activeCoarseCoeff.length 0))
  | _, _ => Except.error RestrictError.restrictDiagNotSquare

/-- The coarse fields while the fine off-diagonal coefficients are added. -/
structure CoarseCoeffs (Q : Type) where
  upper : List Q
  lower : List Q
  diag : List Q

/-- Body of the loop `forAll (coeffRestrictAddr, fineCoeffI)` of the
asymmetric branch. -/
def aggregateAsymStep {Q : Type} [Add Q] (coeffRestrictAddr : List Int)
    (activeFineUpper activeFineLower : List Q) (s : CoarseCoeffs Q) (fineCoeffI : Nat) :
    Option (CoarseCoeffs Q) := do
  let cCoeff ← readAt coeffRestrictAddr (fineCoeffI : Int)
  if cCoeff ≥ 0 then
    let cu ← readAt s.upper cCoeff
    let fu ← readAt activeFineUpper (fineCoeffI : Int)
    let upper ← writeAt s.upper cCoeff (cu + fu)
    let cl ← readAt s.lower cCoeff
    let fl ← readAt activeFineLower (fineCoeffI : Int)
    let lower ← writeAt s.lower cCoeff (cl + fl)
    pure { upper := upper, lower := lower, diag := s.diag }
  else
    let cd ← readAt s.diag (-1 - cCoeff)
    let fu ← readAt activeFineUpper (fineCoeffI : Int)
    let fl ← readAt activeFineLower (fineCoeffI : Int)
    let diag ← writeAt s.diag (-1 - cCoeff) (cd + (fu + fl))
    pure { upper := s.upper, lower := s.lower, diag := diag }

/-- Body of the loop `forAll (coeffRestrictAddr, fineCoeffI)` of the
symmetric branch; `tr` is the transposition `.T()` of a square coefficient.
The lower coarse field is not touched. -/
def aggregateSymStep {Q : Type} [Add Q] (tr : Q → Q) (coeffRestrictAddr : List Int)
    (activeFineUpper : List Q) (s : CoarseCoeffs Q) (fineCoeffI : Nat) :
    Option (CoarseCoeffs Q) := do
  let cCoeff ← readAt coeffRestrictAddr (fineCoeffI : Int)
  if cCoeff ≥ 0 then
    let cu ← readAt s.upper cCoeff
    let fu ← readAt activeFineUpper (fineCoeffI : Int)
    let upper ← writeAt s.upper cCoeff (cu + fu)
    pure { upper := upper, lower := s.lower, diag := s.diag }
  else
    let cd ← readAt s.diag (-1 - cCoeff)
    let fu ← readAt activeFineUpper (fineCoeffI : Int)
    let fu2 ← readAt activeFineUpper (fineCoeffI : Int)
    let diag ← writeAt s.diag (-1 - cCoeff) (cd + (fu + tr fu2))
    pure { upper := s.upper, lower := s.lower, diag := diag }

/-- Embedding of `BlockMatrixAgglomeration::restrictMatrix()` for a matrix
without coupled interfaces (every loop over the interfaces is empty).
Modelled from the spec: the fields of the new coarse matrix, made square by
`asSquare()`, start from zero, with one diagonal coefficient per coarse
equation and one off-diagonal coefficient per coarse coefficient. -/
def restrictMatrix {α Q : Type} [Zero Q] [Add Q] (tr : Q → Q) (st : AgglomState)
    (m : BlockLduMatrix α) (coeffs : BlockCoeffs Q) :
    Except RestrictError (CoarseMatrix Q) := do
  if st.coarsen = false then throw RestrictError.cannotCreate
  let addr ← checked (restrictAddressing st.agglomIndex st.nCoarseEqns m.upperAddr m.lowerAddr)
  let coarseUpper : List Q := List.replicate addr.coarseOwner.length 0
  let coarseDiag : CoeffField Q := CoeffField.square (List.replicate st.nCoarseEqns.toNat 0)
  if m.asymmetric = true then
    let coarseLower : List Q := List.replicate addr.coarseOwner.length 0
    match coeffs.diag with
    | CoeffField.square _ =>
      match coeffs.upper with
      | CoeffField.square activeFineUpper =>
        let activeFineLower ← coeffs.lower.asSquare
        let activeCoarseDiag ← restrictDiag st.agglomIndex coeffs.diag coarseDiag
        let s ← checked ((List.range addr.coeffRestrictAddr.length).foldlM
          (aggregateAsymStep addr.coeffRestrictAddr activeFineUpper activeFineLower)
          { upper := coarseUpper, lower := coarseLower, diag := activeCoarseDiag })
        pure { nCoarseEqns := st.nCoarseEqns, coarseOwner := addr.coarseOwner,
               coarseNeighbour := addr.coarseNeighbour, diag := s.diag, upper := s.upper,
               lower := some s.lower }
      | CoeffField.linear _ => throw RestrictError.upperLinear
      | CoeffField.scalar _ => throw RestrictError.upperScalar
    | CoeffField.linear _ => throw RestrictError.diagLinear
    | CoeffField.scalar _ => throw RestrictError.diagScalar
  else
    match coeffs.diag with
    | CoeffField.square _ =>
      match coeffs.upper with
      | CoeffField.square activeFineUpper =>
        let activeCoarseDiag ← restrictDiag st.agglomIndex coeffs.diag coarseDiag
        let s ← checked ((List.range addr.coeffRestrictAddr.length).foldlM
          (aggregateSymStep tr addr.coeffRestrictAddr activeFineUpper)
          { upper := coarseUpper, lower := [], diag := activeCoarseDiag })
        pure { nCoarseEqns := st.nCoarseEqns, coarseOwner := addr.coarseOwner,
               coarseNeighbour := addr.coarseNeighbour, diag := s.diag, upper := s.upper,
               lower := none }
      | CoeffField.linear _ => throw RestrictError.upperLinear
      | CoeffField.scalar _ => throw RestrictError.upperScalar
    | CoeffField.linear _ => throw RestrictError.diagLinear
    | CoeffField.scalar _ => throw RestrictError.diagScalar

/-! ## Specification of the weak equations -/

/-- Coefficient `c` is a strong connection of equation `i`: it is incident to
`i` (`upperAddr[c] = i` or `lowerAddr[c] = i`) and the test
`magOffDiag[c] > magScaledDiag[i]` of the code is true. -/
def StrongAt {α : Type} (ops : ScalarOps α) (upperAddr lowerAddr : List Int)
    (magOffDiag magScaledDiag : List α) (i c : Nat) : Prop :=
  ∃ mo s, magOffDiag[c]? = some mo ∧ magScaledDiag[i]? = some s ∧ ops.gt mo s = true ∧
    (upperAddr[c]? = some (i : Int) ∨ lowerAddr[c]? = some (i : Int))

/-- Symmetric matrix of two equations whose coefficient `(0,1)` has exactly
the magnitude `1e-8 * diagMag(0)`. -/
def tie2 : BlockLduMatrix ℚ :=
  { nRows := 2, upperAddr := [1], lowerAddr := [0], symmetric := true, asymmetric := false,
    magDiag := [100000000, 4], magUpper := [1], magLower := [] }

/-! ## Specification of the coarse addressing -/

/-- The pair `(rmUpperAddr, rmLowerAddr)` of the fine coefficient `c`: the
clusters of its upper and of its lower equation. -/
def rmAddr (agglomIndex upperAddr lowerAddr : List Int) (c : Nat) : Int × Int :=
  (agglomIndex.getD (upperAddr.getD c 0).toNat 0, agglomIndex.getD (lowerAddr.getD c 0).toNat 0)

/-- The canonical coarse pair `(cOwn, cNei) = (min, max)` of a pair of
clusters. -/
def canonPair (e : Int × Int) : Int × Int :=
  (min e.1 e.2, max e.1 e.2)

/-- The coarse pairs met among the first `n` fine coefficients, each once, in
the order in which they are first met: entry `q` is the pair of the
provisional coarse coefficient `q`. -/
def provPairs (agglomIndex upperAddr lowerAddr : List Int) : Nat → List (Int × Int)
  | 0 => []
  | n + 1 =>
    if (rmAddr agglomIndex upperAddr lowerAddr n).1 = (rmAddr agglomIndex upperAddr lowerAddr n).2
    then provPairs agglomIndex upperAddr lowerAddr n
    else if canonPair (rmAddr agglomIndex upperAddr lowerAddr n)
        ∈ provPairs agglomIndex upperAddr lowerAddr n
    then provPairs agglomIndex upperAddr lowerAddr n
    else provPairs agglomIndex upperAddr lowerAddr n
      ++ [canonPair (rmAddr agglomIndex upperAddr lowerAddr n)]

/-- The provisional coarse coefficients owned by cluster `i`, in increasing
order. -/
def rowOf (pairs : List (Int × Int)) (i : Nat) : List Nat :=
  (List.range pairs.length).filter (fun q => (pairs.getD q (0, 0)).1 = (i : Int))

/-- Invariant of the packed neighbour storage: it holds, for every cluster,
the provisional coarse coefficients it owns. -/
structure StoreInv (pairs : List (Int × Int)) (nC nF : Nat) (s : NbrStore) : Prop where
  cap : 1 ≤ s.maxNnbrs
  lenN : s.blockNnbrs.length = nC
  lenD : s.blockNbrsData.length = s.maxNnbrs.toNat * nC
  lenC : s.coeffRestrictAddr.length = nF
  lenI : s.initCoarseNeighb.length = nF
  count : s.nCoarseCoeffs = (pairs.length : Int)
  nei : ∀ q, q < pairs.length → s.initCoarseNeighb[q]? = some (pairs.getD q (0, 0)).2
  cnt : ∀ i, i < nC → s.blockNnbrs[i]? = some ((rowOf pairs i).length : Int) ∧
    (rowOf pairs i).length ≤ s.maxNnbrs.toNat
  data : ∀ i j, i < nC → j < (rowOf pairs i).length →
    s.blockNbrsData[s.maxNnbrs.toNat * i + j]? = some (((rowOf pairs i).getD j 0 : Nat) : Int)

/-- Valid input of the coarse addressing: an agglomeration map with one entry
per fine equation and values in `[0, nC)`, and a fine addressing with
equation indices and arrays of the same length. -/
structure AddrOK (agglomIndex upperAddr lowerAddr : List Int) (nRows nC : Nat) : Prop where
  aggLen : agglomIndex.length = nRows
  aggValid : ValidAgglom agglomIndex nC
  upperValid : ValidAddr upperAddr nRows
  lowerValid : ValidAddr lowerAddr nRows
  addrLen : upperAddr.length = lowerAddr.length

/-- Invariant of `coeffRestrictAddr` after `n` fine coefficients: a
coefficient inside cluster `k` holds `-(k + 1)`, a coefficient between two
clusters holds a provisional coarse coefficient with its canonical pair. -/
def CraInv (agglomIndex upperAddr lowerAddr : List Int) (pairs : List (Int × Int)) (n : Nat)
    (cra : List Int) : Prop :=
  ∀ c, c < n →
    ((rmAddr agglomIndex upperAddr lowerAddr c).1 = (rmAddr agglomIndex upperAddr lowerAddr c).2 →
      cra[c]? = some (-((rmAddr agglomIndex upperAddr lowerAddr c).1 + 1))) ∧
    ((rmAddr agglomIndex upperAddr lowerAddr c).1 ≠ (rmAddr agglomIndex upperAddr lowerAddr c).2 →
      ∃ q : Nat, cra[c]? = some (q : Int) ∧ q < pairs.length ∧
        pairs.getD q (0, 0) = canonPair (rmAddr agglomIndex upperAddr lowerAddr c))

/-- The provisional coarse coefficients owned by the clusters before `i`,
cluster by cluster: the order in which the renumbering loop visits them. -/
def finalOrder (pairs : List (Int × Int)) : Nat → List Nat
  | 0 => []
  | i + 1 => finalOrder pairs i ++ rowOf pairs i

/-- Invariant of the renumbering loop after the provisional coefficients of
the list `L` have been visited: position `k` of the coarse owner / neighbour
arrays holds the pair of the `k`-th visited coefficient, which is mapped to
`k`. -/
structure RenumInv (pairs : List (Int × Int)) (L : List Nat) (r : Renumber) : Prop where
  cnt : r.coarseCoeffi = (L.length : Int)
  lenO : r.coarseOwner.length = pairs.length
  lenN : r.coarseNeighbour.length = pairs.length
  lenM : r.coarseCoeffMap.length = pairs.length
  vals : ∀ k, k < L.length →
    r.coarseOwner[k]? = some (pairs.getD (L.getD k 0) (0, 0)).1 ∧
    r.coarseNeighbour[k]? = some (pairs.getD (L.getD k 0) (0, 0)).2 ∧
    r.coarseCoeffMap[L.getD k 0]? = some (k : Int)

/-- Specification of the coarse addressing produced for an agglomeration
map and a fine addressing: the coarse coefficient `k` is the provisional
coefficient `finalOrder[k]`, with its canonical pair, and `coeffRestrictAddr`
holds `-(cluster + 1)` inside a cluster and the final index of the pair
between two clusters. -/
structure AddrSpec (agglomIndex upperAddr lowerAddr : List Int) (nC : Nat)
    (addr : CoarseAddr) : Prop where
  count : addr.nCoarseCoeffs
    = ((provPairs agglomIndex upperAddr lowerAddr upperAddr.length).length : Int)
  lenO : addr.coarseOwner.length
    = (provPairs agglomIndex upperAddr lowerAddr upperAddr.length).length
  lenN : addr.coarseNeighbour.length
    = (provPairs agglomIndex upperAddr lowerAddr upperAddr.length).length
  lenC : addr.coeffRestrictAddr.length = upperAddr.length
  perm : (finalOrder (provPairs agglomIndex upperAddr lowerAddr upperAddr.length) nC).Perm
    (List.range (provPairs agglomIndex upperAddr lowerAddr upperAddr.length).length)
  own : ∀ k, k < (provPairs agglomIndex upperAddr lowerAddr upperAddr.length).length →
    addr.coarseOwner[k]? = some ((provPairs agglomIndex upperAddr lowerAddr upperAddr.length).getD
      ((finalOrder (provPairs agglomIndex upperAddr lowerAddr upperAddr.length) nC).getD k 0)
      (0, 0)).1 ∧
    addr.coarseNeighbour[k]? = some
      ((provPairs agglomIndex upperAddr lowerAddr upperAddr.length).getD
      ((finalOrder (provPairs agglomIndex upperAddr lowerAddr upperAddr.length) nC).getD k 0)
      (0, 0)).2
  intra : ∀ c, c < upperAddr.length →
    (rmAddr agglomIndex upperAddr lowerAddr c).1 = (rmAddr agglomIndex upperAddr lowerAddr c).2 →
    addr.coeffRestrictAddr[c]? = some (-((rmAddr agglomIndex upperAddr lowerAddr c).1 + 1))
  inter : ∀ c, c < upperAddr.length →
    (rmAddr agglomIndex upperAddr lowerAddr c).1 ≠ (rmAddr agglomIndex upperAddr lowerAddr c).2 →
    ∃ k : Nat, k < (provPairs agglomIndex upperAddr lowerAddr upperAddr.length).length ∧
      addr.coeffRestrictAddr[c]? = some (k : Int) ∧
      (provPairs agglomIndex upperAddr lowerAddr upperAddr.length).getD
        ((finalOrder (provPairs agglomIndex upperAddr lowerAddr upperAddr.length) nC).getD k 0)
        (0, 0) = canonPair (rmAddr agglomIndex upperAddr lowerAddr c)

/-- Symmetric matrix of six equations: diagonal magnitude 4, coefficients
`(0,2), (0,3), (0,4), (1,3), (2,5)` of magnitude 1, 1, 2, 1, 1. -/
def order6 : BlockLduMatrix ℚ :=
  { nRows := 6, upperAddr := [2, 3, 4, 3, 5], lowerAddr := [0, 0, 0, 1, 2],
    symmetric := true, asymmetric := false,
    magDiag := [4, 4, 4, 4, 4, 4], magUpper := [1, 1, 2, 1, 1], magLower := [] }

/-- Asymmetric matrix of four equations: diagonal magnitude 4, coefficients
`(0,3), (1,2), (1,3)` of magnitude 1. -/
def flip4 : BlockLduMatrix ℚ :=
  { nRows := 4, upperAddr := [3, 2, 3], lowerAddr := [0, 1, 1],
    symmetric := false, asymmetric := true,
    magDiag := [4, 4, 4, 4], magUpper := [1, 1, 1], magLower := [1, 1, 1] }

/-- Valid input of `restrictMatrix`: the coarse level can be created, the
agglomeration map has its values in `[0, nC)` with `nC = nCoarseEqns`, the
fine addressing is valid, and the fine matrix holds one diagonal coefficient
per equation and one upper (for an asymmetric matrix, also one lower)
coefficient per fine coefficient. -/
structure RestrictOK {α Q : Type} (st : AgglomState) (m : BlockLduMatrix α)
    (coeffs : BlockCoeffs Q) (nC : Nat) : Prop where
  coarsen : st.coarsen = true
  nCoarse : st.nCoarseEqns = (nC : Int)
  addr : AddrOK st.agglomIndex m.upperAddr m.lowerAddr m.nRows nC
  diagSize : coeffs.diag.size = m.nRows
  upperSize : coeffs.upper.size = m.upperAddr.length
  lowerSize : m.asymmetric = true → coeffs.lower.size = m.upperAddr.length

/-- The active-type tags `blockCoeffBase::SCALAR`, `LINEAR` and `SQUARE`. -/
inductive ActiveType where
  | scalar
  | linear
  | square
deriving DecidableEq

/-- Modelled from the spec: `CoeffField::activeType()`, the tag of the active
shape of a coefficient field. -/
def CoeffField.activeType {Q : Type} (f : CoeffField Q) : ActiveType :=
  match f with
  | CoeffField.scalar _ => ActiveType.scalar
  | CoeffField.linear _ => ActiveType.linear
  | CoeffField.square _ => ActiveType.square

/-- The agglomeration built by the constructor on `flip4` with
`groupSize = 2`: clusters `{0, 3}` and `{1, 2}`. -/
def flip4State : AgglomState :=
  { agglomIndex := [0, 1, 1, 0], nCoarseEqns := 2, coarsen := true }

/-- Square coefficients with `1 x 1` integer blocks on `flip4`: diagonal 4,
upper 1, lower 1 except for the coefficient `(1,3)` whose lower is `-1`. -/
def flip4Coeffs : BlockCoeffs Int :=
  { diag := CoeffField.square [4, 4, 4, 4], upper := CoeffField.square [1, 1, 1],
    lower := CoeffField.square [1, 1, -1] }

/-- Coefficients on `flip4` whose lower field is linear while the diagonal
and the upper field are square. -/
def flip4LinearLower : BlockCoeffs Int :=
  { diag := CoeffField.square [4, 4, 4, 4], upper := CoeffField.square [1, 1, 1],
    lower := CoeffField.linear 3 }

/-- Entry `(i, j)` of the fine matrix: the diagonal coefficient on the
diagonal, `upper[c]` at `(lowerAddr[c], upperAddr[c])` and `lower[c]` at
`(upperAddr[c], lowerAddr[c])`. -/
def fineEntry (upperAddr lowerAddr : List Int) (fd fu fl : List Int) (i j : Nat) : Int :=
  if i = j then fd.getD i 0
  else ∑ c in Finset.range upperAddr.length,
    ((if lowerAddr[c]? = some (i : Int) ∧ upperAddr[c]? = some (j : Int) then fu.getD c 0 else 0)
      + (if upperAddr[c]? = some (i : Int) ∧ lowerAddr[c]? = some (j : Int)
          then fl.getD c 0 else 0))

/-- Entry `(K, M)` of the projection of the fine matrix through the
agglomeration map: the sum of the fine entries `(i, j)` with `i` in cluster
`K` and `j` in cluster `M`. -/
def galerkinEntry (agglomIndex upperAddr lowerAddr : List Int) (fd fu fl : List Int)
    (K M : Nat) : Int :=
  ∑ i in Finset.range agglomIndex.length, ∑ j in Finset.range agglomIndex.length,
    if agglomIndex[i]? = some (K : Int) ∧ agglomIndex[j]? = some (M : Int)
    then fineEntry upperAddr lowerAddr fd fu fl i j else 0

/-- Entry `(K, M)` of a coarse matrix with a lower field, read like the fine
one: `upper[j]` at `(coarseOwner[j], coarseNeighbour[j])` and `lower[j]` at
`(coarseNeighbour[j], coarseOwner[j])`. -/
def coarseEntry (cm : CoarseMatrix Int) (K M : Nat) : Int :=
  fineEntry cm.coarseNeighbour cm.coarseOwner cm.diag cm.upper (cm.lower.getD []) K M

/-! ## Solver controls (`readControls.H`) -/

/-- The entries of the `PISO` dictionary that `readControls.H` looks up:
`nAlphaSubCycles` is read with `lookup` (fatal when absent), `correctPhi` and
`checkMeshCourantNo` only when `found`. -/
structure PisoDict where
  nAlphaSubCycles : Option Int
  correctPhi : Option Bool
  checkMeshCourantNo : Option Bool

/-- Ways in which `readControls.H` ends with a fatal error. -/
inductive ControlsError where
  /-- Fatal error of `lookup` on a keyword that the dictionary does not hold. -/
  | missingEntry
  /-- Fatal error "Sub-cycling alpha is only allowed for PISO, i.e. when the
  number of outer-correctors = 1". -/
  | subCyclingNotPISO
deriving DecidableEq

/-- The variables declared by `readControls.H`. -/
structure Controls where
  nAlphaSubCycles : Int
  correctPhi : Bool
  checkMeshCourantNo : Bool
deriving DecidableEq

/-- Embedding of `readControls.H`, from the declaration of `nAlphaSubCycles`
on. `nOuterCorr` is declared by `readPISOControls.H`, included before and not
among the sources: it is a parameter. -/
def readControls (nOuterCorr : Int) (piso : PisoDict) : Except ControlsError Controls :=
  match piso.nAlphaSubCycles with
  | none => Except.error ControlsError.missingEntry
  | some nAlphaSubCycles =>
    if nAlphaSubCycles > 1 ∧ nOuterCorr ≠ 1 then Except.error ControlsError.subCyclingNotPISO
    else
      let correctPhi := match piso.correctPhi with
        | some b => b
        | none => true
      let checkMeshCourantNo := match piso.checkMeshCourantNo with
        | some b => b
        | none => false
      Except.ok { nAlphaSubCycles := nAlphaSubCycles, correctPhi := correctPhi,
                  checkMeshCourantNo := checkMeshCourantNo }

/-! ## The main loop of the clustering, step by step -/

/-- The data read by the main loop of `calcAgglomeration` and the state in
which the loop is entered, when the constructor runs on a single partition
(`agglomIndex_` has the size of the matrix, both reductions are the
identity); `none` for a diagonal-only matrix, which returns before. -/
def clusterSetup {α : Type} (ops : ScalarOps α) (diagFactor : α) (m : BlockLduMatrix α)
    (groupSize : Int) : Option (ClusterCtx α × ClusterState) := do
  let rowOffset ← calcRowOffset m.nRows m.upperAddr m.lowerAddr
  let f ← calcCols rowOffset m.upperAddr m.lowerAddr (List.replicate m.nRows (-1))
  let magOffDiag ← calcMagOffDiag ops m
  let zeroCluster ← calcZeroCluster ops diagFactor m magOffDiag
  let (nSolo, agglomIndex) ← collectSolo zeroCluster 0 (List.replicate m.nRows (-1))
  pure ({ rowOffset := rowOffset, cols := f.cols, cIndex := f.cIndex, magDiag := m.magDiag,
          magOffDiag := magOffDiag, groupSize := groupSize },
        { agglomIndex := agglomIndex, sizeOfGroups := List.replicate m.nRows 0,
          nCoarseEqns := if nSolo > 0 then 0 + 1 else 0 })

/-- State of the main loop `for (eqnI = 0; eqnI < nRows; eqnI++)` of
`calcAgglomeration` when the equations before `n` have been visited. -/
def clusterPrefix {α : Type} (ops : ScalarOps α) (diagFactor : α) (m : BlockLduMatrix α)
    (groupSize : Int) (n : Nat) : Option ClusterState :=
  (clusterSetup ops diagFactor m groupSize).bind
    (fun p => (List.range n).foldlM (eqnStep ops p.1) p.2)

/-- The weight that the body of the scan computes at position `rowCoeffI` of
`cols`: `magOffDiag[cIndex[rowCoeffI]]/max(magRowDiag, magDiag[cols[rowCoeffI]])`. -/
def weightAt {α : Type} (ops : ScalarOps α) (ctx : ClusterCtx α) (magRowDiag : α)
    (rowCoeffI : Int) : Option α := do
  let colI ← readAt ctx.cols rowCoeffI
  let magColDiag ← readAt ctx.magDiag colI
  let ci ← readAt ctx.cIndex rowCoeffI
  let mo ← readAt ctx.magOffDiag ci
  pure (ops.div mo (ops.max magRowDiag magColDiag))

/-- Symmetric matrix of six equations with coefficients `(0,1), (1,2), (1,3),
(2,5), (3,4)` of magnitude 50, 2, 3, 2, 5 and diagonal magnitudes
100, 1, 1, 10, 1, 1: the seed 0 has a much larger diagonal than its
neighbour 1. -/
def stale6 : BlockLduMatrix ℚ :=
  { nRows := 6, upperAddr := [1, 2, 3, 5, 4], lowerAddr := [0, 1, 1, 2, 3],
    symmetric := true, asymmetric := false,
    magDiag := [100, 1, 1, 10, 1, 1], magUpper := [50, 2, 3, 2, 5], magLower := [] }

/-! ## Coarse addressing with unbounded adjacency lists -/

/-- Storage of the first loop of the coarse addressing when every cluster
keeps its neighbours in an adjacency list that grows without bound: `adj[i]`
lists the provisional coarse coefficients owned by cluster `i`, in the order
in which they were created, `initCoarseNeighb` holds the neighbour of every
provisional coefficient and `coeffRestrictAddr` one entry per fine
coefficient visited. -/
structure AdjStore where
  adj : List (List Nat)
  initCoarseNeighb : List Int
  coeffRestrictAddr : List Int

/-- One fine coefficient with unbounded adjacency lists: inside a cluster the
negative index `-(cluster + 1)` is recorded; between two clusters the pair is
made canonical, `(cOwn, cNei) = (min, max)`, the adjacency list of `cOwn` is
scanned for a coefficient with neighbour `cNei`, which is reused if found,
and otherwise a new coefficient is appended to the list. -/
def addCoeffUnbounded (agglomIndex upperAddr lowerAddr : List Int) (s : AdjStore)
    (fineCoeffi : Nat) : AdjStore :=
  if (rmAddr agglomIndex upperAddr lowerAddr fineCoeffi).1
      = (rmAddr agglomIndex upperAddr lowerAddr fineCoeffi).2 then
    { s with coeffRestrictAddr := s.coeffRestrictAddr
        ++ [-((rmAddr agglomIndex upperAddr lowerAddr fineCoeffi).1 + 1)] }
  else
    match (s.adj.getD (canonPair (rmAddr agglomIndex upperAddr lowerAddr fineCoeffi)).1.toNat
        []).find? (fun prov => decide (s.initCoarseNeighb.getD prov 0
          = (canonPair (rmAddr agglomIndex upperAddr lowerAddr fineCoeffi)).2)) with
    | some prov => { s with coeffRestrictAddr := s.coeffRestrictAddr ++ [(prov : Int)] }
    | none =>
      { adj := s.adj.set (canonPair (rmAddr agglomIndex upperAddr lowerAddr fineCoeffi)).1.toNat
          (s.adj.getD (canonPair (rmAddr agglomIndex upperAddr lowerAddr fineCoeffi)).1.toNat []
            ++ [s.initCoarseNeighb.length])
        initCoarseNeighb := s.initCoarseNeighb
          ++ [(canonPair (rmAddr agglomIndex upperAddr lowerAddr fineCoeffi)).2]
        coeffRestrictAddr := s.coeffRestrictAddr ++ [(s.initCoarseNeighb.length : Int)] }

/-- The first loop over all fine coefficients with unbounded adjacency
lists. -/
def collectUnbounded (agglomIndex : List Int) (nCoarseEqns : Nat)
    (upperAddr lowerAddr : List Int) : AdjStore :=
  (List.range upperAddr.length).foldl (addCoeffUnbounded agglomIndex upperAddr lowerAddr)
    { adj := List.replicate nCoarseEqns [], initCoarseNeighb := [], coeffRestrictAddr := [] }

/-- The coarse addressing computed with unbounded adjacency lists: the lists
of the clusters 0, 1, ... are laid one after the other, which gives the final
order of the coarse coefficients, their owners and neighbours, and every
non-negative `coeffRestrictAddr` is replaced by the final position of its
provisional coefficient. -/
def restrictAddressingUnbounded (agglomIndex : List Int) (nCoarseEqns : Nat)
    (upperAddr lowerAddr : List Int) : CoarseAddr :=
  let s := collectUnbounded agglomIndex nCoarseEqns upperAddr lowerAddr
  { nCoarseCoeffs := (s.initCoarseNeighb.length : Int)
    coarseOwner := ((List.range s.adj.length).map
      (fun i => List.replicate (s.adj.getD i []).length (i : Int))).flatten
    coarseNeighbour := s.adj.flatten.map (fun prov => s.initCoarseNeighb.getD prov 0)
    coeffRestrictAddr := s.coeffRestrictAddr.map
      (fun v => if v ≥ 0 then (s.adj.flatten.indexOf v.toNat : Int) else v) }

/-! ## Specification of the scan and of the growth -/

/-- Arithmetic in which `>` is the strict part of a total preorder: nothing is
greater than itself, and what is not greater than `b` is not greater than
anything greater than `b`. -/
structure OrderedOps {α : Type} (ops : ScalarOps α) : Prop where
  irrefl : ∀ a, ops.gt a a = false
  chain : ∀ a b c, ops.gt a b = false → ops.gt c b = true → ops.gt a c = false

/-- Position `p` of `cols` holds an equation that is not grouped. -/
def UngroupedAt (cols agglomIndex : List Int) (p : Nat) : Prop :=
  ∃ col : Nat, cols[p]? = some (col : Int) ∧ agglomIndex[col]? = some (-1)

/-- Position `p` of `cols` holds an equation grouped in a cluster other than
`aCur`. -/
def GroupedAt (cols agglomIndex : List Int) (aCur : Int) (p : Nat) : Prop :=
  ∃ (col : Nat) (ac : Int), cols[p]? = some (col : Int) ∧ agglomIndex[col]? = some ac ∧
    ac ≠ -1 ∧ ac ≠ aCur

/-- The pair `(idx, w)` is the result of a search for the largest weight among
the positions `lo .. hi - 1` of `cols` that satisfy `Q`: either `idx = -1` and
no position satisfies `Q`, or `idx` is such a position, `w` is its weight and,
for ordered arithmetic, no such position has a greater weight. -/
def BestOf {α : Type} (ops : ScalarOps α) (ctx : ClusterCtx α) (magRowDiag : α)
    (Q : Nat → Prop) (lo hi : Nat) (idx : Int) (w : α) : Prop :=
  (idx = -1 ∧ ∀ p, lo ≤ p → p < hi → ¬ Q p) ∨
  (∃ b : Nat, idx = (b : Int) ∧ lo ≤ b ∧ b < hi ∧ Q b ∧
    weightAt ops ctx magRowDiag (b : Int) = some w ∧
    (OrderedOps ops → ∀ (p : Nat) (wp : α), lo ≤ p → p < hi → Q p →
      weightAt ops ctx magRowDiag (p : Int) = some wp → ops.gt wp w = false))

/-- Position `p` of `cols` lies in the row of equation `i`:
`rowOffset[i] <= p < rowOffset[i + 1]`. -/
def RowPos {α : Type} (ctx : ClusterCtx α) (i p : Nat) : Prop :=
  ∃ lo hi : Nat, ctx.rowOffset[i]? = some (lo : Int) ∧ ctx.rowOffset[i + 1]? = some (hi : Int) ∧
    lo ≤ p ∧ p < hi

/-- Equation `j` is a neighbour of equation `i` in the row-based addressing:
a position of the row of `i` holds `j`. -/
def Nbr {α : Type} (ctx : ClusterCtx α) (i j : Nat) : Prop :=
  ∃ p : Nat, RowPos ctx i p ∧ ctx.cols[p]? = some (j : Int)

/-- Trace of the growth of the cluster `K` of the seed `seed`, started with
`agglomIndex_ = agg0`: after `n` absorptions `agglomIndex_` is `agg` and the
current equation (the tail) is `tail`. Every absorption takes an ungrouped
neighbour `next` of the tail, which is in cluster `K`, writes `K` at `next`
and makes `next` the tail. -/
inductive GrowsTo {α : Type} (ctx : ClusterCtx α) (K : Int) (agg0 : List Int) (seed : Nat) :
    Nat → List Int → Nat → Prop
  | start : GrowsTo ctx K agg0 seed 0 agg0 seed
  | absorb (n : Nat) (agg : List Int) (tail next : Nat) :
      GrowsTo ctx K agg0 seed n agg tail → agg[next]? = some (-1) → agg[tail]? = some K →
      Nbr ctx tail next → GrowsTo ctx K agg0 seed (n + 1) (agg.set next K) next

/-- Condition under which a growth pass absorbs the best ungrouped neighbour:
`indexUngrouped != -1 && (indexGrouped == -1 ||
weightUngrouped >= weightFactor_*weightGrouped)`. -/
def absorbs {α : Type} (ops : ScalarOps α) (s : ScanState α) : Prop :=
  s.indexUngrouped ≠ -1 ∧
    (s.indexGrouped = -1 ∨
      ops.ge s.weightUngrouped (ops.mul ops.weightFactor s.weightGrouped) = true)

/-- Invariant of the growth loop of the seed `eqnI`, as a trace: the state is
reached by `n` absorptions, `groupPassI = n + 1` stays within the bound of the
loop, and while nothing has been absorbed `indexGrouped` is `-1` or a position
of the row of the seed holding an equation of another cluster. -/
def GrowPath {α : Type} (ctx : ClusterCtx α) (K : Int) (agg0 : List Int) (eqnI : Nat)
    (g : GrowState) : Prop :=
  ∃ n tail : Nat, GrowsTo ctx K agg0 eqnI n g.agglomIndex tail ∧ g.curEqn = (tail : Int) ∧
    g.groupPassI = (n : Int) + 1 ∧ g.groupPassI ≤ max ctx.groupSize 1 ∧
    (ctx.groupSize ≤ 1 → g.indexGrouped = -1) ∧
    (n = 0 → g.indexGrouped = -1 ∨
      ∃ p : Nat, g.indexGrouped = (p : Int) ∧ RowPos ctx eqnI p ∧ GroupedAt ctx.cols agg0 K p)

/-- What one step of the main loop does to an ungrouped seed `eqnI`: either a
new cluster `K = nCoarseEqns_` is sealed, grown from the seed by `n`
absorptions with `n + 1 <= max(groupSize_, 1)`; or nothing was absorbed and
the seed is merged into the cluster `ac` of one of its neighbours `col`,
which needs `groupSize_ > 1`. -/
def StepDetail {α : Type} (ctx : ClusterCtx α) (st : ClusterState) (eqnI : Nat)
    (st' : ClusterState) : Prop :=
  (st'.nCoarseEqns = st.nCoarseEqns + 1 ∧
    ∃ n tail : Nat, GrowsTo ctx st.nCoarseEqns (st.agglomIndex.set eqnI st.nCoarseEqns) eqnI n
        st'.agglomIndex tail ∧ (n : Int) + 1 ≤ max ctx.groupSize 1) ∨
  (st'.nCoarseEqns = st.nCoarseEqns ∧ 1 < ctx.groupSize ∧
    ∃ (col : Nat) (ac : Int), Nbr ctx eqnI col ∧ st.agglomIndex[col]? = some ac ∧ ac ≠ -1 ∧
      st'.agglomIndex = st.agglomIndex.set eqnI ac)

/-- Equations `i` and `j` are the two ends of a fine off-diagonal
coefficient: an edge of the matrix graph. -/
def Coupled (upperAddr lowerAddr : List Int) (i j : Nat) : Prop :=
  ∃ c : Nat, (upperAddr[c]? = some (i : Int) ∧ lowerAddr[c]? = some (j : Int)) ∨
    (lowerAddr[c]? = some (i : Int) ∧ upperAddr[c]? = some (j : Int))

/-- Symmetric matrix of two equations joined by one coefficient of magnitude
1, with diagonal magnitudes `10^9` and 1: equation 0 is weak
(`1 <= 1e-8 * 10^9`), equation 1 is not. -/
def weak2 : BlockLduMatrix ℚ :=
  { nRows := 2, upperAddr := [1], lowerAddr := [0], symmetric := true, asymmetric := false,
    magDiag := [1000000000, 1], magUpper := [1], magLower := [] }

/-- The members of cluster `k` induce a connected subgraph of the matrix
graph: any two of them are joined by a path of coefficients whose ends are
all in cluster `k`. -/
def ConnectedIn (upperAddr lowerAddr agglomIndex : List Int) (k : Int) : Prop :=
  ∀ i j : Nat, agglomIndex[i]? = some k → agglomIndex[j]? = some k →
    Relation.ReflTransGen
      (fun a b : Nat => Coupled upperAddr lowerAddr a b ∧
        agglomIndex[a]? = some k ∧ agglomIndex[b]? = some k) i j

/-- Symmetric matrix of two equations joined by one coefficient of magnitude
1, with diagonal magnitude 4: no equation is weak. -/
def pair2 : BlockLduMatrix ℚ :=
  { nRows := 2, upperAddr := [1], lowerAddr := [0], symmetric := true, asymmetric := false,
    magDiag := [4, 4], magUpper := [1], magLower := [] }

/-! ## The clustering on one partition of a parallel run -/

/-- What a step of the main loop relies on in the state, whatever the other
partitions contributed to `nSolo`: the sizes of the two lists, a non-negative
counter `nCoarseEqns_`, and entries of `agglomIndex_` that are `-1` or a
cluster index below the counter. -/
structure StateOK (nRows : Nat) (st : ClusterState) : Prop where
  lenA : st.agglomIndex.length = nRows
  lenS : st.sizeOfGroups.length = nRows
  nonneg : 0 ≤ st.nCoarseEqns
  range : ∀ a ∈ st.agglomIndex, a = -1 ∨ (0 ≤ a ∧ a < st.nCoarseEqns)

/-- The data read by the main loop of `calcAgglomeration` and the state in
which the loop is entered on a partition whose reductions receive `env` from
the other partitions: cluster 0 is reserved when the reduced `nSolo`, the
local count plus `env.nSoloOthers`, is positive. `none` for a diagonal-only
matrix, which returns before. -/
def clusterSetupIn {α : Type} (ops : ScalarOps α) (diagFactor : α) (env : ParEnv)
    (m : BlockLduMatrix α) (groupSize : Int) : Option (ClusterCtx α × ClusterState) := do
  let rowOffset ← calcRowOffset m.nRows m.upperAddr m.lowerAddr
  let f ← calcCols rowOffset m.upperAddr m.lowerAddr (List.replicate m.nRows (-1))
  let magOffDiag ← calcMagOffDiag ops m
  let zeroCluster ← calcZeroCluster ops diagFactor m magOffDiag
  let (nSolo, agglomIndex) ← collectSolo zeroCluster 0 (List.replicate m.nRows (-1))
  pure ({ rowOffset := rowOffset, cols := f.cols, cIndex := f.cIndex, magDiag := m.magDiag,
          magOffDiag := magOffDiag, groupSize := groupSize },
        { agglomIndex := agglomIndex, sizeOfGroups := List.replicate m.nRows 0,
          nCoarseEqns := if nSolo + env.nSoloOthers > 0 then 0 + 1 else 0 })

/-- State of the main loop `for (eqnI = 0; eqnI < nRows; eqnI++)` of
`calcAgglomeration` on a partition of a parallel run when the equations
before `n` have been visited. -/
def clusterPrefixIn {α : Type} (ops : ScalarOps α) (diagFactor : α) (env : ParEnv)
    (m : BlockLduMatrix α) (groupSize : Int) (n : Nat) : Option ClusterState :=
  (clusterSetupIn ops diagFactor env m groupSize).bind
    (fun p => (List.range n).foldlM (eqnStep ops p.1) p.2)

/-! ## The two reductions in a run on several partitions -/

/-- Symmetric matrix of six equations with coefficients `(0,1), (0,4), (1,2),
(2,5), (3,4), (4,5)` of magnitude 50, 10, 50, 300, 50, 2 and diagonal
magnitudes 100, 100, 100, 100, 1, 1: the seed 3 has a much larger diagonal
than the equation 4 that it absorbs first. -/
def gate6 : BlockLduMatrix ℚ :=
  { nRows := 6, upperAddr := [1, 4, 2, 5, 4, 5], lowerAddr := [0, 0, 1, 2, 3, 4],
    symmetric := true, asymmetric := false,
    magDiag := [100, 100, 100, 100, 1, 1], magUpper := [50, 10, 50, 300, 50, 2],
    magLower := [] }

/-! # Theorems -/

/-! ## Basic facts on checked access -/

theorem readAt_natCast {β : Type} (xs : List β) (i : Nat) :
    readAt xs (i : Int) = xs[i]? := by
  simp [readAt]

theorem readAt_eq_some {β : Type} (xs : List β) (i : Int) (h0 : 0 ≤ i)
    (h1 : i.toNat < xs.length) : readAt xs i = some (xs[i.toNat]) := by
  simp [readAt, h0, List.getElem?_eq_getElem h1]

theorem writeAt_eq_some {β : Type} (xs : List β) (i : Int) (v : β) (h0 : 0 ≤ i)
    (h1 : i.toNat < xs.length) : writeAt xs i v = some (xs.set i.toNat v) := by
  simp [writeAt, h0, h1]

/-! ## Row offsets -/

theorem readAt_of_getElem? {β : Type} (xs : List β) (i : Int) (v : β) (h0 : 0 ≤ i)
    (h : xs[i.toNat]? = some v) : readAt xs i = some v := by
  simp [readAt, h0, h]

theorem getElem?_of_lt {β : Type} (xs : List β) (i : Nat) (h : i < xs.length) :
    ∃ v, xs[i]? = some v :=
  ⟨xs[i], List.getElem?_eq_getElem h⟩

theorem lt_of_getElem? {β : Type} (xs : List β) (i : Nat) (v : β) (h : xs[i]? = some v) :
    i < xs.length := by
  by_contra hc
  rw [List.getElem?_eq_none (by omega)] at h
  cases h

theorem foldlM_range_succ {σ : Type} (f : σ → Nat → Option σ) (init : σ) (n : Nat) :
    (List.range (n + 1)).foldlM f init = ((List.range n).foldlM f init).bind (fun s => f s n) := by
  rw [List.range_succ, List.foldlM_append]
  cases (List.range n).foldlM f init with
  | none => rfl
  | some s =>
    simp only [Option.bind_eq_bind, Option.some_bind, List.foldlM_cons, List.foldlM_nil]
    cases f s n <;> rfl

theorem countCoeffs_prefix (addr rowOffset : List Int)
    (hval : ∀ a ∈ addr, 0 ≤ a ∧ a.toNat < rowOffset.length) :
    ∀ n, n ≤ addr.length →
      ∃ ro, (List.range n).foldlM (countCoeffsStep addr) rowOffset = some ro ∧
        ro.length = rowOffset.length ∧
        ∀ (i : Nat) (v : Int), rowOffset[i]? = some v →
          ro[i]? = some (v + ((addr.take n).count (i : Int) : Nat)) := by
  intro n
  induction n with
  | zero =>
    intro _
    exact ⟨rowOffset, by simp, rfl, by simp⟩
  | succ n ih =>
    intro hn
    obtain ⟨ro, hro, hlen, hcnt⟩ := ih (by omega)
    have hn1 : n < addr.length := by omega
    have ha := hval addr[n] (List.getElem_mem hn1)
    obtain ⟨v0, hv0⟩ := getElem?_of_lt rowOffset (addr[n]).toNat ha.2
    have hcur := hcnt _ _ hv0
    refine ⟨ro.set (addr[n]).toNat (v0 + ((addr.take n).count ((addr[n]).toNat : Int) : Nat) + 1),
      ?_, by simp [hlen], ?_⟩
    · rw [foldlM_range_succ, hro]
      simp only [countCoeffsStep, Option.some_bind, readAt_natCast,
        List.getElem?_eq_getElem hn1, Option.bind_eq_bind]
      rw [readAt_of_getElem? ro _ _ ha.1 hcur]
      simp only [Option.some_bind]
      rw [writeAt_eq_some _ _ _ ha.1 (by omega)]
    · intro i v hv
      have hprev := hcnt i v hv
      rw [List.take_succ, List.count_append, List.getElem?_eq_getElem hn1]
      by_cases hi : (addr[n]).toNat = i
      · subst hi
        rw [hv0] at hv
        cases hv
        rw [List.getElem?_set_self (by omega)]
        have hcast : (((addr[n]).toNat : Nat) : Int) = addr[n] := by omega
        simp only [Option.toList_some, hcast, List.count_singleton_self]
        congr 1
        push_cast
        omega
      · rw [List.getElem?_set_ne hi, hprev]
        have hne : ¬ (addr[n] = (i : Int)) := by omega
        simp [List.count_singleton, hne]

theorem countCoeffs_spec (addr rowOffset : List Int)
    (hval : ∀ a ∈ addr, 0 ≤ a ∧ a.toNat < rowOffset.length) :
    ∃ ro, countCoeffs addr rowOffset = some ro ∧ ro.length = rowOffset.length ∧
      ∀ (i : Nat) (v : Int), rowOffset[i]? = some v →
        ro[i]? = some (v + (addr.count (i : Int) : Nat)) := by
  obtain ⟨ro, h1, h2, h3⟩ := countCoeffs_prefix addr rowOffset hval addr.length (le_refl _)
  refine ⟨ro, by unfold countCoeffs; exact h1, h2, ?_⟩
  intro i v hv
  have := h3 i v hv
  rwa [List.take_length] at this

theorem foldl_add_eq_sum (l : List Int) (a : Int) :
    l.foldl (fun n v => n + v) a = a + l.sum := by
  induction l generalizing a with
  | nil => simp
  | cons x l ih => rw [List.foldl_cons, ih, List.sum_cons]; omega

theorem sum_map_range (f : Nat → Nat) (n : Nat) :
    ((List.range n).map (fun i => (f i : Int))).sum = ((∑ i in Finset.range n, f i : Nat) : Int) := by
  induction n with
  | zero => simp
  | succ n ih =>
    rw [List.range_succ, List.map_append, List.sum_append, ih, Finset.sum_range_succ]
    simp

theorem count_eq_zero_of_valid (addr : List Int) (nRows : Nat) (hval : ValidAddr addr nRows)
    (i : Nat) (hi : nRows ≤ i) : addr.count (i : Int) = 0 := by
  rw [List.count_eq_zero]
  intro hmem
  have := hval _ hmem
  omega

theorem sum_count_eq_length (addr : List Int) (nRows : Nat) (hval : ValidAddr addr nRows) :
    ∑ i in Finset.range nRows, addr.count (i : Int) = addr.length := by
  induction addr with
  | nil => simp
  | cons a l ih =>
    have hl : ValidAddr l nRows := fun b hb => hval b (List.mem_cons_of_mem _ hb)
    have ha := hval a (List.mem_cons_self _ _)
    have hsplit : ∀ i : Nat, (a :: l).count (i : Int)
        = l.count (i : Int) + (if i = a.toNat then 1 else 0) := by
      intro i
      rw [List.count_cons]
      by_cases h : i = a.toNat
      · have hb : (a == (i : Int)) = true := by rw [beq_iff_eq]; omega
        rw [hb, if_pos h, if_pos rfl]
      · have hb : (a == (i : Int)) = false := by rw [beq_eq_false_iff_ne]; omega
        rw [hb, if_neg h]
        simp
    rw [Finset.sum_congr rfl (fun i _ => hsplit i), Finset.sum_add_distrib, ih hl,
      Finset.sum_ite_eq' (Finset.range nRows) a.toNat (fun _ => 1)]
    have hmem : a.toNat ∈ Finset.range nRows := by
      rw [Finset.mem_range]; omega
    simp [hmem]

theorem rowStart_succ (upperAddr lowerAddr : List Int) (i : Nat) :
    rowStart upperAddr lowerAddr (i + 1)
      = rowStart upperAddr lowerAddr i + rowCount upperAddr lowerAddr i := by
  unfold rowStart
  rw [Finset.sum_range_succ]

theorem rowStart_total (upperAddr lowerAddr : List Int) (nRows : Nat)
    (hu : ValidAddr upperAddr nRows) (hl : ValidAddr lowerAddr nRows) :
    rowStart upperAddr lowerAddr nRows = upperAddr.length + lowerAddr.length := by
  unfold rowStart rowCount
  rw [Finset.sum_add_distrib, sum_count_eq_length _ _ hu, sum_count_eq_length _ _ hl]

theorem rowStart_mono (upperAddr lowerAddr : List Int) (i j : Nat) (h : i ≤ j) :
    rowStart upperAddr lowerAddr i ≤ rowStart upperAddr lowerAddr j := by
  induction j with
  | zero =>
    have : i = 0 := by omega
    subst this
    exact le_refl _
  | succ j ih =>
    by_cases hij : i = j + 1
    · subst hij
      exact le_refl _
    · have := ih (by omega)
      rw [rowStart_succ]
      omega

theorem offsetsFromCounts_spec (upperAddr lowerAddr : List Int) (nRows : Nat) :
    ∀ (n : Nat) (ro : List Int), n ≤ nRows → ro.length = nRows + 1 →
      (∀ j, j < n → ro[j]? = some (rowCount upperAddr lowerAddr j : Int)) →
      (∀ j, n ≤ j → j ≤ nRows → ro[j]? = some (rowStart upperAddr lowerAddr j : Int)) →
      ∃ out, (List.range n).reverse.foldlM offsetsFromCountsStep ro = some out ∧
        out.length = nRows + 1 ∧
        ∀ j, j ≤ nRows → out[j]? = some (rowStart upperAddr lowerAddr j : Int) := by
  intro n
  induction n with
  | zero =>
    intro ro _ hlen _ hhi
    exact ⟨ro, by simp, hlen, fun j hj => hhi j (by omega) hj⟩
  | succ n ih =>
    intro ro hn hlen hlo hhi
    have hnext := hhi (n + 1) (le_refl _) hn
    have hcnt := hlo n (by omega)
    have hstep : offsetsFromCountsStep ro n = some (ro.set n
        ((rowStart upperAddr lowerAddr (n + 1) : Int) - (rowCount upperAddr lowerAddr n : Int))) := by
      simp only [offsetsFromCountsStep, Option.bind_eq_bind]
      rw [readAt_of_getElem? ro _ _ (by omega) (by simpa using hnext)]
      simp only [Option.some_bind, readAt_natCast, hcnt]
      rw [writeAt_eq_some _ _ _ (by omega) (by simp; omega)]
      simp
    obtain ⟨out, hout, holen, hospec⟩ := ih (ro.set n
        ((rowStart upperAddr lowerAddr (n + 1) : Int) - (rowCount upperAddr lowerAddr n : Int)))
      (by omega) (by simp [hlen])
      (fun j hj => by rw [List.getElem?_set_ne (by omega)]; exact hlo j (by omega))
      (fun j hj1 hj2 => by
        by_cases hjn : n = j
        · subst hjn
          rw [List.getElem?_set_self (by omega), rowStart_succ]
          congr 1
          push_cast
          omega
        · rw [List.getElem?_set_ne hjn]
          exact hhi j (by omega) hj2)
    refine ⟨out, ?_, holen, hospec⟩
    rw [List.range_succ, List.reverse_append, List.reverse_singleton, List.singleton_append,
      List.foldlM_cons, hstep]
    exact hout

theorem calcRowOffset_spec (nRows : Nat) (upperAddr lowerAddr : List Int)
    (hu : ValidAddr upperAddr nRows) (hl : ValidAddr lowerAddr nRows) :
    ∃ ro, calcRowOffset nRows upperAddr lowerAddr = some ro ∧ ro.length = nRows + 1 ∧
      ∀ j, j ≤ nRows → ro[j]? = some (rowStart upperAddr lowerAddr j : Int) := by
  obtain ⟨ro1, h1, hlen1, hc1⟩ := countCoeffs_spec upperAddr (List.replicate (nRows + 1) 0)
    (fun a ha => by have := hu a ha; simp; omega)
  obtain ⟨ro2, h2, hlen2, hc2⟩ := countCoeffs_spec lowerAddr ro1
    (fun a ha => by have := hl a ha; simp [hlen1]; omega)
  have hlen2' : ro2.length = nRows + 1 := by simp [hlen2, hlen1]
  have hro2 : ∀ j, j ≤ nRows → ro2[j]? = some (rowCount upperAddr lowerAddr j : Int) := by
    intro j hj
    have hj1 := hc1 j 0 (List.getElem?_replicate_of_lt (by omega))
    have hj2 := hc2 j _ hj1
    rw [hj2]
    unfold rowCount
    congr 1
    push_cast
    omega
  have hro2eq : ro2 = (List.range (nRows + 1)).map
      (fun i => (rowCount upperAddr lowerAddr i : Int)) := by
    apply List.ext_getElem?
    intro j
    by_cases hj : j ≤ nRows
    · rw [hro2 j hj, List.getElem?_map, List.getElem?_range (by omega)]
      rfl
    · rw [List.getElem?_eq_none (by omega), List.getElem?_eq_none (by simp; omega)]
  have hlast : rowCount upperAddr lowerAddr nRows = 0 := by
    unfold rowCount
    rw [count_eq_zero_of_valid _ _ hu _ (le_refl _), count_eq_zero_of_valid _ _ hl _ (le_refl _)]
  have hsum : ro2.foldl (fun n v => n + v) 0 = (rowStart upperAddr lowerAddr nRows : Int) := by
    rw [foldl_add_eq_sum, hro2eq, sum_map_range, Finset.sum_range_succ, hlast]
    simp [rowStart]
  obtain ⟨out, hout, holen, hospec⟩ := offsetsFromCounts_spec upperAddr lowerAddr nRows nRows
    (ro2.set nRows (rowStart upperAddr lowerAddr nRows : Int)) (le_refl _) (by simp [hlen2'])
    (fun j hj => by rw [List.getElem?_set_ne (by omega)]; exact hro2 j (by omega))
    (fun j hj1 hj2 => by
      have : j = nRows := by omega
      subst this
      rw [List.getElem?_set_self (by omega)])
  refine ⟨out.set 0 0, ?_, by simp [holen], ?_⟩
  · unfold calcRowOffset
    simp only [h1, h2, Option.bind_eq_bind, Option.some_bind, hsum]
    rw [writeAt_eq_some _ _ _ (by omega) (by simp; omega)]
    simp only [Option.some_bind, Int.toNat_ofNat, offsetsFromCounts, hout]
    rw [writeAt_eq_some _ _ _ (by omega) (by simp; omega)]
    simp
  · intro j hj
    by_cases hj0 : 0 = j
    · subst hj0
      rw [List.getElem?_set_self (by omega)]
      simp [rowStart]
    · rw [List.getElem?_set_ne hj0]
      exact hospec j hj

/-! ## Column and coefficient index arrays -/

theorem RowEntry_symm (upperAddr lowerAddr cols cIndex : List Int) (i p : Nat)
    (h : RowEntry upperAddr lowerAddr cols cIndex i p) :
    RowEntry lowerAddr upperAddr cols cIndex i p :=
  Or.symm h

theorem count_take_succ_le (addr : List Int) (n : Nat) (hn : n < addr.length) :
    (addr.take (n + 1)).count addr[n] = (addr.take n).count addr[n] + 1 ∧
      (addr.take (n + 1)).count addr[n] ≤ addr.count addr[n] := by
  constructor
  · rw [List.take_succ, List.count_append, List.getElem?_eq_getElem hn]
    simp
  · exact (List.take_sublist _ _).count_le _

theorem count_take_succ_ne (addr : List Int) (n : Nat) (hn : n < addr.length) (a : Int)
    (ha : addr[n] ≠ a) : (addr.take (n + 1)).count a = (addr.take n).count a := by
  rw [List.take_succ, List.count_append, List.getElem?_eq_getElem hn]
  simp [List.count_singleton, ha]


theorem fillRows_step (rowOffset rowAddr colAddr : List Int) (nRows total : Nat)
    (start c0 : Nat → Nat)
    (hro : ∀ i, i < nRows → rowOffset[i]? = some (start i : Int))
    (hval : ValidAddr rowAddr nRows) (hcol : colAddr.length = rowAddr.length)
    (hcap : ∀ i, i < nRows → start i + c0 i + rowAddr.count (i : Int) ≤ start (i + 1))
    (hmono : ∀ i j, i ≤ j → j ≤ nRows → start i ≤ start j) (htot : start nRows ≤ total)
    (n : Nat) (hn : n < rowAddr.length) (f : RowFill)
    (hinv : FillInv rowAddr colAddr nRows total start c0 n f) :
    ∃ f', fillRowsStep rowOffset rowAddr colAddr f n = some f' ∧
      FillInv rowAddr colAddr nRows total start c0 (n + 1) f' := by
  obtain ⟨hc, hci, hnp, hcount, hent⟩ := hinv
  have hr := hval rowAddr[n] (List.getElem_mem hn)
  have hrn : (rowAddr[n]).toNat < nRows := by omega
  have hcast : (((rowAddr[n]).toNat : Nat) : Int) = rowAddr[n] := by omega
  have hn2 : n < colAddr.length := by omega
  obtain ⟨hcs, hcle⟩ := count_take_succ_le rowAddr n hn
  have hcap' := hcap _ hrn
  rw [hcast] at hcap'
  have hst := hmono ((rowAddr[n]).toNat + 1) nRows (by omega) (le_refl _)
  have hcnt := hcount _ hrn
  rw [hcast] at hcnt
  let p0 : Nat := start (rowAddr[n]).toNat + c0 (rowAddr[n]).toNat +
    (rowAddr.take n).count rowAddr[n]
  have hp0 : p0 < total := by omega
  have hpos : ((start (rowAddr[n]).toNat : Int) +
      ((c0 (rowAddr[n]).toNat + (rowAddr.take n).count rowAddr[n] : Nat) : Int)).toNat = p0 := by
    simp only [p0]
    omega
  refine ⟨{ cols := f.cols.set p0 colAddr[n], cIndex := f.cIndex.set p0 (n : Int),
            nPerRow := f.nPerRow.set (rowAddr[n]).toNat
              (((c0 (rowAddr[n]).toNat + (rowAddr.take n).count rowAddr[n] : Nat) : Int) + 1) },
    ?_, ?_⟩
  · simp only [fillRowsStep, readAt_natCast, List.getElem?_eq_getElem hn,
      List.getElem?_eq_getElem hn2, Option.bind_eq_bind, Option.some_bind]
    rw [readAt_of_getElem? rowOffset _ _ hr.1 (hro _ hrn)]
    simp only [Option.some_bind]
    rw [readAt_of_getElem? f.nPerRow _ _ hr.1 hcnt]
    simp only [Option.some_bind]
    rw [writeAt_eq_some f.cols _ _ (by omega) (by rw [hpos]; omega)]
    simp only [Option.some_bind]
    rw [writeAt_eq_some f.cIndex _ _ (by omega) (by rw [hpos]; omega)]
    simp only [Option.some_bind]
    rw [writeAt_eq_some f.nPerRow _ _ hr.1 (by omega)]
    simp only [Option.some_bind, hpos]
    rfl
  · refine ⟨by simp [hc], by simp [hci], by simp [hnp], ?_, ?_⟩
    · intro i hi
      by_cases hir : (rowAddr[n]).toNat = i
      · subst hir
        simp only
        rw [List.getElem?_set_self (by omega), hcast, hcs]
        congr 1
      · simp only
        rw [List.getElem?_set_ne hir, hcount i hi,
          count_take_succ_ne rowAddr n hn (i : Int) (by omega)]
    · intro i p hi hp1 hp2
      by_cases hpp : p0 = p
      · have hir : i = (rowAddr[n]).toNat := by
          have hsub : (rowAddr.take (n + 1)).count (i : Int) ≤ rowAddr.count (i : Int) :=
            (List.take_sublist _ _).count_le _
          have hcapi := hcap i hi
          by_contra hne
          rcases Nat.lt_or_gt_of_ne hne with hlt | hgt
          · have := hmono (i + 1) (rowAddr[n]).toNat (by omega) (by omega)
            omega
          · have := hmono ((rowAddr[n]).toNat + 1) i (by omega) (by omega)
            omega
        left
        refine ⟨n, colAddr[n], ?_, ?_, ?_, ?_⟩
        · simp only
          rw [hpp, List.getElem?_set_self (by omega)]
        · simp only
          rw [hpp, List.getElem?_set_self (by omega)]
        · rw [List.getElem?_eq_getElem hn, hir, hcast]
        · exact List.getElem?_eq_getElem hn2
      · have hp3 : p < start i + c0 i + (rowAddr.take n).count (i : Int) := by
          by_cases hir : (rowAddr[n]).toNat = i
          · subst hir
            rw [hcast] at hp2
            rw [hcast]
            omega
          · rw [count_take_succ_ne rowAddr n hn (i : Int) (by omega)] at hp2
            exact hp2
        rcases hent i p hi hp1 hp3 with h | h
        · obtain ⟨c, col, h1, h2, h3, h4⟩ := h
          left
          exact ⟨c, col, by simp only; rw [List.getElem?_set_ne hpp]; exact h1,
            by simp only; rw [List.getElem?_set_ne hpp]; exact h2, h3, h4⟩
        · obtain ⟨c, col, h1, h2, h3, h4⟩ := h
          right
          exact ⟨c, col, by simp only; rw [List.getElem?_set_ne hpp]; exact h1,
            by simp only; rw [List.getElem?_set_ne hpp]; exact h2, h3, h4⟩

theorem fillRows_spec (rowOffset rowAddr colAddr : List Int) (nRows total : Nat)
    (start c0 : Nat → Nat)
    (hro : ∀ i, i < nRows → rowOffset[i]? = some (start i : Int))
    (hval : ValidAddr rowAddr nRows) (hcol : colAddr.length = rowAddr.length)
    (hcap : ∀ i, i < nRows → start i + c0 i + rowAddr.count (i : Int) ≤ start (i + 1))
    (hmono : ∀ i j, i ≤ j → j ≤ nRows → start i ≤ start j) (htot : start nRows ≤ total)
    (f : RowFill) (hinv : FillInv rowAddr colAddr nRows total start c0 0 f) :
    ∃ f', fillRows rowOffset rowAddr colAddr f = some f' ∧
      FillInv rowAddr colAddr nRows total start c0 rowAddr.length f' := by
  have key : ∀ n, n ≤ rowAddr.length →
      ∃ f', (List.range n).foldlM (fillRowsStep rowOffset rowAddr colAddr) f = some f' ∧
        FillInv rowAddr colAddr nRows total start c0 n f' := by
    intro n
    induction n with
    | zero => intro _; exact ⟨f, by simp, hinv⟩
    | succ n ih =>
      intro hn
      obtain ⟨f1, hf1, hinv1⟩ := ih (by omega)
      obtain ⟨f2, hf2, hinv2⟩ := fillRows_step rowOffset rowAddr colAddr nRows total start c0
        hro hval hcol hcap hmono htot n (by omega) f1 hinv1
      exact ⟨f2, by rw [foldlM_range_succ, hf1]; exact hf2, hinv2⟩
  exact key rowAddr.length (le_refl _)

theorem calcCols_spec (rowOffset upperAddr lowerAddr agglomIndex : List Int) (nRows : Nat)
    (hro : ∀ j, j ≤ nRows → rowOffset[j]? = some (rowStart upperAddr lowerAddr j : Int))
    (hu : ValidAddr upperAddr nRows) (hl : ValidAddr lowerAddr nRows)
    (hlen : upperAddr.length = lowerAddr.length) (hagg : agglomIndex.length = nRows) :
    ∃ f, calcCols rowOffset upperAddr lowerAddr agglomIndex = some f ∧
      f.cols.length = upperAddr.length + lowerAddr.length ∧
      f.cIndex.length = upperAddr.length + lowerAddr.length ∧
      ∀ i p, i < nRows → rowStart upperAddr lowerAddr i ≤ p →
        p < rowStart upperAddr lowerAddr (i + 1) →
        RowEntry upperAddr lowerAddr f.cols f.cIndex i p := by
  have htot := rowStart_total upperAddr lowerAddr nRows hu hl
  have hmono : ∀ i j, i ≤ j → j ≤ nRows →
      rowStart upperAddr lowerAddr i ≤ rowStart upperAddr lowerAddr j :=
    fun i j hij _ => rowStart_mono upperAddr lowerAddr i j hij
  obtain ⟨f1, hf1, hinv1⟩ := fillRows_spec rowOffset upperAddr lowerAddr nRows
    (upperAddr.length + lowerAddr.length) (rowStart upperAddr lowerAddr) (fun _ => 0)
    (fun i hi => hro i (by omega)) hu hlen.symm
    (fun i _ => by rw [rowStart_succ]; unfold rowCount; dsimp only; omega) hmono (by omega)
    { cols := List.replicate (upperAddr.length + lowerAddr.length) (-1)
      cIndex := List.replicate (upperAddr.length + lowerAddr.length) (-1)
      nPerRow := List.replicate agglomIndex.length 0 }
    ⟨by simp, by simp, by simp [hagg],
      fun i hi => by simp [List.getElem?_replicate, hagg, hi],
      fun i p _ h1 h2 => by simp at h2; omega⟩
  obtain ⟨hc1, hci1, hnp1, hcount1, hent1⟩ := hinv1
  rw [List.take_length] at hcount1 hent1
  obtain ⟨f2, hf2, hinv2⟩ := fillRows_spec rowOffset lowerAddr upperAddr nRows
    (upperAddr.length + lowerAddr.length) (rowStart upperAddr lowerAddr)
    (fun i => upperAddr.count (i : Int))
    (fun i hi => hro i (by omega)) hl hlen
    (fun i _ => by rw [rowStart_succ]; unfold rowCount; dsimp only; omega) hmono (by omega) f1
    ⟨hc1, hci1, hnp1,
      fun i hi => by rw [hcount1 i hi]; simp,
      fun i p hi h1 h2 => RowEntry_symm _ _ _ _ _ _ (hent1 i p hi h1 (by simpa using h2))⟩
  obtain ⟨hc2, hci2, _, _, hent2⟩ := hinv2
  rw [List.take_length] at hent2
  refine ⟨f2, ?_, hc2, hci2, ?_⟩
  · unfold calcCols
    simp only [Option.bind_eq_bind]
    rw [hf1]
    exact hf2
  · intro i p hi h1 h2
    apply RowEntry_symm
    apply hent2 i p hi h1
    rw [rowStart_succ] at h2
    unfold rowCount at h2
    dsimp only
    omega

/-! ## Weak equations -/

theorem foldlM_range_inv {σ : Type} (f : σ → Nat → Option σ) (Inv : Nat → σ → Prop) (n : Nat)
    (init : σ) (h0 : Inv 0 init)
    (hstep : ∀ k s, k < n → Inv k s → ∃ s', f s k = some s' ∧ Inv (k + 1) s') :
    ∃ s, (List.range n).foldlM f init = some s ∧ Inv n s := by
  have key : ∀ k, k ≤ n → ∃ s, (List.range k).foldlM f init = some s ∧ Inv k s := by
    intro k
    induction k with
    | zero => intro _; exact ⟨init, by simp, h0⟩
    | succ k ih =>
      intro hk
      obtain ⟨s, hs, hinv⟩ := ih (by omega)
      obtain ⟨s', hs', hinv'⟩ := hstep k s (by omega) hinv
      exact ⟨s', by rw [foldlM_range_succ, hs]; exact hs', hinv'⟩
  exact key n (le_refl _)

theorem calcMagOffDiag_length {α : Type} (ops : ScalarOps α) (m : BlockLduMatrix α)
    (hwf : WellFormed m) (mo : List α) (h : calcMagOffDiag ops m = some mo) :
    mo.length = m.upperAddr.length := by
  unfold calcMagOffDiag at h
  by_cases ha : m.asymmetric = true
  · rw [if_pos ha] at h
    cases h
    rw [List.length_zipWith, hwf.upperLen (Or.inl ha), hwf.lowerLen ha]
    simp
  · rw [if_neg ha] at h
    by_cases hs : m.symmetric = true
    · rw [if_pos hs] at h
      cases h
      exact hwf.upperLen (Or.inr hs)
    · rw [if_neg hs] at h
      cases h

theorem markStrong_spec {α : Type} (ops : ScalarOps α) (upperAddr lowerAddr : List Int)
    (magOffDiag magScaledDiag : List α) (zeroCluster : List Bool) (nRows : Nat)
    (hu : ValidAddr upperAddr nRows) (hl : ValidAddr lowerAddr nRows)
    (hlu : magOffDiag.length = upperAddr.length) (hll : magOffDiag.length = lowerAddr.length)
    (hs : magScaledDiag.length = nRows) (hz : zeroCluster.length = nRows) :
    ∃ zc, markStrong ops upperAddr lowerAddr magOffDiag magScaledDiag zeroCluster = some zc ∧
      zc.length = nRows := by
  unfold markStrong
  refine foldlM_range_inv (markStrongStep ops upperAddr lowerAddr magOffDiag magScaledDiag)
    (fun _ zc => zc.length = nRows) magOffDiag.length zeroCluster hz ?_
  intro k zc hk hzc
  have hk1 : k < upperAddr.length := by omega
  have hk2 : k < lowerAddr.length := by omega
  have hua := hu upperAddr[k] (List.getElem_mem hk1)
  have hla := hl lowerAddr[k] (List.getElem_mem hk2)
  obtain ⟨su, hsu⟩ := getElem?_of_lt magScaledDiag (upperAddr[k]).toNat (by omega)
  obtain ⟨sl, hsl⟩ := getElem?_of_lt magScaledDiag (lowerAddr[k]).toNat (by omega)
  simp only [markStrongStep, readAt_natCast, List.getElem?_eq_getElem hk,
    List.getElem?_eq_getElem hk1, List.getElem?_eq_getElem hk2, Option.bind_eq_bind,
    Option.some_bind]
  rw [readAt_of_getElem? magScaledDiag _ _ hua.1 hsu,
    readAt_of_getElem? magScaledDiag _ _ hla.1 hsl]
  simp only [Option.some_bind]
  by_cases h1 : ops.gt magOffDiag[k] su = true
  · rw [if_pos h1, writeAt_eq_some _ _ _ hua.1 (by omega)]
    simp only [Option.some_bind]
    by_cases h2 : ops.gt magOffDiag[k] sl = true
    · rw [if_pos h2, writeAt_eq_some _ _ _ hla.1 (by simp; omega)]
      exact ⟨_, rfl, by simp [hzc]⟩
    · rw [if_neg h2]
      exact ⟨_, rfl, by simp [hzc]⟩
  · rw [if_neg h1]
    simp only [pure, Option.some_bind]
    by_cases h2 : ops.gt magOffDiag[k] sl = true
    · rw [if_pos h2, writeAt_eq_some _ _ _ hla.1 (by omega)]
      exact ⟨_, rfl, by simp [hzc]⟩
    · rw [if_neg h2]
      exact ⟨_, rfl, hzc⟩

theorem collectSolo_spec (zeroCluster : List Bool) (nRows : Nat)
    (hz : zeroCluster.length = nRows) :
    ∃ nSolo agg, collectSolo zeroCluster 0 (List.replicate nRows (-1)) = some (nSolo, agg) ∧
      agg.length = nRows ∧ 0 ≤ nSolo ∧ (0 < nSolo ↔ true ∈ zeroCluster) ∧
      (0 < nSolo ↔ (0 : Int) ∈ agg) ∧ (∀ a ∈ agg, a = -1 ∨ a = 0) ∧
      ∀ i, i < nRows → agg[i]? = some (if zeroCluster[i]? = some true then 0 else -1) := by
  have key := foldlM_range_inv (collectSoloStep zeroCluster 0)
    (fun k (s : Int × List Int) => s.2.length = nRows ∧ 0 ≤ s.1 ∧
      (0 < s.1 ↔ ∃ i, i < k ∧ zeroCluster[i]? = some true) ∧
      ∀ i, i < nRows →
        s.2[i]? = some (if i < k ∧ zeroCluster[i]? = some true then 0 else -1))
    nRows (0, List.replicate nRows (-1))
    ⟨by simp, le_refl _, by simp, fun i hi => by simp [List.getElem?_replicate, hi]⟩
    (by
      intro k s hk hinv
      obtain ⟨h1, h2, h3, h4⟩ := hinv
      have hkz : k < zeroCluster.length := by omega
      simp only [collectSoloStep, readAt_natCast, List.getElem?_eq_getElem hkz,
        Option.bind_eq_bind, Option.some_bind]
      by_cases hzk : zeroCluster[k] = true
      · rw [if_pos hzk, writeAt_eq_some _ _ _ (by omega) (by simp; omega)]
        refine ⟨_, rfl, by simp [h1], by simp only; omega, ?_, ?_⟩
        · simp only
          constructor
          · intro _
            exact ⟨k, by omega, by rw [List.getElem?_eq_getElem hkz, hzk]⟩
          · intro _
            omega
        · intro i hi
          simp only [Int.toNat_ofNat]
          by_cases hik : k = i
          · subst hik
            rw [List.getElem?_set_self (by omega), List.getElem?_eq_getElem hkz, hzk]
            simp
          · rw [List.getElem?_set_ne hik, h4 i hi]
            by_cases hc : zeroCluster[i]? = some true
            · by_cases hlt : i < k
              · simp [hc, hlt, Nat.lt_succ_of_lt hlt]
              · have : ¬ i < k + 1 := by omega
                simp [hlt, this]
            · simp [hc]
      · rw [if_neg hzk]
        refine ⟨_, rfl, h1, h2, ?_, ?_⟩
        · rw [h3]
          constructor
          · rintro ⟨i, hi1, hi2⟩
            exact ⟨i, by omega, hi2⟩
          · rintro ⟨i, hi1, hi2⟩
            refine ⟨i, ?_, hi2⟩
            by_contra hc
            have : i = k := by omega
            subst this
            rw [List.getElem?_eq_getElem hkz] at hi2
            exact hzk (Option.some.inj hi2)
        · intro i hi
          rw [h4 i hi]
          by_cases hik : i = k
          · subst hik
            have : ¬ zeroCluster[i]? = some true := by
              rw [List.getElem?_eq_getElem hkz]
              intro h
              exact hzk (Option.some.inj h)
            simp [this]
          · by_cases hlt : i < k
            · simp [hlt, Nat.lt_succ_of_lt hlt]
            · have : ¬ i < k + 1 := by omega
              simp [hlt, this])
  obtain ⟨⟨nSolo, agg⟩, hrun, h1, h2, h3, h4⟩ := key
  dsimp only at h1 h2 h3 h4
  have h4' : ∀ i, i < nRows → agg[i]? = some (if zeroCluster[i]? = some true then 0 else -1) := by
    intro i hi
    have := h4 i hi
    simp only [hi, true_and] at this
    exact this
  have hmemz : (∃ i, i < nRows ∧ zeroCluster[i]? = some true) ↔ true ∈ zeroCluster := by
    rw [List.mem_iff_getElem?]
    constructor
    · rintro ⟨i, _, hi⟩
      exact ⟨i, hi⟩
    · rintro ⟨i, hi⟩
      exact ⟨i, by have := lt_of_getElem? _ _ _ hi; omega, hi⟩
  refine ⟨nSolo, agg, ?_, h1, h2, h3.trans hmemz, ?_, ?_, h4'⟩
  · unfold collectSolo
    rw [hz]
    exact hrun
  · rw [h3, List.mem_iff_getElem?]
    constructor
    · rintro ⟨i, hi1, hi2⟩
      exact ⟨i, by rw [h4' i hi1, if_pos hi2]⟩
    · rintro ⟨i, hi⟩
      have hlt : i < nRows := by have := lt_of_getElem? _ _ _ hi; omega
      refine ⟨i, hlt, ?_⟩
      rw [h4' i hlt] at hi
      by_contra hc
      rw [if_neg hc] at hi
      cases hi
  · intro a ha
    obtain ⟨i, hi⟩ := List.mem_iff_getElem?.mp ha
    have hlt : i < nRows := by have := lt_of_getElem? _ _ _ hi; omega
    rw [h4' i hlt] at hi
    by_cases hc : zeroCluster[i]? = some true
    · rw [if_pos hc] at hi
      right
      exact (Option.some.inj hi).symm
    · rw [if_neg hc] at hi
      left
      exact (Option.some.inj hi).symm

/-! ## Scan of a row -/

theorem foldlM_list_inv {σ ι : Type} (f : σ → ι → Option σ) (Inv : σ → Prop) (l : List ι)
    (hstep : ∀ s x, x ∈ l → Inv s → ∃ s', f s x = some s' ∧ Inv s') :
    ∀ init, Inv init → ∃ s, l.foldlM f init = some s ∧ Inv s := by
  induction l with
  | nil => intro init h; exact ⟨init, rfl, h⟩
  | cons x l ih =>
    intro init h
    obtain ⟨s1, hs1, hinv1⟩ := hstep init x (List.mem_cons_self _ _) h
    obtain ⟨s2, hs2, hinv2⟩ := ih (fun s y hy hs => hstep s y (List.mem_cons_of_mem _ hy) hs)
      s1 hinv1
    exact ⟨s2, by rw [List.foldlM_cons, hs1]; exact hs2, hinv2⟩

theorem mem_labelRange (lo hi x : Int) (h : x ∈ labelRange lo hi) : lo ≤ x ∧ x < hi := by
  unfold labelRange at h
  rw [List.mem_map] at h
  obtain ⟨j, hj, hx⟩ := h
  rw [List.mem_range] at hj
  omega

theorem scanStep_spec {α : Type} (ops : ScalarOps α) (ctx : ClusterCtx α) (nRows : Nat)
    (agglomIndex : List Int) (curEqn : Int) (aCur : Int) (magRowDiag : α)
    (hlenD : ctx.magDiag.length = nRows) (hlen : agglomIndex.length = nRows)
    (hcur : readAt agglomIndex curEqn = some aCur)
    (s : ScanState α) (rowCoeffI : Int) (h0 : 0 ≤ rowCoeffI) (col c : Nat)
    (hcol : ctx.cols[rowCoeffI.toNat]? = some (col : Int)) (hcoln : col < nRows)
    (hc : ctx.cIndex[rowCoeffI.toNat]? = some (c : Int)) (hcn : c < ctx.magOffDiag.length)
    (hU : UngroupedOK ctx.cols agglomIndex s.indexUngrouped)
    (hG : GroupedOK ctx.cols agglomIndex aCur s.indexGrouped) :
    ∃ s', scanStep ops ctx agglomIndex curEqn magRowDiag s rowCoeffI = some s' ∧
      UngroupedOK ctx.cols agglomIndex s'.indexUngrouped ∧
      GroupedOK ctx.cols agglomIndex aCur s'.indexGrouped := by
  obtain ⟨md, hmd⟩ := getElem?_of_lt ctx.magDiag col (by omega)
  obtain ⟨mo, hmo⟩ := getElem?_of_lt ctx.magOffDiag c hcn
  obtain ⟨ac, hac⟩ := getElem?_of_lt agglomIndex col (by omega)
  have hrcol : readAt ctx.cols rowCoeffI = some (col : Int) :=
    readAt_of_getElem? _ _ _ h0 hcol
  simp only [scanStep, Option.bind_eq_bind]
  rw [hrcol, readAt_of_getElem? ctx.cIndex _ _ h0 hc]
  simp only [Option.some_bind, readAt_natCast, hmd, hmo, hac]
  by_cases h1 : ac = -1
  · rw [if_pos h1]
    subst h1
    split
    · exact ⟨_, rfl, Or.inr ⟨col, hrcol, hac⟩, hG⟩
    · exact ⟨_, rfl, hU, hG⟩
  · rw [if_neg h1, hcur]
    simp only [Option.some_bind]
    by_cases h2 : aCur ≠ ac
    · rw [if_pos h2]
      split
      · exact ⟨_, rfl, hU, Or.inr ⟨col, ac, hrcol, hac, h1, fun h => h2 h.symm⟩⟩
      · exact ⟨_, rfl, hU, hG⟩
    · rw [if_neg h2]
      exact ⟨_, rfl, hU, hG⟩

theorem scanRow_spec {α : Type} (ops : ScalarOps α) (ctx : ClusterCtx α) (nRows : Nat)
    (hctx : CtxOK ctx nRows) (agglomIndex : List Int) (curEqn : Int) (aCur : Int)
    (magRowDiag : α) (hlen : agglomIndex.length = nRows)
    (hc0 : 0 ≤ curEqn) (hc1 : curEqn < (nRows : Int))
    (hcur : readAt agglomIndex curEqn = some aCur) :
    ∃ s, scanRow ops ctx agglomIndex curEqn magRowDiag = some s ∧
      UngroupedOK ctx.cols agglomIndex s.indexUngrouped ∧
      GroupedOK ctx.cols agglomIndex aCur s.indexGrouped := by
  obtain ⟨lo, hi, hlo, hhi, hrow⟩ := hctx.rows curEqn.toNat (by omega)
  have hcast : ((curEqn.toNat : Nat) : Int) = curEqn := by omega
  have hr1 : readAt ctx.rowOffset curEqn = some (lo : Int) :=
    readAt_of_getElem? _ _ _ hc0 hlo
  have hr2 : readAt ctx.rowOffset (curEqn + 1) = some (hi : Int) := by
    apply readAt_of_getElem? _ _ _ (by omega)
    have : (curEqn + 1).toNat = curEqn.toNat + 1 := by omega
    rw [this]
    exact hhi
  obtain ⟨s, hs, hinv⟩ := foldlM_list_inv
    (scanStep ops ctx agglomIndex curEqn magRowDiag)
    (fun s => UngroupedOK ctx.cols agglomIndex s.indexUngrouped ∧
      GroupedOK ctx.cols agglomIndex aCur s.indexGrouped)
    (labelRange (lo : Int) (hi : Int))
    (by
      intro s x hx hs
      have hxr := mem_labelRange _ _ _ hx
      obtain ⟨col, c, h1, h2, h3, h4⟩ := hrow x.toNat (by omega) (by omega)
      exact scanStep_spec ops ctx nRows agglomIndex curEqn aCur magRowDiag hctx.lenD hlen hcur
        s x (by omega) col c h1 h2 h3 h4 hs.1 hs.2)
    { indexUngrouped := -1, weightUngrouped := ops.zero,
      indexGrouped := -1, weightGrouped := ops.zero }
    ⟨Or.inl rfl, Or.inl rfl⟩
  refine ⟨s, ?_, hinv⟩
  simp only [scanRow, Option.bind_eq_bind, hr1, hr2, Option.some_bind]
  exact hs

/-! ## Growth of a cluster -/

theorem count_set_getElem? (l : List Int) (i : Nat) (old v k : Int) (h : l[i]? = some old) :
    (l.set i v).count k = l.count k - (if old = k then 1 else 0) + (if v = k then 1 else 0) := by
  have hi := lt_of_getElem? _ _ _ h
  rw [List.count_set _ _ _ _ hi]
  rw [List.getElem?_eq_getElem hi] at h
  rw [Option.some.inj h]
  simp only [beq_iff_eq]

theorem count_set_fresh (l : List Int) (i : Nat) (v k : Int) (h : l[i]? = some (-1))
    (hk : k ≠ -1) : (l.set i v).count k = l.count k + (if v = k then 1 else 0) := by
  rw [count_set_getElem? l i (-1) v k h, if_neg (fun h => hk h.symm)]
  simp

theorem growLoop_spec {α : Type} (ops : ScalarOps α) (ctx : ClusterCtx α) (nRows : Nat)
    (hctx : CtxOK ctx nRows) (sizeOfGroups : List Int) (hlenS : sizeOfGroups.length = nRows)
    (magRowDiag : α) (agg0 : List Int) (K : Int) (eqnI : Nat) (hK0 : 0 ≤ K)
    (hK1 : K < (nRows : Int)) :
    ∀ (fuel : Nat) (g : GrowState), (ctx.groupSize - g.groupPassI).toNat < fuel →
      GrowInv ctx.cols nRows ctx.groupSize agg0 K eqnI g →
      ∃ g', growLoop ops ctx sizeOfGroups magRowDiag fuel g = some g' ∧
        GrowInv ctx.cols nRows ctx.groupSize agg0 K eqnI g' := by
  intro fuel
  induction fuel with
  | zero => intro g hf _; omega
  | succ fuel ih =>
    intro g hf hinv
    unfold growLoop
    by_cases hpass : g.groupPassI < ctx.groupSize
    · rw [if_pos hpass]
      have hcurR : readAt g.agglomIndex g.curEqn = some K :=
        readAt_of_getElem? _ _ _ hinv.cur.1 hinv.curK
      obtain ⟨s, hs, hU, hG⟩ := scanRow_spec ops ctx nRows hctx g.agglomIndex g.curEqn K
        magRowDiag hinv.len hinv.cur.1 hinv.cur.2 hcurR
      simp only [Option.bind_eq_bind, hs, Option.some_bind]
      split
      · rename_i hext
        rcases hU with hU | ⟨col, hcol, hacol⟩
        · exact absurd hU hext.1
        · have hcoln : col < nRows := by
            have := lt_of_getElem? _ _ _ hacol
            have := hinv.len
            omega
          have hne : col ≠ g.curEqn.toNat := by
            intro h
            rw [h, hinv.curK] at hacol
            have := Option.some.inj hacol
            omega
          have hcur2 : (g.agglomIndex.set col K)[g.curEqn.toNat]? = some K := by
            rw [List.getElem?_set_ne hne]
            exact hinv.curK
          rw [hcol]
          simp only [Option.some_bind, hcurR]
          rw [writeAt_eq_some _ _ _ (by omega) (by simp; have := hinv.len; omega)]
          simp only [Option.some_bind, Int.toNat_ofNat]
          rw [readAt_of_getElem? _ _ _ hinv.cur.1 hcur2]
          simp only [Option.some_bind]
          obtain ⟨sz, hsz⟩ := getElem?_of_lt sizeOfGroups K.toNat (by omega)
          rw [readAt_of_getElem? _ _ _ hK0 hsz]
          simp only [Option.some_bind]
          apply ih
          · simp only
            omega
          · refine ⟨by simp [hinv.len], by simp only; omega, ?_, ?_, ?_, ?_, ?_, ?_⟩
            · simp only [Int.toNat_ofNat]
              rw [List.getElem?_set_self (by have := hinv.len; omega)]
            · intro i a hi ha
              have hgi := hinv.mono i a hi ha
              have hic : col ≠ i := by
                intro h
                rw [h, hgi] at hacol
                exact ha (Option.some.inj hacol)
              simp only
              rw [List.getElem?_set_ne hic]
              exact hgi
            · intro k hk1 hk2
              simp only
              rw [count_set_fresh _ _ _ _ hacol hk1, if_neg (fun h => hk2 h.symm)]
              exact hinv.keep k hk1 hk2
            · simp only
              rw [count_set_fresh _ _ _ _ hacol (by omega), if_pos rfl]
              have := hinv.countK
              push_cast
              omega
            · simp only
              have := hinv.pass
              omega
            · intro h
              simp only at h
              have := hinv.pass
              omega
      · refine ⟨_, rfl, hinv.len, hinv.cur, hinv.curK, hinv.mono, hinv.keep, hinv.countK,
          hinv.pass, ?_⟩
        intro h1
        obtain ⟨ha, hc, _⟩ := hinv.first h1
        refine ⟨ha, hc, ?_⟩
        simp only
        rw [← ha]
        exact hG
    · rw [if_neg hpass]
      exact ⟨g, rfl, hinv⟩

/-! ## One step of the main loop -/

theorem sum_count_le_length (l : List Int) (n : Nat) :
    (∑ k in Finset.range n, l.count (k : Int)) + l.count (-1) ≤ l.length := by
  induction l with
  | nil => simp
  | cons a l ih =>
    have hsplit : ∀ k : Nat, (a :: l).count (k : Int)
        = l.count (k : Int) + (if k = a.toNat ∧ 0 ≤ a then 1 else 0) := by
      intro k
      rw [List.count_cons]
      by_cases h : k = a.toNat ∧ 0 ≤ a
      · have hb : (a == (k : Int)) = true := by rw [beq_iff_eq]; omega
        rw [hb, if_pos h, if_pos rfl]
      · have hb : (a == (k : Int)) = false := by rw [beq_eq_false_iff_ne]; omega
        rw [hb, if_neg h]
        simp
    have hone : (∑ k in Finset.range n, if k = a.toNat ∧ 0 ≤ a then 1 else 0)
        + (if a = -1 then 1 else 0) ≤ 1 := by
      by_cases ha : 0 ≤ a
      · have : ∀ k ∈ Finset.range n, (if k = a.toNat ∧ 0 ≤ a then 1 else 0)
            = (if k = a.toNat then 1 else 0) := by
          intro k _
          simp [ha]
        have hne : ¬ a = -1 := by omega
        rw [Finset.sum_congr rfl this, Finset.sum_ite_eq' (Finset.range n) a.toNat (fun _ => 1),
          if_neg hne]
        split <;> omega
      · have : ∀ k ∈ Finset.range n, (if k = a.toNat ∧ 0 ≤ a then 1 else 0) = 0 := by
          intro k _
          simp [ha]
        rw [Finset.sum_congr rfl this]
        simp only [Finset.sum_const_zero, zero_add]
        split <;> omega
    have hm1 : (a :: l).count (-1) = l.count (-1) + (if a = -1 then 1 else 0) := by
      rw [List.count_cons]
      simp only [beq_iff_eq]
    rw [Finset.sum_congr rfl (fun k _ => hsplit k), Finset.sum_add_distrib, hm1,
      List.length_cons]
    omega

theorem nCoarse_lt_nRows (nRows : Nat) (groupSize w : Int) (st : ClusterState)
    (hinv : MainInv nRows groupSize w st) (h : (-1 : Int) ∈ st.agglomIndex) :
    st.nCoarseEqns < (nRows : Int) := by
  have h1 := sum_count_le_length st.agglomIndex st.nCoarseEqns.toNat
  have h2 : st.nCoarseEqns.toNat ≤ ∑ k in Finset.range st.nCoarseEqns.toNat,
      st.agglomIndex.count (k : Int) := by
    have := Finset.card_nsmul_le_sum (Finset.range st.nCoarseEqns.toNat)
      (fun k => st.agglomIndex.count (k : Int)) 1
      (fun k hk => by
        have hk2 := Finset.mem_range.mp hk
        exact List.count_pos_iff.mpr (hinv.surj (k : Int) (by omega) (by omega)))
    simpa using this
  have h3 : 0 < st.agglomIndex.count (-1) := List.count_pos_iff.mpr h
  have h4 := hinv.lenA
  have h5 := hinv.reserved
  omega

theorem grow_count_eq (cols : List Int) (nRows : Nat) (groupSize : Int) (st : ClusterState)
    (eqnI : Nat) (g : GrowState) (ha : st.agglomIndex[eqnI]? = some (-1))
    (hg : GrowInv cols nRows groupSize (st.agglomIndex.set eqnI st.nCoarseEqns)
      st.nCoarseEqns eqnI g) (k : Int) (hk1 : k ≠ -1) (hk2 : k ≠ st.nCoarseEqns) :
    g.agglomIndex.count k = st.agglomIndex.count k := by
  rw [hg.keep k hk1 hk2, count_set_fresh _ _ _ _ ha hk1, if_neg (fun h => hk2 h.symm)]
  rfl

theorem grow_range (cols : List Int) (nRows : Nat) (groupSize w : Int) (st : ClusterState)
    (eqnI : Nat) (g : GrowState) (hinv : MainInv nRows groupSize w st)
    (ha : st.agglomIndex[eqnI]? = some (-1))
    (hg : GrowInv cols nRows groupSize (st.agglomIndex.set eqnI st.nCoarseEqns)
      st.nCoarseEqns eqnI g) (a : Int) (hmem : a ∈ g.agglomIndex) :
    a = -1 ∨ (0 ≤ a ∧ a ≤ st.nCoarseEqns) := by
  by_cases h1 : a = -1
  · exact Or.inl h1
  · by_cases h2 : a = st.nCoarseEqns
    · right
      have := hinv.reserved
      omega
    · have hc := grow_count_eq cols nRows groupSize st eqnI g ha hg a h1 h2
      have hpos : 0 < st.agglomIndex.count a := by
        rw [← hc]
        exact List.count_pos_iff.mpr hmem
      have := hinv.range a (List.count_pos_iff.mp hpos)
      omega

theorem grow_mono (cols : List Int) (nRows : Nat) (groupSize : Int) (st : ClusterState)
    (eqnI : Nat) (g : GrowState) (ha : st.agglomIndex[eqnI]? = some (-1))
    (hg : GrowInv cols nRows groupSize (st.agglomIndex.set eqnI st.nCoarseEqns)
      st.nCoarseEqns eqnI g) (i : Nat) (a : Int) (hi : st.agglomIndex[i]? = some a)
    (hne : a ≠ -1) : g.agglomIndex[i]? = some a := by
  apply hg.mono i a _ hne
  have hie : eqnI ≠ i := by
    intro h
    rw [h, hi] at ha
    exact hne (Option.some.inj ha)
  rw [List.getElem?_set_ne hie]
  exact hi

theorem grow_seed (cols : List Int) (nRows : Nat) (groupSize w : Int) (st : ClusterState)
    (eqnI : Nat) (g : GrowState) (hinv : MainInv nRows groupSize w st)
    (ha : st.agglomIndex[eqnI]? = some (-1))
    (hg : GrowInv cols nRows groupSize (st.agglomIndex.set eqnI st.nCoarseEqns)
      st.nCoarseEqns eqnI g) : g.agglomIndex[eqnI]? = some st.nCoarseEqns := by
  apply hg.mono eqnI st.nCoarseEqns _ (by have := hinv.reserved; omega)
  rw [List.getElem?_set_self (lt_of_getElem? _ _ _ ha)]

theorem sealGroup_spec (cols : List Int) (nRows : Nat) (groupSize w : Int) (st : ClusterState)
    (eqnI : Nat) (g : GrowState) (hinv : MainInv nRows groupSize w st)
    (ha : st.agglomIndex[eqnI]? = some (-1)) (hK : st.nCoarseEqns < (nRows : Int))
    (hg : GrowInv cols nRows groupSize (st.agglomIndex.set eqnI st.nCoarseEqns)
      st.nCoarseEqns eqnI g) :
    ∃ st', sealGroup st g eqnI = some st' ∧ StepPost nRows groupSize w st eqnI st' := by
  have hK0 : 0 ≤ st.nCoarseEqns := by have := hinv.reserved; omega
  have hseed := grow_seed cols nRows groupSize w st eqnI g hinv ha hg
  have hfresh := hinv.fresh st.nCoarseEqns.toNat (by omega) (by omega)
  have hlenS := hinv.lenS
  refine ⟨{ agglomIndex := g.agglomIndex,
            sizeOfGroups := st.sizeOfGroups.set st.nCoarseEqns.toNat (0 + 1),
            nCoarseEqns := st.nCoarseEqns + 1 }, ?_, ?_, ?_, ?_⟩
  · simp only [sealGroup, readAt_natCast, hseed, Option.bind_eq_bind, Option.some_bind]
    rw [readAt_of_getElem? _ _ _ hK0 hfresh]
    simp only [Option.some_bind]
    rw [writeAt_eq_some _ _ _ hK0 (by omega)]
    rfl
  · refine ⟨hg.len, by simp [hlenS], by have := hinv.reserved; simp only; omega, ?_, ?_, ?_, ?_⟩
    · intro a hmem
      have := grow_range cols nRows groupSize w st eqnI g hinv ha hg a hmem
      simp only
      omega
    · intro k hk0 hk1
      simp only at hk1 ⊢
      by_cases hkK : k = st.nCoarseEqns
      · rw [hkK]
        exact List.mem_iff_getElem?.mpr ⟨eqnI, hseed⟩
      · apply List.count_pos_iff.mp
        rw [grow_count_eq cols nRows groupSize st eqnI g ha hg k (by omega) hkK]
        exact List.count_pos_iff.mpr (hinv.surj k hk0 (by omega))
    · intro k hk0 hk1
      simp only at hk1 ⊢
      by_cases hkK : (k : Int) = st.nCoarseEqns
      · have hkn : st.nCoarseEqns.toNat = k := by omega
        refine ⟨0 + 1, by rw [hkn, List.getElem?_set_self (by omega)], ?_, by omega⟩
        have h1 := hg.countK
        have h2 := hg.pass
        rw [hkK]
        omega
      · obtain ⟨sz, hsz, hb1, hb2⟩ := hinv.sizes k hk0 (by omega)
        refine ⟨sz, by rw [List.getElem?_set_ne (by omega)]; exact hsz, ?_, hb2⟩
        rw [grow_count_eq cols nRows groupSize st eqnI g ha hg (k : Int) (by omega) hkK]
        exact hb1
    · intro k hk0 hk1
      simp only at hk0 ⊢
      rw [List.getElem?_set_ne (by omega)]
      exact hinv.fresh k (by omega) hk1
  · intro i a hi hne
    exact grow_mono cols nRows groupSize st eqnI g ha hg i a hi hne
  · exact ⟨st.nCoarseEqns, hseed, by omega⟩

theorem mergeSeed_spec {α : Type} (ctx : ClusterCtx α) (nRows : Nat) (w : Int)
    (st : ClusterState) (eqnI : Nat) (g : GrowState)
    (hinv : MainInv nRows ctx.groupSize w st)
    (ha : st.agglomIndex[eqnI]? = some (-1))
    (hagg : g.agglomIndex = st.agglomIndex.set eqnI st.nCoarseEqns)
    (col : Nat) (ac sz : Int) (hcol : readAt ctx.cols g.indexGrouped = some (col : Int))
    (hac : g.agglomIndex[col]? = some ac) (hac0 : 0 ≤ ac) (hac1 : ac < st.nCoarseEqns)
    (hsz : st.sizeOfGroups[ac.toNat]? = some sz) (hle : sz ≤ ctx.groupSize + 2) :
    ∃ st', mergeSeed ctx st g eqnI = some st' ∧ StepPost nRows ctx.groupSize w st eqnI st' := by
  have hi := lt_of_getElem? _ _ _ ha
  have hlenA := hinv.lenA
  have hlenS := hinv.lenS
  have hset : (st.agglomIndex.set eqnI st.nCoarseEqns).set eqnI ac = st.agglomIndex.set eqnI ac :=
    List.set_set _ _ _ _
  have hac2 : (st.agglomIndex.set eqnI ac)[col]? = some ac := by
    by_cases hce : eqnI = col
    · rw [hce, List.getElem?_set_self (by omega)]
    · rw [List.getElem?_set_ne hce]
      rw [hagg, List.getElem?_set_ne hce] at hac
      exact hac
  have hcount : ∀ k : Int, k ≠ -1 →
      (st.agglomIndex.set eqnI ac).count k = st.agglomIndex.count k + (if ac = k then 1 else 0) :=
    fun k hk => count_set_fresh _ _ _ _ ha hk
  refine ⟨{ agglomIndex := st.agglomIndex.set eqnI ac,
            sizeOfGroups := st.sizeOfGroups.set ac.toNat (sz + 1),
            nCoarseEqns := st.nCoarseEqns }, ?_, ?_, ?_, ?_⟩
  · simp only [mergeSeed, hcol, Option.bind_eq_bind, Option.some_bind, readAt_natCast, hac]
    rw [writeAt_eq_some _ _ _ (by omega) (by rw [hagg]; simp; omega)]
    simp only [Option.some_bind, Int.toNat_ofNat, hagg, hset, hac2]
    rw [readAt_of_getElem? _ _ _ hac0 hsz]
    simp only [Option.some_bind]
    rw [writeAt_eq_some _ _ _ hac0 (lt_of_getElem? _ _ _ hsz)]
    rfl
  · refine ⟨by simp [hlenA], by simp [hlenS], hinv.reserved, ?_, ?_, ?_, ?_⟩
    · intro a hmem
      simp only at hmem ⊢
      rcases List.mem_or_eq_of_mem_set hmem with h | h
      · exact hinv.range a h
      · right
        omega
    · intro k hk0 hk1
      simp only at hk1 ⊢
      apply List.count_pos_iff.mp
      rw [hcount k (by omega)]
      have := List.count_pos_iff.mpr (hinv.surj k hk0 hk1)
      omega
    · intro k hk0 hk1
      simp only at hk1 ⊢
      obtain ⟨sz', hsz', hb1, hb2⟩ := hinv.sizes k hk0 hk1
      rw [hcount (k : Int) (by omega)]
      by_cases hka : ac = (k : Int)
      · have hkn : ac.toNat = k := by omega
        rw [hkn] at hsz
        rw [hsz'] at hsz
        have hszeq := Option.some.inj hsz
        refine ⟨sz + 1, by rw [hkn, List.getElem?_set_self (lt_of_getElem? _ _ _ hsz')], ?_,
          by omega⟩
        rw [if_pos hka]
        push_cast
        omega
      · refine ⟨sz', by rw [List.getElem?_set_ne (by omega)]; exact hsz', ?_, hb2⟩
        rw [if_neg hka]
        simpa using hb1
    · intro k hk0 hk1
      simp only at hk0 ⊢
      rw [List.getElem?_set_ne (by omega)]
      exact hinv.fresh k hk0 hk1
  · intro i a hia hne
    have hie : eqnI ≠ i := by
      intro h
      rw [h, hia] at ha
      exact hne (Option.some.inj ha)
    simp only
    rw [List.getElem?_set_ne hie]
    exact hia
  · exact ⟨ac, by simp only; rw [List.getElem?_set_self (by omega)], by omega⟩

theorem eqnStep_spec {α : Type} (ops : ScalarOps α) (ctx : ClusterCtx α) (nRows : Nat)
    (hctx : CtxOK ctx nRows) (w : Int) (st : ClusterState) (eqnI : Nat)
    (hinv : MainInv nRows ctx.groupSize w st) (hi : eqnI < nRows) :
    ∃ st', eqnStep ops ctx st eqnI = some st' ∧
      StepPost nRows ctx.groupSize w st eqnI st' := by
  have hlenA := hinv.lenA
  obtain ⟨a, ha⟩ := getElem?_of_lt st.agglomIndex eqnI (by omega)
  unfold eqnStep
  simp only [readAt_natCast, ha, Option.bind_eq_bind, Option.some_bind]
  by_cases ha1 : a = -1
  · subst ha1
    rw [if_pos rfl]
    have hK0 : 0 ≤ st.nCoarseEqns := by have := hinv.reserved; omega
    have hK1 := nCoarse_lt_nRows nRows ctx.groupSize w st hinv
      (List.mem_iff_getElem?.mpr ⟨eqnI, ha⟩)
    obtain ⟨md, hmd⟩ := getElem?_of_lt ctx.magDiag eqnI (by rw [hctx.lenD]; exact hi)
    rw [writeAt_eq_some _ _ _ (by omega) (by simp; omega)]
    simp only [Option.some_bind, Int.toNat_ofNat, hmd]
    have hcountK0 : st.agglomIndex.count st.nCoarseEqns = 0 := by
      rw [List.count_eq_zero]
      intro hmem
      have := hinv.range _ hmem
      omega
    have hg0 : GrowInv ctx.cols nRows ctx.groupSize
        (st.agglomIndex.set eqnI st.nCoarseEqns) st.nCoarseEqns eqnI
        { agglomIndex := st.agglomIndex.set eqnI st.nCoarseEqns, curEqn := (eqnI : Int),
          indexUngrouped := -1, indexGrouped := -1, groupPassI := 1 } := by
      refine ⟨by simp [hlenA], by simp only; omega, ?_, fun i a h _ => h, fun _ _ _ => rfl, ?_,
        by simp only; omega, fun _ => ⟨rfl, rfl, Or.inl rfl⟩⟩
      · simp only [Int.toNat_ofNat]
        rw [List.getElem?_set_self (by omega)]
      · simp only
        rw [count_set_fresh _ _ _ _ ha (by omega), if_pos rfl, hcountK0]
        simp
    obtain ⟨g, hgrun, hg⟩ := growLoop_spec ops ctx nRows hctx st.sizeOfGroups hinv.lenS md
      _ _ eqnI hK0 hK1 (ctx.groupSize.toNat + 1) _ (by simp only; omega) hg0
    rw [hgrun]
    simp only [Option.some_bind]
    by_cases hcond : g.groupPassI > 1 ∨ g.indexGrouped = -1
    · have ht : sealTest ctx st.sizeOfGroups g = some true := by
        unfold sealTest
        rw [if_pos hcond]
        rfl
      rw [ht]
      simp only [Option.some_bind, if_true]
      exact sealGroup_spec ctx.cols nRows ctx.groupSize w st eqnI g hinv ha hK1 hg
    · have hp1 : g.groupPassI = 1 := by
        have := hg.pass
        omega
      obtain ⟨hagg, _, hG⟩ := hg.first hp1
      rcases hG with hG | ⟨col, ac, hcol, hac, hac1, hac2⟩
      · exact absurd (Or.inr hG) hcond
      · have hacg : g.agglomIndex[col]? = some ac := by rw [hagg]; exact hac
        have hr := grow_range ctx.cols nRows ctx.groupSize w st eqnI g hinv ha hg ac
          (List.mem_iff_getElem?.mpr ⟨col, hacg⟩)
        have hacR : 0 ≤ ac ∧ ac < st.nCoarseEqns := by omega
        obtain ⟨sz, hsz⟩ := getElem?_of_lt st.sizeOfGroups ac.toNat
          (by have := hinv.lenS; omega)
        have ht : sealTest ctx st.sizeOfGroups g
            = some (decide (sz > ctx.groupSize + 2)) := by
          unfold sealTest
          rw [if_neg hcond]
          simp only [hcol, Option.bind_eq_bind, Option.some_bind, readAt_natCast, hacg]
          rw [readAt_of_getElem? _ _ _ hacR.1 hsz]
          rfl
        rw [ht]
        simp only [Option.some_bind]
        by_cases hbig : sz > ctx.groupSize + 2
        · rw [if_pos (by simpa using hbig)]
          exact sealGroup_spec ctx.cols nRows ctx.groupSize w st eqnI g hinv ha hK1 hg
        · rw [if_neg (by simpa using hbig)]
          exact mergeSeed_spec ctx nRows w st eqnI g hinv ha hagg col ac sz hcol hacg
            hacR.1 hacR.2 hsz (by omega)
  · rw [if_neg ha1]
    exact ⟨st, rfl, hinv, fun i a h _ => h, a, ha, ha1⟩

theorem mainLoop_spec {α : Type} (ops : ScalarOps α) (ctx : ClusterCtx α) (nRows : Nat)
    (hctx : CtxOK ctx nRows) (w : Int) (st : ClusterState)
    (hinv : MainInv nRows ctx.groupSize w st) :
    ∃ st', (List.range nRows).foldlM (eqnStep ops ctx) st = some st' ∧
      MainInv nRows ctx.groupSize w st' ∧
      (∀ a ∈ st'.agglomIndex, 0 ≤ a ∧ a < st'.nCoarseEqns) ∧
      (∀ (i : Nat) (a : Int), st.agglomIndex[i]? = some a → a ≠ -1 →
        st'.agglomIndex[i]? = some a) := by
  obtain ⟨st', hrun, hinv', hdone, hmono⟩ := foldlM_range_inv (eqnStep ops ctx)
    (fun n s => MainInv nRows ctx.groupSize w s ∧
      (∀ (i : Nat) (a : Int), i < n → s.agglomIndex[i]? = some a → a ≠ -1) ∧
      (∀ (i : Nat) (a : Int), st.agglomIndex[i]? = some a → a ≠ -1 →
        s.agglomIndex[i]? = some a))
    nRows st ⟨hinv, fun i a hi => by omega, fun i a h _ => h⟩
    (by
      intro k s hk ⟨hs1, hs2, hs3⟩
      obtain ⟨s', hrun, hpost1, hpost2, a', ha', hne'⟩ :=
        eqnStep_spec ops ctx nRows hctx w s k hs1 hk
      refine ⟨s', hrun, hpost1, ?_, ?_⟩
      · intro i a hi hia
        by_cases hik : i = k
        · subst hik
          rw [ha'] at hia
          rw [← Option.some.inj hia]
          exact hne'
        · obtain ⟨b, hb⟩ := getElem?_of_lt s.agglomIndex i (by have := hs1.lenA; omega)
          have hbne := hs2 i b (by omega) hb
          have := hpost2 i b hb hbne
          rw [this] at hia
          rw [← Option.some.inj hia]
          exact hbne
      · intro i a hia hne
        exact hpost2 i a (hs3 i a hia hne) hne)
  refine ⟨st', hrun, hinv', ?_, hmono⟩
  intro a hmem
  obtain ⟨i, hi⟩ := List.mem_iff_getElem?.mp hmem
  have hlt : i < nRows := by
    have := lt_of_getElem? _ _ _ hi
    have := hinv'.lenA
    omega
  have hne := hdone i a hlt hi
  have := hinv'.range a hmem
  omega

/-! ## The whole clustering -/

theorem ctxOK_of_wellFormed {α : Type} (m : BlockLduMatrix α) (hwf : WellFormed m)
    (rowOffset : List Int) (f : RowFill) (magOffDiag : List α) (groupSize : Int)
    (hro : ∀ j, j ≤ m.nRows → rowOffset[j]? = some (rowStart m.upperAddr m.lowerAddr j : Int))
    (hent : ∀ i p, i < m.nRows → rowStart m.upperAddr m.lowerAddr i ≤ p →
      p < rowStart m.upperAddr m.lowerAddr (i + 1) →
      RowEntry m.upperAddr m.lowerAddr f.cols f.cIndex i p)
    (hmo : magOffDiag.length = m.upperAddr.length) :
    CtxOK { rowOffset := rowOffset, cols := f.cols, cIndex := f.cIndex, magDiag := m.magDiag,
            magOffDiag := magOffDiag, groupSize := groupSize } m.nRows := by
  refine ⟨hwf.diagLen, ?_⟩
  intro i hi
  refine ⟨rowStart m.upperAddr m.lowerAddr i, rowStart m.upperAddr m.lowerAddr (i + 1),
    hro i (by omega), hro (i + 1) (by omega), ?_⟩
  intro p hp1 hp2
  have haddr := hwf.addrLen
  rcases hent i p hi hp1 hp2 with ⟨c, col, h1, h2, h3, h4⟩ | ⟨c, col, h1, h2, h3, h4⟩
  · have hv := hwf.lowerValid col (List.mem_iff_getElem?.mpr ⟨c, h4⟩)
    have hc := lt_of_getElem? _ _ _ h3
    refine ⟨col.toNat, c, ?_, by omega, h1, by simp only; omega⟩
    have : ((col.toNat : Nat) : Int) = col := by omega
    rw [this]
    exact h2
  · have hv := hwf.upperValid col (List.mem_iff_getElem?.mpr ⟨c, h4⟩)
    have hc := lt_of_getElem? _ _ _ h3
    refine ⟨col.toNat, c, ?_, by omega, h1, by simp only; omega⟩
    have : ((col.toNat : Nat) : Int) = col := by omega
    rw [this]
    exact h2

theorem calcZeroCluster_spec {α : Type} (ops : ScalarOps α) (diagFactor : α)
    (m : BlockLduMatrix α) (hwf : WellFormed m) (mo : List α)
    (hmo : mo.length = m.upperAddr.length) :
    ∃ zc, calcZeroCluster ops diagFactor m mo = some zc ∧ zc.length = m.nRows := by
  unfold calcZeroCluster
  exact markStrong_spec ops m.upperAddr m.lowerAddr mo _ _ m.nRows hwf.upperValid
    hwf.lowerValid hmo (by rw [hmo]; exact hwf.addrLen) (by simp [hwf.diagLen])
    (by simp [hwf.diagLen])

theorem calcAgglomeration_clustered {α : Type} (ops : ScalarOps α) (diagFactor : α)
    (m : BlockLduMatrix α) (groupSize minCoarseEqns : Int) (st : AgglomState)
    (hwf : WellFormed m) (hst : st.agglomIndex.length = m.nRows) (mo : List α)
    (hmo : calcMagOffDiag ops m = some mo) :
    ∃ zc cs, calcZeroCluster ops diagFactor m mo = some zc ∧ zc.length = m.nRows ∧
      calcAgglomeration ops diagFactor singlePartition m groupSize minCoarseEqns st
        = some { agglomIndex := cs.agglomIndex, nCoarseEqns := cs.nCoarseEqns,
                 coarsen := ((if cs.nCoarseEqns > minCoarseEqns ∧
                    3 * cs.nCoarseEqns ≤ 2 * (m.nRows : Int) then true else st.coarsen)
                    && true) } ∧
      MainInv m.nRows groupSize (if true ∈ zc then 1 else 0) cs ∧
      (∀ a ∈ cs.agglomIndex, 0 ≤ a ∧ a < cs.nCoarseEqns) ∧
      (∀ i : Nat, zc[i]? = some true → cs.agglomIndex[i]? = some 0) := by
  obtain ⟨ro, hro, _, hrospec⟩ := calcRowOffset_spec m.nRows m.upperAddr m.lowerAddr
    hwf.upperValid hwf.lowerValid
  obtain ⟨f, hf, _, _, hent⟩ := calcCols_spec ro m.upperAddr m.lowerAddr st.agglomIndex m.nRows
    hrospec hwf.upperValid hwf.lowerValid hwf.addrLen hst
  have hmolen := calcMagOffDiag_length ops m hwf mo hmo
  obtain ⟨zc, hzc, hzclen⟩ := calcZeroCluster_spec ops diagFactor m hwf mo hmolen
  obtain ⟨nSolo, agg, hsolo, hagglen, hns0, hnsz, hnsa, haggr, haggz⟩ :=
    collectSolo_spec zc m.nRows hzclen
  have hctx := ctxOK_of_wellFormed m hwf ro f mo groupSize hrospec hent hmolen
  have hw : (if nSolo + singlePartition.nSoloOthers > 0 then (0 : Int) + 1 else 0)
      = (if true ∈ zc then 1 else 0) := by
    have : singlePartition.nSoloOthers = 0 := rfl
    rw [this]
    by_cases hz : true ∈ zc
    · rw [if_pos hz, if_pos (by have := hnsz.mpr hz; omega)]
      rfl
    · rw [if_neg hz, if_neg (by intro h; exact hz (hnsz.mp (by omega)))]
  have hinv0 : MainInv m.nRows groupSize (if true ∈ zc then 1 else 0)
      { agglomIndex := agg, sizeOfGroups := List.replicate m.nRows 0,
        nCoarseEqns := (if true ∈ zc then 1 else 0) } := by
    refine ⟨hagglen, by simp, ⟨by split <;> omega, le_refl _⟩, ?_, ?_, ?_, ?_⟩
    · intro a ha
      rcases haggr a ha with h | h
      · exact Or.inl h
      · right
        have hz : true ∈ zc := hnsz.mp (hnsa.mpr (h ▸ ha))
        simp only [if_pos hz]
        omega
    · intro k hk0 hk1
      simp only at hk1
      by_cases hz : true ∈ zc
      · rw [if_pos hz] at hk1
        have : k = 0 := by omega
        rw [this]
        exact hnsa.mp (hnsz.mpr hz)
      · rw [if_neg hz] at hk1
        omega
    · intro k hk0 hk1
      simp only at hk1
      omega
    · intro k _ hk1
      simp only
      exact List.getElem?_replicate_of_lt hk1
  obtain ⟨cs, hcs, hinv, hrange, hmono⟩ := mainLoop_spec ops
    { rowOffset := ro, cols := f.cols, cIndex := f.cIndex, magDiag := m.magDiag,
      magOffDiag := mo, groupSize := groupSize } m.nRows hctx _ _ hinv0
  refine ⟨zc, cs, hzc, hzclen, ?_, hinv, hrange, ?_⟩
  · unfold calcAgglomeration
    simp only [hro, hf, hmo, hzc, hst, hsolo, hw, Option.bind_eq_bind, Option.some_bind]
    rw [hcs]
    rfl
  · intro i hi
    have hlt : i < m.nRows := by
      have := lt_of_getElem? _ _ _ hi
      omega
    have h0 := haggz i hlt
    rw [if_pos hi] at h0
    exact hmono i 0 h0 (by omega)

theorem calcAgglomeration_diagOnly {α : Type} (ops : ScalarOps α) (diagFactor : α)
    (env : ParEnv) (m : BlockLduMatrix α) (groupSize minCoarseEqns : Int) (st : AgglomState)
    (hu : ValidAddr m.upperAddr m.nRows) (hl : ValidAddr m.lowerAddr m.nRows)
    (hlen : m.upperAddr.length = m.lowerAddr.length) (hst : st.agglomIndex.length = m.nRows)
    (hs : m.symmetric = false) (ha : m.asymmetric = false) :
    calcAgglomeration ops diagFactor env m groupSize minCoarseEqns st
      = some { agglomIndex := List.replicate m.nRows 0, nCoarseEqns := 1,
               coarsen := st.coarsen } := by
  obtain ⟨ro, hro, _, hrospec⟩ := calcRowOffset_spec m.nRows m.upperAddr m.lowerAddr hu hl
  obtain ⟨f, hf, _⟩ := calcCols_spec ro m.upperAddr m.lowerAddr st.agglomIndex m.nRows
    hrospec hu hl hlen hst
  have hmo : calcMagOffDiag ops m = none := by
    unfold calcMagOffDiag
    simp [hs, ha]
  unfold calcAgglomeration
  simp only [hro, hf, hmo, hst, Option.bind_eq_bind, Option.some_bind, List.length_replicate]
  rfl

/-- C1. On a single partition, for every well-formed matrix with at least one
equation (symmetric, asymmetric or diagonal only), `calcAgglomeration` returns
and the final `agglomIndex` has one entry per equation, every entry lies in
`[0, nCoarseEqns)` (none is left at `-1`), and every cluster index of that
range is the entry of some equation. -/
theorem calcAgglomeration_map_surjective {α : Type} (ops : ScalarOps α) (diagFactor : α)
    (m : BlockLduMatrix α) (groupSize minCoarseEqns : Int) (st : AgglomState)
    (hwf : WellFormed m) (hrows : 1 ≤ m.nRows) (hst : st.agglomIndex.length = m.nRows) :
    ∃ st', calcAgglomeration ops diagFactor singlePartition m groupSize minCoarseEqns st
        = some st' ∧
      st'.agglomIndex.length = m.nRows ∧
      (∀ a ∈ st'.agglomIndex, 0 ≤ a ∧ a < st'.nCoarseEqns) ∧
      (∀ k : Int, 0 ≤ k → k < st'.nCoarseEqns →
        ∃ i : Nat, i < m.nRows ∧ st'.agglomIndex[i]? = some k) := by
  cases hmo : calcMagOffDiag ops m with
  | none =>
    have hsa : m.symmetric = false ∧ m.asymmetric = false := by
      unfold calcMagOffDiag at hmo
      by_cases ha : m.asymmetric = true
      · rw [if_pos ha] at hmo
        cases hmo
      · rw [if_neg ha] at hmo
        by_cases hs : m.symmetric = true
        · rw [if_pos hs] at hmo
          cases hmo
        · exact ⟨by simpa using hs, by simpa using ha⟩
    refine ⟨_, calcAgglomeration_diagOnly ops diagFactor singlePartition m groupSize
      minCoarseEqns st hwf.upperValid hwf.lowerValid hwf.addrLen hst hsa.1 hsa.2, by simp, ?_, ?_⟩
    · intro a ha
      have := List.eq_of_mem_replicate ha
      simp only
      omega
    · intro k hk0 hk1
      simp only at hk1
      have hk : k = 0 := by omega
      exact ⟨0, by omega, by rw [hk]; exact List.getElem?_replicate_of_lt (by omega)⟩
  | some mo =>
    obtain ⟨zc, cs, _, _, hrun, hinv, hrange, _⟩ := calcAgglomeration_clustered ops diagFactor m
      groupSize minCoarseEqns st hwf hst mo hmo
    refine ⟨_, hrun, hinv.lenA, hrange, ?_⟩
    intro k hk0 hk1
    obtain ⟨i, hi⟩ := List.mem_iff_getElem?.mp (hinv.surj k hk0 hk1)
    exact ⟨i, by have := lt_of_getElem? _ _ _ hi; have := hinv.lenA; omega, hi⟩

/-- C7. Diagonal-only matrix: for a matrix that is neither symmetric nor
asymmetric, of any size, with any `groupSize` and `minCoarseEqns` (and on any
number of partitions), the constructor returns with `agglomIndex[i] = 0` for
every equation, `nCoarseEqns = 1` and `coarsen = false`. -/
theorem construct_diagOnly {α : Type} (ops : ScalarOps α) (diagFactor : α) (env : ParEnv)
    (m : BlockLduMatrix α) (groupSize minCoarseEqns : Int)
    (hu : ValidAddr m.upperAddr m.nRows) (hl : ValidAddr m.lowerAddr m.nRows)
    (hlen : m.upperAddr.length = m.lowerAddr.length)
    (hs : m.symmetric = false) (ha : m.asymmetric = false) :
    construct ops diagFactor env m groupSize minCoarseEqns
      = some { agglomIndex := List.replicate m.nRows 0, nCoarseEqns := 1, coarsen := false } := by
  unfold construct
  exact calcAgglomeration_diagOnly ops diagFactor env m groupSize minCoarseEqns _ hu hl hlen
    (by simp) hs ha

/-- C8. Local coarsen gate: for a symmetric or asymmetric well-formed matrix
on a single partition, the constructor returns and `coarsen` is true exactly
when `nCoarseEqns > minCoarseEqns` and `3 * nCoarseEqns <= 2 * nRows`; when
every equation is its own cluster (`nCoarseEqns = nRows >= 1`) it is false. -/
theorem construct_coarsen_gate {α : Type} (ops : ScalarOps α) (diagFactor : α)
    (m : BlockLduMatrix α) (groupSize minCoarseEqns : Int) (hwf : WellFormed m)
    (hsym : m.symmetric = true ∨ m.asymmetric = true) :
    ∃ st, construct ops diagFactor singlePartition m groupSize minCoarseEqns = some st ∧
      (st.coarsen = true ↔
        st.nCoarseEqns > minCoarseEqns ∧ 3 * st.nCoarseEqns ≤ 2 * (m.nRows : Int)) ∧
      (st.nCoarseEqns = (m.nRows : Int) → 1 ≤ m.nRows → st.coarsen = false) := by
  have hmo : ∃ mo, calcMagOffDiag ops m = some mo := by
    unfold calcMagOffDiag
    by_cases ha : m.asymmetric = true
    · exact ⟨_, if_pos ha⟩
    · rcases hsym with hs | ha'
      · rw [if_neg ha, if_pos hs]
        exact ⟨_, rfl⟩
      · exact absurd ha' ha
  obtain ⟨mo, hmo⟩ := hmo
  obtain ⟨zc, cs, _, _, hrun, _, _, _⟩ := calcAgglomeration_clustered ops diagFactor m
    groupSize minCoarseEqns ⟨List.replicate m.nRows (-1), 0, false⟩ hwf (by simp) mo hmo
  refine ⟨_, hrun, ?_, ?_⟩
  · simp only [Bool.and_true]
    constructor
    · intro h
      by_contra hc
      rw [if_neg hc] at h
      cases h
    · intro h
      rw [if_pos h]
  · intro h1 h2
    simp only at h1
    simp only [Bool.and_true]
    rw [if_neg (by omega)]

theorem chain5_wellFormed : WellFormed chain5 :=
  ⟨by decide, by unfold ValidAddr; decide, by unfold ValidAddr; decide, by decide,
    fun _ => by decide, fun h => by cases h⟩

theorem star6_wellFormed : WellFormed star6 :=
  ⟨by decide, by unfold ValidAddr; decide, by unfold ValidAddr; decide, by decide,
    fun _ => by decide, fun h => by cases h⟩

/-- Witness of C1 on the chain of five equations. -/
theorem calcAgglomeration_map_surjective_witness :
    ∃ st', calcAgglomeration ratOps diagFactorDefault singlePartition chain5 4 2
        ⟨List.replicate 5 (-1), 0, false⟩ = some st' ∧
      st'.agglomIndex.length = chain5.nRows ∧
      (∀ a ∈ st'.agglomIndex, 0 ≤ a ∧ a < st'.nCoarseEqns) ∧
      (∀ k : Int, 0 ≤ k → k < st'.nCoarseEqns →
        ∃ i : Nat, i < chain5.nRows ∧ st'.agglomIndex[i]? = some k) :=
  calcAgglomeration_map_surjective ratOps diagFactorDefault chain5 4 2
    ⟨List.replicate 5 (-1), 0, false⟩ chain5_wellFormed (by decide) (by decide)

/-- Witness of C7 on the diagonal-only matrix of five equations. -/
theorem construct_diagOnly_witness :
    construct ratOps diagFactorDefault singlePartition diag5 4 2
      = some { agglomIndex := List.replicate diag5.nRows 0, nCoarseEqns := 1, coarsen := false } :=
  construct_diagOnly ratOps diagFactorDefault singlePartition diag5 4 2
    (by unfold ValidAddr; decide) (by unfold ValidAddr; decide) (by decide) rfl rfl

/-- Witness of C8 on the chain of five equations. -/
theorem construct_coarsen_gate_witness :
    ∃ st, construct ratOps diagFactorDefault singlePartition chain5 4 2 = some st ∧
      (st.coarsen = true ↔
        st.nCoarseEqns > 2 ∧ 3 * st.nCoarseEqns ≤ 2 * (chain5.nRows : Int)) ∧
      (st.nCoarseEqns = (chain5.nRows : Int) → 1 ≤ chain5.nRows → st.coarsen = false) :=
  construct_coarsen_gate ratOps diagFactorDefault chain5 4 2 chain5_wellFormed (Or.inl rfl)

/-! ## Size of the clusters -/

theorem count_eq_sum_range (l : List Int) (k : Int) :
    l.count k = ∑ i in Finset.range l.length, if l[i]? = some k then 1 else 0 := by
  induction l with
  | nil => simp
  | cons a l ih =>
    rw [List.count_cons, List.length_cons, Finset.sum_range_succ', ih]
    simp only [List.getElem?_cons_succ, List.getElem?_cons_zero, Option.some.injEq, beq_iff_eq]

theorem clusterSize_eq_count (agglomIndex : List Int) (k : Nat) :
    clusterSize agglomIndex k = agglomIndex.count (k : Int) := by
  unfold clusterSize
  rw [Finset.card_filter, count_eq_sum_range]

/-- Size bound that the code satisfies: for a symmetric or asymmetric
well-formed matrix on a single partition and `groupSize >= 1`, every cluster
other than the weak cluster (cluster 0 when some equation is marked weak) has
at most `2 * groupSize + 2` member equations: at most `groupSize` from its
growth and at most `groupSize + 2` seeds merged into it afterwards. -/
theorem cluster_size_bound {α : Type} (ops : ScalarOps α) (diagFactor : α)
    (m : BlockLduMatrix α) (groupSize minCoarseEqns : Int) (hwf : WellFormed m)
    (hsym : m.symmetric = true ∨ m.asymmetric = true) (hgs : 1 ≤ groupSize) :
    ∃ zc st, weakEquations ops diagFactor m = some zc ∧
      construct ops diagFactor singlePartition m groupSize minCoarseEqns = some st ∧
      ∀ k : Nat, (if true ∈ zc then 1 else 0) ≤ k → (k : Int) < st.nCoarseEqns →
        (clusterSize st.agglomIndex k : Int) ≤ 2 * groupSize + 2 := by
  have hmo : ∃ mo, calcMagOffDiag ops m = some mo := by
    unfold calcMagOffDiag
    by_cases ha : m.asymmetric = true
    · exact ⟨_, if_pos ha⟩
    · rcases hsym with hs | ha'
      · rw [if_neg ha, if_pos hs]
        exact ⟨_, rfl⟩
      · exact absurd ha' ha
  obtain ⟨mo, hmo⟩ := hmo
  obtain ⟨zc, cs, hzc, _, hrun, hinv, _, _⟩ := calcAgglomeration_clustered ops diagFactor m
    groupSize minCoarseEqns ⟨List.replicate m.nRows (-1), 0, false⟩ hwf (by simp) mo hmo
  refine ⟨zc, _, by unfold weakEquations; rw [hmo]; exact hzc, hrun, ?_⟩
  intro k hk0 hk1
  simp only at hk1 ⊢
  have hw : (if true ∈ zc then (1 : Int) else 0) ≤ (k : Int) := by
    by_cases hz : true ∈ zc
    · rw [if_pos hz] at hk0 ⊢
      omega
    · rw [if_neg hz]
      omega
  obtain ⟨sz, _, hb1, hb2⟩ := hinv.sizes k hw hk1
  rw [clusterSize_eq_count]
  omega

/-- The size bound on the star of six equations. -/
theorem cluster_size_bound_witness :
    ∃ zc st, weakEquations ratOps diagFactorDefault star6 = some zc ∧
      construct ratOps diagFactorDefault singlePartition star6 2 0 = some st ∧
      ∀ k : Nat, (if true ∈ zc then 1 else 0) ≤ k → (k : Int) < st.nCoarseEqns →
        (clusterSize st.agglomIndex k : Int) ≤ 2 * 2 + 2 :=
  cluster_size_bound ratOps diagFactorDefault star6 2 0 star6_wellFormed (Or.inl rfl)
    (by decide)

/-- The cap `groupSize + 2` fails: on the star of six equations with `groupSize = 2` no
equation is weak and the clustering puts all six equations into cluster 0,
more than `groupSize + 2 = 4`. -/
theorem cluster_cap_counterexample :
    ¬ (∀ zc st, weakEquations ratOps diagFactorDefault star6 = some zc →
      construct ratOps diagFactorDefault singlePartition star6 2 0 = some st →
      ∀ k : Nat, (if true ∈ zc then 1 else 0) ≤ k → (k : Int) < st.nCoarseEqns →
        (clusterSize st.agglomIndex k : Int) ≤ 2 + 2) := by
  intro h
  have h1 : weakEquations ratOps diagFactorDefault star6 = some (List.replicate 6 false) := by
    decide!
  have h2 : construct ratOps diagFactorDefault singlePartition star6 2 0
      = some ⟨[0, 0, 0, 0, 0, 0], 1, true⟩ := by decide!
  have h3 := h _ _ h1 h2 0 (by decide) (by decide)
  have h4 : clusterSize [0, 0, 0, 0, 0, 0] 0 = 6 := by decide!
  simp only [h4] at h3
  omega

/-! ## The chain of five equations -/

theorem calcAgglomeration_minCoarse_indep {α : Type} (ops : ScalarOps α) (diagFactor : α)
    (env : ParEnv) (m : BlockLduMatrix α) (groupSize mce1 mce2 : Int) (st : AgglomState) :
    (calcAgglomeration ops diagFactor env m groupSize mce1 st).map
        (fun s => (s.agglomIndex, s.nCoarseEqns))
      = (calcAgglomeration ops diagFactor env m groupSize mce2 st).map
        (fun s => (s.agglomIndex, s.nCoarseEqns)) := by
  simp only [calcAgglomeration, Option.bind_eq_bind]
  cases calcRowOffset m.nRows m.upperAddr m.lowerAddr with
  | none => rfl
  | some ro =>
    simp only [Option.some_bind]
    cases calcCols ro m.upperAddr m.lowerAddr st.agglomIndex with
    | none => rfl
    | some f =>
      simp only [Option.some_bind]
      cases calcMagOffDiag ops m with
      | none => rfl
      | some mo =>
        simp only
        cases calcZeroCluster ops diagFactor m mo with
        | none => rfl
        | some zc =>
          simp only [Option.some_bind]
          cases collectSolo zc 0 (List.replicate st.agglomIndex.length (-1)) with
          | none => rfl
          | some p =>
            simp only [Option.some_bind]
            cases List.foldlM (eqnStep ops _) _ (List.range m.nRows) with
            | none => rfl
            | some cs => rfl

/-- C10 (amended). On the chain of five equations with `groupSize = 4`,
`diagFactor = 1e-8` and `weightFactor = 0.65`, no equation is weak, the growth
of the first seed takes the equations 0 to 3 and the seed 4 is merged into
that cluster: `agglomIndex = [0, 0, 0, 0, 0]`, `nCoarseEqns = 1`, and the local
coarsen flag is true exactly when `minCoarseEqns < 1` (`3 * 1 <= 2 * 5`). -/
theorem chain5_clustering (minCoarseEqns : Int) :
    weakEquations ratOps diagFactorDefault chain5 = some (List.replicate 5 false) ∧
      construct ratOps diagFactorDefault singlePartition chain5 4 minCoarseEqns
        = some ⟨[0, 0, 0, 0, 0], 1, decide (minCoarseEqns < 1)⟩ := by
  refine ⟨by decide!, ?_⟩
  have h0 : construct ratOps diagFactorDefault singlePartition chain5 4 0
      = some ⟨[0, 0, 0, 0, 0], 1, true⟩ := by decide!
  obtain ⟨_, cs, _, _, hst, _, _, _⟩ := calcAgglomeration_clustered ratOps diagFactorDefault
    chain5 4 minCoarseEqns ⟨List.replicate chain5.nRows (-1), 0, false⟩ chain5_wellFormed
    (by decide) chain5.magUpper rfl
  have hind := calcAgglomeration_minCoarse_indep ratOps diagFactorDefault singlePartition
    chain5 4 minCoarseEqns 0 ⟨List.replicate chain5.nRows (-1), 0, false⟩
  unfold construct at h0
  rw [hst, h0] at hind
  simp only [Option.map_some', Option.some.injEq, Prod.mk.injEq] at hind
  unfold construct
  rw [hst, hind.1, hind.2]
  have h5 : (chain5.nRows : Int) = 5 := rfl
  rw [h5]
  by_cases hm : minCoarseEqns < 1
  · rw [decide_eq_true hm, if_pos ⟨by omega, by omega⟩]
    rfl
  · rw [decide_eq_false hm, if_neg (by omega)]
    rfl

/-- C10 as stated fails: with `minCoarseEqns = 2 < 3` the clustering of the
chain does not end with three clusters and a true coarsen flag. -/
theorem chain5_counterexample :
    ¬ ∃ st, construct ratOps diagFactorDefault singlePartition chain5 4 2 = some st ∧
      st.nCoarseEqns = 3 ∧ st.coarsen = true := by
  rintro ⟨st, hst, h3, _⟩
  have h0 : construct ratOps diagFactorDefault singlePartition chain5 4 2
      = some ⟨[0, 0, 0, 0, 0], 1, false⟩ := by decide!
  rw [h0] at hst
  cases hst
  simp at h3

/-! ## Restriction of the residual -/

theorem restrictResidual_prefix {β : Type} [AddCommMonoid β] (agglomIndex : List Int)
    (res : List β) (nCoarseEqns : Nat) (hlen : agglomIndex.length = res.length)
    (hval : ValidAgglom agglomIndex nCoarseEqns) (init : List β)
    (hinit : init.length = nCoarseEqns) :
    ∀ n, n ≤ res.length →
      ∃ out, (List.range n).foldlM (restrictResidualStep agglomIndex res) init = some out ∧
        out.length = nCoarseEqns ∧
        ∀ k : Nat, k < nCoarseEqns →
          out[k]? = some (init.getD k 0 +
            ∑ i in (Finset.range n).filter (fun i => agglomIndex[i]? = some (k : Int)),
              res.getD i 0) := by
  intro n
  induction n with
  | zero =>
    intro _
    refine ⟨init, by simp, hinit, ?_⟩
    intro k hk
    have hk2 : k < init.length := by omega
    rw [List.getD_eq_getElem _ _ hk2, List.getElem?_eq_getElem hk2]
    simp
  | succ n ih =>
    intro hn
    obtain ⟨out, hout, holen, hsum⟩ := ih (by omega)
    have hn1 : n < agglomIndex.length := by omega
    have hn2 : n < res.length := by omega
    have ha := hval agglomIndex[n] (List.getElem_mem hn1)
    have hk0 : (agglomIndex[n]).toNat < out.length := by omega
    have hstep : restrictResidualStep agglomIndex res out n
        = some (out.set (agglomIndex[n]).toNat (out[(agglomIndex[n]).toNat] + res[n])) := by
      simp only [restrictResidualStep, readAt_natCast, List.getElem?_eq_getElem hn1,
        List.getElem?_eq_getElem hn2, Option.bind_eq_bind, Option.some_bind]
      rw [readAt_eq_some out _ ha.1 hk0]
      simp only [Option.some_bind]
      rw [writeAt_eq_some _ _ _ ha.1 hk0]
    refine ⟨out.set (agglomIndex[n]).toNat (out[(agglomIndex[n]).toNat] + res[n]), ?_, ?_, ?_⟩
    · rw [List.range_succ, List.foldlM_append, hout]
      simp only [Option.bind_eq_bind, Option.some_bind, List.foldlM_cons, List.foldlM_nil, hstep]
      rfl
    · simp [holen]
    · intro k hk
      have hk2 : k < out.length := by omega
      have hprev := hsum k hk
      rw [List.getElem?_eq_getElem hk2] at hprev
      have hprev2 : out[k] = init.getD k 0 +
            ∑ i in (Finset.range n).filter (fun i => agglomIndex[i]? = some (k : Int)),
              res.getD i 0 := Option.some.inj hprev
      rw [Finset.range_succ, Finset.filter_insert]
      by_cases hk3 : (agglomIndex[n]).toNat = k
      · have hk4 : agglomIndex[n]? = some (k : Int) := by
          rw [List.getElem?_eq_getElem hn1]; congr 1; omega
        rw [if_pos hk4, Finset.sum_insert (by simp)]
        subst hk3
        simp only [List.getElem?_set_self hk0, Option.some.injEq]
        rw [hprev2]
        rw [List.getD_eq_getElem _ _ hn2]
        abel
      · have hk4 : ¬ agglomIndex[n]? = some (k : Int) := by
          rw [List.getElem?_eq_getElem hn1]
          intro h
          have := Option.some.inj h
          omega
        rw [if_neg hk4, List.getElem?_set_ne hk3, List.getElem?_eq_getElem hk2, hprev2]

/-- C2. `restrictResidual` returns, and the coarse residual of cluster `k` is
the sum of the fine residuals of exactly the equations mapped to `k`, whatever
`coarseRes` held before the call. -/
theorem restrictResidual_clusterSum {β : Type} [AddCommMonoid β] (agglomIndex : List Int)
    (res coarseRes : List β) (nCoarseEqns : Nat) (hlen : agglomIndex.length = res.length)
    (hval : ValidAgglom agglomIndex nCoarseEqns) (hc : coarseRes.length = nCoarseEqns) :
    ∃ out, restrictResidual agglomIndex res coarseRes = some out ∧
      out.length = nCoarseEqns ∧
      ∀ k : Nat, k < nCoarseEqns →
        out[k]? = some
          (∑ i in (Finset.range res.length).filter (fun i => agglomIndex[i]? = some (k : Int)),
            res.getD i 0) := by
  obtain ⟨out, h1, h2, h3⟩ := restrictResidual_prefix agglomIndex res nCoarseEqns hlen hval
    (List.replicate coarseRes.length 0) (by simp [hc]) res.length (le_refl _)
  refine ⟨out, h1, h2, ?_⟩
  intro k hk
  rw [h3 k hk, List.getD_eq_getElem _ _ (by simp [hc, hk])]
  simp

/-- Witness of C2 on a residual of four entries and two clusters. -/
theorem restrictResidual_clusterSum_witness :
    ∃ out, restrictResidual [0, 1, 0, 1] [(1 : Int), 2, 3, 4] [7, 7] = some out ∧
      out.length = 2 ∧
      ∀ k : Nat, k < 2 →
        out[k]? = some
          (∑ i in (Finset.range ([(1 : Int), 2, 3, 4]).length).filter
              (fun i => ([0, 1, 0, 1] : List Int)[i]? = some (k : Int)),
            ([(1 : Int), 2, 3, 4]).getD i 0) :=
  restrictResidual_clusterSum [0, 1, 0, 1] [(1 : Int), 2, 3, 4] [7, 7] 2 (by decide)
    (by unfold ValidAgglom; decide) (by decide)

/-! ## Grouped sums -/

theorem sum_fiberwise_agglom {M : Type} [AddCommMonoid M] (agglomIndex : List Int)
    (nCoarseEqns : Nat) (hval : ValidAgglom agglomIndex nCoarseEqns) (n : Nat)
    (hn : n ≤ agglomIndex.length) (f : Nat → Nat → M) :
    ∑ k in Finset.range nCoarseEqns,
        ∑ i in (Finset.range n).filter (fun i => agglomIndex[i]? = some (k : Int)), f k i
      = ∑ i in Finset.range n, f (agglomIndex.getD i 0).toNat i := by
  have hfilter : ∀ k : Nat, (Finset.range n).filter (fun i => agglomIndex[i]? = some (k : Int))
      = (Finset.range n).filter (fun i => (agglomIndex.getD i 0).toNat = k) := by
    intro k
    apply Finset.filter_congr
    intro i hi
    have hi2 : i < agglomIndex.length := by
      have := Finset.mem_range.mp hi
      omega
    have ha := hval agglomIndex[i] (List.getElem_mem hi2)
    rw [List.getD_eq_getElem _ _ hi2, List.getElem?_eq_getElem hi2]
    constructor
    · intro h
      have := Option.some.inj h
      omega
    · intro h
      congr 1
      omega
  have hmaps : ∀ i ∈ Finset.range n, (agglomIndex.getD i 0).toNat ∈ Finset.range nCoarseEqns := by
    intro i hi
    have hi2 : i < agglomIndex.length := by
      have := Finset.mem_range.mp hi
      omega
    have ha := hval agglomIndex[i] (List.getElem_mem hi2)
    rw [List.getD_eq_getElem _ _ hi2, Finset.mem_range]
    omega
  rw [← Finset.sum_fiberwise_of_maps_to hmaps (fun i => f (agglomIndex.getD i 0).toNat i)]
  apply Finset.sum_congr rfl
  intro k _
  rw [hfilter k]
  apply Finset.sum_congr rfl
  intro i hi
  rw [(Finset.mem_filter.mp hi).2]

theorem list_sum_eq_sum_range {M : Type} [AddCommMonoid M] (l : List M) :
    l.sum = ∑ i in Finset.range l.length, l.getD i 0 := by
  induction l with
  | nil => simp
  | cons a l ih =>
    rw [List.sum_cons, List.length_cons, Finset.sum_range_succ', ih]
    simp [add_comm]

theorem sum_range_getElem? {M : Type} [AddCommMonoid M] (l : List M) (n : Nat) (g : Nat → M)
    (hl : l.length = n) (h : ∀ k, k < n → l[k]? = some (g k)) :
    l.sum = ∑ k in Finset.range n, g k := by
  rw [list_sum_eq_sum_range, hl]
  apply Finset.sum_congr rfl
  intro k hk
  have hk2 := Finset.mem_range.mp hk
  have := h k hk2
  rw [List.getD_eq_getElem?_getD, this]
  rfl

/-- C3. Sum conservation: the entries of the restricted residual add up to the
sum of the entries of the fine residual. -/
theorem restrictResidual_sum {β : Type} [AddCommMonoid β] (agglomIndex : List Int)
    (res coarseRes : List β) (nCoarseEqns : Nat) (hlen : agglomIndex.length = res.length)
    (hval : ValidAgglom agglomIndex nCoarseEqns) (hc : coarseRes.length = nCoarseEqns) :
    ∃ out, restrictResidual agglomIndex res coarseRes = some out ∧ out.sum = res.sum := by
  obtain ⟨out, h1, h2, h3⟩ := restrictResidual_prefix agglomIndex res nCoarseEqns hlen hval
    (List.replicate coarseRes.length 0) (by simp [hc]) res.length (le_refl _)
  refine ⟨out, h1, ?_⟩
  have h4 : ∀ k : Nat, k < nCoarseEqns → out[k]? = some
      (∑ i in (Finset.range res.length).filter (fun i => agglomIndex[i]? = some (k : Int)),
        res.getD i 0) := by
    intro k hk
    rw [h3 k hk, List.getD_eq_getElem _ _ (by simp [hc, hk])]
    simp
  rw [sum_range_getElem? out nCoarseEqns _ h2 h4,
    sum_fiberwise_agglom agglomIndex nCoarseEqns hval res.length (by omega)
      (fun _ i => res.getD i 0), list_sum_eq_sum_range]

/-- Witness of C3 on a residual of four entries and two clusters. -/
theorem restrictResidual_sum_witness :
    ∃ out, restrictResidual [0, 1, 0, 1] [(1 : Int), 2, 3, 4] [7, 7] = some out ∧
      out.sum = ([(1 : Int), 2, 3, 4]).sum :=
  restrictResidual_sum [0, 1, 0, 1] [(1 : Int), 2, 3, 4] [7, 7] 2 (by decide)
    (by unfold ValidAgglom; decide) (by decide)

/-! ## Prolongation of the correction -/

theorem prolongateCorrection_prefix {β : Type} [Add β] [Zero β] (agglomIndex : List Int)
    (x coarseX : List β) (nCoarseEqns : Nat) (hlen : agglomIndex.length = x.length)
    (hval : ValidAgglom agglomIndex nCoarseEqns) (hc : coarseX.length = nCoarseEqns) :
    ∀ n, n ≤ x.length →
      ∃ out, (List.range n).foldlM (prolongateCorrectionStep agglomIndex coarseX) x = some out ∧
        out.length = x.length ∧
        ∀ i : Nat, i < x.length →
          out[i]? = some (if i < n then x.getD i 0 + coarseX.getD (agglomIndex.getD i 0).toNat 0
            else x.getD i 0) := by
  intro n
  induction n with
  | zero =>
    intro _
    refine ⟨x, by simp, rfl, ?_⟩
    intro i hi
    rw [List.getD_eq_getElem _ _ hi, List.getElem?_eq_getElem hi]
    simp
  | succ n ih =>
    intro hn
    obtain ⟨out, hout, holen, hval2⟩ := ih (by omega)
    have hn1 : n < agglomIndex.length := by omega
    have hn2 : n < out.length := by omega
    have ha := hval agglomIndex[n] (List.getElem_mem hn1)
    have hk0 : (agglomIndex[n]).toNat < coarseX.length := by omega
    have hstep : prolongateCorrectionStep agglomIndex coarseX out n
        = some (out.set n (out[n] + coarseX[(agglomIndex[n]).toNat])) := by
      simp only [prolongateCorrectionStep, readAt_natCast, List.getElem?_eq_getElem hn1,
        List.getElem?_eq_getElem hn2, Option.bind_eq_bind, Option.some_bind]
      rw [readAt_eq_some coarseX _ ha.1 hk0]
      simp only [Option.some_bind]
      rw [writeAt_eq_some _ _ _ (by omega) (by simpa using hn2)]
      simp
    refine ⟨out.set n (out[n] + coarseX[(agglomIndex[n]).toNat]), ?_, ?_, ?_⟩
    · rw [List.range_succ, List.foldlM_append, hout]
      simp only [Option.bind_eq_bind, Option.some_bind, List.foldlM_cons, List.foldlM_nil, hstep]
      rfl
    · simp [holen]
    · intro i hi
      have hprev := hval2 i hi
      by_cases hin : n = i
      · subst hin
        have hself := hval2 n hi
        rw [if_neg (by omega), List.getElem?_eq_getElem hn2] at hself
        rw [List.getElem?_set_self hn2, if_pos (by omega), Option.some.inj hself,
          List.getD_eq_getElem _ _ hn1, List.getD_eq_getElem _ _ hk0]
      · rw [List.getElem?_set_ne hin, hprev]
        by_cases hlt : i < n
        · rw [if_pos hlt, if_pos (by omega)]
        · rw [if_neg hlt, if_neg (by omega)]

/-- C4. `prolongateCorrection` returns, and every fine entry is its previous
value plus the coarse correction of its cluster. -/
theorem prolongateCorrection_adds {β : Type} [Add β] [Zero β] (agglomIndex : List Int)
    (x coarseX : List β) (nCoarseEqns : Nat) (hlen : agglomIndex.length = x.length)
    (hval : ValidAgglom agglomIndex nCoarseEqns) (hc : coarseX.length = nCoarseEqns) :
    ∃ out, prolongateCorrection agglomIndex x coarseX = some out ∧
      out.length = x.length ∧
      ∀ i : Nat, i < x.length →
        out[i]? = some (x.getD i 0 + coarseX.getD (agglomIndex.getD i 0).toNat 0) := by
  obtain ⟨out, h1, h2, h3⟩ := prolongateCorrection_prefix agglomIndex x coarseX nCoarseEqns
    hlen hval hc x.length (le_refl _)
  refine ⟨out, h1, h2, ?_⟩
  intro i hi
  rw [h3 i hi, if_pos hi]

/-- Witness of C4 on a fine vector of four entries and two clusters. -/
theorem prolongateCorrection_adds_witness :
    ∃ out, prolongateCorrection [0, 1, 0, 1] [(1 : Int), 2, 3, 4] [10, 20] = some out ∧
      out.length = ([(1 : Int), 2, 3, 4]).length ∧
      ∀ i : Nat, i < ([(1 : Int), 2, 3, 4]).length →
        out[i]? = some (([(1 : Int), 2, 3, 4]).getD i 0 +
          ([(10 : Int), 20]).getD ((([0, 1, 0, 1] : List Int).getD i 0).toNat) 0) :=
  prolongateCorrection_adds [0, 1, 0, 1] [(1 : Int), 2, 3, 4] [10, 20] 2 (by decide)
    (by unfold ValidAgglom; decide) (by decide)

/-- C5. Adjoint consistency: the total added to the fine vector equals the sum
over the clusters of the coarse value taken `clusterSize` times
(`n • c` is `c` added `n` times, i.e. `c * n` for scalars). -/
theorem prolongateCorrection_total {β : Type} [AddCommGroup β] (agglomIndex : List Int)
    (x coarseX : List β) (nCoarseEqns : Nat) (hlen : agglomIndex.length = x.length)
    (hval : ValidAgglom agglomIndex nCoarseEqns) (hc : coarseX.length = nCoarseEqns) :
    ∃ out, prolongateCorrection agglomIndex x coarseX = some out ∧
      ∑ i in Finset.range x.length, (out.getD i 0 - x.getD i 0)
        = ∑ k in Finset.range nCoarseEqns, clusterSize agglomIndex k • coarseX.getD k 0 := by
  obtain ⟨out, h1, _, h3⟩ := prolongateCorrection_prefix agglomIndex x coarseX nCoarseEqns
    hlen hval hc x.length (le_refl _)
  refine ⟨out, h1, ?_⟩
  have hleft : ∑ i in Finset.range x.length, (out.getD i 0 - x.getD i 0)
      = ∑ i in Finset.range x.length, coarseX.getD (agglomIndex.getD i 0).toNat 0 := by
    apply Finset.sum_congr rfl
    intro i hi
    rw [List.getD_eq_getElem?_getD out, h3 i (Finset.mem_range.mp hi),
      if_pos (Finset.mem_range.mp hi)]
    simp
  rw [hleft, ← sum_fiberwise_agglom agglomIndex nCoarseEqns hval x.length (by omega)
    (fun k _ => coarseX.getD k 0)]
  apply Finset.sum_congr rfl
  intro k _
  rw [Finset.sum_const, clusterSize, hlen]

/-- Witness of C5 on a fine vector of four entries and two clusters. -/
theorem prolongateCorrection_total_witness :
    ∃ out, prolongateCorrection [0, 1, 0, 1] [(1 : Int), 2, 3, 4] [10, 20] = some out ∧
      ∑ i in Finset.range ([(1 : Int), 2, 3, 4]).length,
          (out.getD i 0 - ([(1 : Int), 2, 3, 4]).getD i 0)
        = ∑ k in Finset.range 2, clusterSize [0, 1, 0, 1] k • ([(10 : Int), 20]).getD k 0 :=
  prolongateCorrection_total [0, 1, 0, 1] [(1 : Int), 2, 3, 4] [10, 20] 2 (by decide)
    (by unfold ValidAgglom; decide) (by decide)

/-- C6. Prolongation is the transpose of restriction: the inner product of the
restricted residual with `cx` equals the inner product of the residual with
the prolongation of `cx` onto a zero fine vector. -/
theorem restrict_prolongate_adjoint {R : Type} [CommSemiring R] (agglomIndex : List Int)
    (r coarseRes cx : List R) (nCoarseEqns : Nat) (hlen : agglomIndex.length = r.length)
    (hval : ValidAgglom agglomIndex nCoarseEqns) (hc : coarseRes.length = nCoarseEqns)
    (hcx : cx.length = nCoarseEqns) :
    ∃ cr p, restrictResidual agglomIndex r coarseRes = some cr ∧
      prolongateCorrection agglomIndex (List.replicate r.length 0) cx = some p ∧
      innerProduct cr cx = innerProduct r p := by
  obtain ⟨cr, hr1, hr2, hr3⟩ := restrictResidual_prefix agglomIndex r nCoarseEqns hlen hval
    (List.replicate coarseRes.length 0) (by simp [hc]) r.length (le_refl _)
  obtain ⟨p, hp1, _, hp3⟩ := prolongateCorrection_prefix agglomIndex
    (List.replicate r.length 0) cx nCoarseEqns (by simp [hlen]) hval hcx
    (List.replicate r.length 0).length (le_refl _)
  refine ⟨cr, p, hr1, by unfold prolongateCorrection; exact hp1, ?_⟩
  have hright : innerProduct r p
      = ∑ i in Finset.range r.length, r.getD i 0 * cx.getD (agglomIndex.getD i 0).toNat 0 := by
    unfold innerProduct
    apply Finset.sum_congr rfl
    intro i hi
    have hi2 := Finset.mem_range.mp hi
    rw [List.getD_eq_getElem?_getD p, hp3 i (by simpa using hi2),
      if_pos (by simpa using hi2), List.getD_eq_getElem _ _ (by simpa using hi2)]
    simp
  have hleft : innerProduct cr cx
      = ∑ k in Finset.range nCoarseEqns,
          ∑ i in (Finset.range r.length).filter (fun i => agglomIndex[i]? = some (k : Int)),
            r.getD i 0 * cx.getD k 0 := by
    unfold innerProduct
    rw [hr2]
    apply Finset.sum_congr rfl
    intro k hk
    have hk2 := Finset.mem_range.mp hk
    rw [List.getD_eq_getElem?_getD cr, hr3 k hk2, Option.getD_some,
      List.getD_eq_getElem _ _ (by simp [hc, hk2]), List.getElem_replicate, zero_add,
      Finset.sum_mul]
  rw [hleft, hright, sum_fiberwise_agglom agglomIndex nCoarseEqns hval r.length (by omega)
    (fun k i => r.getD i 0 * cx.getD k 0)]

/-- Witness of C6 on a residual of four entries and two clusters. -/
theorem restrict_prolongate_adjoint_witness :
    ∃ cr p, restrictResidual [0, 1, 0, 1] [(1 : Int), 2, 3, 4] [7, 7] = some cr ∧
      prolongateCorrection [0, 1, 0, 1] (List.replicate ([(1 : Int), 2, 3, 4]).length 0)
        [10, 20] = some p ∧
      innerProduct cr [10, 20] = innerProduct [(1 : Int), 2, 3, 4] p :=
  restrict_prolongate_adjoint [0, 1, 0, 1] [(1 : Int), 2, 3, 4] [7, 7] [10, 20] 2 (by decide)
    (by unfold ValidAgglom; decide) (by decide) (by decide)


/-! ## The weak-equation criterion -/

theorem getElem?_set_false (zc : List Bool) (a i : Nat) :
    (zc.set a false)[i]? = some true ↔ zc[i]? = some true ∧ a ≠ i := by
  rw [List.getElem?_set]
  by_cases h : a = i
  · subst h
    simp only [if_true, ne_eq, not_true_eq_false, and_false, iff_false]
    split <;> simp
  · simp [h]

theorem markStrong_marks {α : Type} (ops : ScalarOps α) (upperAddr lowerAddr : List Int)
    (magOffDiag magScaledDiag : List α) (zeroCluster : List Bool) (nRows : Nat)
    (hu : ValidAddr upperAddr nRows) (hl : ValidAddr lowerAddr nRows)
    (hlu : magOffDiag.length = upperAddr.length) (hll : magOffDiag.length = lowerAddr.length)
    (hs : magScaledDiag.length = nRows) (hz : zeroCluster.length = nRows) :
    ∃ zc, markStrong ops upperAddr lowerAddr magOffDiag magScaledDiag zeroCluster = some zc ∧
      zc.length = nRows ∧
      ∀ i, i < nRows → (zc[i]? = some true ↔ zeroCluster[i]? = some true ∧
        ∀ c, c < magOffDiag.length →
          ¬ StrongAt ops upperAddr lowerAddr magOffDiag magScaledDiag i c) := by
  unfold markStrong
  refine foldlM_range_inv (markStrongStep ops upperAddr lowerAddr magOffDiag magScaledDiag)
    (fun k zc => zc.length = nRows ∧
      ∀ i, i < nRows → (zc[i]? = some true ↔ zeroCluster[i]? = some true ∧
        ∀ c, c < k → ¬ StrongAt ops upperAddr lowerAddr magOffDiag magScaledDiag i c))
    magOffDiag.length zeroCluster ⟨hz, fun i _ => by simp⟩ ?_
  intro k zc hk ⟨hzc, hmark⟩
  have hk1 : k < upperAddr.length := by omega
  have hk2 : k < lowerAddr.length := by omega
  have hua := hu upperAddr[k] (List.getElem_mem hk1)
  have hla := hl lowerAddr[k] (List.getElem_mem hk2)
  obtain ⟨su, hsu⟩ := getElem?_of_lt magScaledDiag (upperAddr[k]).toNat (by omega)
  obtain ⟨sl, hsl⟩ := getElem?_of_lt magScaledDiag (lowerAddr[k]).toNat (by omega)
  have hstrong : ∀ i, i < nRows →
      (StrongAt ops upperAddr lowerAddr magOffDiag magScaledDiag i k ↔
        (ops.gt magOffDiag[k] su = true ∧ (upperAddr[k]).toNat = i) ∨
        (ops.gt magOffDiag[k] sl = true ∧ (lowerAddr[k]).toNat = i)) := by
    intro i _
    unfold StrongAt
    rw [List.getElem?_eq_getElem hk, List.getElem?_eq_getElem hk1,
      List.getElem?_eq_getElem hk2]
    constructor
    · rintro ⟨mo, s, hmo, hsi, hgt, hinc⟩
      cases hmo
      rcases hinc with h | h
      · have hi : (upperAddr[k]).toNat = i := by have := Option.some.inj h; omega
        rw [← hi, hsu] at hsi
        cases hsi
        exact Or.inl ⟨hgt, hi⟩
      · have hi : (lowerAddr[k]).toNat = i := by have := Option.some.inj h; omega
        rw [← hi, hsl] at hsi
        cases hsi
        exact Or.inr ⟨hgt, hi⟩
    · rintro (⟨hgt, hi⟩ | ⟨hgt, hi⟩)
      · exact ⟨_, su, rfl, by rw [← hi]; exact hsu, hgt, Or.inl (by congr 1; omega)⟩
      · exact ⟨_, sl, rfl, by rw [← hi]; exact hsl, hgt, Or.inr (by congr 1; omega)⟩
  have hsucc : ∀ (i : Nat) (P : Prop), i < nRows →
      (P ↔ (zeroCluster[i]? = some true ∧
        ∀ c, c < k → ¬ StrongAt ops upperAddr lowerAddr magOffDiag magScaledDiag i c) ∧
        ¬ StrongAt ops upperAddr lowerAddr magOffDiag magScaledDiag i k) →
      (P ↔ zeroCluster[i]? = some true ∧
        ∀ c, c < k + 1 → ¬ StrongAt ops upperAddr lowerAddr magOffDiag magScaledDiag i c) := by
    intro i P _ h
    rw [h]
    constructor
    · rintro ⟨⟨h1, h2⟩, h3⟩
      refine ⟨h1, fun c hc => ?_⟩
      by_cases hck : c = k
      · rw [hck]; exact h3
      · exact h2 c (by omega)
    · rintro ⟨h1, h2⟩
      exact ⟨⟨h1, fun c hc => h2 c (by omega)⟩, h2 k (by omega)⟩
  simp only [markStrongStep, readAt_natCast, List.getElem?_eq_getElem hk,
    List.getElem?_eq_getElem hk1, List.getElem?_eq_getElem hk2, Option.bind_eq_bind,
    Option.some_bind]
  rw [readAt_of_getElem? magScaledDiag _ _ hua.1 hsu,
    readAt_of_getElem? magScaledDiag _ _ hla.1 hsl]
  simp only [Option.some_bind]
  by_cases h1 : ops.gt magOffDiag[k] su = true
  · rw [if_pos h1, writeAt_eq_some _ _ _ hua.1 (by omega)]
    simp only [Option.some_bind]
    by_cases h2 : ops.gt magOffDiag[k] sl = true
    · rw [if_pos h2, writeAt_eq_some _ _ _ hla.1 (by simp; omega)]
      refine ⟨_, rfl, by simp [hzc], fun i hi => hsucc i _ hi ?_⟩
      rw [getElem?_set_false, getElem?_set_false, hmark i hi, hstrong i hi]
      tauto
    · rw [if_neg h2]
      refine ⟨_, rfl, by simp [hzc], fun i hi => hsucc i _ hi ?_⟩
      rw [getElem?_set_false, hmark i hi, hstrong i hi]
      tauto
  · rw [if_neg h1]
    simp only [pure, Option.some_bind]
    by_cases h2 : ops.gt magOffDiag[k] sl = true
    · rw [if_pos h2, writeAt_eq_some _ _ _ hla.1 (by omega)]
      refine ⟨_, rfl, by simp [hzc], fun i hi => hsucc i _ hi ?_⟩
      rw [getElem?_set_false, hmark i hi, hstrong i hi]
      tauto
    · rw [if_neg h2]
      refine ⟨_, rfl, hzc, fun i hi => hsucc i _ hi ?_⟩
      rw [hmark i hi, hstrong i hi]
      tauto


theorem calcMagOffDiag_isSome {α : Type} (ops : ScalarOps α) (m : BlockLduMatrix α)
    (hsym : m.symmetric = true ∨ m.asymmetric = true) :
    ∃ mo, calcMagOffDiag ops m = some mo := by
  unfold calcMagOffDiag
  by_cases ha : m.asymmetric = true
  · exact ⟨_, if_pos ha⟩
  · rcases hsym with hs | ha'
    · rw [if_neg ha, if_pos hs]
      exact ⟨_, rfl⟩
    · exact absurd ha' ha

theorem calcZeroCluster_marks {α : Type} (ops : ScalarOps α) (diagFactor : α)
    (m : BlockLduMatrix α) (hwf : WellFormed m) (mo : List α)
    (hmo : mo.length = m.upperAddr.length) (zc : List Bool)
    (hzc : calcZeroCluster ops diagFactor m mo = some zc) (i : Nat) (hi : i < m.nRows) :
    zc[i]? = some true ↔ ∀ c, c < mo.length →
      ¬ StrongAt ops m.upperAddr m.lowerAddr mo (m.magDiag.map (fun d => ops.mul diagFactor d))
        i c := by
  obtain ⟨zc', hrun, _, hmark⟩ := markStrong_marks ops m.upperAddr m.lowerAddr mo
    (m.magDiag.map (fun d => ops.mul diagFactor d)) (List.replicate m.magDiag.length true)
    m.nRows hwf.upperValid hwf.lowerValid hmo (by rw [hmo]; exact hwf.addrLen)
    (by simp [hwf.diagLen]) (by simp [hwf.diagLen])
  unfold calcZeroCluster at hzc
  rw [hrun] at hzc
  cases hzc
  rw [hmark i hi, List.getElem?_replicate_of_lt (by rw [hwf.diagLen]; exact hi)]
  simp

/-- C19 (amended). For a symmetric or asymmetric well-formed matrix on a
single partition, equation `i` is marked weak exactly when no off-diagonal
coefficient incident to `i` passes the test
`magOffDiag > diagFactor * magDiag[i]` of the code (a coefficient equal to the
scaled diagonal does not pass it; an equation without coefficient is weak),
and every equation marked weak ends in cluster 0. -/
theorem weak_criterion {α : Type} (ops : ScalarOps α) (diagFactor : α)
    (m : BlockLduMatrix α) (groupSize minCoarseEqns : Int) (hwf : WellFormed m)
    (hsym : m.symmetric = true ∨ m.asymmetric = true) :
    ∃ mo zc st, calcMagOffDiag ops m = some mo ∧ weakEquations ops diagFactor m = some zc ∧
      construct ops diagFactor singlePartition m groupSize minCoarseEqns = some st ∧
      ∀ i, i < m.nRows →
        (zc[i]? = some true ↔ ∀ c, c < mo.length →
          ¬ StrongAt ops m.upperAddr m.lowerAddr mo
            (m.magDiag.map (fun d => ops.mul diagFactor d)) i c) ∧
        (zc[i]? = some true → st.agglomIndex[i]? = some 0) := by
  obtain ⟨mo, hmo⟩ := calcMagOffDiag_isSome ops m hsym
  obtain ⟨zc, cs, hzc, _, hrun, _, _, hweak⟩ := calcAgglomeration_clustered ops diagFactor m
    groupSize minCoarseEqns ⟨List.replicate m.nRows (-1), 0, false⟩ hwf (by simp) mo hmo
  refine ⟨mo, zc, _, hmo, by unfold weakEquations; rw [hmo]; exact hzc, hrun, ?_⟩
  intro i hi
  exact ⟨calcZeroCluster_marks ops diagFactor m hwf mo (calcMagOffDiag_length ops m hwf mo hmo)
    zc hzc i hi, hweak i⟩

/-- Witness of the amended C19 on the chain of five equations. -/
theorem weak_criterion_witness :
    ∃ mo zc st, calcMagOffDiag ratOps chain5 = some mo ∧
      weakEquations ratOps diagFactorDefault chain5 = some zc ∧
      construct ratOps diagFactorDefault singlePartition chain5 4 2 = some st ∧
      ∀ i, i < chain5.nRows →
        (zc[i]? = some true ↔ ∀ c, c < mo.length →
          ¬ StrongAt ratOps chain5.upperAddr chain5.lowerAddr mo
            (chain5.magDiag.map (fun d => ratOps.mul diagFactorDefault d)) i c) ∧
        (zc[i]? = some true → st.agglomIndex[i]? = some 0) :=
  weak_criterion ratOps diagFactorDefault chain5 4 2 chain5_wellFormed (Or.inl rfl)

/-- With exact rational arithmetic a coefficient is not a strong connection of
equation `i` exactly when it is not incident to `i` or its magnitude is at
most the scaled diagonal. -/
theorem not_strongAt_rat (upperAddr lowerAddr : List Int) (magOffDiag magScaledDiag : List ℚ)
    (i c : Nat) (mo s : ℚ) (hmo : magOffDiag[c]? = some mo) (hs : magScaledDiag[i]? = some s) :
    ¬ StrongAt ratOps upperAddr lowerAddr magOffDiag magScaledDiag i c ↔
      ((upperAddr[c]? = some (i : Int) ∨ lowerAddr[c]? = some (i : Int)) → mo ≤ s) := by
  unfold StrongAt
  constructor
  · intro h hinc
    by_contra hlt
    exact h ⟨mo, s, hmo, hs, by simp [ratOps]; exact lt_of_not_le hlt, hinc⟩
  · rintro h ⟨mo', s', hmo', hs', hgt, hinc⟩
    rw [hmo] at hmo'
    rw [hs] at hs'
    cases hmo'
    cases hs'
    have := h hinc
    simp [ratOps] at hgt
    exact absurd hgt (not_lt_of_le this)

/-- C19 as stated fails: in `tie2` the only coefficient of equation 0 has
exactly the magnitude `1e-8 * diagMag(0)`, which is not strictly smaller, and
the code marks equation 0 weak. -/
theorem weak_strict_counterexample :
    ¬ (∀ zc, weakEquations ratOps diagFactorDefault tie2 = some zc →
      ∀ i, i < tie2.nRows →
        (zc[i]? = some true ↔ ∀ c, c < tie2.magUpper.length →
          (tie2.upperAddr[c]? = some (i : Int) ∨ tie2.lowerAddr[c]? = some (i : Int)) →
          tie2.magUpper.getD c 0 < diagFactorDefault * tie2.magDiag.getD i 0)) := by
  intro h
  have h1 : weakEquations ratOps diagFactorDefault tie2 = some [true, false] := by decide!
  have h2 := (h _ h1 0 (by decide)).mp rfl 0 (by decide) (Or.inr rfl)
  have h3 : tie2.magUpper.getD 0 0 = 1 := rfl
  have h4 : tie2.magDiag.getD 0 0 = 100000000 := rfl
  rw [h3, h4] at h2
  unfold diagFactorDefault at h2
  norm_num at h2


/-! ## Coarse addressing: the provisional pairs -/

theorem canonPair_of_ne (e : Int × Int) (h : e.1 ≠ e.2) :
    (canonPair e).1 < (canonPair e).2 ∧
      (canonPair e).1 = (if e.1 > e.2 then e.2 else e.1) ∧
      (canonPair e).2 = (if e.1 > e.2 then e.1 else e.2) := by
  unfold canonPair
  simp only
  refine ⟨by omega, ?_, ?_⟩ <;> split <;> omega

theorem provPairs_succ_intra (agglomIndex upperAddr lowerAddr : List Int) (n : Nat)
    (h : (rmAddr agglomIndex upperAddr lowerAddr n).1
      = (rmAddr agglomIndex upperAddr lowerAddr n).2) :
    provPairs agglomIndex upperAddr lowerAddr (n + 1)
      = provPairs agglomIndex upperAddr lowerAddr n := by
  rw [provPairs, if_pos h]

theorem provPairs_succ_old (agglomIndex upperAddr lowerAddr : List Int) (n : Nat)
    (h : (rmAddr agglomIndex upperAddr lowerAddr n).1
      ≠ (rmAddr agglomIndex upperAddr lowerAddr n).2)
    (hmem : canonPair (rmAddr agglomIndex upperAddr lowerAddr n)
      ∈ provPairs agglomIndex upperAddr lowerAddr n) :
    provPairs agglomIndex upperAddr lowerAddr (n + 1)
      = provPairs agglomIndex upperAddr lowerAddr n := by
  rw [provPairs, if_neg h, if_pos hmem]

theorem provPairs_succ_new (agglomIndex upperAddr lowerAddr : List Int) (n : Nat)
    (h : (rmAddr agglomIndex upperAddr lowerAddr n).1
      ≠ (rmAddr agglomIndex upperAddr lowerAddr n).2)
    (hmem : canonPair (rmAddr agglomIndex upperAddr lowerAddr n)
      ∉ provPairs agglomIndex upperAddr lowerAddr n) :
    provPairs agglomIndex upperAddr lowerAddr (n + 1)
      = provPairs agglomIndex upperAddr lowerAddr n
        ++ [canonPair (rmAddr agglomIndex upperAddr lowerAddr n)] := by
  rw [provPairs, if_neg h, if_neg hmem]

theorem provPairs_nodup (agglomIndex upperAddr lowerAddr : List Int) (n : Nat) :
    (provPairs agglomIndex upperAddr lowerAddr n).Nodup := by
  induction n with
  | zero => simp [provPairs]
  | succ n ih =>
    by_cases h : (rmAddr agglomIndex upperAddr lowerAddr n).1
        = (rmAddr agglomIndex upperAddr lowerAddr n).2
    · rw [provPairs_succ_intra _ _ _ _ h]; exact ih
    · by_cases hmem : canonPair (rmAddr agglomIndex upperAddr lowerAddr n)
          ∈ provPairs agglomIndex upperAddr lowerAddr n
      · rw [provPairs_succ_old _ _ _ _ h hmem]; exact ih
      · rw [provPairs_succ_new _ _ _ _ h hmem]
        exact List.Nodup.append ih (List.nodup_singleton _)
          (by simpa [List.disjoint_singleton] using hmem)

theorem mem_provPairs (agglomIndex upperAddr lowerAddr : List Int) (n : Nat) (p : Int × Int) :
    p ∈ provPairs agglomIndex upperAddr lowerAddr n ↔
      ∃ c, c < n ∧ (rmAddr agglomIndex upperAddr lowerAddr c).1
          ≠ (rmAddr agglomIndex upperAddr lowerAddr c).2 ∧
        canonPair (rmAddr agglomIndex upperAddr lowerAddr c) = p := by
  induction n with
  | zero => simp [provPairs]
  | succ n ih =>
    have hstep : (∃ c, c < n + 1 ∧ (rmAddr agglomIndex upperAddr lowerAddr c).1
          ≠ (rmAddr agglomIndex upperAddr lowerAddr c).2 ∧
        canonPair (rmAddr agglomIndex upperAddr lowerAddr c) = p) ↔
        (p ∈ provPairs agglomIndex upperAddr lowerAddr n ∨
          ((rmAddr agglomIndex upperAddr lowerAddr n).1
            ≠ (rmAddr agglomIndex upperAddr lowerAddr n).2 ∧
          canonPair (rmAddr agglomIndex upperAddr lowerAddr n) = p)) := by
      rw [ih]
      constructor
      · rintro ⟨c, hc, h1, h2⟩
        by_cases hcn : c = n
        · subst hcn; exact Or.inr ⟨h1, h2⟩
        · exact Or.inl ⟨c, by omega, h1, h2⟩
      · rintro (⟨c, hc, h1, h2⟩ | ⟨h1, h2⟩)
        · exact ⟨c, by omega, h1, h2⟩
        · exact ⟨n, by omega, h1, h2⟩
    rw [hstep]
    by_cases h : (rmAddr agglomIndex upperAddr lowerAddr n).1
        = (rmAddr agglomIndex upperAddr lowerAddr n).2
    · rw [provPairs_succ_intra _ _ _ _ h]
      constructor
      · exact Or.inl
      · rintro (h1 | ⟨h1, _⟩)
        · exact h1
        · exact absurd h h1
    · by_cases hmem : canonPair (rmAddr agglomIndex upperAddr lowerAddr n)
          ∈ provPairs agglomIndex upperAddr lowerAddr n
      · rw [provPairs_succ_old _ _ _ _ h hmem]
        constructor
        · exact Or.inl
        · rintro (h1 | ⟨_, h2⟩)
          · exact h1
          · rw [← h2]; exact hmem
      · rw [provPairs_succ_new _ _ _ _ h hmem, List.mem_append, List.mem_singleton]
        constructor
        · rintro (h1 | h1)
          · exact Or.inl h1
          · exact Or.inr ⟨h, h1.symm⟩
        · rintro (h1 | ⟨_, h2⟩)
          · exact Or.inl h1
          · exact Or.inr h2.symm

theorem provPairs_length_le (agglomIndex upperAddr lowerAddr : List Int) (n : Nat) :
    (provPairs agglomIndex upperAddr lowerAddr n).length ≤ n := by
  induction n with
  | zero => simp [provPairs]
  | succ n ih =>
    rw [provPairs]
    split
    · omega
    · split
      · omega
      · rw [List.length_append, List.length_singleton]; omega

theorem mem_rowOf (pairs : List (Int × Int)) (i q : Nat) :
    q ∈ rowOf pairs i ↔ q < pairs.length ∧ (pairs.getD q (0, 0)).1 = (i : Int) := by
  unfold rowOf
  rw [List.mem_filter, List.mem_range]
  simp

theorem rowOf_nodup (pairs : List (Int × Int)) (i : Nat) : (rowOf pairs i).Nodup :=
  (List.nodup_range _).filter _

theorem rowOf_append (pairs : List (Int × Int)) (p : Int × Int) (i : Nat) :
    rowOf (pairs ++ [p]) i
      = rowOf pairs i ++ (if p.1 = (i : Int) then [pairs.length] else []) := by
  unfold rowOf
  rw [List.length_append, List.length_singleton, List.range_succ, List.filter_append]
  congr 1
  · apply List.filter_congr
    intro q hq
    rw [List.mem_range] at hq
    rw [List.getD_append _ _ _ _ hq]
  · rw [List.filter_singleton, List.getD_append_right _ _ _ _ (le_refl _)]
    simp

theorem rowOf_getD_mem (pairs : List (Int × Int)) (i j : Nat) (hj : j < (rowOf pairs i).length) :
    (rowOf pairs i).getD j 0 < pairs.length ∧
      (pairs.getD ((rowOf pairs i).getD j 0) (0, 0)).1 = (i : Int) := by
  rw [← mem_rowOf, List.getD_eq_getElem _ _ hj]
  exact List.getElem_mem hj

theorem rowOf_getD_inj (pairs : List (Int × Int)) (i i' j j' : Nat)
    (hj : j < (rowOf pairs i).length) (hj' : j' < (rowOf pairs i').length)
    (h : (rowOf pairs i).getD j 0 = (rowOf pairs i').getD j' 0) : i = i' ∧ j = j' := by
  have h1 := (rowOf_getD_mem pairs i j hj).2
  have h2 := (rowOf_getD_mem pairs i' j' hj').2
  rw [h] at h1
  have hi : i = i' := by
    have := h1.symm.trans h2
    omega
  subst hi
  refine ⟨rfl, ?_⟩
  rw [List.getD_eq_getElem _ _ hj, List.getD_eq_getElem _ _ hj'] at h
  exact (List.Nodup.getElem_inj_iff (rowOf_nodup pairs i)).mp h

theorem rowOf_length (pairs : List (Int × Int)) (i : Nat) :
    (rowOf pairs i).length = (pairs.map Prod.fst).count (i : Int) := by
  induction pairs using List.reverseRecOn with
  | nil => simp [rowOf]
  | append_singleton l p ih =>
    rw [rowOf_append, List.length_append, ih, List.map_append, List.count_append]
    congr 1
    by_cases h : p.1 = (i : Int)
    · simp [h]
    · simp [h, List.count_singleton]


/-! ## Coarse addressing: the packed storage -/

theorem pos_toNat (M i : Int) (j : Nat) (hM : 0 ≤ M) (hi : 0 ≤ i) :
    0 ≤ M * i + (j : Int) ∧ (M * i + (j : Int)).toNat = M.toNat * i.toNat + j := by
  lift M to Nat using hM
  lift i to Nat using hi
  constructor
  · positivity
  · have : ((M : Int) * (i : Int) + (j : Int)) = ((M * i + j : Nat) : Int) := by push_cast; ring
    simp only [Int.toNat_ofNat]
    rw [this, Int.toNat_ofNat]

theorem pos_lt (M nC i j : Nat) (hi : i < nC) (hj : j < M) : M * i + j < M * nC := by
  calc M * i + j < M * i + M := by omega
    _ = M * (i + 1) := by ring
    _ ≤ M * nC := Nat.mul_le_mul_left M hi

theorem pos_inj (M i i' j j' : Nat) (hj : j < M) (hj' : j' < M)
    (h : M * i + j = M * i' + j') : i = i' ∧ j = j' := by
  have hM : 0 < M := by omega
  have h1 : (M * i + j) / M = i := by
    rw [Nat.mul_add_div hM, Nat.div_eq_of_lt hj, Nat.add_zero]
  have h2 : (M * i' + j') / M = i' := by
    rw [Nat.mul_add_div hM, Nat.div_eq_of_lt hj', Nat.add_zero]
  have hi : i = i' := by rw [← h1, ← h2, h]
  subst hi
  exact ⟨rfl, by omega⟩

theorem setSize_length (xs : List Int) (n : Nat) : (setSize xs n).length = n := by
  unfold setSize
  rw [List.length_append, List.length_take, List.length_replicate]
  omega

theorem findNbr_spec (pairs : List (Int × Int)) (nC nF : Nat) (s : NbrStore)
    (hinv : StoreInv pairs nC nF s) (cOwn : Nat) (cNei : Int) (hc : cOwn < nC) :
    ∀ js : List Nat, (∀ j ∈ js, j < (rowOf pairs cOwn).length) →
      ∃ r, findNbr s (cOwn : Int) cNei js = some r ∧
        (∀ q, r = some q → ∃ q' : Nat, q = (q' : Int) ∧ q' < pairs.length ∧
          pairs.getD q' (0, 0) = ((cOwn : Int), cNei)) ∧
        (r = none → ∀ j ∈ js,
          (pairs.getD ((rowOf pairs cOwn).getD j 0) (0, 0)).2 ≠ cNei) := by
  intro js
  induction js with
  | nil =>
    intro _
    refine ⟨none, rfl, ?_, ?_⟩
    · intro q h
      cases h
    · intro _ j hj
      cases hj
  | cons j js ih =>
    intro hjs
    have hj := hjs j (List.mem_cons_self _ _)
    obtain ⟨r, hr, hr1, hr2⟩ := ih (fun j' hj' => hjs j' (List.mem_cons_of_mem _ hj'))
    have hM : 0 ≤ s.maxNnbrs := by have := hinv.cap; omega
    obtain ⟨hp0, hp1⟩ := pos_toNat s.maxNnbrs (cOwn : Int) j hM (by omega)
    rw [Int.toNat_ofNat] at hp1
    have hdata := hinv.data cOwn j hc hj
    obtain ⟨hq1, hq2⟩ := rowOf_getD_mem pairs cOwn j hj
    have hnei := hinv.nei _ hq1
    rw [findNbr]
    simp only [Option.bind_eq_bind]
    rw [readAt_of_getElem? _ _ _ hp0 (by rw [hp1]; exact hdata)]
    simp only [Option.some_bind, readAt_natCast, hnei]
    by_cases hfound : (pairs.getD ((rowOf pairs cOwn).getD j 0) (0, 0)).2 = cNei
    · rw [if_pos hfound]
      refine ⟨_, rfl, ?_, fun h => by cases h⟩
      intro q hq
      cases hq
      exact ⟨_, rfl, hq1, Prod.ext hq2 hfound⟩
    · rw [if_neg hfound, hr]
      refine ⟨r, rfl, hr1, ?_⟩
      intro hnone j' hj'
      rcases List.mem_cons.mp hj' with h | h
      · rw [h]; exact hfound
      · exact hr2 hnone j' h

theorem findNbr_row (pairs : List (Int × Int)) (nC nF : Nat) (s : NbrStore)
    (hinv : StoreInv pairs nC nF s) (cOwn : Nat) (cNei : Int) (hc : cOwn < nC) :
    ∃ r, findNbr s (cOwn : Int) cNei (List.range (rowOf pairs cOwn).length) = some r ∧
      (∀ q, r = some q → ∃ q' : Nat, q = (q' : Int) ∧ q' < pairs.length ∧
        pairs.getD q' (0, 0) = ((cOwn : Int), cNei)) ∧
      (r = none → ((cOwn : Int), cNei) ∉ pairs) := by
  obtain ⟨r, hr, hr1, hr2⟩ := findNbr_spec pairs nC nF s hinv cOwn cNei hc
    (List.range (rowOf pairs cOwn).length) (fun j hj => List.mem_range.mp hj)
  refine ⟨r, hr, hr1, ?_⟩
  intro hnone hmem
  obtain ⟨q, hq⟩ := List.mem_iff_getElem?.mp hmem
  have hql := lt_of_getElem? _ _ _ hq
  have hqd : pairs.getD q (0, 0) = ((cOwn : Int), cNei) := by
    rw [List.getD_eq_getElem?_getD, hq]
    rfl
  have hqrow : q ∈ rowOf pairs cOwn := (mem_rowOf pairs cOwn q).mpr ⟨hql, by rw [hqd]⟩
  obtain ⟨j, hj, hjq⟩ := List.mem_iff_getElem.mp hqrow
  have := hr2 hnone j (List.mem_range.mpr hj)
  rw [List.getD_eq_getElem _ _ hj, hjq, hqd] at this
  exact this rfl


theorem copyNbr_loop (M M' : Int) (old : List Int) (nC i cnt : Nat)
    (hM : 0 ≤ M) (hM' : 0 ≤ M') (hi : i < nC) (hcnt : cnt ≤ M.toNat) (hcnt' : cnt ≤ M'.toNat)
    (hold : old.length = M.toNat * nC) (D1 : List Int) (hD1 : D1.length = M'.toNat * nC) :
    ∃ D2, (List.range cnt).foldlM (copyNbrStep M M' old i) D1 = some D2 ∧
      D2.length = M'.toNat * nC ∧
      (∀ j, j < cnt → D2[M'.toNat * i + j]? = old[M.toNat * i + j]?) ∧
      (∀ pos, (∀ j, j < cnt → pos ≠ M'.toNat * i + j) → D2[pos]? = D1[pos]?) := by
  refine foldlM_range_inv (copyNbrStep M M' old i)
    (fun k D => D.length = M'.toNat * nC ∧
      (∀ j, j < k → D[M'.toNat * i + j]? = old[M.toNat * i + j]?) ∧
      (∀ pos, (∀ j, j < cnt → pos ≠ M'.toNat * i + j) → D[pos]? = D1[pos]?))
    cnt D1 ⟨hD1, fun j hj => by omega, fun _ _ => rfl⟩ ?_
  intro k D hk ⟨hlen, hdone, hrest⟩
  obtain ⟨hp0, hp1⟩ := pos_toNat M (i : Int) k hM (by omega)
  obtain ⟨hq0, hq1⟩ := pos_toNat M' (i : Int) k hM' (by omega)
  rw [Int.toNat_ofNat] at hp1 hq1
  have hrd : M.toNat * i + k < old.length := by
    rw [hold]; exact pos_lt _ _ _ _ hi (by omega)
  have hwr : M'.toNat * i + k < D.length := by
    rw [hlen]; exact pos_lt _ _ _ _ hi (by omega)
  obtain ⟨v, hv⟩ := getElem?_of_lt old _ hrd
  refine ⟨D.set (M'.toNat * i + k) v, ?_, by simp [hlen], ?_, ?_⟩
  · simp only [copyNbrStep, Option.bind_eq_bind]
    rw [readAt_of_getElem? _ _ _ hp0 (by rw [hp1]; exact hv)]
    simp only [Option.some_bind]
    rw [writeAt_eq_some _ _ _ hq0 (by rw [hq1]; exact hwr), hq1]
  · intro j hj
    by_cases hjk : j = k
    · subst hjk
      rw [List.getElem?_set_self hwr, hv]
    · rw [List.getElem?_set_ne (by omega)]
      exact hdone j (by omega)
  · intro pos hpos
    rw [List.getElem?_set_ne (fun h => hpos k hk h.symm)]
    exact hrest pos hpos

theorem doubleStore_spec (pairs : List (Int × Int)) (nC nF : Nat) (s : NbrStore)
    (hinv : StoreInv pairs nC nF s) :
    ∃ s', doubleStore (nC : Int) s = some s' ∧ StoreInv pairs nC nF s' ∧
      s'.maxNnbrs = s.maxNnbrs * 2 ∧ s'.coeffRestrictAddr = s.coeffRestrictAddr ∧
      s'.blockNnbrs = s.blockNnbrs ∧ s'.initCoarseNeighb = s.initCoarseNeighb ∧
      s'.nCoarseCoeffs = s.nCoarseCoeffs := by
  have hcap := hinv.cap
  have hM : 0 ≤ s.maxNnbrs := by omega
  have hM' : 0 ≤ s.maxNnbrs * 2 := by omega
  have htn : (s.maxNnbrs * 2).toNat = s.maxNnbrs.toNat * 2 := by omega
  have hsz : (s.maxNnbrs * 2 * (nC : Int)).toNat = (s.maxNnbrs * 2).toNat * nC := by
    have := (pos_toNat (s.maxNnbrs * 2) (nC : Int) 0 hM' (by omega)).2
    simpa using this
  obtain ⟨D, hD, hDlen, hDdata⟩ := foldlM_range_inv
    (copyBlockStep s.maxNnbrs (s.maxNnbrs * 2) s.blockNbrsData s.blockNnbrs)
    (fun k D => D.length = (s.maxNnbrs * 2).toNat * nC ∧
      ∀ i j, i < k → j < (rowOf pairs i).length →
        D[(s.maxNnbrs * 2).toNat * i + j]? = s.blockNbrsData[s.maxNnbrs.toNat * i + j]?)
    nC (setSize s.blockNbrsData (s.maxNnbrs * 2 * (nC : Int)).toNat)
    ⟨by rw [setSize_length, hsz], fun i j hi _ => by omega⟩
    (by
      intro k D hk ⟨hlen, hdone⟩
      obtain ⟨hcnt, hle⟩ := hinv.cnt k hk
      obtain ⟨D2, hD2, hlen2, hnew, hkeep⟩ := copyNbr_loop s.maxNnbrs (s.maxNnbrs * 2)
        s.blockNbrsData nC k (rowOf pairs k).length hM hM' hk hle (by omega) hinv.lenD D hlen
      refine ⟨D2, ?_, hlen2, ?_⟩
      · simp only [copyBlockStep, readAt_natCast, hcnt, Option.bind_eq_bind, Option.some_bind,
          Int.toNat_ofNat]
        exact hD2
      · intro i j hi hj
        by_cases hik : i = k
        · subst hik
          exact hnew j hj
        · have hle' := (hinv.cnt i (by omega)).2
          rw [hkeep _ (fun j' hj' h => by
            have := pos_inj _ _ _ _ _ (by omega) (by omega) h
            exact hik this.1)]
          exact hdone i j (by omega) hj)
  refine ⟨{ s with maxNnbrs := s.maxNnbrs * 2, blockNbrsData := D }, ?_, ?_, rfl, rfl, rfl,
    rfl, rfl⟩
  · simp only [doubleStore, Option.bind_eq_bind]
    rw [hinv.lenN, hD]
    rfl
  · refine ⟨by simp only; omega, hinv.lenN, hDlen, hinv.lenC, hinv.lenI, hinv.count, hinv.nei,
      ?_, ?_⟩
    · intro i hi
      have := hinv.cnt i hi
      exact ⟨this.1, by simp only; omega⟩
    · intro i j hi hj
      simp only
      rw [hDdata i j hi hj]
      exact hinv.data i j hi hj


/-! ## Coarse addressing: the loop over the fine coefficients -/

theorem rmAddr_read (agglomIndex upperAddr lowerAddr : List Int) (nRows nC : Nat)
    (hok : AddrOK agglomIndex upperAddr lowerAddr nRows nC) (c : Nat)
    (hc : c < upperAddr.length) :
    ∃ uc lc : Int, upperAddr[c]? = some uc ∧ lowerAddr[c]? = some lc ∧
      readAt agglomIndex uc = some (rmAddr agglomIndex upperAddr lowerAddr c).1 ∧
      readAt agglomIndex lc = some (rmAddr agglomIndex upperAddr lowerAddr c).2 ∧
      0 ≤ (rmAddr agglomIndex upperAddr lowerAddr c).1 ∧
      (rmAddr agglomIndex upperAddr lowerAddr c).1 < (nC : Int) ∧
      0 ≤ (rmAddr agglomIndex upperAddr lowerAddr c).2 ∧
      (rmAddr agglomIndex upperAddr lowerAddr c).2 < (nC : Int) := by
  have hc2 : c < lowerAddr.length := by rw [← hok.addrLen]; exact hc
  have hu := hok.upperValid upperAddr[c] (List.getElem_mem hc)
  have hl := hok.lowerValid lowerAddr[c] (List.getElem_mem hc2)
  have hlen := hok.aggLen
  have hu2 : (upperAddr[c]).toNat < agglomIndex.length := by omega
  have hl2 : (lowerAddr[c]).toNat < agglomIndex.length := by omega
  have ha1 := hok.aggValid _ (List.getElem_mem hu2)
  have ha2 := hok.aggValid _ (List.getElem_mem hl2)
  have e1 : (rmAddr agglomIndex upperAddr lowerAddr c).1 = agglomIndex[(upperAddr[c]).toNat] := by
    simp only [rmAddr]
    rw [List.getD_eq_getElem _ _ hc, List.getD_eq_getElem _ _ hu2]
  have e2 : (rmAddr agglomIndex upperAddr lowerAddr c).2 = agglomIndex[(lowerAddr[c]).toNat] := by
    simp only [rmAddr]
    rw [List.getD_eq_getElem _ _ hc2, List.getD_eq_getElem _ _ hl2]
  refine ⟨upperAddr[c], lowerAddr[c], List.getElem?_eq_getElem hc, List.getElem?_eq_getElem hc2,
    ?_, ?_, ?_, ?_, ?_, ?_⟩
  · rw [e1]; exact readAt_eq_some _ _ hu.1 hu2
  · rw [e2]; exact readAt_eq_some _ _ hl.1 hl2
  · rw [e1]; exact ha1.1
  · rw [e1]; exact ha1.2
  · rw [e2]; exact ha2.1
  · rw [e2]; exact ha2.2

theorem craInv_set (agglomIndex upperAddr lowerAddr : List Int) (pairs pairs' : List (Int × Int))
    (n : Nat) (cra : List Int) (v : Int) (hn : n < cra.length)
    (hinv : CraInv agglomIndex upperAddr lowerAddr pairs n cra)
    (hext : ∀ q, q < pairs.length → q < pairs'.length ∧ pairs'.getD q (0, 0) = pairs.getD q (0, 0))
    (hnew : ((rmAddr agglomIndex upperAddr lowerAddr n).1
          = (rmAddr agglomIndex upperAddr lowerAddr n).2 →
        v = -((rmAddr agglomIndex upperAddr lowerAddr n).1 + 1)) ∧
      ((rmAddr agglomIndex upperAddr lowerAddr n).1
          ≠ (rmAddr agglomIndex upperAddr lowerAddr n).2 →
        ∃ q : Nat, v = (q : Int) ∧ q < pairs'.length ∧
          pairs'.getD q (0, 0) = canonPair (rmAddr agglomIndex upperAddr lowerAddr n))) :
    CraInv agglomIndex upperAddr lowerAddr pairs' (n + 1) (cra.set n v) := by
  intro c hc
  by_cases hcn : c = n
  · subst hcn
    rw [List.getElem?_set_self hn]
    refine ⟨fun h => by rw [hnew.1 h], fun h => ?_⟩
    obtain ⟨q, hq1, hq2, hq3⟩ := hnew.2 h
    exact ⟨q, by rw [hq1], hq2, hq3⟩
  · rw [List.getElem?_set_ne (fun h => hcn h.symm)]
    obtain ⟨h1, h2⟩ := hinv c (by omega)
    refine ⟨h1, fun h => ?_⟩
    obtain ⟨q, hq1, hq2, hq3⟩ := h2 h
    obtain ⟨he1, he2⟩ := hext q hq2
    exact ⟨q, hq1, he1, by rw [he2, hq3]⟩

theorem storeInv_append (pairs : List (Int × Int)) (nC nF : Nat) (s : NbrStore)
    (hinv : StoreInv pairs nC nF s) (cOwn : Nat) (cNei : Int)
    (hroom : (rowOf pairs cOwn).length < s.maxNnbrs.toNat) (hlen : pairs.length < nF)
    (cra : List Int) (hcra : cra.length = nF) :
    StoreInv (pairs ++ [((cOwn : Int), cNei)]) nC nF
      { maxNnbrs := s.maxNnbrs
        blockNnbrs := s.blockNnbrs.set cOwn (((rowOf pairs cOwn).length : Int) + 1)
        blockNbrsData := s.blockNbrsData.set
          (s.maxNnbrs.toNat * cOwn + (rowOf pairs cOwn).length) (pairs.length : Int)
        coeffRestrictAddr := cra
        initCoarseNeighb := s.initCoarseNeighb.set pairs.length cNei
        nCoarseCoeffs := (pairs.length : Int) + 1 } := by
  have hrow : ∀ i, rowOf (pairs ++ [((cOwn : Int), cNei)]) i
      = rowOf pairs i ++ (if cOwn = i then [pairs.length] else []) := by
    intro i
    rw [rowOf_append]
    congr 1
    by_cases h : cOwn = i
    · simp [h]
    · have : ¬ ((cOwn : Int) = (i : Int)) := by omega
      simp [h, this]
  refine ⟨hinv.cap, by simp [hinv.lenN], by simp [hinv.lenD], hcra, by simp [hinv.lenI],
    by simp, ?_, ?_, ?_⟩
  · intro q hq
    simp only
    by_cases hql : q = pairs.length
    · subst hql
      rw [List.getElem?_set_self (by rw [hinv.lenI]; exact hlen),
        List.getD_append_right _ _ _ _ (le_refl _)]
      simp
    · have hq2 : q < pairs.length := by
        rw [List.length_append, List.length_singleton] at hq
        omega
      rw [List.getElem?_set_ne (fun h => hql h.symm), List.getD_append _ _ _ _ hq2]
      exact hinv.nei q hq2
  · intro i hi
    obtain ⟨h1, h2⟩ := hinv.cnt i hi
    rw [hrow i]
    simp only
    by_cases hio : cOwn = i
    · subst hio
      rw [List.getElem?_set_self (by rw [hinv.lenN]; exact hi), if_pos rfl, List.length_append,
        List.length_singleton]
      exact ⟨by push_cast; rfl, by omega⟩
    · rw [List.getElem?_set_ne hio, if_neg hio, List.append_nil]
      exact ⟨h1, h2⟩
  · intro i j hi hj
    rw [hrow i] at hj ⊢
    simp only
    by_cases hnew : cOwn = i ∧ j = (rowOf pairs cOwn).length
    · obtain ⟨hio, hjl⟩ := hnew
      subst hio
      subst hjl
      rw [List.getElem?_set_self (by
          rw [hinv.lenD]; exact pos_lt _ _ _ _ hi hroom),
        if_pos rfl, List.getD_append_right _ _ _ _ (le_refl _)]
      simp
    · have hj2 : j < (rowOf pairs i).length := by
        by_cases hio : cOwn = i
        · subst hio
          rw [if_pos rfl, List.length_append, List.length_singleton] at hj
          have : j ≠ (rowOf pairs cOwn).length := fun h => hnew ⟨rfl, h⟩
          omega
        · rw [if_neg hio, List.append_nil] at hj
          exact hj
      have hle := (hinv.cnt i hi).2
      rw [List.getElem?_set_ne (fun h => by
          have := pos_inj _ _ _ _ _ hroom (by omega) h
          exact hnew ⟨this.1, this.2.symm⟩),
        List.getD_append _ _ _ _ hj2]
      exact hinv.data i j hi hj2


theorem addCoeffStep_spec (agglomIndex upperAddr lowerAddr : List Int) (nRows nC : Nat)
    (hok : AddrOK agglomIndex upperAddr lowerAddr nRows nC) (n : Nat)
    (hn : n < upperAddr.length) (s : NbrStore)
    (hinv : StoreInv (provPairs agglomIndex upperAddr lowerAddr n) nC upperAddr.length s)
    (hcra : CraInv agglomIndex upperAddr lowerAddr (provPairs agglomIndex upperAddr lowerAddr n)
      n s.coeffRestrictAddr) :
    ∃ s', addCoeffStep agglomIndex upperAddr lowerAddr (nC : Int) s n = some s' ∧
      StoreInv (provPairs agglomIndex upperAddr lowerAddr (n + 1)) nC upperAddr.length s' ∧
      CraInv agglomIndex upperAddr lowerAddr (provPairs agglomIndex upperAddr lowerAddr (n + 1))
        (n + 1) s'.coeffRestrictAddr := by
  obtain ⟨uc, lc, hu, hl, hr1, hr2, he1, he1', he2, he2'⟩ :=
    rmAddr_read agglomIndex upperAddr lowerAddr nRows nC hok n hn
  have hnc : n < s.coeffRestrictAddr.length := by rw [hinv.lenC]; exact hn
  simp only [addCoeffStep, readAt_natCast, hu, hl, hr1, hr2, Option.bind_eq_bind,
    Option.some_bind]
  by_cases hintra : (rmAddr agglomIndex upperAddr lowerAddr n).1
      = (rmAddr agglomIndex upperAddr lowerAddr n).2
  · rw [if_pos hintra, writeAt_eq_some _ _ _ (by omega) (by simpa using hnc)]
    simp only [Option.some_bind, Int.toNat_ofNat]
    refine ⟨_, rfl, ?_, ?_⟩
    · rw [provPairs_succ_intra _ _ _ _ hintra]
      exact ⟨hinv.cap, hinv.lenN, hinv.lenD, by simp [hinv.lenC], hinv.lenI, hinv.count,
        hinv.nei, hinv.cnt, hinv.data⟩
    · rw [provPairs_succ_intra _ _ _ _ hintra]
      exact craInv_set _ _ _ _ _ n _ _ hnc hcra (fun q hq => ⟨hq, rfl⟩)
        ⟨fun _ => rfl, fun h => absurd hintra h⟩
  · rw [if_neg hintra]
    obtain ⟨hlt, hown, hnei⟩ := canonPair_of_ne _ hintra
    rw [← hown, ← hnei]
    have hown0 : 0 ≤ (canonPair (rmAddr agglomIndex upperAddr lowerAddr n)).1 := by
      rw [hown]; split <;> omega
    have hownC : (canonPair (rmAddr agglomIndex upperAddr lowerAddr n)).1 < (nC : Int) := by
      rw [hown]; split <;> omega
    have hcast : (((canonPair (rmAddr agglomIndex upperAddr lowerAddr n)).1.toNat : Nat) : Int)
        = (canonPair (rmAddr agglomIndex upperAddr lowerAddr n)).1 := by omega
    have hpair : (canonPair (rmAddr agglomIndex upperAddr lowerAddr n))
        = ((((canonPair (rmAddr agglomIndex upperAddr lowerAddr n)).1.toNat : Nat) : Int),
            (canonPair (rmAddr agglomIndex upperAddr lowerAddr n)).2) := by
      rw [hcast]
    have hownN : (canonPair (rmAddr agglomIndex upperAddr lowerAddr n)).1.toNat < nC := by omega
    obtain ⟨hcnt, hle⟩ := hinv.cnt _ hownN
    rw [readAt_of_getElem? _ _ _ hown0 hcnt]
    simp only [Option.some_bind, Int.toNat_ofNat]
    obtain ⟨r, hr, hrsome, hrnone⟩ := findNbr_row _ nC upperAddr.length s hinv
      (canonPair (rmAddr agglomIndex upperAddr lowerAddr n)).1.toNat
      (canonPair (rmAddr agglomIndex upperAddr lowerAddr n)).2 hownN
    rw [hcast] at hr
    rw [hr]
    simp only [Option.some_bind]
    cases r with
    | some q =>
      obtain ⟨q', hq1, hq2, hq3⟩ := hrsome q rfl
      rw [← hpair] at hq3
      have hmem : canonPair (rmAddr agglomIndex upperAddr lowerAddr n)
          ∈ provPairs agglomIndex upperAddr lowerAddr n := by
        rw [← hq3, List.getD_eq_getElem _ _ hq2]
        exact List.getElem_mem hq2
      simp only
      rw [writeAt_eq_some _ _ _ (by omega) (by simpa using hnc)]
      simp only [Option.some_bind, Int.toNat_ofNat]
      refine ⟨_, rfl, ?_, ?_⟩
      · rw [provPairs_succ_old _ _ _ _ hintra hmem]
        exact ⟨hinv.cap, hinv.lenN, hinv.lenD, by simp [hinv.lenC], hinv.lenI, hinv.count,
          hinv.nei, hinv.cnt, hinv.data⟩
      · rw [provPairs_succ_old _ _ _ _ hintra hmem]
        exact craInv_set _ _ _ _ _ n _ _ hnc hcra (fun q hq => ⟨hq, rfl⟩)
          ⟨fun h => absurd h hintra, fun _ => ⟨q', hq1, hq2, hq3⟩⟩
    | none =>
      have hnmem : canonPair (rmAddr agglomIndex upperAddr lowerAddr n)
          ∉ provPairs agglomIndex upperAddr lowerAddr n := by
        rw [hpair]; exact hrnone rfl
      have hplen : (provPairs agglomIndex upperAddr lowerAddr n).length < upperAddr.length := by
        have := provPairs_length_le agglomIndex upperAddr lowerAddr n
        omega
      have htail : ∀ s1 : NbrStore,
          StoreInv (provPairs agglomIndex upperAddr lowerAddr n) nC upperAddr.length s1 →
          (rowOf (provPairs agglomIndex upperAddr lowerAddr n)
            (canonPair (rmAddr agglomIndex upperAddr lowerAddr n)).1.toNat).length
              < s1.maxNnbrs.toNat →
          s1.coeffRestrictAddr = s.coeffRestrictAddr →
          ∃ s', recordNewCoeff s1 (canonPair (rmAddr agglomIndex upperAddr lowerAddr n)).1
              (canonPair (rmAddr agglomIndex upperAddr lowerAddr n)).2
              ((rowOf (provPairs agglomIndex upperAddr lowerAddr n)
                (canonPair (rmAddr agglomIndex upperAddr lowerAddr n)).1.toNat).length : Int) n
              = some s' ∧
            StoreInv (provPairs agglomIndex upperAddr lowerAddr (n + 1)) nC upperAddr.length s' ∧
            CraInv agglomIndex upperAddr lowerAddr
              (provPairs agglomIndex upperAddr lowerAddr (n + 1)) (n + 1)
              s'.coeffRestrictAddr := by
        intro s1 hinv1 hroom hc1
        have hM1 : 0 ≤ s1.maxNnbrs := by have := hinv1.cap; omega
        obtain ⟨hp0, hp1⟩ := pos_toNat s1.maxNnbrs
          (canonPair (rmAddr agglomIndex upperAddr lowerAddr n)).1
          (rowOf (provPairs agglomIndex upperAddr lowerAddr n)
            (canonPair (rmAddr agglomIndex upperAddr lowerAddr n)).1.toNat).length hM1 hown0
        simp only [recordNewCoeff, Option.bind_eq_bind]
        rw [writeAt_eq_some _ _ _ hp0 (by
          rw [hp1, hinv1.lenD]; exact pos_lt _ _ _ _ hownN hroom)]
        simp only [Option.some_bind]
        rw [hinv1.count, writeAt_eq_some _ _ _ (by omega) (by
          rw [hinv1.lenI]; simpa using hplen)]
        simp only [Option.some_bind]
        rw [writeAt_eq_some _ _ _ (by omega) (by rw [hc1]; simpa using hnc)]
        simp only [Option.some_bind]
        rw [writeAt_eq_some _ _ _ hown0 (by rw [hinv1.lenN]; exact hownN)]
        simp only [Option.some_bind, Int.toNat_ofNat, hp1]
        refine ⟨_, rfl, ?_, ?_⟩
        · rw [provPairs_succ_new _ _ _ _ hintra hnmem]
          nth_rewrite 1 [hpair]
          exact storeInv_append _ nC upperAddr.length s1 hinv1 _ _ hroom hplen _
            (by simp [hc1, hinv.lenC])
        · rw [provPairs_succ_new _ _ _ _ hintra hnmem]
          simp only
          rw [hc1]
          refine craInv_set _ _ _ _ _ n _ _ hnc hcra
            (fun q hq => ⟨by rw [List.length_append]; omega, List.getD_append _ _ _ _ hq⟩)
            ⟨fun h => absurd h hintra, fun _ => ⟨_, rfl, by simp, ?_⟩⟩
          rw [List.getD_append_right _ _ _ _ (le_refl _)]
          simp
      have hcap := hinv.cap
      simp only
      split
      · obtain ⟨s1, h1, h2, h3, h4, _⟩ := doubleStore_spec _ nC upperAddr.length s hinv
        rw [h1]
        simp only [Option.some_bind]
        exact htail s1 h2 (by rw [h3]; omega) h4
      · simp only [pure, Option.some_bind]
        exact htail s hinv (by omega) rfl


theorem collectCoarseCoeffs_spec (M : Int) (hM : 1 ≤ M)
    (agglomIndex upperAddr lowerAddr : List Int) (nRows nC : Nat)
    (hok : AddrOK agglomIndex upperAddr lowerAddr nRows nC) :
    ∃ s, collectCoarseCoeffs M agglomIndex (nC : Int) upperAddr lowerAddr = some s ∧
      StoreInv (provPairs agglomIndex upperAddr lowerAddr upperAddr.length) nC
        upperAddr.length s ∧
      CraInv agglomIndex upperAddr lowerAddr
        (provPairs agglomIndex upperAddr lowerAddr upperAddr.length) upperAddr.length
        s.coeffRestrictAddr := by
  unfold collectCoarseCoeffs
  have hlen : (M * (nC : Int)).toNat = M.toNat * nC := by
    have h : M * (nC : Int) = ((M.toNat * nC : Nat) : Int) := by
      push_cast
      rw [Int.toNat_of_nonneg (by omega)]
    rw [h, Int.toNat_ofNat]
  exact foldlM_range_inv (addCoeffStep agglomIndex upperAddr lowerAddr (nC : Int))
    (fun n s => StoreInv (provPairs agglomIndex upperAddr lowerAddr n) nC upperAddr.length s ∧
      CraInv agglomIndex upperAddr lowerAddr (provPairs agglomIndex upperAddr lowerAddr n) n
        s.coeffRestrictAddr) upperAddr.length _
    ⟨⟨hM, by simp, by simp [hlen], by simp, by simp, by simp [provPairs],
        fun q hq => by simp [provPairs] at hq,
        fun i hi => ⟨by simp [provPairs, rowOf, hi], by simp [provPairs, rowOf]⟩,
        fun i j _ hj => by simp [provPairs, rowOf] at hj⟩,
      fun c hc => by omega⟩
    (fun k s hk hinv => addCoeffStep_spec agglomIndex upperAddr lowerAddr nRows nC hok k hk s
      hinv.1 hinv.2)


/-! ## Coarse addressing: the renumbering -/

theorem mem_finalOrder (pairs : List (Int × Int)) (i q : Nat) :
    q ∈ finalOrder pairs i ↔
      q < pairs.length ∧ ∃ j, j < i ∧ (pairs.getD q (0, 0)).1 = (j : Int) := by
  induction i with
  | zero => simp [finalOrder]
  | succ i ih =>
    rw [finalOrder, List.mem_append, ih, mem_rowOf]
    constructor
    · rintro (⟨h1, j, hj, h2⟩ | ⟨h1, h2⟩)
      · exact ⟨h1, j, by omega, h2⟩
      · exact ⟨h1, i, by omega, h2⟩
    · rintro ⟨h1, j, hj, h2⟩
      by_cases hji : j = i
      · subst hji; exact Or.inr ⟨h1, h2⟩
      · exact Or.inl ⟨h1, j, by omega, h2⟩

theorem finalOrder_nodup (pairs : List (Int × Int)) (i : Nat) : (finalOrder pairs i).Nodup := by
  induction i with
  | zero => simp [finalOrder]
  | succ i ih =>
    rw [finalOrder]
    refine List.Nodup.append ih (rowOf_nodup pairs i) ?_
    intro q h1 h2
    rw [mem_finalOrder] at h1
    rw [mem_rowOf] at h2
    obtain ⟨_, j, hj, h3⟩ := h1
    have := h3.symm.trans h2.2
    omega

theorem finalOrder_perm (pairs : List (Int × Int)) (nC : Nat)
    (hown : ∀ p ∈ pairs, 0 ≤ p.1 ∧ p.1 < (nC : Int)) :
    (finalOrder pairs nC).Perm (List.range pairs.length) := by
  rw [List.perm_ext_iff_of_nodup (finalOrder_nodup pairs nC) (List.nodup_range _)]
  intro q
  rw [mem_finalOrder, List.mem_range]
  constructor
  · exact fun h => h.1
  · intro hq
    refine ⟨hq, ?_⟩
    have h := hown pairs[q] (List.getElem_mem hq)
    rw [List.getD_eq_getElem _ _ hq]
    exact ⟨(pairs[q]).1.toNat, by omega, by omega⟩

theorem nodup_length_le (L : List Nat) (P : Nat) (hnd : L.Nodup) (hlt : ∀ x ∈ L, x < P) :
    L.length ≤ P := by
  have h := (List.Nodup.subperm hnd (fun x hx => List.mem_range.mpr (hlt x hx))).length_le
  simpa using h

theorem take_succ_getD (l : List Nat) (j : Nat) (hj : j < l.length) :
    l.take (j + 1) = l.take j ++ [l.getD j 0] := by
  rw [List.take_succ, List.getElem?_eq_getElem hj, List.getD_eq_getElem _ _ hj]
  rfl


theorem renumberNbrStep_spec (pairs : List (Int × Int)) (nC nF : Nat) (s : NbrStore)
    (hinv : StoreInv pairs nC nF s) (cci j : Nat) (hc : cci < nC)
    (hj : j < (rowOf pairs cci).length) (L : List Nat) (r : Renumber)
    (hr : RenumInv pairs L r) (hnd : (L ++ [(rowOf pairs cci).getD j 0]).Nodup)
    (hlt : ∀ x ∈ L, x < pairs.length) :
    ∃ r', renumberNbrStep s cci r j = some r' ∧
      RenumInv pairs (L ++ [(rowOf pairs cci).getD j 0]) r' := by
  obtain ⟨hq1, hq2⟩ := rowOf_getD_mem pairs cci j hj
  have hlen : L.length < pairs.length := by
    have h := nodup_length_le _ pairs.length hnd (by
      intro x hx
      rw [List.mem_append, List.mem_singleton] at hx
      rcases hx with hx | hx
      · exact hlt x hx
      · rw [hx]; exact hq1)
    rw [List.length_append, List.length_singleton] at h
    omega
  have hqL : (rowOf pairs cci).getD j 0 ∉ L := by
    intro h
    rw [List.nodup_append] at hnd
    exact hnd.2.2 h (List.mem_singleton_self _)
  have hM : 0 ≤ s.maxNnbrs := by have := hinv.cap; omega
  obtain ⟨hp0, hp1⟩ := pos_toNat s.maxNnbrs (cci : Int) j hM (by omega)
  have hdata : readAt s.blockNbrsData (s.maxNnbrs * (cci : Int) + (j : Int))
      = some (((rowOf pairs cci).getD j 0 : Nat) : Int) := by
    unfold readAt
    rw [if_pos hp0, hp1, Int.toNat_ofNat]
    exact hinv.data cci j hc hj
  have hnei : readAt s.initCoarseNeighb (((rowOf pairs cci).getD j 0 : Nat) : Int)
      = some (pairs.getD ((rowOf pairs cci).getD j 0) (0, 0)).2 := by
    rw [readAt_natCast]
    exact hinv.nei _ hq1
  unfold renumberNbrStep
  simp only [Option.bind_eq_bind]
  rw [hr.cnt, writeAt_eq_some _ _ _ (by omega) (by rw [hr.lenO]; simpa using hlen)]
  simp only [Option.some_bind]
  rw [hdata]
  simp only [Option.some_bind]
  rw [hnei]
  simp only [Option.some_bind]
  rw [writeAt_eq_some _ _ _ (by omega) (by rw [hr.lenN]; simpa using hlen)]
  simp only [Option.some_bind]
  rw [writeAt_eq_some _ _ _ (by omega) (by rw [hr.lenM]; simpa using hq1)]
  simp only [Option.some_bind, Int.toNat_ofNat]
  refine ⟨_, rfl, ?_⟩
  refine ⟨by simp, by simp [hr.lenO], by simp [hr.lenN], by simp [hr.lenM], ?_⟩
  intro k hk
  rw [List.length_append, List.length_singleton] at hk
  by_cases hkL : k = L.length
  · subst hkL
    have hget : (L ++ [(rowOf pairs cci).getD j 0]).getD L.length 0
        = (rowOf pairs cci).getD j 0 := by
      rw [List.getD_append_right _ _ _ _ (le_refl _)]
      simp
    rw [hget]
    simp only
    rw [List.getElem?_set_self (by rw [hr.lenO]; exact hlen),
      List.getElem?_set_self (by rw [hr.lenN]; exact hlen),
      List.getElem?_set_self (by rw [hr.lenM]; exact hq1), hq2]
    exact ⟨rfl, rfl, rfl⟩
  · have hk2 : k < L.length := by omega
    have hget : (L ++ [(rowOf pairs cci).getD j 0]).getD k 0 = L.getD k 0 :=
      List.getD_append _ _ _ _ hk2
    rw [hget]
    simp only
    obtain ⟨h1, h2, h3⟩ := hr.vals k hk2
    have hne : (rowOf pairs cci).getD j 0 ≠ L.getD k 0 := by
      intro h
      apply hqL
      rw [h, List.getD_eq_getElem _ _ hk2]
      exact List.getElem_mem hk2
    rw [List.getElem?_set_ne (fun h => hkL h.symm), List.getElem?_set_ne (fun h => hkL h.symm),
      List.getElem?_set_ne hne]
    exact ⟨h1, h2, h3⟩


theorem renumberBlockStep_spec (pairs : List (Int × Int)) (nC nF : Nat) (s : NbrStore)
    (hinv : StoreInv pairs nC nF s) (cci : Nat) (hc : cci < nC) (r : Renumber)
    (hr : RenumInv pairs (finalOrder pairs cci) r) :
    ∃ r', renumberBlockStep s r cci = some r' ∧
      RenumInv pairs (finalOrder pairs (cci + 1)) r' := by
  unfold renumberBlockStep
  simp only [Option.bind_eq_bind]
  rw [readAt_natCast, (hinv.cnt cci hc).1]
  simp only [Option.some_bind, Int.toNat_ofNat]
  obtain ⟨r', h1, h2⟩ := foldlM_range_inv (renumberNbrStep s cci)
    (fun j r => RenumInv pairs (finalOrder pairs cci ++ (rowOf pairs cci).take j) r)
    (rowOf pairs cci).length r (by simpa using hr) (by
      intro j r0 hj hr0
      have hnd : (finalOrder pairs cci ++ (rowOf pairs cci).take (j + 1)).Nodup :=
        List.Nodup.sublist
          (List.Sublist.append (List.Sublist.refl _) (List.take_sublist _ _))
          (finalOrder_nodup pairs (cci + 1))
      beta_reduce
      rw [take_succ_getD _ _ hj, ← List.append_assoc] at hnd ⊢
      refine renumberNbrStep_spec pairs nC nF s hinv cci j hc hj _ r0 hr0 hnd ?_
      intro x hx
      rw [List.mem_append] at hx
      rcases hx with hx | hx
      · exact ((mem_finalOrder pairs cci x).mp hx).1
      · exact ((mem_rowOf pairs cci x).mp (List.mem_of_mem_take hx)).1)
  refine ⟨r', h1, ?_⟩
  rw [List.take_length] at h2
  exact h2

theorem renumberLoop_spec (pairs : List (Int × Int)) (nC nF : Nat) (s : NbrStore)
    (hinv : StoreInv pairs nC nF s) :
    ∃ r, (List.range s.blockNnbrs.length).foldlM (renumberBlockStep s)
        { coarseOwner := List.replicate s.nCoarseCoeffs.toNat (-1)
          coarseNeighbour := List.replicate s.nCoarseCoeffs.toNat (-1)
          coarseCoeffMap := List.replicate s.nCoarseCoeffs.toNat (-1)
          coarseCoeffi := 0 } = some r ∧
      RenumInv pairs (finalOrder pairs nC) r := by
  rw [hinv.lenN, hinv.count, Int.toNat_ofNat]
  exact foldlM_range_inv (renumberBlockStep s)
    (fun i r => RenumInv pairs (finalOrder pairs i) r) nC _
    ⟨by simp [finalOrder], by simp, by simp, by simp,
      fun k hk => by simp [finalOrder] at hk⟩
    (fun i r hi hr => renumberBlockStep_spec pairs nC nF s hinv i hi r hr)

theorem remapLoop_spec (map cra : List Int) (P : Nat)
    (hnonneg : ∀ (c : Nat) (v : Int), cra[c]? = some v → 0 ≤ v → v.toNat < P)
    (hmap : P ≤ map.length) :
    ∃ cra', (List.range cra.length).foldlM (remapStep map) cra = some cra' ∧
      cra'.length = cra.length ∧
      ∀ (c : Nat) (v : Int), cra[c]? = some v →
        (0 ≤ v → cra'[c]? = map[v.toNat]?) ∧ (v < 0 → cra'[c]? = some v) := by
  obtain ⟨cra', h1, h2, h3, _⟩ := foldlM_range_inv (remapStep map)
    (fun k x => x.length = cra.length ∧
      (∀ (c : Nat) (v : Int), c < k → cra[c]? = some v →
        (0 ≤ v → x[c]? = map[v.toNat]?) ∧ (v < 0 → x[c]? = some v)) ∧
      (∀ c, k ≤ c → x[c]? = cra[c]?)) cra.length cra
    ⟨rfl, fun c v hc => by omega, fun _ _ => rfl⟩ (by
      intro k x hk ⟨hx1, hx2, hx3⟩
      have hkx : x[k]? = some cra[k] := by
        rw [hx3 k (le_refl _)]; exact List.getElem?_eq_getElem hk
      unfold remapStep
      simp only [Option.bind_eq_bind]
      rw [readAt_natCast, hkx]
      simp only [Option.some_bind]
      by_cases hv : cra[k] ≥ 0
      · rw [if_pos hv]
        have hlt := hnonneg k cra[k] (List.getElem?_eq_getElem hk) hv
        rw [readAt_eq_some _ _ hv (by omega)]
        simp only [Option.some_bind]
        rw [writeAt_eq_some _ _ _ (by omega) (by simpa [hx1] using hk)]
        refine ⟨_, rfl, by simp [hx1], ?_, ?_⟩
        · intro c v hc hcv
          simp only [Int.toNat_ofNat]
          by_cases hck : c = k
          · subst hck
            rw [List.getElem?_set_self (by rw [hx1]; exact hk)]
            rw [List.getElem?_eq_getElem hk] at hcv
            injection hcv with hcv
            subst hcv
            exact ⟨fun _ => (List.getElem?_eq_getElem (by omega)).symm, fun h => by omega⟩
          · rw [List.getElem?_set_ne (fun h => hck h.symm)]
            exact hx2 c v (by omega) hcv
        · intro c hc
          simp only [Int.toNat_ofNat]
          rw [List.getElem?_set_ne (by omega)]
          exact hx3 c (by omega)
      · rw [if_neg hv]
        refine ⟨_, rfl, hx1, ?_, ?_⟩
        · intro c v hc hcv
          by_cases hck : c = k
          · subst hck
            rw [List.getElem?_eq_getElem hk] at hcv
            injection hcv with hcv
            subst hcv
            exact ⟨fun h => by omega, fun _ => hkx⟩
          · exact hx2 c v (by omega) hcv
        · intro c hc
          exact hx3 c (by omega))
  exact ⟨cra', h1, h2, fun c v hcv => h3 c v (by
    have := lt_of_getElem? cra c v hcv
    exact this) hcv⟩


theorem provPairs_owner_range (agglomIndex upperAddr lowerAddr : List Int) (nRows nC : Nat)
    (hok : AddrOK agglomIndex upperAddr lowerAddr nRows nC) (p : Int × Int)
    (hp : p ∈ provPairs agglomIndex upperAddr lowerAddr upperAddr.length) :
    0 ≤ p.1 ∧ p.1 < p.2 ∧ p.2 < (nC : Int) := by
  rw [mem_provPairs] at hp
  obtain ⟨c, hc, hne, hcp⟩ := hp
  obtain ⟨_, _, _, _, _, h1, h2, h3, h4⟩ := rmAddr_read _ _ _ _ _ hok c hc
  rw [← hcp]
  unfold canonPair
  simp only
  omega

theorem restrictAddressingWith_spec (M : Int) (hM : 1 ≤ M)
    (agglomIndex upperAddr lowerAddr : List Int) (nRows nC : Nat)
    (hok : AddrOK agglomIndex upperAddr lowerAddr nRows nC) :
    ∃ addr, restrictAddressingWith M agglomIndex (nC : Int) upperAddr lowerAddr = some addr ∧
      AddrSpec agglomIndex upperAddr lowerAddr nC addr := by
  obtain ⟨s, hs, hinv, hcra⟩ := collectCoarseCoeffs_spec M hM _ _ _ _ _ hok
  obtain ⟨r, hr, hrinv⟩ := renumberLoop_spec _ nC _ s hinv
  have hperm := finalOrder_perm (provPairs agglomIndex upperAddr lowerAddr upperAddr.length) nC
    (fun p hp => by
      have := provPairs_owner_range _ _ _ _ _ hok p hp
      omega)
  have hLlen := hperm.length_eq
  rw [List.length_range] at hLlen
  have hnonneg : ∀ (c : Nat) (v : Int), s.coeffRestrictAddr[c]? = some v → 0 ≤ v →
      v.toNat < (provPairs agglomIndex upperAddr lowerAddr upperAddr.length).length := by
    intro c v hcv hv
    have hc : c < upperAddr.length := by
      have := lt_of_getElem? _ _ _ hcv
      rw [hinv.lenC] at this
      exact this
    obtain ⟨h1, h2⟩ := hcra c hc
    obtain ⟨_, _, _, _, _, h3, _, _, _⟩ := rmAddr_read _ _ _ _ _ hok c hc
    by_cases he : (rmAddr agglomIndex upperAddr lowerAddr c).1
        = (rmAddr agglomIndex upperAddr lowerAddr c).2
    · have := h1 he
      rw [hcv] at this
      injection this with this
      omega
    · obtain ⟨q, hq1, hq2, _⟩ := h2 he
      rw [hcv] at hq1
      injection hq1 with hq1
      omega
  obtain ⟨cra', hc1, hc2, hc3⟩ := remapLoop_spec r.coarseCoeffMap s.coeffRestrictAddr _ hnonneg
    (le_of_eq hrinv.lenM.symm)
  refine ⟨{ nCoarseCoeffs := s.nCoarseCoeffs, coarseOwner := r.coarseOwner,
            coarseNeighbour := r.coarseNeighbour, coeffRestrictAddr := cra' }, ?_, ?_⟩
  · unfold restrictAddressingWith
    rw [hs]
    simp only [Option.some_bind, renumberCoarseCoeffs, Option.bind_eq_bind]
    rw [hr]
    simp only [Option.some_bind]
    rw [hc1]
    rfl
  · refine ⟨hinv.count, hrinv.lenO, hrinv.lenN, by rw [hc2, hinv.lenC], hperm, ?_, ?_, ?_⟩
    · intro k hk
      obtain ⟨h1, h2, _⟩ := hrinv.vals k (by omega)
      exact ⟨h1, h2⟩
    · intro c hc he
      have h1 := (hcra c hc).1 he
      obtain ⟨_, _, _, _, _, h3, _, _, _⟩ := rmAddr_read _ _ _ _ _ hok c hc
      exact (hc3 c _ h1).2 (by omega)
    · intro c hc he
      obtain ⟨q, hq1, hq2, hq3⟩ := (hcra c hc).2 he
      have hmem : q ∈ finalOrder (provPairs agglomIndex upperAddr lowerAddr upperAddr.length)
          nC := by
        rw [hperm.mem_iff, List.mem_range]
        exact hq2
      obtain ⟨k, hk, hkq⟩ := List.getElem_of_mem hmem
      have hget : (finalOrder (provPairs agglomIndex upperAddr lowerAddr upperAddr.length)
          nC).getD k 0 = q := by
        rw [List.getD_eq_getElem _ _ hk]; exact hkq
      refine ⟨k, by omega, ?_, by rw [hget]; exact hq3⟩
      rw [(hc3 c _ hq1).1 (by omega), Int.toNat_ofNat]
      have := (hrinv.vals k hk).2.2
      rw [hget] at this
      exact this


/-! ## Coarse addressing: mapping of the fine coefficients -/

theorem order6_addrOK :
    AddrOK [0, 1, 2, 1, 0, 2] order6.upperAddr order6.lowerAddr 6 3 :=
  ⟨rfl, by unfold ValidAgglom; decide, by unfold ValidAddr; decide,
    by unfold ValidAddr; decide, rfl⟩

theorem rmAddr_of_read (agglomIndex upperAddr lowerAddr : List Int) (c : Nat) (u l a b : Int)
    (hu : upperAddr[c]? = some u) (hl : lowerAddr[c]? = some l)
    (ha : readAt agglomIndex u = some a) (hb : readAt agglomIndex l = some b) :
    rmAddr agglomIndex upperAddr lowerAddr c = (a, b) := by
  have hc1 := lt_of_getElem? _ _ _ hu
  have hc2 := lt_of_getElem? _ _ _ hl
  rw [List.getElem?_eq_getElem hc1] at hu
  rw [List.getElem?_eq_getElem hc2] at hl
  injection hu with hu
  injection hl with hl
  unfold readAt at ha hb
  split at ha
  · split at hb
    · have h1 := lt_of_getElem? _ _ _ ha
      have h2 := lt_of_getElem? _ _ _ hb
      rw [List.getElem?_eq_getElem h1] at ha
      rw [List.getElem?_eq_getElem h2] at hb
      injection ha with ha
      injection hb with hb
      unfold rmAddr
      rw [List.getD_eq_getElem _ _ hc1, List.getD_eq_getElem _ _ hc2, hu, hl,
        List.getD_eq_getElem _ _ h1, List.getD_eq_getElem _ _ h2, ha, hb]
    · cases hb
  · cases ha

/-- C13. Inter-cluster coefficient mapping: for a valid agglomeration map and
fine addressing the coarse addressing is built, and for every fine coefficient
`c` whose ends lie in different clusters `a = agglomIndex[upperAddr[c]]` and
`b = agglomIndex[lowerAddr[c]]` the final `coeffRestrictAddr[c]` is an index
`j` with `0 <= j < nCoarseCoeffs`, `coarseOwner[j] = min a b` and
`coarseNeighbour[j] = max a b`. -/
theorem inter_cluster_mapping (agglomIndex upperAddr lowerAddr : List Int) (nRows nC : Nat)
    (hok : AddrOK agglomIndex upperAddr lowerAddr nRows nC) :
    ∃ addr, restrictAddressing agglomIndex (nC : Int) upperAddr lowerAddr = some addr ∧
      ∀ (c : Nat) (u l a b : Int), upperAddr[c]? = some u → lowerAddr[c]? = some l →
        readAt agglomIndex u = some a → readAt agglomIndex l = some b → a ≠ b →
        ∃ j : Int, addr.coeffRestrictAddr[c]? = some j ∧ 0 ≤ j ∧ j < addr.nCoarseCoeffs ∧
          readAt addr.coarseOwner j = some (min a b) ∧
          readAt addr.coarseNeighbour j = some (max a b) := by
  obtain ⟨addr, h1, h2⟩ := restrictAddressingWith_spec 10 (by decide) _ _ _ _ _ hok
  refine ⟨addr, h1, ?_⟩
  intro c u l a b hu hl ha hb hab
  have hrm := rmAddr_of_read _ _ _ c u l a b hu hl ha hb
  obtain ⟨k, hk1, hk2, hk3⟩ := h2.inter c (lt_of_getElem? _ _ _ hu) (by rw [hrm]; exact hab)
  obtain ⟨ho, hn⟩ := h2.own k hk1
  rw [hk3, hrm] at ho hn
  refine ⟨(k : Int), hk2, by omega, by rw [h2.count]; omega, ?_, ?_⟩
  · rw [readAt_natCast]; exact ho
  · rw [readAt_natCast]; exact hn

/-- Witness of C13 on the addressing of `order6` with three clusters. -/
theorem inter_cluster_mapping_witness :
    ∃ addr, restrictAddressing [0, 1, 2, 1, 0, 2] ((3 : Nat) : Int) order6.upperAddr
        order6.lowerAddr = some addr ∧
      ∀ (c : Nat) (u l a b : Int), order6.upperAddr[c]? = some u →
        order6.lowerAddr[c]? = some l →
        readAt [0, 1, 2, 1, 0, 2] u = some a → readAt [0, 1, 2, 1, 0, 2] l = some b → a ≠ b →
        ∃ j : Int, addr.coeffRestrictAddr[c]? = some j ∧ 0 ≤ j ∧ j < addr.nCoarseCoeffs ∧
          readAt addr.coarseOwner j = some (min a b) ∧
          readAt addr.coarseNeighbour j = some (max a b) :=
  inter_cluster_mapping [0, 1, 2, 1, 0, 2] order6.upperAddr order6.lowerAddr 6 3 order6_addrOK

/-- C14. Intra-cluster coefficient encoding: for a valid agglomeration map and
fine addressing the coarse addressing is built, and every fine coefficient `c`
has a final `coeffRestrictAddr[c]`; when both ends of `c` lie in the same
cluster `k` it is `-(k + 1)`, which is negative and is decoded by
`-1 - coeffRestrictAddr[c] = k`; it is negative only in that case. -/
theorem intra_cluster_encoding (agglomIndex upperAddr lowerAddr : List Int) (nRows nC : Nat)
    (hok : AddrOK agglomIndex upperAddr lowerAddr nRows nC) :
    ∃ addr, restrictAddressing agglomIndex (nC : Int) upperAddr lowerAddr = some addr ∧
      ∀ (c : Nat) (u l a b : Int), upperAddr[c]? = some u → lowerAddr[c]? = some l →
        readAt agglomIndex u = some a → readAt agglomIndex l = some b →
        ∃ v : Int, addr.coeffRestrictAddr[c]? = some v ∧
          (a = b → v = -(a + 1) ∧ v < 0 ∧ -1 - v = a) ∧ (v < 0 → a = b) := by
  obtain ⟨addr, h1, h2⟩ := restrictAddressingWith_spec 10 (by decide) _ _ _ _ _ hok
  refine ⟨addr, h1, ?_⟩
  intro c u l a b hu hl ha hb
  have hrm := rmAddr_of_read _ _ _ c u l a b hu hl ha hb
  have hc := lt_of_getElem? _ _ _ hu
  obtain ⟨_, _, _, _, _, _, h3, h4, h5, h6⟩ := rmAddr_read _ _ _ _ _ hok c hc
  rw [hrm] at h3 h4 h5 h6
  simp only at h3 h4 h5 h6
  by_cases hab : a = b
  · have h := h2.intra c hc (by rw [hrm]; exact hab)
    rw [hrm] at h
    exact ⟨_, h, fun _ => ⟨rfl, by omega, by omega⟩, fun _ => hab⟩
  · obtain ⟨k, _, hk2, _⟩ := h2.inter c hc (by rw [hrm]; exact hab)
    exact ⟨_, hk2, fun h => absurd h hab, fun h => by omega⟩

/-- Witness of C14 on the addressing of `order6` with three clusters. -/
theorem intra_cluster_encoding_witness :
    ∃ addr, restrictAddressing [0, 1, 2, 1, 0, 2] ((3 : Nat) : Int) order6.upperAddr
        order6.lowerAddr = some addr ∧
      ∀ (c : Nat) (u l a b : Int), order6.upperAddr[c]? = some u →
        order6.lowerAddr[c]? = some l →
        readAt [0, 1, 2, 1, 0, 2] u = some a → readAt [0, 1, 2, 1, 0, 2] l = some b →
        ∃ v : Int, addr.coeffRestrictAddr[c]? = some v ∧
          (a = b → v = -(a + 1) ∧ v < 0 ∧ -1 - v = a) ∧ (v < 0 → a = b) :=
  intra_cluster_encoding [0, 1, 2, 1, 0, 2] order6.upperAddr order6.lowerAddr 6 3 order6_addrOK


/-! ## Coarse addressing: canonical pairs without duplicates -/

theorem sym2_canonPair (e : Int × Int) : Sym2.mk (canonPair e) = Sym2.mk e := by
  obtain ⟨a, b⟩ := e
  unfold canonPair
  simp only
  by_cases h : a ≤ b
  · rw [min_eq_left h, max_eq_right h]
  · rw [min_eq_right (by omega), max_eq_left (by omega)]
    exact Sym2.eq_swap

theorem sym2_inj_of_le (p q : Int × Int) (hp : p.1 ≤ p.2) (hq : q.1 ≤ q.2)
    (h : Sym2.mk p = Sym2.mk q) : p = q := by
  obtain ⟨a, b⟩ := p
  obtain ⟨c, d⟩ := q
  have h2 : a = c ∧ b = d ∨ a = d ∧ b = c := Sym2.eq_iff.mp h
  simp only at hp hq
  rcases h2 with ⟨h3, h4⟩ | ⟨h3, h4⟩
  · rw [h3, h4]
  · have h5 : a = c := by omega
    have h6 : b = d := by omega
    rw [h5, h6]

theorem provPairs_length_eq_card (agglomIndex upperAddr lowerAddr : List Int) (n : Nat) :
    (provPairs agglomIndex upperAddr lowerAddr n).length
      = (((Finset.range n).filter (fun c => (rmAddr agglomIndex upperAddr lowerAddr c).1
            ≠ (rmAddr agglomIndex upperAddr lowerAddr c).2)).image
          (fun c => Sym2.mk (rmAddr agglomIndex upperAddr lowerAddr c))).card := by
  rw [← List.toFinset_card_of_nodup (provPairs_nodup agglomIndex upperAddr lowerAddr n)]
  have himg : (provPairs agglomIndex upperAddr lowerAddr n).toFinset
      = ((Finset.range n).filter (fun c => (rmAddr agglomIndex upperAddr lowerAddr c).1
            ≠ (rmAddr agglomIndex upperAddr lowerAddr c).2)).image
          (fun c => canonPair (rmAddr agglomIndex upperAddr lowerAddr c)) := by
    ext p
    rw [List.mem_toFinset, mem_provPairs, Finset.mem_image]
    constructor
    · rintro ⟨c, h1, h2, h3⟩
      exact ⟨c, by rw [Finset.mem_filter, Finset.mem_range]; exact ⟨h1, h2⟩, h3⟩
    · rintro ⟨c, h1, h3⟩
      rw [Finset.mem_filter, Finset.mem_range] at h1
      exact ⟨c, h1.1, h1.2, h3⟩
  have hcomp : ((Finset.range n).filter (fun c => (rmAddr agglomIndex upperAddr lowerAddr c).1
            ≠ (rmAddr agglomIndex upperAddr lowerAddr c).2)).image
          (fun c => Sym2.mk (rmAddr agglomIndex upperAddr lowerAddr c))
      = (((Finset.range n).filter (fun c => (rmAddr agglomIndex upperAddr lowerAddr c).1
            ≠ (rmAddr agglomIndex upperAddr lowerAddr c).2)).image
          (fun c => canonPair (rmAddr agglomIndex upperAddr lowerAddr c))).image Sym2.mk := by
    rw [Finset.image_image]
    apply Finset.image_congr
    intro c _
    exact (sym2_canonPair _).symm
  rw [hcomp, ← himg, Finset.card_image_of_injOn]
  intro p hp q hq hpq
  rw [Finset.mem_coe, List.mem_toFinset, mem_provPairs] at hp hq
  obtain ⟨c, _, _, hc⟩ := hp
  obtain ⟨d, _, _, hd⟩ := hq
  refine sym2_inj_of_le p q ?_ ?_ hpq
  · rw [← hc]; unfold canonPair; simp only; omega
  · rw [← hd]; unfold canonPair; simp only; omega

/-- C15. Canonical coarse addressing without duplicates: for a valid
agglomeration map and fine addressing the coarse addressing is built with
`nCoarseCoeffs` owners and neighbours, every coarse coefficient has
`coarseOwner[j] < coarseNeighbour[j]`, no two coarse coefficients have the
same (owner, neighbour) pair, and `nCoarseCoeffs` is the number of distinct
unordered pairs of different clusters
`{agglomIndex[upperAddr[c]], agglomIndex[lowerAddr[c]]}` over the fine
coefficients `c`. -/
theorem coarse_addressing_canonical (agglomIndex upperAddr lowerAddr : List Int)
    (nRows nC : Nat) (hok : AddrOK agglomIndex upperAddr lowerAddr nRows nC) :
    ∃ addr, restrictAddressing agglomIndex (nC : Int) upperAddr lowerAddr = some addr ∧
      (addr.coarseOwner.length : Int) = addr.nCoarseCoeffs ∧
      (addr.coarseNeighbour.length : Int) = addr.nCoarseCoeffs ∧
      (∀ (j : Nat) (o n : Int), addr.coarseOwner[j]? = some o →
        addr.coarseNeighbour[j]? = some n → o < n) ∧
      (∀ (j k : Nat) (o n : Int), addr.coarseOwner[j]? = some o →
        addr.coarseNeighbour[j]? = some n → addr.coarseOwner[k]? = some o →
        addr.coarseNeighbour[k]? = some n → j = k) ∧
      addr.nCoarseCoeffs
        = ((((Finset.range upperAddr.length).filter
            (fun c => (rmAddr agglomIndex upperAddr lowerAddr c).1
              ≠ (rmAddr agglomIndex upperAddr lowerAddr c).2)).image
          (fun c => Sym2.mk (rmAddr agglomIndex upperAddr lowerAddr c))).card : Int) := by
  obtain ⟨addr, h1, h2⟩ := restrictAddressingWith_spec 10 (by decide) _ _ _ _ _ hok
  have hLlen := h2.perm.length_eq
  rw [List.length_range] at hLlen
  have hLmem : ∀ k, k < (provPairs agglomIndex upperAddr lowerAddr upperAddr.length).length →
      (finalOrder (provPairs agglomIndex upperAddr lowerAddr upperAddr.length) nC).getD k 0
        < (provPairs agglomIndex upperAddr lowerAddr upperAddr.length).length := by
    intro k hk
    rw [← List.mem_range, ← h2.perm.mem_iff, List.getD_eq_getElem _ _ (by omega)]
    exact List.getElem_mem _
  have hpair : ∀ (j : Nat) (o n : Int), addr.coarseOwner[j]? = some o →
      addr.coarseNeighbour[j]? = some n →
      j < (provPairs agglomIndex upperAddr lowerAddr upperAddr.length).length ∧
      (provPairs agglomIndex upperAddr lowerAddr upperAddr.length).getD
        ((finalOrder (provPairs agglomIndex upperAddr lowerAddr upperAddr.length) nC).getD j 0)
        (0, 0) = (o, n) := by
    intro j o n ho hn
    have hj := lt_of_getElem? _ _ _ ho
    rw [h2.lenO] at hj
    obtain ⟨h3, h4⟩ := h2.own j hj
    rw [ho] at h3
    rw [hn] at h4
    injection h3 with h3
    injection h4 with h4
    exact ⟨hj, Prod.ext h3.symm h4.symm⟩
  refine ⟨addr, h1, by rw [h2.lenO, h2.count], by rw [h2.lenN, h2.count], ?_, ?_, ?_⟩
  · intro j o n ho hn
    obtain ⟨hj, hp⟩ := hpair j o n ho hn
    have hmem : (o, n) ∈ provPairs agglomIndex upperAddr lowerAddr upperAddr.length := by
      rw [← hp, List.getD_eq_getElem _ _ (hLmem j hj)]
      exact List.getElem_mem _
    exact (provPairs_owner_range _ _ _ _ _ hok _ hmem).2.1
  · intro j k o n ho hn ho2 hn2
    obtain ⟨hj, hp⟩ := hpair j o n ho hn
    obtain ⟨hk, hq⟩ := hpair k o n ho2 hn2
    rw [← hq, List.getD_eq_getElem _ _ (hLmem j hj), List.getD_eq_getElem _ _ (hLmem k hk)] at hp
    have h3 := (List.Nodup.getElem_inj_iff (provPairs_nodup _ _ _ _)).mp hp
    have hj2 : j < (finalOrder (provPairs agglomIndex upperAddr lowerAddr upperAddr.length)
        nC).length := by omega
    have hk2 : k < (finalOrder (provPairs agglomIndex upperAddr lowerAddr upperAddr.length)
        nC).length := by omega
    rw [List.getD_eq_getElem _ _ hj2, List.getD_eq_getElem _ _ hk2] at h3
    exact (List.Nodup.getElem_inj_iff (finalOrder_nodup _ _)).mp h3
  · rw [h2.count, provPairs_length_eq_card]

/-- Witness of C15 on the addressing of `order6` with three clusters. -/
theorem coarse_addressing_canonical_witness :
    ∃ addr, restrictAddressing [0, 1, 2, 1, 0, 2] ((3 : Nat) : Int) order6.upperAddr
        order6.lowerAddr = some addr ∧
      (addr.coarseOwner.length : Int) = addr.nCoarseCoeffs ∧
      (addr.coarseNeighbour.length : Int) = addr.nCoarseCoeffs ∧
      (∀ (j : Nat) (o n : Int), addr.coarseOwner[j]? = some o →
        addr.coarseNeighbour[j]? = some n → o < n) ∧
      (∀ (j k : Nat) (o n : Int), addr.coarseOwner[j]? = some o →
        addr.coarseNeighbour[j]? = some n → addr.coarseOwner[k]? = some o →
        addr.coarseNeighbour[k]? = some n → j = k) ∧
      addr.nCoarseCoeffs
        = ((((Finset.range order6.upperAddr.length).filter
            (fun c => (rmAddr [0, 1, 2, 1, 0, 2] order6.upperAddr order6.lowerAddr c).1
              ≠ (rmAddr [0, 1, 2, 1, 0, 2] order6.upperAddr order6.lowerAddr c).2)).image
          (fun c => Sym2.mk
            (rmAddr [0, 1, 2, 1, 0, 2] order6.upperAddr order6.lowerAddr c))).card : Int) :=
  coarse_addressing_canonical [0, 1, 2, 1, 0, 2] order6.upperAddr order6.lowerAddr 6 3
    order6_addrOK


/-! ## Coarse addressing: order of the coarse coefficients -/

theorem finalOrder_pairwise (pairs : List (Int × Int)) (i : Nat) :
    (finalOrder pairs i).Pairwise (fun q r =>
      (pairs.getD q (0, 0)).1 < (pairs.getD r (0, 0)).1 ∨
        ((pairs.getD q (0, 0)).1 = (pairs.getD r (0, 0)).1 ∧ q < r)) := by
  induction i with
  | zero => simp [finalOrder]
  | succ i ih =>
    rw [finalOrder, List.pairwise_append]
    refine ⟨ih, ?_, ?_⟩
    · have h : (rowOf pairs i).Pairwise (fun q r => q < r) :=
        List.Pairwise.filter _ (List.pairwise_lt_range _)
      refine List.Pairwise.imp_of_mem ?_ h
      intro q r hq hr hqr
      rw [mem_rowOf] at hq hr
      exact Or.inr ⟨hq.2.trans hr.2.symm, hqr⟩
    · intro q hq r hr
      rw [mem_finalOrder] at hq
      rw [mem_rowOf] at hr
      obtain ⟨_, j, hj, hq2⟩ := hq
      left
      rw [hq2, hr.2]
      omega

theorem provPairs_prefix (agglomIndex upperAddr lowerAddr : List Int) (m n : Nat) (h : m ≤ n) :
    provPairs agglomIndex upperAddr lowerAddr m <+: provPairs agglomIndex upperAddr lowerAddr n := by
  induction n with
  | zero =>
    have : m = 0 := by omega
    subst this
    exact List.prefix_refl _
  | succ n ih =>
    by_cases hmn : m = n + 1
    · subst hmn
      exact List.prefix_refl _
    · have h1 := ih (by omega)
      rw [provPairs]
      split
      · exact h1
      · split
        · exact h1
        · exact h1.trans (List.prefix_append _ _)

theorem provPairs_first_met (agglomIndex upperAddr lowerAddr : List Int) (n c q r : Nat)
    (hc : c < n) (hqr : q < r) (hr : r < (provPairs agglomIndex upperAddr lowerAddr n).length)
    (hne : (rmAddr agglomIndex upperAddr lowerAddr c).1
      ≠ (rmAddr agglomIndex upperAddr lowerAddr c).2)
    (hrc : (provPairs agglomIndex upperAddr lowerAddr n).getD r (0, 0)
      = canonPair (rmAddr agglomIndex upperAddr lowerAddr c)) :
    ∃ d, d < c ∧ (rmAddr agglomIndex upperAddr lowerAddr d).1
        ≠ (rmAddr agglomIndex upperAddr lowerAddr d).2 ∧
      canonPair (rmAddr agglomIndex upperAddr lowerAddr d)
        = (provPairs agglomIndex upperAddr lowerAddr n).getD q (0, 0) := by
  have hpre := provPairs_prefix agglomIndex upperAddr lowerAddr (c + 1) n (by omega)
  obtain ⟨t, ht⟩ := hpre
  have hmem : canonPair (rmAddr agglomIndex upperAddr lowerAddr c)
      ∈ provPairs agglomIndex upperAddr lowerAddr (c + 1) :=
    (mem_provPairs _ _ _ _ _).mpr ⟨c, by omega, hne, rfl⟩
  obtain ⟨r2, hr2, hr3⟩ := List.getElem_of_mem hmem
  have hr2n : r2 < (provPairs agglomIndex upperAddr lowerAddr n).length := by
    rw [← ht, List.length_append]; omega
  have hr4 : (provPairs agglomIndex upperAddr lowerAddr n)[r2]
      = canonPair (rmAddr agglomIndex upperAddr lowerAddr c) := by
    rw [← hr3]
    simp only [← ht]
    exact List.getElem_append_left hr2
  rw [List.getD_eq_getElem _ _ hr, ← hr4] at hrc
  have hrr : r = r2 := (List.Nodup.getElem_inj_iff (provPairs_nodup _ _ _ _)).mp hrc
  subst hrr
  have hlen : r ≤ (provPairs agglomIndex upperAddr lowerAddr c).length := by
    have := provPairs_length_le agglomIndex upperAddr lowerAddr c
    rw [provPairs] at hr2
    split at hr2
    · omega
    · split at hr2
      · omega
      · rw [List.length_append, List.length_singleton] at hr2; omega
  have hq : q < (provPairs agglomIndex upperAddr lowerAddr c).length := by omega
  obtain ⟨t2, ht2⟩ := provPairs_prefix agglomIndex upperAddr lowerAddr c n (by omega)
  have hqmem : (provPairs agglomIndex upperAddr lowerAddr n).getD q (0, 0)
      ∈ provPairs agglomIndex upperAddr lowerAddr c := by
    rw [List.getD_eq_getElem _ _ (by omega)]
    simp only [← ht2]
    rw [List.getElem_append_left hq]
    exact List.getElem_mem _
  obtain ⟨d, hd1, hd2, hd3⟩ := (mem_provPairs _ _ _ _ _).mp hqmem
  exact ⟨d, hd1, hd2, hd3⟩


theorem addrSpec_pair (agglomIndex upperAddr lowerAddr : List Int) (nC : Nat) (addr : CoarseAddr)
    (h : AddrSpec agglomIndex upperAddr lowerAddr nC addr) (j : Nat) (o n : Int)
    (ho : addr.coarseOwner[j]? = some o) (hn : addr.coarseNeighbour[j]? = some n) :
    j < (finalOrder (provPairs agglomIndex upperAddr lowerAddr upperAddr.length) nC).length ∧
      (finalOrder (provPairs agglomIndex upperAddr lowerAddr upperAddr.length) nC).getD j 0
        < (provPairs agglomIndex upperAddr lowerAddr upperAddr.length).length ∧
      (provPairs agglomIndex upperAddr lowerAddr upperAddr.length).getD
        ((finalOrder (provPairs agglomIndex upperAddr lowerAddr upperAddr.length) nC).getD j 0)
        (0, 0) = (o, n) := by
  have hLlen := h.perm.length_eq
  rw [List.length_range] at hLlen
  have hj := lt_of_getElem? _ _ _ ho
  rw [h.lenO] at hj
  obtain ⟨h3, h4⟩ := h.own j hj
  rw [ho] at h3
  rw [hn] at h4
  injection h3 with h3
  injection h4 with h4
  refine ⟨by omega, ?_, Prod.ext h3.symm h4.symm⟩
  rw [← List.mem_range, ← h.perm.mem_iff, List.getD_eq_getElem _ _ (by omega)]
  exact List.getElem_mem _

theorem addrSpec_index_inj (agglomIndex upperAddr lowerAddr : List Int) (nC : Nat) (j k : Nat)
    (hj : j < (finalOrder (provPairs agglomIndex upperAddr lowerAddr upperAddr.length) nC).length)
    (hk : k < (finalOrder (provPairs agglomIndex upperAddr lowerAddr upperAddr.length) nC).length)
    (hj2 : (finalOrder (provPairs agglomIndex upperAddr lowerAddr upperAddr.length) nC).getD j 0
      < (provPairs agglomIndex upperAddr lowerAddr upperAddr.length).length)
    (hk2 : (finalOrder (provPairs agglomIndex upperAddr lowerAddr upperAddr.length) nC).getD k 0
      < (provPairs agglomIndex upperAddr lowerAddr upperAddr.length).length)
    (heq : (provPairs agglomIndex upperAddr lowerAddr upperAddr.length).getD
        ((finalOrder (provPairs agglomIndex upperAddr lowerAddr upperAddr.length) nC).getD j 0)
        (0, 0)
      = (provPairs agglomIndex upperAddr lowerAddr upperAddr.length).getD
        ((finalOrder (provPairs agglomIndex upperAddr lowerAddr upperAddr.length) nC).getD k 0)
        (0, 0)) : j = k := by
  rw [List.getD_eq_getElem _ _ hj2, List.getD_eq_getElem _ _ hk2] at heq
  have h3 := (List.Nodup.getElem_inj_iff (provPairs_nodup _ _ _ _)).mp heq
  rw [List.getD_eq_getElem _ _ hj, List.getD_eq_getElem _ _ hk] at h3
  exact (List.Nodup.getElem_inj_iff (finalOrder_nodup _ _)).mp h3

theorem finalOrder_rel (pairs : List (Int × Int)) (nC j k : Nat) (hjk : j < k)
    (hk : k < (finalOrder pairs nC).length) :
    (pairs.getD ((finalOrder pairs nC).getD j 0) (0, 0)).1
        < (pairs.getD ((finalOrder pairs nC).getD k 0) (0, 0)).1 ∨
      ((pairs.getD ((finalOrder pairs nC).getD j 0) (0, 0)).1
          = (pairs.getD ((finalOrder pairs nC).getD k 0) (0, 0)).1 ∧
        (finalOrder pairs nC).getD j 0 < (finalOrder pairs nC).getD k 0) := by
  have hj : j < (finalOrder pairs nC).length := by omega
  have h := List.pairwise_iff_getElem.mp (finalOrder_pairwise pairs nC) j k hj hk hjk
  rw [List.getD_eq_getElem _ _ hj, List.getD_eq_getElem _ _ hk]
  exact h


/-- C20 (amended). For a valid agglomeration map and fine addressing the
coarse addressing is built with the coarse coefficients grouped by owner:
`coarseOwner` is non-decreasing, and two coarse coefficients `j < k` with the
same owner have different neighbours and stand in the order in which the loop
over the fine coefficients first meets them: every fine coefficient mapped to
`k` comes after some fine coefficient mapped to `j`. -/
theorem coarse_order_by_owner (agglomIndex upperAddr lowerAddr : List Int) (nRows nC : Nat)
    (hok : AddrOK agglomIndex upperAddr lowerAddr nRows nC) :
    ∃ addr, restrictAddressing agglomIndex (nC : Int) upperAddr lowerAddr = some addr ∧
      (∀ (j k : Nat) (o p : Int), j ≤ k → addr.coarseOwner[j]? = some o →
        addr.coarseOwner[k]? = some p → o ≤ p) ∧
      (∀ (j k : Nat) (o n q : Int), j < k → addr.coarseOwner[j]? = some o →
        addr.coarseOwner[k]? = some o → addr.coarseNeighbour[j]? = some n →
        addr.coarseNeighbour[k]? = some q →
        n ≠ q ∧ ∀ c : Nat, addr.coeffRestrictAddr[c]? = some (k : Int) →
          ∃ d : Nat, d < c ∧ addr.coeffRestrictAddr[d]? = some (j : Int)) := by
  obtain ⟨addr, h1, h2⟩ := restrictAddressingWith_spec 10 (by decide) _ _ _ _ _ hok
  refine ⟨addr, h1, ?_, ?_⟩
  · intro j k o p hjk ho hp
    have hj := lt_of_getElem? _ _ _ ho
    have hk := lt_of_getElem? _ _ _ hp
    rw [h2.lenO] at hj hk
    obtain ⟨n, hn⟩ : ∃ n, addr.coarseNeighbour[j]? = some n :=
      ⟨_, List.getElem?_eq_getElem (by rw [h2.lenN]; exact hj)⟩
    obtain ⟨q, hq⟩ : ∃ q, addr.coarseNeighbour[k]? = some q :=
      ⟨_, List.getElem?_eq_getElem (by rw [h2.lenN]; exact hk)⟩
    obtain ⟨hj1, _, hj3⟩ := addrSpec_pair _ _ _ _ _ h2 j o n ho hn
    obtain ⟨hk1, _, hk3⟩ := addrSpec_pair _ _ _ _ _ h2 k p q hp hq
    by_cases hjk2 : j = k
    · subst hjk2
      rw [hj3] at hk3
      injection hk3 with h3 _
      omega
    · have hrel := finalOrder_rel
        (provPairs agglomIndex upperAddr lowerAddr upperAddr.length) nC j k (by omega) hk1
      rw [hj3, hk3] at hrel
      simp only at hrel
      omega
  · intro j k o n q hjk ho hp hn hq
    obtain ⟨hj1, hj2, hj3⟩ := addrSpec_pair _ _ _ _ _ h2 j o n ho hn
    obtain ⟨hk1, hk2, hk3⟩ := addrSpec_pair _ _ _ _ _ h2 k o q hp hq
    refine ⟨?_, ?_⟩
    · intro hnq
      have := addrSpec_index_inj agglomIndex upperAddr lowerAddr nC j k hj1 hk1 hj2 hk2
        (by rw [hj3, hk3, hnq])
      omega
    · intro c hck
      have hc := lt_of_getElem? _ _ _ hck
      rw [h2.lenC] at hc
      obtain ⟨_, _, _, _, _, _, hr0, _, _, _⟩ := rmAddr_read _ _ _ _ _ hok c hc
      have hne : (rmAddr agglomIndex upperAddr lowerAddr c).1
          ≠ (rmAddr agglomIndex upperAddr lowerAddr c).2 := by
        intro he
        have := h2.intra c hc he
        rw [hck] at this
        injection this with this
        omega
      obtain ⟨k2, hk21, hk22, hk23⟩ := h2.inter c hc hne
      rw [hck] at hk22
      injection hk22 with hk22
      have hkk : k = k2 := by omega
      subst hkk
      have hrel := finalOrder_rel
        (provPairs agglomIndex upperAddr lowerAddr upperAddr.length) nC j k hjk hk1
      rw [hj3, hk3] at hrel
      simp only at hrel
      have hlt : (finalOrder (provPairs agglomIndex upperAddr lowerAddr upperAddr.length)
            nC).getD j 0
          < (finalOrder (provPairs agglomIndex upperAddr lowerAddr upperAddr.length)
            nC).getD k 0 := by
        rcases hrel with hrel | hrel
        · omega
        · exact hrel.2
      obtain ⟨d, hd1, hd2, hd3⟩ := provPairs_first_met agglomIndex upperAddr lowerAddr
        upperAddr.length c _ _ hc hlt hk2 hne hk23
      obtain ⟨j2, hj21, hj22, hj23⟩ := h2.inter d (by omega) hd2
      have hLlen := h2.perm.length_eq
      rw [List.length_range] at hLlen
      have hj2mem : (finalOrder (provPairs agglomIndex upperAddr lowerAddr upperAddr.length)
            nC).getD j2 0
          < (provPairs agglomIndex upperAddr lowerAddr upperAddr.length).length := by
        rw [← List.mem_range, ← h2.perm.mem_iff, List.getD_eq_getElem _ _ (by omega)]
        exact List.getElem_mem _
      have hjj := addrSpec_index_inj agglomIndex upperAddr lowerAddr nC j2 j (by omega) hj1
        hj2mem hj2 (by rw [hj23, hd3])
      subst hjj
      exact ⟨d, hd1, hj22⟩

/-- Witness of the amended C20 on the addressing of `order6` with three clusters. -/
theorem coarse_order_by_owner_witness :
    ∃ addr, restrictAddressing [0, 1, 2, 1, 0, 2] ((3 : Nat) : Int) order6.upperAddr
        order6.lowerAddr = some addr ∧
      (∀ (j k : Nat) (o p : Int), j ≤ k → addr.coarseOwner[j]? = some o →
        addr.coarseOwner[k]? = some p → o ≤ p) ∧
      (∀ (j k : Nat) (o n q : Int), j < k → addr.coarseOwner[j]? = some o →
        addr.coarseOwner[k]? = some o → addr.coarseNeighbour[j]? = some n →
        addr.coarseNeighbour[k]? = some q →
        n ≠ q ∧ ∀ c : Nat, addr.coeffRestrictAddr[c]? = some (k : Int) →
          ∃ d : Nat, d < c ∧ addr.coeffRestrictAddr[d]? = some (j : Int)) :=
  coarse_order_by_owner [0, 1, 2, 1, 0, 2] order6.upperAddr order6.lowerAddr 6 3 order6_addrOK

/-- C20 as stated fails: the clustering of the matrix `order6` with
`groupSize = 2` gives `agglomIndex = [0, 1, 2, 1, 0, 2]`, and the coarse
addressing built from it lists the pair `(0, 2)` before the pair `(0, 1)`:
the neighbours of the owner 0 are not increasing. -/
theorem coarse_order_counterexample :
    construct ratOps diagFactorDefault singlePartition order6 2 0
        = some { agglomIndex := [0, 1, 2, 1, 0, 2], nCoarseEqns := 3, coarsen := true } ∧
      restrictAddressing [0, 1, 2, 1, 0, 2] 3 order6.upperAddr order6.lowerAddr
        = some { nCoarseCoeffs := 2, coarseOwner := [0, 0], coarseNeighbour := [2, 1],
                 coeffRestrictAddr := [0, 1, -1, -2, -3] } ∧
      ¬ (∀ addr, restrictAddressing [0, 1, 2, 1, 0, 2] 3 order6.upperAddr order6.lowerAddr
          = some addr →
        ∀ (j k : Nat) (o p n q : Int), j < k → addr.coarseOwner[j]? = some o →
          addr.coarseOwner[k]? = some p → addr.coarseNeighbour[j]? = some n →
          addr.coarseNeighbour[k]? = some q → o < p ∨ (o = p ∧ n < q)) := by
  have h1 : restrictAddressing [0, 1, 2, 1, 0, 2] 3 order6.upperAddr order6.lowerAddr
      = some { nCoarseCoeffs := 2, coarseOwner := [0, 0], coarseNeighbour := [2, 1],
               coeffRestrictAddr := [0, 1, -1, -2, -3] } := by decide
  refine ⟨by decide!, h1, ?_⟩
  intro h
  have h2 := h _ h1 0 1 0 0 2 1 (by decide) rfl rfl rfl rfl
  omega


/-! ## Coarse matrix builder: rejected calls -/

theorem restrictMatrix_of_not_coarsen {α Q : Type} [Zero Q] [Add Q] (tr : Q → Q)
    (st : AgglomState) (m : BlockLduMatrix α) (coeffs : BlockCoeffs Q)
    (h : st.coarsen = false) :
    restrictMatrix tr st m coeffs = Except.error RestrictError.cannotCreate := by
  unfold restrictMatrix
  rw [if_pos h]
  rfl

/-- C11. `restrictMatrix` is rejected whenever `coarsen` is false: for every
state with `coarsen = false` it ends with the fatal error "Requesting coarse
matrix when it cannot be created" and returns no coarse matrix; in particular
the constructor run on a diagonal-only matrix of 5 equations returns a state
on which `restrictMatrix` fails in this way. -/
theorem restrictMatrix_rejected {α Q : Type} [Zero Q] [Add Q] (ops : ScalarOps α)
    (diagFactor : α) (env : ParEnv) (tr : Q → Q) (coeffs : BlockCoeffs Q) :
    (∀ (st : AgglomState) (m : BlockLduMatrix α), st.coarsen = false →
      restrictMatrix tr st m coeffs = Except.error RestrictError.cannotCreate ∧
      ¬ ∃ cm, restrictMatrix tr st m coeffs = Except.ok cm) ∧
    (∀ (m : BlockLduMatrix α) (groupSize minCoarseEqns : Int), m.nRows = 5 →
      ValidAddr m.upperAddr m.nRows → ValidAddr m.lowerAddr m.nRows →
      m.upperAddr.length = m.lowerAddr.length →
      m.symmetric = false → m.asymmetric = false →
      ∃ st, construct ops diagFactor env m groupSize minCoarseEqns = some st ∧
        restrictMatrix tr st m coeffs = Except.error RestrictError.cannotCreate) := by
  refine ⟨?_, ?_⟩
  · intro st m h
    have h1 := restrictMatrix_of_not_coarsen tr st m coeffs h
    refine ⟨h1, ?_⟩
    rintro ⟨cm, hcm⟩
    rw [h1] at hcm
    cases hcm
  · intro m groupSize minCoarseEqns _ hu hl hlen hs ha
    refine ⟨{ agglomIndex := List.replicate m.nRows 0, nCoarseEqns := 1, coarsen := false },
      ?_, ?_⟩
    · unfold construct
      exact calcAgglomeration_diagOnly ops diagFactor env m groupSize minCoarseEqns _ hu hl hlen
        (by simp) hs ha
    · exact restrictMatrix_of_not_coarsen tr _ m coeffs rfl

/-- Witness of C11 on the diagonal-only matrix of five equations. -/
theorem restrictMatrix_rejected_witness :
    ∃ st, construct ratOps diagFactorDefault singlePartition diag5 4 2 = some st ∧
      restrictMatrix id st diag5
          { diag := CoeffField.square [4, 4, 4, 4, 4], upper := CoeffField.square [],
            lower := CoeffField.square ([] : List ℚ) }
        = Except.error RestrictError.cannotCreate :=
  (restrictMatrix_rejected ratOps diagFactorDefault singlePartition id
      { diag := CoeffField.square [4, 4, 4, 4, 4], upper := CoeffField.square [],
        lower := CoeffField.square ([] : List ℚ) }).2 diag5 4 2 rfl
    (by unfold ValidAddr; decide) (by unfold ValidAddr; decide) (by decide) rfl rfl


/-! ## Coarse matrix builder: sums of coefficients -/

theorem scatter_hit {M : Type} [AddCommMonoid M] (hit : Nat → Nat → Prop)
    [∀ c j, Decidable (hit c j)] (val base : Nat → M) (out : List M) (N n t : Nat) (x : M)
    (hlen : out.length = N)
    (hinv : ∀ j, j < N →
      out[j]? = some (base j + ∑ c in (Finset.range n).filter (fun c => hit c j), val c))
    (ht : t < N) (hx : out[t]? = some x) (hhit : hit n t) (hmiss : ∀ j, j ≠ t → ¬ hit n j) :
    ∀ j, j < N → (out.set t (x + val n))[j]? =
      some (base j + ∑ c in (Finset.range (n + 1)).filter (fun c => hit c j), val c) := by
  intro j hj
  rw [Finset.range_succ, Finset.filter_insert]
  by_cases hjt : j = t
  · subst hjt
    rw [List.getElem?_set_self (by omega), if_pos hhit, Finset.sum_insert (by simp)]
    have h := hinv j hj
    rw [hx] at h
    injection h with h
    rw [h]
    congr 1
    abel
  · rw [List.getElem?_set_ne (fun h => hjt h.symm), if_neg (hmiss j hjt)]
    exact hinv j hj

theorem scatter_miss {M : Type} [AddCommMonoid M] (hit : Nat → Nat → Prop)
    [∀ c j, Decidable (hit c j)] (val base : Nat → M) (out : List M) (N n : Nat)
    (hinv : ∀ j, j < N →
      out[j]? = some (base j + ∑ c in (Finset.range n).filter (fun c => hit c j), val c))
    (hmiss : ∀ j, ¬ hit n j) :
    ∀ j, j < N → out[j]? =
      some (base j + ∑ c in (Finset.range (n + 1)).filter (fun c => hit c j), val c) := by
  intro j hj
  rw [Finset.range_succ, Finset.filter_insert, if_neg (hmiss j)]
  exact hinv j hj

theorem restrictDiagStep_eq {Q : Type} [Add Q] (agglomIndex : List Int)
    (activeCoeff activeCoarseCoeff : List Q) (i : Nat) :
    restrictDiagStep agglomIndex activeCoeff activeCoarseCoeff i
      = restrictResidualStep agglomIndex activeCoeff activeCoarseCoeff i := by
  unfold restrictDiagStep restrictResidualStep
  cases readAt agglomIndex (i : Int) with
  | none => rfl
  | some k =>
    simp only [Option.bind_eq_bind, Option.some_bind]
    cases readAt activeCoarseCoeff k with
    | none =>
      cases readAt activeCoeff (i : Int) with
      | none => rfl
      | some f => rfl
    | some c =>
      cases readAt activeCoeff (i : Int) with
      | none => rfl
      | some f => rfl

theorem restrictDiag_spec {Q : Type} [AddCommMonoid Q] (agglomIndex : List Int)
    (fineDiag : List Q) (nC : Nat) (hlen : agglomIndex.length = fineDiag.length)
    (hval : ValidAgglom agglomIndex nC) :
    ∃ out, restrictDiag agglomIndex (CoeffField.square fineDiag)
        (CoeffField.square (List.replicate nC 0)) = Except.ok out ∧
      out.length = nC ∧
      ∀ k : Nat, k < nC → out[k]? = some
        (∑ i in (Finset.range fineDiag.length).filter (fun i => agglomIndex[i]? = some (k : Int)),
          fineDiag.getD i 0) := by
  obtain ⟨out, h1, h2, h3⟩ := restrictResidual_prefix agglomIndex fineDiag nC hlen hval
    (List.replicate nC 0) (by simp) fineDiag.length (le_refl _)
  refine ⟨out, ?_, h2, ?_⟩
  · unfold restrictDiag
    simp only [List.length_replicate]
    have hfun : restrictDiagStep agglomIndex fineDiag = restrictResidualStep agglomIndex fineDiag :=
      funext (fun c => funext (fun i => restrictDiagStep_eq agglomIndex fineDiag c i))
    rw [hfun, h1]
    rfl
  · intro k hk
    rw [h3 k hk, List.getD_eq_getElem _ _ (by simp [hk])]
    simp


theorem aggregateAsym_spec {Q : Type} [AddCommMonoid Q] (cra : List Int) (fu fl : List Q)
    (P nC : Nat) (d0 : List Q) (hfu : fu.length = cra.length) (hfl : fl.length = cra.length)
    (hd0 : d0.length = nC)
    (hcra : ∀ (c : Nat) (v : Int), cra[c]? = some v →
      (0 ≤ v → v.toNat < P) ∧ (v < 0 → (-1 - v).toNat < nC)) :
    ∃ s, (List.range cra.length).foldlM (aggregateAsymStep cra fu fl)
        { upper := List.replicate P 0, lower := List.replicate P 0, diag := d0 } = some s ∧
      s.upper.length = P ∧ s.lower.length = P ∧ s.diag.length = nC ∧
      (∀ j, j < P → s.upper[j]? = some
        (0 + ∑ c in (Finset.range cra.length).filter (fun c => cra[c]? = some (j : Int)),
          fu.getD c 0)) ∧
      (∀ j, j < P → s.lower[j]? = some
        (0 + ∑ c in (Finset.range cra.length).filter (fun c => cra[c]? = some (j : Int)),
          fl.getD c 0)) ∧
      (∀ k, k < nC → s.diag[k]? = some
        (d0.getD k 0 + ∑ c in (Finset.range cra.length).filter
          (fun c => cra[c]? = some (-((k : Int) + 1))), (fu.getD c 0 + fl.getD c 0))) := by
  refine foldlM_range_inv (aggregateAsymStep cra fu fl)
    (fun n s => s.upper.length = P ∧ s.lower.length = P ∧ s.diag.length = nC ∧
      (∀ j, j < P → s.upper[j]? = some
        (0 + ∑ c in (Finset.range n).filter (fun c => cra[c]? = some (j : Int)), fu.getD c 0)) ∧
      (∀ j, j < P → s.lower[j]? = some
        (0 + ∑ c in (Finset.range n).filter (fun c => cra[c]? = some (j : Int)), fl.getD c 0)) ∧
      (∀ k, k < nC → s.diag[k]? = some
        (d0.getD k 0 + ∑ c in (Finset.range n).filter
          (fun c => cra[c]? = some (-((k : Int) + 1))), (fu.getD c 0 + fl.getD c 0))))
    cra.length _ ?_ ?_
  · refine ⟨by simp, by simp, hd0, ?_, ?_, ?_⟩
    · intro j hj; simp [hj]
    · intro j hj; simp [hj]
    · intro k hk
      dsimp only
      rw [List.getD_eq_getElem _ _ (by omega), List.getElem?_eq_getElem (by omega)]
      simp
  · intro n s hn ⟨hu, hl, hd, hU, hL, hD⟩
    have hv := List.getElem?_eq_getElem hn
    obtain ⟨hv1, hv2⟩ := hcra n _ hv
    have hfu1 : n < fu.length := by omega
    have hfl1 : n < fl.length := by omega
    unfold aggregateAsymStep
    simp only [Option.bind_eq_bind]
    rw [readAt_natCast, hv]
    simp only [Option.some_bind]
    by_cases h0 : cra[n] ≥ 0
    · have ht := hv1 h0
      have hhit : cra[n]? = some (((cra[n]).toNat : Nat) : Int) := by
        rw [hv, Int.toNat_of_nonneg h0]
      have hmiss1 : ∀ j : Nat, j ≠ (cra[n]).toNat → ¬ cra[n]? = some (j : Int) := by
        intro j hj h
        rw [hv] at h
        injection h with h
        omega
      have hmiss2 : ∀ k : Nat, ¬ cra[n]? = some (-((k : Int) + 1)) := by
        intro k h
        rw [hv] at h
        injection h with h
        omega
      rw [if_pos h0, readAt_eq_some s.upper _ h0 (by omega),
        readAt_eq_some s.lower _ h0 (by omega)]
      simp only [readAt_natCast, List.getElem?_eq_getElem hfu1, List.getElem?_eq_getElem hfl1,
        Option.some_bind]
      rw [writeAt_eq_some _ _ _ h0 (by omega), writeAt_eq_some _ _ _ h0 (by omega)]
      simp only [Option.some_bind]
      refine ⟨_, rfl, by simp [hu], by simp [hl], hd, ?_, ?_, ?_⟩
      · have h := scatter_hit (fun c j => cra[c]? = some (j : Int)) (fun c => fu.getD c 0)
          (fun _ => 0) s.upper P n (cra[n]).toNat (s.upper[(cra[n]).toNat]) hu hU ht
          (List.getElem?_eq_getElem (by omega)) hhit hmiss1
        simp only [List.getD_eq_getElem _ _ hfu1] at h
        exact h
      · have h := scatter_hit (fun c j => cra[c]? = some (j : Int)) (fun c => fl.getD c 0)
          (fun _ => 0) s.lower P n (cra[n]).toNat (s.lower[(cra[n]).toNat]) hl hL ht
          (List.getElem?_eq_getElem (by omega)) hhit hmiss1
        simp only [List.getD_eq_getElem _ _ hfl1] at h
        exact h
      · exact scatter_miss (fun c k => cra[c]? = some (-((k : Int) + 1)))
          (fun c => fu.getD c 0 + fl.getD c 0) (fun k => d0.getD k 0) s.diag nC n hD hmiss2
    · have hneg : cra[n] < 0 := by omega
      have ht := hv2 hneg
      have hpos : 0 ≤ -1 - cra[n] := by omega
      have hhit : cra[n]? = some (-((((-1 - cra[n]).toNat : Nat) : Int) + 1)) := by
        rw [hv, Int.toNat_of_nonneg hpos]
        congr 1
        omega
      have hmiss1 : ∀ k : Nat, k ≠ (-1 - cra[n]).toNat →
          ¬ cra[n]? = some (-((k : Int) + 1)) := by
        intro k hk h
        rw [hv] at h
        injection h with h
        omega
      have hmiss2 : ∀ j : Nat, ¬ cra[n]? = some (j : Int) := by
        intro j h
        rw [hv] at h
        injection h with h
        omega
      rw [if_neg h0, readAt_eq_some _ _ hpos (by omega)]
      simp only [readAt_natCast, List.getElem?_eq_getElem hfu1, List.getElem?_eq_getElem hfl1,
        Option.some_bind]
      rw [writeAt_eq_some _ _ _ hpos (by omega)]
      simp only [Option.some_bind]
      refine ⟨_, rfl, hu, hl, by simp [hd], ?_, ?_, ?_⟩
      · exact scatter_miss (fun c j => cra[c]? = some (j : Int)) (fun c => fu.getD c 0)
          (fun _ => 0) s.upper P n hU hmiss2
      · exact scatter_miss (fun c j => cra[c]? = some (j : Int)) (fun c => fl.getD c 0)
          (fun _ => 0) s.lower P n hL hmiss2
      · have h := scatter_hit (fun c k => cra[c]? = some (-((k : Int) + 1)))
          (fun c => fu.getD c 0 + fl.getD c 0) (fun k => d0.getD k 0) s.diag nC n
          (-1 - cra[n]).toNat (s.diag[(-1 - cra[n]).toNat]) hd hD ht
          (List.getElem?_eq_getElem (by omega)) hhit hmiss1
        simp only [List.getD_eq_getElem _ _ hfu1, List.getD_eq_getElem _ _ hfl1] at h
        exact h

theorem aggregateSym_spec {Q : Type} [AddCommMonoid Q] (tr : Q → Q) (cra : List Int)
    (fu : List Q) (P nC : Nat) (d0 : List Q) (hfu : fu.length = cra.length)
    (hd0 : d0.length = nC)
    (hcra : ∀ (c : Nat) (v : Int), cra[c]? = some v →
      (0 ≤ v → v.toNat < P) ∧ (v < 0 → (-1 - v).toNat < nC)) :
    ∃ s, (List.range cra.length).foldlM (aggregateSymStep tr cra fu)
        { upper := List.replicate P 0, lower := [], diag := d0 } = some s ∧
      s.upper.length = P ∧ s.diag.length = nC ∧
      (∀ j, j < P → s.upper[j]? = some
        (0 + ∑ c in (Finset.range cra.length).filter (fun c => cra[c]? = some (j : Int)),
          fu.getD c 0)) ∧
      (∀ k, k < nC → s.diag[k]? = some
        (d0.getD k 0 + ∑ c in (Finset.range cra.length).filter
          (fun c => cra[c]? = some (-((k : Int) + 1))), (fu.getD c 0 + tr (fu.getD c 0)))) := by
  refine foldlM_range_inv (aggregateSymStep tr cra fu)
    (fun n s => s.upper.length = P ∧ s.diag.length = nC ∧
      (∀ j, j < P → s.upper[j]? = some
        (0 + ∑ c in (Finset.range n).filter (fun c => cra[c]? = some (j : Int)), fu.getD c 0)) ∧
      (∀ k, k < nC → s.diag[k]? = some
        (d0.getD k 0 + ∑ c in (Finset.range n).filter
          (fun c => cra[c]? = some (-((k : Int) + 1))), (fu.getD c 0 + tr (fu.getD c 0)))))
    cra.length _ ?_ ?_
  · refine ⟨by simp, hd0, ?_, ?_⟩
    · intro j hj; simp [hj]
    · intro k hk
      dsimp only
      rw [List.getD_eq_getElem _ _ (by omega), List.getElem?_eq_getElem (by omega)]
      simp
  · intro n s hn ⟨hu, hd, hU, hD⟩
    have hv := List.getElem?_eq_getElem hn
    obtain ⟨hv1, hv2⟩ := hcra n _ hv
    have hfu1 : n < fu.length := by omega
    unfold aggregateSymStep
    simp only [Option.bind_eq_bind]
    rw [readAt_natCast, hv]
    simp only [Option.some_bind]
    by_cases h0 : cra[n] ≥ 0
    · have ht := hv1 h0
      have hhit : cra[n]? = some (((cra[n]).toNat : Nat) : Int) := by
        rw [hv, Int.toNat_of_nonneg h0]
      have hmiss1 : ∀ j : Nat, j ≠ (cra[n]).toNat → ¬ cra[n]? = some (j : Int) := by
        intro j hj h
        rw [hv] at h
        injection h with h
        omega
      have hmiss2 : ∀ k : Nat, ¬ cra[n]? = some (-((k : Int) + 1)) := by
        intro k h
        rw [hv] at h
        injection h with h
        omega
      rw [if_pos h0, readAt_eq_some s.upper _ h0 (by omega)]
      simp only [readAt_natCast, List.getElem?_eq_getElem hfu1, Option.some_bind]
      rw [writeAt_eq_some _ _ _ h0 (by omega)]
      simp only [Option.some_bind]
      refine ⟨_, rfl, by simp [hu], hd, ?_, ?_⟩
      · have h := scatter_hit (fun c j => cra[c]? = some (j : Int)) (fun c => fu.getD c 0)
          (fun _ => 0) s.upper P n (cra[n]).toNat (s.upper[(cra[n]).toNat]) hu hU ht
          (List.getElem?_eq_getElem (by omega)) hhit hmiss1
        simp only [List.getD_eq_getElem _ _ hfu1] at h
        exact h
      · exact scatter_miss (fun c k => cra[c]? = some (-((k : Int) + 1)))
          (fun c => fu.getD c 0 + tr (fu.getD c 0)) (fun k => d0.getD k 0) s.diag nC n hD hmiss2
    · have hneg : cra[n] < 0 := by omega
      have ht := hv2 hneg
      have hpos : 0 ≤ -1 - cra[n] := by omega
      have hhit : cra[n]? = some (-((((-1 - cra[n]).toNat : Nat) : Int) + 1)) := by
        rw [hv, Int.toNat_of_nonneg hpos]
        congr 1
        omega
      have hmiss1 : ∀ k : Nat, k ≠ (-1 - cra[n]).toNat →
          ¬ cra[n]? = some (-((k : Int) + 1)) := by
        intro k hk h
        rw [hv] at h
        injection h with h
        omega
      have hmiss2 : ∀ j : Nat, ¬ cra[n]? = some (j : Int) := by
        intro j h
        rw [hv] at h
        injection h with h
        omega
      rw [if_neg h0, readAt_eq_some _ _ hpos (by omega)]
      simp only [readAt_natCast, List.getElem?_eq_getElem hfu1, Option.some_bind]
      rw [writeAt_eq_some _ _ _ hpos (by omega)]
      simp only [Option.some_bind]
      refine ⟨_, rfl, hu, by simp [hd], ?_, ?_⟩
      · exact scatter_miss (fun c j => cra[c]? = some (j : Int)) (fun c => fu.getD c 0)
          (fun _ => 0) s.upper P n hU hmiss2
      · have h := scatter_hit (fun c k => cra[c]? = some (-((k : Int) + 1)))
          (fun c => fu.getD c 0 + tr (fu.getD c 0)) (fun k => d0.getD k 0) s.diag nC n
          (-1 - cra[n]).toNat (s.diag[(-1 - cra[n]).toNat]) hd hD ht
          (List.getElem?_eq_getElem (by omega)) hhit hmiss1
        simp only [List.getD_eq_getElem _ _ hfu1] at h
        exact h


/-! ## Coarse matrix builder: the coarse coefficients -/

theorem addrSpec_intra_iff (agglomIndex upperAddr lowerAddr : List Int) (nC : Nat)
    (addr : CoarseAddr) (h : AddrSpec agglomIndex upperAddr lowerAddr nC addr) (c k : Nat)
    (hc : c < upperAddr.length) :
    addr.coeffRestrictAddr[c]? = some (-((k : Int) + 1)) ↔
      rmAddr agglomIndex upperAddr lowerAddr c = ((k : Int), (k : Int)) := by
  by_cases he : (rmAddr agglomIndex upperAddr lowerAddr c).1
      = (rmAddr agglomIndex upperAddr lowerAddr c).2
  · rw [h.intra c hc he]
    constructor
    · intro h1
      injection h1 with h1
      exact Prod.ext (by simp only; omega) (by simp only; omega)
    · intro h1
      rw [h1]
  · obtain ⟨q, _, hq, _⟩ := h.inter c hc he
    rw [hq]
    constructor
    · intro h1
      injection h1 with h1
      omega
    · intro h1
      rw [h1] at he
      exact absurd rfl he

theorem addrSpec_cra_valid (agglomIndex upperAddr lowerAddr : List Int) (nRows nC : Nat)
    (hok : AddrOK agglomIndex upperAddr lowerAddr nRows nC) (addr : CoarseAddr)
    (h : AddrSpec agglomIndex upperAddr lowerAddr nC addr) (c : Nat) (v : Int)
    (hv : addr.coeffRestrictAddr[c]? = some v) :
    (0 ≤ v → v.toNat < addr.coarseOwner.length) ∧ (v < 0 → (-1 - v).toNat < nC) := by
  have hc := lt_of_getElem? _ _ _ hv
  rw [h.lenC] at hc
  obtain ⟨_, _, _, _, _, _, h1, h2, _, _⟩ := rmAddr_read _ _ _ _ _ hok c hc
  by_cases he : (rmAddr agglomIndex upperAddr lowerAddr c).1
      = (rmAddr agglomIndex upperAddr lowerAddr c).2
  · have h3 := h.intra c hc he
    rw [hv] at h3
    injection h3 with h3
    exact ⟨fun _ => by omega, fun _ => by omega⟩
  · obtain ⟨q, hq1, hq2, _⟩ := h.inter c hc he
    rw [hv] at hq2
    injection hq2 with hq2
    rw [h.lenO]
    exact ⟨fun _ => by omega, fun _ => by omega⟩


theorem restrictMatrix_asym_spec {α Q : Type} [AddCommMonoid Q] (tr : Q → Q) (st : AgglomState)
    (m : BlockLduMatrix α) (coeffs : BlockCoeffs Q) (nC : Nat)
    (hok : RestrictOK st m coeffs nC) (fd fu fl : List Q)
    (hd : coeffs.diag = CoeffField.square fd) (hu : coeffs.upper = CoeffField.square fu)
    (hl : coeffs.lower = CoeffField.square fl) (ha : m.asymmetric = true) :
    ∃ (addr : CoarseAddr) (s : CoarseCoeffs Q),
      restrictAddressing st.agglomIndex st.nCoarseEqns m.upperAddr m.lowerAddr = some addr ∧
      AddrSpec st.agglomIndex m.upperAddr m.lowerAddr nC addr ∧
      restrictMatrix tr st m coeffs = Except.ok
        { nCoarseEqns := st.nCoarseEqns, coarseOwner := addr.coarseOwner,
          coarseNeighbour := addr.coarseNeighbour, diag := s.diag, upper := s.upper,
          lower := some s.lower } ∧
      (∀ j, j < addr.coarseOwner.length → s.upper[j]? = some
        (∑ c in (Finset.range m.upperAddr.length).filter
          (fun c => addr.coeffRestrictAddr[c]? = some (j : Int)), fu.getD c 0)) ∧
      (∀ j, j < addr.coarseOwner.length → s.lower[j]? = some
        (∑ c in (Finset.range m.upperAddr.length).filter
          (fun c => addr.coeffRestrictAddr[c]? = some (j : Int)), fl.getD c 0)) ∧
      (∀ k, k < nC → s.diag[k]? = some
        (∑ i in (Finset.range m.nRows).filter (fun i => st.agglomIndex[i]? = some (k : Int)),
            fd.getD i 0
          + ∑ c in (Finset.range m.upperAddr.length).filter
            (fun c => rmAddr st.agglomIndex m.upperAddr m.lowerAddr c = ((k : Int), (k : Int))),
            (fu.getD c 0 + fl.getD c 0))) := by
  obtain ⟨addr, h1, h2⟩ := restrictAddressingWith_spec 10 (by decide) _ _ _ _ _ hok.addr
  have h1' : restrictAddressing st.agglomIndex st.nCoarseEqns m.upperAddr m.lowerAddr
      = some addr := by rw [hok.nCoarse]; exact h1
  have hfd : fd.length = m.nRows := by have := hok.diagSize; rw [hd] at this; exact this
  have hfu : fu.length = m.upperAddr.length := by
    have := hok.upperSize; rw [hu] at this; exact this
  have hfl : fl.length = m.upperAddr.length := by
    have := hok.lowerSize ha; rw [hl] at this; exact this
  obtain ⟨dg, hdg1, hdg2, hdg3⟩ := restrictDiag_spec st.agglomIndex fd nC
    (by rw [hok.addr.aggLen, hfd]) hok.addr.aggValid
  obtain ⟨s, hs1, _, _, _, hsU, hsL, hsD⟩ := aggregateAsym_spec addr.coeffRestrictAddr fu fl
    addr.coarseOwner.length nC dg (by rw [hfu, h2.lenC]) (by rw [hfl, h2.lenC]) hdg2
    (addrSpec_cra_valid _ _ _ _ _ hok.addr addr h2)
  rw [h2.lenC] at hsU hsL hsD
  refine ⟨addr, s, h1', h2, ?_, ?_, ?_, ?_⟩
  · unfold restrictMatrix
    rw [h1', hd, hu, hl]
    have hnC : st.nCoarseEqns.toNat = nC := by rw [hok.nCoarse, Int.toNat_ofNat]
    simp only [hok.coarsen, ha, hnC, CoeffField.asSquare, checked, hdg1, hs1, bind, Except.bind,
      pure, Except.pure]
    rw [if_neg (by decide), if_pos trivial]
  · intro j hj
    rw [hsU j hj, zero_add]
  · intro j hj
    rw [hsL j hj, zero_add]
  · intro k hk
    rw [hsD k hk, List.getD_eq_getElem _ _ (by omega)]
    have h3 := hdg3 k hk
    rw [List.getElem?_eq_getElem (by omega)] at h3
    injection h3 with h3
    have hfil : (Finset.range m.upperAddr.length).filter
          (fun c => addr.coeffRestrictAddr[c]? = some (-((k : Int) + 1)))
        = (Finset.range m.upperAddr.length).filter
          (fun c => rmAddr st.agglomIndex m.upperAddr m.lowerAddr c = ((k : Int), (k : Int))) :=
      Finset.filter_congr (fun c hc =>
        addrSpec_intra_iff _ _ _ _ _ h2 c k (Finset.mem_range.mp hc))
    rw [h3, hfd, hfil]

theorem restrictMatrix_sym_spec {α Q : Type} [AddCommMonoid Q] (tr : Q → Q) (st : AgglomState)
    (m : BlockLduMatrix α) (coeffs : BlockCoeffs Q) (nC : Nat)
    (hok : RestrictOK st m coeffs nC) (fd fu : List Q)
    (hd : coeffs.diag = CoeffField.square fd) (hu : coeffs.upper = CoeffField.square fu)
    (ha : m.asymmetric = false) :
    ∃ (addr : CoarseAddr) (s : CoarseCoeffs Q),
      restrictAddressing st.agglomIndex st.nCoarseEqns m.upperAddr m.lowerAddr = some addr ∧
      AddrSpec st.agglomIndex m.upperAddr m.lowerAddr nC addr ∧
      restrictMatrix tr st m coeffs = Except.ok
        { nCoarseEqns := st.nCoarseEqns, coarseOwner := addr.coarseOwner,
          coarseNeighbour := addr.coarseNeighbour, diag := s.diag, upper := s.upper,
          lower := none } ∧
      (∀ j, j < addr.coarseOwner.length → s.upper[j]? = some
        (∑ c in (Finset.range m.upperAddr.length).filter
          (fun c => addr.coeffRestrictAddr[c]? = some (j : Int)), fu.getD c 0)) ∧
      (∀ k, k < nC → s.diag[k]? = some
        (∑ i in (Finset.range m.nRows).filter (fun i => st.agglomIndex[i]? = some (k : Int)),
            fd.getD i 0
          + ∑ c in (Finset.range m.upperAddr.length).filter
            (fun c => rmAddr st.agglomIndex m.upperAddr m.lowerAddr c = ((k : Int), (k : Int))),
            (fu.getD c 0 + tr (fu.getD c 0)))) := by
  obtain ⟨addr, h1, h2⟩ := restrictAddressingWith_spec 10 (by decide) _ _ _ _ _ hok.addr
  have h1' : restrictAddressing st.agglomIndex st.nCoarseEqns m.upperAddr m.lowerAddr
      = some addr := by rw [hok.nCoarse]; exact h1
  have hfd : fd.length = m.nRows := by have := hok.diagSize; rw [hd] at this; exact this
  have hfu : fu.length = m.upperAddr.length := by
    have := hok.upperSize; rw [hu] at this; exact this
  obtain ⟨dg, hdg1, hdg2, hdg3⟩ := restrictDiag_spec st.agglomIndex fd nC
    (by rw [hok.addr.aggLen, hfd]) hok.addr.aggValid
  obtain ⟨s, hs1, _, _, hsU, hsD⟩ := aggregateSym_spec tr addr.coeffRestrictAddr fu
    addr.coarseOwner.length nC dg (by rw [hfu, h2.lenC]) hdg2
    (addrSpec_cra_valid _ _ _ _ _ hok.addr addr h2)
  rw [h2.lenC] at hsU hsD
  refine ⟨addr, s, h1', h2, ?_, ?_, ?_⟩
  · unfold restrictMatrix
    rw [h1', hd, hu]
    have hnC : st.nCoarseEqns.toNat = nC := by rw [hok.nCoarse, Int.toNat_ofNat]
    simp only [hok.coarsen, ha, hnC, CoeffField.asSquare, checked, hdg1, hs1, bind, Except.bind,
      pure, Except.pure]
    rw [if_neg (by decide), if_neg (by decide)]
  · intro j hj
    rw [hsU j hj, zero_add]
  · intro k hk
    rw [hsD k hk, List.getD_eq_getElem _ _ (by omega)]
    have h3 := hdg3 k hk
    rw [List.getElem?_eq_getElem (by omega)] at h3
    injection h3 with h3
    have hfil : (Finset.range m.upperAddr.length).filter
          (fun c => addr.coeffRestrictAddr[c]? = some (-((k : Int) + 1)))
        = (Finset.range m.upperAddr.length).filter
          (fun c => rmAddr st.agglomIndex m.upperAddr m.lowerAddr c = ((k : Int), (k : Int))) :=
      Finset.filter_congr (fun c hc =>
        addrSpec_intra_iff _ _ _ _ _ h2 c k (Finset.mem_range.mp hc))
    rw [h3, hfd, hfil]


theorem flip4_restrictOK : RestrictOK flip4State flip4 flip4Coeffs 2 :=
  ⟨rfl, rfl, ⟨rfl, by unfold ValidAgglom; decide, by unfold ValidAddr; decide,
    by unfold ValidAddr; decide, rfl⟩, rfl, rfl, fun _ => rfl⟩

/-- C16. Coarse diagonal aggregation: on a valid input with square diagonal
and upper fields `restrictMatrix` returns a coarse matrix whose diagonal at
every cluster `k` is the sum of the fine diagonals of the equations of `k`
plus, over the fine coefficients `c` with both ends in `k`,
`upper[c] + transpose(upper[c])` when the matrix is not asymmetric (the
symmetric branch) and `upper[c] + lower[c]` when it is asymmetric. -/
theorem coarse_diag_aggregation {α Q : Type} [AddCommMonoid Q] (tr : Q → Q)
    (st : AgglomState) (m : BlockLduMatrix α) (coeffs : BlockCoeffs Q) (nC : Nat)
    (hok : RestrictOK st m coeffs nC) (fd fu : List Q)
    (hd : coeffs.diag = CoeffField.square fd) (hu : coeffs.upper = CoeffField.square fu) :
    (m.asymmetric = false → ∃ cm, restrictMatrix tr st m coeffs = Except.ok cm ∧
      ∀ k : Nat, k < nC → cm.diag[k]? = some
        (∑ i in (Finset.range m.nRows).filter (fun i => st.agglomIndex[i]? = some (k : Int)),
            fd.getD i 0
          + ∑ c in (Finset.range m.upperAddr.length).filter
            (fun c => rmAddr st.agglomIndex m.upperAddr m.lowerAddr c = ((k : Int), (k : Int))),
            (fu.getD c 0 + tr (fu.getD c 0)))) ∧
    (m.asymmetric = true → ∀ fl, coeffs.lower = CoeffField.square fl →
      ∃ cm, restrictMatrix tr st m coeffs = Except.ok cm ∧
      ∀ k : Nat, k < nC → cm.diag[k]? = some
        (∑ i in (Finset.range m.nRows).filter (fun i => st.agglomIndex[i]? = some (k : Int)),
            fd.getD i 0
          + ∑ c in (Finset.range m.upperAddr.length).filter
            (fun c => rmAddr st.agglomIndex m.upperAddr m.lowerAddr c = ((k : Int), (k : Int))),
            (fu.getD c 0 + fl.getD c 0))) := by
  refine ⟨?_, ?_⟩
  · intro ha
    obtain ⟨addr, s, _, _, h3, _, h5⟩ := restrictMatrix_sym_spec tr st m coeffs nC hok fd fu
      hd hu ha
    exact ⟨_, h3, h5⟩
  · intro ha fl hl
    obtain ⟨addr, s, _, _, h3, _, _, h6⟩ := restrictMatrix_asym_spec tr st m coeffs nC hok
      fd fu fl hd hu hl ha
    exact ⟨_, h3, h6⟩

/-- Witness of C16 on the asymmetric matrix `flip4`. -/
theorem coarse_diag_aggregation_witness :
    ∃ cm, restrictMatrix id flip4State flip4 flip4Coeffs = Except.ok cm ∧
      ∀ k : Nat, k < 2 → cm.diag[k]? = some
        (∑ i in (Finset.range flip4.nRows).filter
            (fun i => flip4State.agglomIndex[i]? = some (k : Int)),
            ([4, 4, 4, 4] : List Int).getD i 0
          + ∑ c in (Finset.range flip4.upperAddr.length).filter
            (fun c => rmAddr flip4State.agglomIndex flip4.upperAddr flip4.lowerAddr c
              = ((k : Int), (k : Int))),
            (([1, 1, 1] : List Int).getD c 0 + ([1, 1, -1] : List Int).getD c 0)) :=
  (coarse_diag_aggregation id flip4State flip4 flip4Coeffs 2 flip4_restrictOK [4, 4, 4, 4]
    [1, 1, 1] rfl rfl).2 rfl [1, 1, -1] rfl

/-- C17. Coarse off-diagonal aggregation: on a valid input with square
diagonal and upper fields `restrictMatrix` returns a coarse matrix with one
upper coefficient per coarse coefficient, and the coarse upper at `j` is the
sum of the fine `upper[c]` over the fine coefficients `c` with
`coeffRestrictAddr[c] = j`; for an asymmetric matrix the coarse lower at `j`
is the sum of the fine `lower[c]` over the same `c`. -/
theorem coarse_offdiag_aggregation {α Q : Type} [AddCommMonoid Q] (tr : Q → Q)
    (st : AgglomState) (m : BlockLduMatrix α) (coeffs : BlockCoeffs Q) (nC : Nat)
    (hok : RestrictOK st m coeffs nC) (fd fu : List Q)
    (hd : coeffs.diag = CoeffField.square fd) (hu : coeffs.upper = CoeffField.square fu) :
    (m.asymmetric = false → ∃ cm addr, restrictMatrix tr st m coeffs = Except.ok cm ∧
      restrictAddressing st.agglomIndex st.nCoarseEqns m.upperAddr m.lowerAddr = some addr ∧
      ∀ j : Nat, (j : Int) < addr.nCoarseCoeffs → cm.upper[j]? = some
        (∑ c in (Finset.range m.upperAddr.length).filter
          (fun c => addr.coeffRestrictAddr[c]? = some (j : Int)), fu.getD c 0)) ∧
    (m.asymmetric = true → ∀ fl, coeffs.lower = CoeffField.square fl →
      ∃ cm addr lo, restrictMatrix tr st m coeffs = Except.ok cm ∧
      restrictAddressing st.agglomIndex st.nCoarseEqns m.upperAddr m.lowerAddr = some addr ∧
      cm.lower = some lo ∧
      ∀ j : Nat, (j : Int) < addr.nCoarseCoeffs →
        cm.upper[j]? = some
          (∑ c in (Finset.range m.upperAddr.length).filter
            (fun c => addr.coeffRestrictAddr[c]? = some (j : Int)), fu.getD c 0) ∧
        lo[j]? = some
          (∑ c in (Finset.range m.upperAddr.length).filter
            (fun c => addr.coeffRestrictAddr[c]? = some (j : Int)), fl.getD c 0)) := by
  refine ⟨?_, ?_⟩
  · intro ha
    obtain ⟨addr, s, h1, h2, h3, h4, _⟩ := restrictMatrix_sym_spec tr st m coeffs nC hok fd fu
      hd hu ha
    refine ⟨_, addr, h3, h1, ?_⟩
    intro j hj
    rw [h2.count] at hj
    exact h4 j (by rw [h2.lenO]; omega)
  · intro ha fl hl
    obtain ⟨addr, s, h1, h2, h3, h4, h5, _⟩ := restrictMatrix_asym_spec tr st m coeffs nC hok
      fd fu fl hd hu hl ha
    refine ⟨_, addr, s.lower, h3, h1, rfl, ?_⟩
    intro j hj
    rw [h2.count] at hj
    exact ⟨h4 j (by rw [h2.lenO]; omega), h5 j (by rw [h2.lenO]; omega)⟩

/-- Witness of C17 on the asymmetric matrix `flip4`. -/
theorem coarse_offdiag_aggregation_witness :
    ∃ cm addr lo, restrictMatrix id flip4State flip4 flip4Coeffs = Except.ok cm ∧
      restrictAddressing flip4State.agglomIndex flip4State.nCoarseEqns flip4.upperAddr
        flip4.lowerAddr = some addr ∧
      cm.lower = some lo ∧
      ∀ j : Nat, (j : Int) < addr.nCoarseCoeffs →
        cm.upper[j]? = some
          (∑ c in (Finset.range flip4.upperAddr.length).filter
            (fun c => addr.coeffRestrictAddr[c]? = some (j : Int)),
            ([1, 1, 1] : List Int).getD c 0) ∧
        lo[j]? = some
          (∑ c in (Finset.range flip4.upperAddr.length).filter
            (fun c => addr.coeffRestrictAddr[c]? = some (j : Int)),
            ([1, 1, -1] : List Int).getD c 0) :=
  (coarse_offdiag_aggregation id flip4State flip4 flip4Coeffs 2 flip4_restrictOK [4, 4, 4, 4]
    [1, 1, 1] rfl rfl).2 rfl [1, 1, -1] rfl


/-! ## Coarse matrix builder: the shape gate -/

/-- C12 (amended). Coefficient-shape gate of `restrictMatrix`: on a valid
input with `coarsen = true`, `restrictMatrix` returns a coarse matrix if and
only if the fine diagonal is square, the fine upper is square and, for an
asymmetric matrix, the fine lower is square as well; in every other case it
ends with a fatal error. -/
theorem restrictMatrix_shape_gate {α Q : Type} [AddCommMonoid Q] (tr : Q → Q)
    (st : AgglomState) (m : BlockLduMatrix α) (coeffs : BlockCoeffs Q) (nC : Nat)
    (hok : RestrictOK st m coeffs nC) :
    (∃ cm, restrictMatrix tr st m coeffs = Except.ok cm) ↔
      (coeffs.diag.activeType = ActiveType.square ∧
        coeffs.upper.activeType = ActiveType.square ∧
        (m.asymmetric = true → coeffs.lower.activeType = ActiveType.square)) := by
  obtain ⟨addr, h1, _⟩ := restrictAddressingWith_spec 10 (by decide) _ _ _ _ _ hok.addr
  have h1' : restrictAddressing st.agglomIndex st.nCoarseEqns m.upperAddr m.lowerAddr
      = some addr := by rw [hok.nCoarse]; exact h1
  constructor
  · rintro ⟨cm, hcm⟩
    unfold restrictMatrix at hcm
    rw [h1'] at hcm
    simp only [hok.coarsen, checked, bind, Except.bind, pure, Except.pure] at hcm
    rw [if_neg (by decide)] at hcm
    cases hd : coeffs.diag with
    | scalar n => rw [hd] at hcm; split at hcm <;> cases hcm
    | linear n => rw [hd] at hcm; split at hcm <;> cases hcm
    | square fd =>
      cases hu : coeffs.upper with
      | scalar n => rw [hd, hu] at hcm; split at hcm <;> cases hcm
      | linear n => rw [hd, hu] at hcm; split at hcm <;> cases hcm
      | square fu =>
        refine ⟨rfl, rfl, ?_⟩
        intro ha
        cases hl : coeffs.lower with
        | scalar n =>
          rw [hd, hu, hl, if_pos ha] at hcm
          cases hcm
        | linear n =>
          rw [hd, hu, hl, if_pos ha] at hcm
          cases hcm
        | square fl => rfl
  · rintro ⟨hd, hu, hl⟩
    cases hd2 : coeffs.diag with
    | scalar n => rw [hd2] at hd; cases hd
    | linear n => rw [hd2] at hd; cases hd
    | square fd =>
      cases hu2 : coeffs.upper with
      | scalar n => rw [hu2] at hu; cases hu
      | linear n => rw [hu2] at hu; cases hu
      | square fu =>
        by_cases ha : m.asymmetric = true
        · cases hl2 : coeffs.lower with
          | scalar n => have := hl ha; rw [hl2] at this; cases this
          | linear n => have := hl ha; rw [hl2] at this; cases this
          | square fl =>
            obtain ⟨_, _, _, _, h3, _⟩ := restrictMatrix_asym_spec tr st m coeffs nC hok
              fd fu fl hd2 hu2 hl2 ha
            exact ⟨_, h3⟩
        · obtain ⟨_, _, _, _, h3, _⟩ := restrictMatrix_sym_spec tr st m coeffs nC hok
            fd fu hd2 hu2 (by simpa using ha)
          exact ⟨_, h3⟩

/-- Witness of the amended C12 on the asymmetric matrix `flip4`. -/
theorem restrictMatrix_shape_gate_witness :
    (∃ cm, restrictMatrix id flip4State flip4 flip4Coeffs = Except.ok cm) ↔
      (flip4Coeffs.diag.activeType = ActiveType.square ∧
        flip4Coeffs.upper.activeType = ActiveType.square ∧
        (flip4.asymmetric = true → flip4Coeffs.lower.activeType = ActiveType.square)) :=
  restrictMatrix_shape_gate id flip4State flip4 flip4Coeffs 2 flip4_restrictOK

/-- C12 as stated fails: on the asymmetric matrix `flip4` with `coarsen`
true, a square diagonal and a square upper field but a linear lower field,
`restrictMatrix` ends with a fatal error (the lower field is read as a square
field) although diagonal and upper are square. -/
theorem shape_gate_counterexample :
    flip4.asymmetric = true ∧ flip4State.coarsen = true ∧
      restrictMatrix id flip4State flip4 flip4LinearLower
        = Except.error RestrictError.notSquare ∧
      ¬ ((∃ cm, restrictMatrix id flip4State flip4 flip4LinearLower = Except.ok cm) ↔
        (flip4LinearLower.diag.activeType = ActiveType.square ∧
          flip4LinearLower.upper.activeType = ActiveType.square)) := by
  have h : restrictMatrix id flip4State flip4 flip4LinearLower
      = Except.error RestrictError.notSquare := by rfl
  refine ⟨rfl, rfl, h, ?_⟩
  intro hiff
  obtain ⟨cm, hcm⟩ := hiff.mpr ⟨rfl, rfl⟩
  rw [h] at hcm
  cases hcm

/-! ## Coarse matrix builder: projection of the fine matrix -/

/-- C18 evaluated on `flip4`: the constructor with `groupSize = 2` gives the
clusters `{0, 3}` and `{1, 2}`; the fine coefficient `(1,3)` has its lower
equation in cluster 1 and its upper equation in cluster 0, and `restrictMatrix`
adds its upper value to the coarse upper of the pair `(0, 1)` and its lower
value to the coarse lower. The coarse entry `(0, 1)` is `1` where the
projection of the fine matrix has `-1`, and the coarse entry `(1, 0)` is `-1`
where the projection has `1`. -/
theorem galerkin_flip_evaluation :
    construct ratOps diagFactorDefault singlePartition flip4 2 0 = some flip4State ∧
      restrictMatrix id flip4State flip4 flip4Coeffs
        = Except.ok ⟨2, [0], [1], [10, 10], [1], some [-1]⟩ ∧
      coarseEntry ⟨2, [0], [1], [10, 10], [1], some [-1]⟩ 0 1 = 1 ∧
      galerkinEntry flip4State.agglomIndex flip4.upperAddr flip4.lowerAddr [4, 4, 4, 4]
        [1, 1, 1] [1, 1, -1] 0 1 = -1 ∧
      coarseEntry ⟨2, [0], [1], [10, 10], [1], some [-1]⟩ 1 0 = -1 ∧
      galerkinEntry flip4State.agglomIndex flip4.upperAddr flip4.lowerAddr [4, 4, 4, 4]
        [1, 1, 1] [1, 1, -1] 1 0 = 1 := by
  refine ⟨by decide!, by rfl, by decide, by decide, by decide, by decide⟩


/-! ## Solver controls -/

/-- C30. Solver configuration check: with `nAlphaSubCycles` present in the
dictionary, `readControls.H` ends with a fatal error if and only if
`nAlphaSubCycles > 1` and `nOuterCorr != 1` (the error is then "Sub-cycling
alpha is only allowed for PISO"); for every other pair of values it declares
the controls without error. -/
theorem readControls_check (nOuterCorr nAlphaSubCycles : Int) (correctPhi : Option Bool)
    (checkMeshCourantNo : Option Bool) :
    ((∃ e, readControls nOuterCorr ⟨some nAlphaSubCycles, correctPhi, checkMeshCourantNo⟩
        = Except.error e) ↔ (nAlphaSubCycles > 1 ∧ nOuterCorr ≠ 1)) ∧
    ((nAlphaSubCycles > 1 ∧ nOuterCorr ≠ 1) →
      readControls nOuterCorr ⟨some nAlphaSubCycles, correctPhi, checkMeshCourantNo⟩
        = Except.error ControlsError.subCyclingNotPISO) ∧
    ((nAlphaSubCycles ≤ 1 ∨ nOuterCorr = 1) →
      ∃ c, readControls nOuterCorr ⟨some nAlphaSubCycles, correctPhi, checkMeshCourantNo⟩
        = Except.ok c ∧ c.nAlphaSubCycles = nAlphaSubCycles) := by
  have hpos : (nAlphaSubCycles > 1 ∧ nOuterCorr ≠ 1) →
      readControls nOuterCorr ⟨some nAlphaSubCycles, correctPhi, checkMeshCourantNo⟩
        = Except.error ControlsError.subCyclingNotPISO := by
    intro h
    unfold readControls
    simp only
    rw [if_pos h]
  have hneg : ¬ (nAlphaSubCycles > 1 ∧ nOuterCorr ≠ 1) →
      ∃ c, readControls nOuterCorr ⟨some nAlphaSubCycles, correctPhi, checkMeshCourantNo⟩
        = Except.ok c ∧ c.nAlphaSubCycles = nAlphaSubCycles := by
    intro h
    unfold readControls
    simp only
    rw [if_neg h]
    exact ⟨_, rfl, rfl⟩
  refine ⟨⟨?_, fun h => ⟨_, hpos h⟩⟩, hpos, ?_⟩
  · rintro ⟨e, he⟩
    by_contra hc
    obtain ⟨c, hc1, _⟩ := hneg hc
    rw [hc1] at he
    cases he
  · intro h
    exact hneg (by omega)

/-- Witness of C30: sub-cycling with three outer correctors is rejected, and
accepted with one. -/
theorem readControls_check_witness :
    readControls 3 ⟨some 2, none, none⟩ = Except.error ControlsError.subCyclingNotPISO ∧
      ∃ c, readControls 1 ⟨some 2, none, none⟩ = Except.ok c ∧ c.nAlphaSubCycles = 2 :=
  ⟨(readControls_check 3 2 none none).2.1 ⟨by decide, by decide⟩,
    (readControls_check 1 2 none none).2.2 (Or.inr rfl)⟩


/-! ## The reduction of the coarsen flag -/

theorem calcAgglomeration_flag {α : Type} (ops : ScalarOps α) (diagFactor : α) (env : ParEnv)
    (m : BlockLduMatrix α) (groupSize minCoarseEqns : Int) (st st' : AgglomState)
    (hsym : m.symmetric = true ∨ m.asymmetric = true) (hst : st.coarsen = false)
    (h : calcAgglomeration ops diagFactor env m groupSize minCoarseEqns st = some st') :
    st'.coarsen = (decide (st'.nCoarseEqns > minCoarseEqns ∧
      3 * st'.nCoarseEqns ≤ 2 * (m.nRows : Int)) && env.coarsenOthers) := by
  obtain ⟨mo, hmo⟩ := calcMagOffDiag_isSome ops m hsym
  unfold calcAgglomeration at h
  simp only [Option.bind_eq_bind, Option.bind_eq_some, hmo] at h
  obtain ⟨ro, _, f, _, zc, _, sa, _, cs, _, h⟩ := h
  simp only [pure, Option.some.injEq] at h
  rw [← h]
  simp only [hst]
  by_cases hg : cs.nCoarseEqns > minCoarseEqns ∧ 3 * cs.nCoarseEqns ≤ 2 * (m.nRows : Int)
  · rw [if_pos hg, decide_eq_true hg]
  · rw [if_neg hg, decide_eq_false hg]

/-- Two partitions, one with the diagonal-only matrix `diag5`
and one with the chain `chain5`: the first returns before both reductions,
with `coarsen = false` whatever the other partitions contribute, so its value
enters no reduction; the second, whose local gate is true, ends with the
value that the reduction hands to it for the other partitions. -/
theorem coarsen_reduce_evaluation :
    (∀ env : ParEnv, construct ratOps diagFactorDefault env diag5 4 0
      = some { agglomIndex := [0, 0, 0, 0, 0], nCoarseEqns := 1, coarsen := false }) ∧
    (∀ b : Bool, construct ratOps diagFactorDefault ⟨0, b⟩ chain5 4 0
      = some { agglomIndex := [0, 0, 0, 0, 0], nCoarseEqns := 1, coarsen := b }) := by
  refine ⟨?_, ?_⟩
  · intro env
    unfold construct
    exact calcAgglomeration_diagOnly ratOps diagFactorDefault env diag5 4 0 _
      (by unfold ValidAddr; decide) (by unfold ValidAddr; decide) (by decide) (by simp [diag5])
      rfl rfl
  · intro b
    cases b
    · decide!
    · decide!


/-! ## The weight of the growth passes and the size test, evaluated -/

/-- C22 evaluated on `stale6` with `groupSize = 3`: the seed 0 absorbs
equation 1 and the second pass scans the row of the tail 1 (positions 1, 2, 3
of `cols`, holding the equations 0, 2, 3). The code calls the scan with
`magRowDiag = magDiag[0] = 100`, the diagonal of the seed: it gives position 3
(equation 3) the weight `3/100`, the largest, and equation 3 is absorbed. With
the diagonal of the tail, `magDiag[1] = 1`, the weights are
`2/max(1,1) = 2` for equation 2 and `3/max(1,10) = 3/10` for equation 3, and
the best ungrouped neighbour is equation 2 at position 2. -/
theorem stale_weight_evaluation :
    construct ratOps diagFactorDefault singlePartition stale6 3 0
      = some { agglomIndex := [0, 0, 1, 0, 0, 1], nCoarseEqns := 2, coarsen := true } ∧
    (clusterPrefix ratOps diagFactorDefault stale6 3 1).map (fun s => s.agglomIndex)
      = some [0, 0, -1, 0, -1, -1] ∧
    (clusterSetup ratOps diagFactorDefault stale6 3).bind (fun p =>
        (scanRow ratOps p.1 [0, 0, -1, -1, -1, -1] 1 100).map
          (fun s => (s.indexUngrouped, s.weightUngrouped, readAt p.1.cols s.indexUngrouped)))
      = some (3, 3 / 100, some 3) ∧
    (clusterSetup ratOps diagFactorDefault stale6 3).bind (fun p =>
        (scanRow ratOps p.1 [0, 0, -1, -1, -1, -1] 1 1).map
          (fun s => (s.indexUngrouped, s.weightUngrouped, readAt p.1.cols s.indexUngrouped)))
      = some (2, 2, some 2) ∧
    (clusterSetup ratOps diagFactorDefault stale6 3).bind (fun p =>
        weightAt ratOps p.1 1 3) = some (3 / 10) := by
  refine ⟨by decide!, by decide!, by decide!, by decide!, by decide!⟩

/-- C23 evaluated on `star6` with `groupSize = 2`: when the main loop reaches
equation 5, cluster 0 has the five members 0, 1, 2, 3, 4, more than
`groupSize + 2 = 4`, but its counter `sizeOfGroups[0]` is 4 (the growth did not
count the absorbed equation 1), the test `sizeOfGroups > groupSize + 2` fails
and the seed 5 is merged into cluster 0. -/
theorem merge_size_evaluation :
    (clusterPrefix ratOps diagFactorDefault star6 2 5).map
        (fun s => (s.agglomIndex, s.sizeOfGroups, s.nCoarseEqns))
      = some ([0, 0, 0, 0, 0, -1], [4, 0, 0, 0, 0, 0], 1) ∧
    ([0, 0, 0, 0, 0, -1] : List Int).count 0 = 5 ∧
    (clusterPrefix ratOps diagFactorDefault star6 2 6).map
        (fun s => (s.agglomIndex, s.sizeOfGroups, s.nCoarseEqns))
      = some ([0, 0, 0, 0, 0, 0], [5, 0, 0, 0, 0, 0], 1) := by
  refine ⟨by decide!, by decide, by decide!⟩


/-! ## Coarse addressing: independence of the capacity -/

theorem flatten_rowOf (pairs : List (Int × Int)) (n : Nat) :
    ((List.range n).map (rowOf pairs)).flatten = finalOrder pairs n := by
  induction n with
  | zero => rfl
  | succ n ih =>
    rw [List.range_succ, List.map_append, List.flatten_append, ih, finalOrder]
    simp

theorem owner_flatten (pairs : List (Int × Int)) (n : Nat) :
    ((List.range n).map
        (fun i => List.replicate (rowOf pairs i).length (i : Int))).flatten
      = (finalOrder pairs n).map (fun q => (pairs.getD q (0, 0)).1) := by
  induction n with
  | zero => rfl
  | succ n ih =>
    rw [List.range_succ, List.map_append, List.flatten_append, ih, finalOrder, List.map_append]
    congr 1
    simp only [List.map_cons, List.map_nil, List.flatten_cons, List.flatten_nil,
      List.append_nil]
    apply List.ext_getElem
    · simp
    · intro k h1 h2
      have hk : k < (rowOf pairs n).length := by simpa using h2
      rw [List.getElem_replicate, List.getElem_map]
      have hmem : (rowOf pairs n)[k] ∈ rowOf pairs n := List.getElem_mem hk
      rw [mem_rowOf] at hmem
      exact hmem.2.symm

theorem find_rowOf (pairs : List (Int × Int)) (cOwn : Nat) (cNei : Int) :
    (∀ prov, (rowOf pairs cOwn).find?
        (fun prov => decide ((pairs.map Prod.snd).getD prov 0 = cNei)) = some prov →
      prov < pairs.length ∧ pairs.getD prov (0, 0) = ((cOwn : Int), cNei)) ∧
    ((rowOf pairs cOwn).find?
        (fun prov => decide ((pairs.map Prod.snd).getD prov 0 = cNei)) = none →
      ((cOwn : Int), cNei) ∉ pairs) := by
  have hsnd : ∀ q, q < pairs.length →
      (pairs.map Prod.snd).getD q 0 = (pairs.getD q (0, 0)).2 := by
    intro q hq
    rw [List.getD_eq_getElem _ _ (by simpa using hq), List.getD_eq_getElem _ _ hq,
      List.getElem_map]
  refine ⟨?_, ?_⟩
  · intro prov h
    have h1 := List.find?_some h
    have h2 := (mem_rowOf pairs cOwn prov).mp (List.mem_of_find?_eq_some h)
    rw [decide_eq_true_eq, hsnd prov h2.1] at h1
    exact ⟨h2.1, Prod.ext h2.2 h1⟩
  · intro h hmem
    rw [List.find?_eq_none] at h
    obtain ⟨q, hq, hqe⟩ := List.getElem_of_mem hmem
    have hrow : q ∈ rowOf pairs cOwn := by
      rw [mem_rowOf, List.getD_eq_getElem _ _ hq, hqe]
      exact ⟨hq, rfl⟩
    apply h q hrow
    rw [decide_eq_true_eq, hsnd q hq, List.getD_eq_getElem _ _ hq, hqe]

theorem craInv_append (agglomIndex upperAddr lowerAddr : List Int)
    (pairs pairs' : List (Int × Int)) (n : Nat) (cra : List Int) (v : Int)
    (hn : cra.length = n) (hinv : CraInv agglomIndex upperAddr lowerAddr pairs n cra)
    (hext : ∀ q, q < pairs.length → q < pairs'.length ∧ pairs'.getD q (0, 0) = pairs.getD q (0, 0))
    (hnew : ((rmAddr agglomIndex upperAddr lowerAddr n).1
          = (rmAddr agglomIndex upperAddr lowerAddr n).2 →
        v = -((rmAddr agglomIndex upperAddr lowerAddr n).1 + 1)) ∧
      ((rmAddr agglomIndex upperAddr lowerAddr n).1
          ≠ (rmAddr agglomIndex upperAddr lowerAddr n).2 →
        ∃ q : Nat, v = (q : Int) ∧ q < pairs'.length ∧
          pairs'.getD q (0, 0) = canonPair (rmAddr agglomIndex upperAddr lowerAddr n))) :
    CraInv agglomIndex upperAddr lowerAddr pairs' (n + 1) (cra ++ [v]) := by
  have h := craInv_set agglomIndex upperAddr lowerAddr pairs pairs' n (cra ++ [0]) v
    (by simp [hn]) (by
      intro c hc
      rw [List.getElem?_append_left (by omega)]
      exact hinv c hc) hext hnew
  have hset : (cra ++ [0]).set n v = cra ++ [v] := by
    rw [← hn, List.set_append_right _ _ (le_refl _)]
    simp
  rw [hset] at h
  exact h

theorem addCoeffUnbounded_spec (agglomIndex upperAddr lowerAddr : List Int) (nRows nC : Nat)
    (hok : AddrOK agglomIndex upperAddr lowerAddr nRows nC) (n : Nat)
    (hn : n < upperAddr.length) (s : AdjStore)
    (hadj : s.adj = (List.range nC).map (rowOf (provPairs agglomIndex upperAddr lowerAddr n)))
    (hnei : s.initCoarseNeighb = (provPairs agglomIndex upperAddr lowerAddr n).map Prod.snd)
    (hlen : s.coeffRestrictAddr.length = n)
    (hcra : CraInv agglomIndex upperAddr lowerAddr (provPairs agglomIndex upperAddr lowerAddr n)
      n s.coeffRestrictAddr) :
    (addCoeffUnbounded agglomIndex upperAddr lowerAddr s n).adj
        = (List.range nC).map (rowOf (provPairs agglomIndex upperAddr lowerAddr (n + 1))) ∧
      (addCoeffUnbounded agglomIndex upperAddr lowerAddr s n).initCoarseNeighb
        = (provPairs agglomIndex upperAddr lowerAddr (n + 1)).map Prod.snd ∧
      (addCoeffUnbounded agglomIndex upperAddr lowerAddr s n).coeffRestrictAddr.length = n + 1 ∧
      CraInv agglomIndex upperAddr lowerAddr (provPairs agglomIndex upperAddr lowerAddr (n + 1))
        (n + 1) (addCoeffUnbounded agglomIndex upperAddr lowerAddr s n).coeffRestrictAddr := by
  obtain ⟨_, _, _, _, _, _, h1, h2, h3, h4⟩ := rmAddr_read _ _ _ _ _ hok n hn
  unfold addCoeffUnbounded
  by_cases hintra : (rmAddr agglomIndex upperAddr lowerAddr n).1
      = (rmAddr agglomIndex upperAddr lowerAddr n).2
  · rw [if_pos hintra, provPairs_succ_intra _ _ _ _ hintra]
    refine ⟨hadj, hnei, by simp [hlen], ?_⟩
    exact craInv_append _ _ _ _ _ n _ _ hlen hcra (fun q hq => ⟨hq, rfl⟩)
      ⟨fun _ => rfl, fun h => absurd hintra h⟩
  · rw [if_neg hintra]
    obtain ⟨hlt, _, _⟩ := canonPair_of_ne _ hintra
    have hown0 : 0 ≤ (canonPair (rmAddr agglomIndex upperAddr lowerAddr n)).1 := by
      unfold canonPair; simp only; omega
    have hownN : (canonPair (rmAddr agglomIndex upperAddr lowerAddr n)).1.toNat < nC := by
      unfold canonPair; simp only; omega
    have hcast : (((canonPair (rmAddr agglomIndex upperAddr lowerAddr n)).1.toNat : Nat) : Int)
        = (canonPair (rmAddr agglomIndex upperAddr lowerAddr n)).1 := by omega
    have hrow : s.adj.getD (canonPair (rmAddr agglomIndex upperAddr lowerAddr n)).1.toNat []
        = rowOf (provPairs agglomIndex upperAddr lowerAddr n)
          (canonPair (rmAddr agglomIndex upperAddr lowerAddr n)).1.toNat := by
      rw [hadj, List.getD_eq_getElem _ _ (by simpa using hownN)]
      simp
    obtain ⟨hf1, hf2⟩ := find_rowOf (provPairs agglomIndex upperAddr lowerAddr n)
      (canonPair (rmAddr agglomIndex upperAddr lowerAddr n)).1.toNat
      (canonPair (rmAddr agglomIndex upperAddr lowerAddr n)).2
    rw [hcast] at hf1 hf2
    rw [hrow, hnei]
    cases hfind : (rowOf (provPairs agglomIndex upperAddr lowerAddr n)
        (canonPair (rmAddr agglomIndex upperAddr lowerAddr n)).1.toNat).find?
        (fun prov => decide (((provPairs agglomIndex upperAddr lowerAddr n).map Prod.snd).getD
          prov 0 = (canonPair (rmAddr agglomIndex upperAddr lowerAddr n)).2)) with
    | some prov =>
      obtain ⟨hp1, hp2⟩ := hf1 prov hfind
      have hmem : canonPair (rmAddr agglomIndex upperAddr lowerAddr n)
          ∈ provPairs agglomIndex upperAddr lowerAddr n := by
        have : canonPair (rmAddr agglomIndex upperAddr lowerAddr n)
            = (provPairs agglomIndex upperAddr lowerAddr n).getD prov (0, 0) := by
          rw [hp2]
        rw [this, List.getD_eq_getElem _ _ hp1]
        exact List.getElem_mem _
      simp only
      rw [provPairs_succ_old _ _ _ _ hintra hmem]
      refine ⟨hadj, rfl, by simp [hlen], ?_⟩
      exact craInv_append _ _ _ _ _ n _ _ hlen hcra (fun q hq => ⟨hq, rfl⟩)
        ⟨fun h => absurd h hintra, fun _ => ⟨prov, rfl, hp1, by rw [hp2]⟩⟩
    | none =>
      have hnmem := hf2 hfind
      simp only
      rw [provPairs_succ_new _ _ _ _ hintra hnmem]
      refine ⟨?_, by simp, by simp [hlen], ?_⟩
      · rw [hadj]
        apply List.ext_getElem?
        intro i
        rw [List.getElem?_set]
        simp only [List.length_map, List.length_range, List.getElem?_map]
        by_cases hi : i < nC
        · rw [List.getElem?_range hi]
          simp only [Option.map_some']
          rw [rowOf_append]
          by_cases hie : (canonPair (rmAddr agglomIndex upperAddr lowerAddr n)).1.toNat = i
          · rw [if_pos hie, if_pos hownN, if_pos (by omega)]
            simp [hie]
          · rw [if_neg hie, if_neg (by omega)]
            simp
        · rw [List.getElem?_eq_none (by simpa using hi)]
          simp only [Option.map_none']
          split
          · omega
          · rfl
      · refine craInv_append _ _ _ _ _ n _ _ hlen hcra
          (fun q hq => ⟨by rw [List.length_append]; omega, List.getD_append _ _ _ _ hq⟩)
          ⟨fun h => absurd h hintra, fun _ => ⟨_, rfl, by simp, ?_⟩⟩
        rw [List.length_map, List.getD_append_right _ _ _ _ (le_refl _)]
        simp

theorem collectUnbounded_spec (agglomIndex upperAddr lowerAddr : List Int) (nRows nC : Nat)
    (hok : AddrOK agglomIndex upperAddr lowerAddr nRows nC) :
    (collectUnbounded agglomIndex nC upperAddr lowerAddr).adj
        = (List.range nC).map
          (rowOf (provPairs agglomIndex upperAddr lowerAddr upperAddr.length)) ∧
      (collectUnbounded agglomIndex nC upperAddr lowerAddr).initCoarseNeighb
        = (provPairs agglomIndex upperAddr lowerAddr upperAddr.length).map Prod.snd ∧
      (collectUnbounded agglomIndex nC upperAddr lowerAddr).coeffRestrictAddr.length
        = upperAddr.length ∧
      CraInv agglomIndex upperAddr lowerAddr
        (provPairs agglomIndex upperAddr lowerAddr upperAddr.length) upperAddr.length
        (collectUnbounded agglomIndex nC upperAddr lowerAddr).coeffRestrictAddr := by
  have key : ∀ n, n ≤ upperAddr.length →
      ((List.range n).foldl (addCoeffUnbounded agglomIndex upperAddr lowerAddr)
          { adj := List.replicate nC [], initCoarseNeighb := [], coeffRestrictAddr := [] }).adj
        = (List.range nC).map (rowOf (provPairs agglomIndex upperAddr lowerAddr n)) ∧
      ((List.range n).foldl (addCoeffUnbounded agglomIndex upperAddr lowerAddr)
          { adj := List.replicate nC [], initCoarseNeighb := [],
            coeffRestrictAddr := [] }).initCoarseNeighb
        = (provPairs agglomIndex upperAddr lowerAddr n).map Prod.snd ∧
      ((List.range n).foldl (addCoeffUnbounded agglomIndex upperAddr lowerAddr)
          { adj := List.replicate nC [], initCoarseNeighb := [],
            coeffRestrictAddr := [] }).coeffRestrictAddr.length = n ∧
      CraInv agglomIndex upperAddr lowerAddr (provPairs agglomIndex upperAddr lowerAddr n) n
        ((List.range n).foldl (addCoeffUnbounded agglomIndex upperAddr lowerAddr)
          { adj := List.replicate nC [], initCoarseNeighb := [],
            coeffRestrictAddr := [] }).coeffRestrictAddr := by
    intro n
    induction n with
    | zero =>
      intro _
      refine ⟨?_, rfl, rfl, fun c hc => by omega⟩
      simp only [List.range_zero, List.foldl_nil, provPairs]
      apply List.ext_getElem
      · simp
      · intro i h1 h2
        simp [rowOf]
    | succ n ih =>
      intro hn
      obtain ⟨h1, h2, h3, h4⟩ := ih (by omega)
      rw [List.range_succ, List.foldl_append]
      exact addCoeffUnbounded_spec agglomIndex upperAddr lowerAddr nRows nC hok n (by omega)
        _ h1 h2 h3 h4
  exact key upperAddr.length (le_refl _)

theorem restrictAddressingWith_eq_unbounded (M : Int) (hM : 1 ≤ M)
    (agglomIndex upperAddr lowerAddr : List Int) (nRows nC : Nat)
    (hok : AddrOK agglomIndex upperAddr lowerAddr nRows nC) :
    restrictAddressingWith M agglomIndex (nC : Int) upperAddr lowerAddr
      = some (restrictAddressingUnbounded agglomIndex nC upperAddr lowerAddr) := by
  obtain ⟨addr, hrun, hspec⟩ := restrictAddressingWith_spec M hM _ _ _ _ _ hok
  obtain ⟨hadj, hnei, hclen, hcra⟩ := collectUnbounded_spec _ _ _ _ _ hok
  have hperm := hspec.perm
  have hcount := hspec.count
  have hlenO := hspec.lenO
  have hlenN := hspec.lenN
  have hlenC := hspec.lenC
  have hown := hspec.own
  have hintra := hspec.intra
  have hinter := hspec.inter
  have hnodupP := provPairs_nodup agglomIndex upperAddr lowerAddr upperAddr.length
  have hnodupL := finalOrder_nodup
    (provPairs agglomIndex upperAddr lowerAddr upperAddr.length) nC
  have hflat : (collectUnbounded agglomIndex nC upperAddr lowerAddr).adj.flatten
      = finalOrder (provPairs agglomIndex upperAddr lowerAddr upperAddr.length) nC := by
    rw [hadj, flatten_rowOf]
  have hlenadj : (collectUnbounded agglomIndex nC upperAddr lowerAddr).adj.length = nC := by
    rw [hadj]; simp
  have hrows : (List.range (collectUnbounded agglomIndex nC upperAddr lowerAddr).adj.length).map
        (fun i => List.replicate
          ((collectUnbounded agglomIndex nC upperAddr lowerAddr).adj.getD i []).length
          (i : Int))
      = (List.range nC).map (fun i => List.replicate
          (rowOf (provPairs agglomIndex upperAddr lowerAddr upperAddr.length) i).length
          (i : Int)) := by
    rw [hlenadj]
    apply List.map_congr_left
    intro i hi
    rw [List.mem_range] at hi
    rw [hadj, List.getD_eq_getElem _ _ (by simpa using hi)]
    simp
  have hownflat := owner_flatten
    (provPairs agglomIndex upperAddr lowerAddr upperAddr.length) nC
  generalize provPairs agglomIndex upperAddr lowerAddr upperAddr.length = pairs at *
  generalize finalOrder pairs nC = L at *
  have hLlen := hperm.length_eq
  rw [List.length_range] at hLlen
  have hLmem : ∀ k (hk : k < L.length), L[k] < pairs.length := by
    intro k hk
    rw [← List.mem_range, ← hperm.mem_iff]
    exact List.getElem_mem _
  rw [hrun]
  congr 1
  have hfields : addr.nCoarseCoeffs
        = (restrictAddressingUnbounded agglomIndex nC upperAddr lowerAddr).nCoarseCoeffs ∧
      addr.coarseOwner
        = (restrictAddressingUnbounded agglomIndex nC upperAddr lowerAddr).coarseOwner ∧
      addr.coarseNeighbour
        = (restrictAddressingUnbounded agglomIndex nC upperAddr lowerAddr).coarseNeighbour ∧
      addr.coeffRestrictAddr
        = (restrictAddressingUnbounded agglomIndex nC upperAddr lowerAddr).coeffRestrictAddr := by
    unfold restrictAddressingUnbounded
    simp only
    refine ⟨?_, ?_, ?_, ?_⟩
    · rw [hcount, hnei, List.length_map]
    · rw [hrows, hownflat]
      apply List.ext_getElem?
      intro k
      by_cases hk : k < pairs.length
      · have hkL : k < L.length := by omega
        rw [(hown k hk).1, List.getElem?_map, List.getElem?_eq_getElem hkL,
          List.getD_eq_getElem L 0 hkL]
        rfl
      · rw [List.getElem?_eq_none (by rw [hlenO]; omega),
          List.getElem?_eq_none (by rw [List.length_map]; omega)]
    · rw [hflat]
      apply List.ext_getElem?
      intro k
      by_cases hk : k < pairs.length
      · have hkL : k < L.length := by omega
        have hq := hLmem k hkL
        have hq2 : L[k] < (pairs.map Prod.snd).length := by simpa using hq
        rw [(hown k hk).2, List.getElem?_map, List.getElem?_eq_getElem hkL,
          List.getD_eq_getElem L 0 hkL]
        simp only [Option.map_some', Option.some.injEq]
        rw [hnei, List.getD_eq_getElem _ _ hq2, List.getD_eq_getElem _ _ hq, List.getElem_map]
      · rw [List.getElem?_eq_none (by rw [hlenN]; omega),
          List.getElem?_eq_none (by rw [List.length_map]; omega)]
    · rw [hflat]
      apply List.ext_getElem?
      intro c
      by_cases hc : c < upperAddr.length
      · have hc2 : c < (collectUnbounded agglomIndex nC upperAddr lowerAddr
            ).coeffRestrictAddr.length := by omega
        rw [List.getElem?_map, List.getElem?_eq_getElem hc2]
        simp only [Option.map_some']
        obtain ⟨_, _, _, _, _, _, hr0, _, _, _⟩ := rmAddr_read _ _ _ _ _ hok c hc
        by_cases he : (rmAddr agglomIndex upperAddr lowerAddr c).1
            = (rmAddr agglomIndex upperAddr lowerAddr c).2
        · have h1 := (hcra c hc).1 he
          rw [List.getElem?_eq_getElem hc2] at h1
          injection h1 with h1
          rw [hintra c hc he, h1, if_neg (by omega)]
        · obtain ⟨q, hq1, hq2, hq3⟩ := (hcra c hc).2 he
          rw [List.getElem?_eq_getElem hc2] at hq1
          injection hq1 with hq1
          obtain ⟨k, hk1, hk2, hk3⟩ := hinter c hc he
          have hkL : k < L.length := by omega
          have hLk := hLmem k hkL
          rw [List.getD_eq_getElem L 0 hkL, List.getD_eq_getElem pairs _ hLk] at hk3
          rw [List.getD_eq_getElem pairs _ hq2] at hq3
          have hqq : L[k] = q :=
            (List.Nodup.getElem_inj_iff hnodupP).mp (hk3.trans hq3.symm)
          rw [hk2, hq1, if_pos (by omega), Int.toNat_ofNat, ← hqq,
            List.indexOf_getElem hnodupL k hkL]
      · rw [List.getElem?_eq_none (by rw [hlenC]; omega),
          List.getElem?_eq_none (by rw [List.length_map]; omega)]
  obtain ⟨h1, h2, h3, h4⟩ := hfields
  cases addr
  simp only at h1 h2 h3 h4
  rw [h1, h2, h3, h4]

/-- C26. Capacity independence of the coarse-neighbour storage: for a valid
agglomeration map and fine addressing, the coarse addressing computed with
the packed storage of initial capacity 10 is the one computed with unbounded
adjacency lists, every initial capacity `>= 1` gives the same result, and a
doubling keeps the number of recorded neighbours of every cluster and each
recorded neighbour at its position in the list of its cluster. -/
theorem capacity_independence (agglomIndex upperAddr lowerAddr : List Int) (nRows nC : Nat)
    (hok : AddrOK agglomIndex upperAddr lowerAddr nRows nC) :
    restrictAddressing agglomIndex (nC : Int) upperAddr lowerAddr
        = some (restrictAddressingUnbounded agglomIndex nC upperAddr lowerAddr) ∧
      (∀ M : Int, 1 ≤ M →
        restrictAddressingWith M agglomIndex (nC : Int) upperAddr lowerAddr
          = restrictAddressing agglomIndex (nC : Int) upperAddr lowerAddr) ∧
      (∀ (pairs : List (Int × Int)) (nF : Nat) (s : NbrStore), StoreInv pairs nC nF s →
        ∃ s', doubleStore (nC : Int) s = some s' ∧ s'.maxNnbrs = s.maxNnbrs * 2 ∧
          s'.blockNnbrs = s.blockNnbrs ∧
          ∀ (i j : Nat) (cnt : Int), s.blockNnbrs[i]? = some cnt → (j : Int) < cnt →
            readAt s'.blockNbrsData (s'.maxNnbrs * (i : Int) + (j : Int))
              = readAt s.blockNbrsData (s.maxNnbrs * (i : Int) + (j : Int))) := by
  have h10 := restrictAddressingWith_eq_unbounded 10 (by decide) _ _ _ _ _ hok
  refine ⟨h10, ?_, ?_⟩
  · intro M hM
    rw [restrictAddressingWith_eq_unbounded M hM _ _ _ _ _ hok]
    exact h10.symm
  · intro pairs nF s hinv
    obtain ⟨s', h1, h2, h3, _, h5, _⟩ := doubleStore_spec pairs nC nF s hinv
    refine ⟨s', h1, h3, h5, ?_⟩
    intro i j cnt hcnt hj
    have hi : i < nC := by
      have := lt_of_getElem? _ _ _ hcnt
      rw [hinv.lenN] at this
      exact this
    have hc := (hinv.cnt i hi).1
    rw [hcnt] at hc
    injection hc with hc
    have hjr : j < (rowOf pairs i).length := by omega
    have hM : 0 ≤ s.maxNnbrs := by have := hinv.cap; omega
    have hM' : 0 ≤ s'.maxNnbrs := by have := h2.cap; omega
    obtain ⟨hp0, hp1⟩ := pos_toNat s.maxNnbrs (i : Int) j hM (by omega)
    obtain ⟨hq0, hq1⟩ := pos_toNat s'.maxNnbrs (i : Int) j hM' (by omega)
    rw [Int.toNat_ofNat] at hp1 hq1
    unfold readAt
    rw [if_pos hp0, if_pos hq0, hp1, hq1, hinv.data i j hi hjr, h2.data i j hi hjr]

/-- Witness of C26 on the addressing of `order6` with three clusters. -/
theorem capacity_independence_witness :
    restrictAddressing [0, 1, 2, 1, 0, 2] ((3 : Nat) : Int) order6.upperAddr order6.lowerAddr
        = some (restrictAddressingUnbounded [0, 1, 2, 1, 0, 2] 3 order6.upperAddr
          order6.lowerAddr) ∧
      (∀ M : Int, 1 ≤ M →
        restrictAddressingWith M [0, 1, 2, 1, 0, 2] ((3 : Nat) : Int) order6.upperAddr
            order6.lowerAddr
          = restrictAddressing [0, 1, 2, 1, 0, 2] ((3 : Nat) : Int) order6.upperAddr
            order6.lowerAddr) ∧
      (∀ (pairs : List (Int × Int)) (nF : Nat) (s : NbrStore), StoreInv pairs 3 nF s →
        ∃ s', doubleStore ((3 : Nat) : Int) s = some s' ∧ s'.maxNnbrs = s.maxNnbrs * 2 ∧
          s'.blockNnbrs = s.blockNnbrs ∧
          ∀ (i j : Nat) (cnt : Int), s.blockNnbrs[i]? = some cnt → (j : Int) < cnt →
            readAt s'.blockNbrsData (s'.maxNnbrs * (i : Int) + (j : Int))
              = readAt s.blockNbrsData (s.maxNnbrs * (i : Int) + (j : Int))) :=
  capacity_independence [0, 1, 2, 1, 0, 2] order6.upperAddr order6.lowerAddr 6 3 order6_addrOK

/-! ## The scan of a row finds the best neighbours -/

theorem ratOps_ordered : OrderedOps ratOps := by
  refine ⟨?_, ?_⟩
  · intro a
    simp [ratOps]
  · intro a b c h1 h2
    simp only [ratOps, decide_eq_false_iff_not, decide_eq_true_eq, gt_iff_lt, not_lt] at *
    exact le_of_lt (lt_of_le_of_lt h1 h2)

theorem bestOf_skip {α : Type} (ops : ScalarOps α) (ctx : ClusterCtx α) (magRowDiag : α)
    (Q : Nat → Prop) (lo x : Nat) (idx : Int) (w : α)
    (h : BestOf ops ctx magRowDiag Q lo x idx w) (hx : ¬ Q x) :
    BestOf ops ctx magRowDiag Q lo (x + 1) idx w := by
  rcases h with ⟨h1, h2⟩ | ⟨b, h1, h2, h3, h4, h5, h6⟩
  · left
    refine ⟨h1, ?_⟩
    intro p hp1 hp2
    by_cases hpx : p = x
    · rw [hpx]; exact hx
    · exact h2 p hp1 (by omega)
  · right
    refine ⟨b, h1, h2, by omega, h4, h5, ?_⟩
    intro hord p wp hp1 hp2 hq hw
    by_cases hpx : p = x
    · rw [hpx] at hq; exact absurd hq hx
    · exact h6 hord p wp hp1 (by omega) hq hw

theorem bestOf_take {α : Type} (ops : ScalarOps α) (ctx : ClusterCtx α) (magRowDiag : α)
    (Q : Nat → Prop) (lo x : Nat) (idx : Int) (w wx : α) (hlo : lo ≤ x)
    (h : BestOf ops ctx magRowDiag Q lo x idx w) (hx : Q x)
    (hwx : weightAt ops ctx magRowDiag (x : Int) = some wx)
    (hc : idx = -1 ∨ ops.gt wx w = true) :
    BestOf ops ctx magRowDiag Q lo (x + 1) (x : Int) wx := by
  right
  refine ⟨x, rfl, hlo, by omega, hx, hwx, ?_⟩
  intro hord p wp hp1 hp2 hq hw
  by_cases hpx : p = x
  · rw [hpx, hwx] at hw
    rw [← Option.some.inj hw]
    exact hord.irrefl wx
  · rcases h with ⟨_, h2⟩ | ⟨b, h1, _, _, _, _, h6⟩
    · exact absurd hq (h2 p hp1 (by omega))
    · rcases hc with hc | hc
      · omega
      · exact hord.chain wp w wx (h6 hord p wp hp1 (by omega) hq hw) hc

theorem bestOf_keep {α : Type} (ops : ScalarOps α) (ctx : ClusterCtx α) (magRowDiag : α)
    (Q : Nat → Prop) (lo x : Nat) (idx : Int) (w wx : α)
    (h : BestOf ops ctx magRowDiag Q lo x idx w)
    (hwx : weightAt ops ctx magRowDiag (x : Int) = some wx)
    (hc : ¬ (idx = -1 ∨ ops.gt wx w = true)) :
    BestOf ops ctx magRowDiag Q lo (x + 1) idx w := by
  rcases h with ⟨h1, _⟩ | ⟨b, h1, h2, h3, h4, h5, h6⟩
  · exact absurd (Or.inl h1) hc
  · right
    refine ⟨b, h1, h2, by omega, h4, h5, ?_⟩
    intro hord p wp hp1 hp2 hq hw
    by_cases hpx : p = x
    · rw [hpx, hwx] at hw
      rw [← Option.some.inj hw]
      by_contra hgt
      exact hc (Or.inr (by simpa using hgt))
    · exact h6 hord p wp hp1 (by omega) hq hw

theorem scanStep_best {α : Type} (ops : ScalarOps α) (ctx : ClusterCtx α) (nRows : Nat)
    (agglomIndex : List Int) (curEqn : Int) (aCur : Int) (magRowDiag : α)
    (hlenD : ctx.magDiag.length = nRows) (hlen : agglomIndex.length = nRows)
    (hcur : readAt agglomIndex curEqn = some aCur)
    (s : ScanState α) (lo x : Nat) (hlo : lo ≤ x) (col c : Nat)
    (hcol : ctx.cols[x]? = some (col : Int)) (hcoln : col < nRows)
    (hc : ctx.cIndex[x]? = some (c : Int)) (hcn : c < ctx.magOffDiag.length)
    (hU : BestOf ops ctx magRowDiag (UngroupedAt ctx.cols agglomIndex) lo x
      s.indexUngrouped s.weightUngrouped)
    (hG : BestOf ops ctx magRowDiag (GroupedAt ctx.cols agglomIndex aCur) lo x
      s.indexGrouped s.weightGrouped) :
    ∃ s', scanStep ops ctx agglomIndex curEqn magRowDiag s (x : Int) = some s' ∧
      BestOf ops ctx magRowDiag (UngroupedAt ctx.cols agglomIndex) lo (x + 1)
        s'.indexUngrouped s'.weightUngrouped ∧
      BestOf ops ctx magRowDiag (GroupedAt ctx.cols agglomIndex aCur) lo (x + 1)
        s'.indexGrouped s'.weightGrouped := by
  obtain ⟨md, hmd⟩ := getElem?_of_lt ctx.magDiag col (by omega)
  obtain ⟨mo, hmo⟩ := getElem?_of_lt ctx.magOffDiag c hcn
  obtain ⟨ac, hac⟩ := getElem?_of_lt agglomIndex col (by omega)
  have hwx : weightAt ops ctx magRowDiag (x : Int)
      = some (ops.div mo (ops.max magRowDiag md)) := by
    simp only [weightAt, Option.bind_eq_bind, readAt_natCast, hcol, hc, Option.some_bind, hmd,
      hmo]
    rfl
  simp only [scanStep, Option.bind_eq_bind, readAt_natCast, hcol, hc, Option.some_bind, hmd,
    hmo, hac]
  by_cases h1 : ac = -1
  · rw [if_pos h1]
    subst h1
    have hq : UngroupedAt ctx.cols agglomIndex x := ⟨col, hcol, hac⟩
    have hnq : ¬ GroupedAt ctx.cols agglomIndex aCur x := by
      rintro ⟨col2, ac2, h1, h2, h3, _⟩
      rw [hcol] at h1
      have : col = col2 := by have := Option.some.inj h1; omega
      rw [← this, hac] at h2
      exact h3 (Option.some.inj h2).symm
    have hG' := bestOf_skip ops ctx magRowDiag _ lo x _ _ hG hnq
    split
    · rename_i hcnd
      exact ⟨_, rfl, bestOf_take ops ctx magRowDiag _ lo x _ _ _ hlo hU hq hwx hcnd, hG'⟩
    · rename_i hcnd
      exact ⟨_, rfl, bestOf_keep ops ctx magRowDiag _ lo x _ _ _ hU hwx hcnd, hG'⟩
  · rw [if_neg h1, hcur]
    simp only [Option.some_bind]
    have hnq : ¬ UngroupedAt ctx.cols agglomIndex x := by
      rintro ⟨col2, h1', h2⟩
      rw [hcol] at h1'
      have : col = col2 := by have := Option.some.inj h1'; omega
      rw [← this, hac] at h2
      exact h1 (Option.some.inj h2)
    have hU' := bestOf_skip ops ctx magRowDiag _ lo x _ _ hU hnq
    by_cases h2 : aCur ≠ ac
    · rw [if_pos h2]
      have hq : GroupedAt ctx.cols agglomIndex aCur x :=
        ⟨col, ac, hcol, hac, h1, fun h => h2 h.symm⟩
      split
      · rename_i hcnd
        exact ⟨_, rfl, hU', bestOf_take ops ctx magRowDiag _ lo x _ _ _ hlo hG hq hwx hcnd⟩
      · rename_i hcnd
        exact ⟨_, rfl, hU', bestOf_keep ops ctx magRowDiag _ lo x _ _ _ hG hwx hcnd⟩
    · rw [if_neg h2]
      have hnq2 : ¬ GroupedAt ctx.cols agglomIndex aCur x := by
        rintro ⟨col2, ac2, h1', h2', _, h4⟩
        rw [hcol] at h1'
        have : col = col2 := by have := Option.some.inj h1'; omega
        rw [← this, hac] at h2'
        apply h4
        rw [← Option.some.inj h2']
        by_contra hne
        exact h2 (fun h => hne h.symm)
      exact ⟨_, rfl, hU', bestOf_skip ops ctx magRowDiag _ lo x _ _ hG hnq2⟩

theorem scanRow_best {α : Type} (ops : ScalarOps α) (ctx : ClusterCtx α) (nRows : Nat)
    (hctx : CtxOK ctx nRows) (agglomIndex : List Int) (curEqn : Nat) (aCur : Int)
    (magRowDiag : α) (hlen : agglomIndex.length = nRows) (hc1 : curEqn < nRows)
    (hcur : agglomIndex[curEqn]? = some aCur) :
    ∃ (s : ScanState α) (lo hi : Nat),
      ctx.rowOffset[curEqn]? = some (lo : Int) ∧ ctx.rowOffset[curEqn + 1]? = some (hi : Int) ∧
      scanRow ops ctx agglomIndex (curEqn : Int) magRowDiag = some s ∧
      BestOf ops ctx magRowDiag (UngroupedAt ctx.cols agglomIndex) lo hi
        s.indexUngrouped s.weightUngrouped ∧
      BestOf ops ctx magRowDiag (GroupedAt ctx.cols agglomIndex aCur) lo hi
        s.indexGrouped s.weightGrouped := by
  obtain ⟨lo, hi, hlo, hhi, hrow⟩ := hctx.rows curEqn hc1
  have hcurR : readAt agglomIndex (curEqn : Int) = some aCur := by
    rw [readAt_natCast]; exact hcur
  have hr2 : readAt ctx.rowOffset ((curEqn : Int) + 1) = some (hi : Int) := by
    have : ((curEqn : Int) + 1) = ((curEqn + 1 : Nat) : Int) := by push_cast; rfl
    rw [this, readAt_natCast]
    exact hhi
  by_cases hle : lo ≤ hi
  · obtain ⟨s, hs, hinv⟩ := foldlM_range_inv
      (fun s (j : Nat) => scanStep ops ctx agglomIndex (curEqn : Int) magRowDiag s
        ((lo : Int) + (j : Int)))
      (fun k s =>
        BestOf ops ctx magRowDiag (UngroupedAt ctx.cols agglomIndex) lo (lo + k)
          s.indexUngrouped s.weightUngrouped ∧
        BestOf ops ctx magRowDiag (GroupedAt ctx.cols agglomIndex aCur) lo (lo + k)
          s.indexGrouped s.weightGrouped)
      (hi - lo)
      { indexUngrouped := -1, weightUngrouped := ops.zero,
        indexGrouped := -1, weightGrouped := ops.zero }
      ⟨Or.inl ⟨rfl, fun p h1 h2 => by omega⟩, Or.inl ⟨rfl, fun p h1 h2 => by omega⟩⟩
      (by
        intro k s hk hs
        obtain ⟨col, c, h1, h2, h3, h4⟩ := hrow (lo + k) (by omega) (by omega)
        have hx : ((lo : Int) + (k : Int)) = ((lo + k : Nat) : Int) := by push_cast; rfl
        beta_reduce
        rw [hx]
        exact scanStep_best ops ctx nRows agglomIndex (curEqn : Int) aCur magRowDiag hctx.lenD
          hlen hcurR s lo (lo + k) (by omega) col c h1 h2 h3 h4 hs.1 hs.2)
    have hhl : lo + (hi - lo) = hi := by omega
    rw [hhl] at hinv
    refine ⟨s, lo, hi, hlo, hhi, ?_, hinv⟩
    simp only [scanRow, Option.bind_eq_bind, readAt_natCast, hlo, hr2, Option.some_bind,
      labelRange]
    rw [List.foldlM_map]
    have : ((hi : Int) - (lo : Int)).toNat = hi - lo := by omega
    rw [this]
    exact hs
  · refine ⟨⟨-1, ops.zero, -1, ops.zero⟩, lo, hi, hlo, hhi, ?_,
      Or.inl ⟨rfl, fun p h1 h2 => by omega⟩, Or.inl ⟨rfl, fun p h1 h2 => by omega⟩⟩
    simp only [scanRow, Option.bind_eq_bind, readAt_natCast, hlo, hr2, Option.some_bind,
      labelRange]
    have : ((hi : Int) - (lo : Int)).toNat = 0 := by omega
    rw [this]
    rfl

/-! ## One pass of the growth loop -/

theorem growsTo_length {α : Type} (ctx : ClusterCtx α) (K : Int) (agg0 : List Int) (seed : Nat)
    (n : Nat) (agg : List Int) (tail : Nat) (h : GrowsTo ctx K agg0 seed n agg tail) :
    agg.length = agg0.length := by
  induction h with
  | start => rfl
  | absorb n agg tail next _ _ _ _ ih => simp [ih]

theorem growsTo_tail {α : Type} (ctx : ClusterCtx α) (K : Int) (agg0 : List Int) (seed : Nat)
    (h0 : agg0[seed]? = some K)
    (n : Nat) (agg : List Int) (tail : Nat) (h : GrowsTo ctx K agg0 seed n agg tail) :
    agg[tail]? = some K := by
  induction h with
  | start => exact h0
  | absorb n agg tail next _ hn _ _ _ =>
    rw [List.getElem?_set_self (lt_of_getElem? _ _ _ hn)]

theorem growsTo_zero {α : Type} (ctx : ClusterCtx α) (K : Int) (agg0 : List Int) (seed : Nat)
    (agg : List Int) (tail : Nat) (h : GrowsTo ctx K agg0 seed 0 agg tail) :
    agg = agg0 ∧ tail = seed := by
  cases h
  exact ⟨rfl, rfl⟩

theorem growLoop_done {α : Type} (ops : ScalarOps α) (ctx : ClusterCtx α)
    (sizeOfGroups : List Int) (magRowDiag : α) (g : GrowState)
    (hpass : ¬ g.groupPassI < ctx.groupSize) (fuel : Nat) :
    growLoop ops ctx sizeOfGroups magRowDiag (fuel + 1) g = some g := by
  unfold growLoop
  rw [if_neg hpass]
  rfl

theorem growLoop_pass {α : Type} (ops : ScalarOps α) (ctx : ClusterCtx α) (nRows : Nat)
    (hctx : CtxOK ctx nRows) (sizeOfGroups : List Int) (hlenS : sizeOfGroups.length = nRows)
    (magRowDiag : α) (g : GrowState) (cur : Nat) (aCur : Int)
    (hcurEq : g.curEqn = (cur : Int)) (hlen : g.agglomIndex.length = nRows)
    (hc : cur < nRows) (hcur : g.agglomIndex[cur]? = some aCur)
    (ha0 : 0 ≤ aCur) (ha1 : aCur < (nRows : Int)) (hpass : g.groupPassI < ctx.groupSize) :
    ∃ (s : ScanState α) (lo hi : Nat),
      ctx.rowOffset[cur]? = some (lo : Int) ∧ ctx.rowOffset[cur + 1]? = some (hi : Int) ∧
      scanRow ops ctx g.agglomIndex (cur : Int) magRowDiag = some s ∧
      BestOf ops ctx magRowDiag (UngroupedAt ctx.cols g.agglomIndex) lo hi
        s.indexUngrouped s.weightUngrouped ∧
      BestOf ops ctx magRowDiag (GroupedAt ctx.cols g.agglomIndex aCur) lo hi
        s.indexGrouped s.weightGrouped ∧
      (absorbs ops s → ∃ next : Nat, next < nRows ∧
        readAt ctx.cols s.indexUngrouped = some (next : Int) ∧
        g.agglomIndex[next]? = some (-1) ∧ Nbr ctx cur next ∧
        ∀ fuel, growLoop ops ctx sizeOfGroups magRowDiag (fuel + 1) g
          = growLoop ops ctx sizeOfGroups magRowDiag fuel
              { agglomIndex := g.agglomIndex.set next aCur, curEqn := (next : Int),
                indexUngrouped := s.indexUngrouped, indexGrouped := s.indexGrouped,
                groupPassI := g.groupPassI + 1 }) ∧
      (¬ absorbs ops s → ∀ fuel, growLoop ops ctx sizeOfGroups magRowDiag (fuel + 1) g
          = some { agglomIndex := g.agglomIndex, curEqn := g.curEqn,
                   indexUngrouped := s.indexUngrouped, indexGrouped := s.indexGrouped,
                   groupPassI := g.groupPassI }) := by
  obtain ⟨s, lo, hi, hlo, hhi, hs, hU, hG⟩ := scanRow_best ops ctx nRows hctx g.agglomIndex cur
    aCur magRowDiag hlen hc hcur
  refine ⟨s, lo, hi, hlo, hhi, hs, hU, hG, ?_, ?_⟩
  · intro hab
    rcases hU with ⟨h1, _⟩ | ⟨b, hb1, hb2, hb3, ⟨col, hcol, hacol⟩, _, _⟩
    · exact absurd h1 hab.1
    · have hcoln : col < nRows := by
        have := lt_of_getElem? _ _ _ hacol
        omega
      have hne : col ≠ cur := by
        intro h
        rw [h, hcur] at hacol
        have := Option.some.inj hacol
        omega
      have hrd : readAt ctx.cols s.indexUngrouped = some (col : Int) := by
        rw [hb1, readAt_natCast]; exact hcol
      refine ⟨col, hcoln, hrd, hacol, ⟨b, ⟨lo, hi, hlo, hhi, hb2, hb3⟩, hcol⟩, ?_⟩
      intro fuel
      have hcur2 : (g.agglomIndex.set col aCur)[cur]? = some aCur := by
        rw [List.getElem?_set_ne hne]
        exact hcur
      obtain ⟨sz, hsz⟩ := getElem?_of_lt sizeOfGroups aCur.toNat (by omega)
      conv => lhs; unfold growLoop
      rw [if_pos hpass, hcurEq, hs]
      simp only [Option.bind_eq_bind, Option.some_bind]
      have hab' : s.indexUngrouped ≠ -1 ∧ (s.indexGrouped = -1 ∨
          ops.ge s.weightUngrouped (ops.mul ops.weightFactor s.weightGrouped) = true) := hab
      rw [if_pos hab', hrd]
      simp only [Option.some_bind, readAt_natCast, hcur]
      rw [writeAt_eq_some _ _ _ (by omega) (by simp; omega)]
      simp only [Option.some_bind, Int.toNat_ofNat, hcur2]
      rw [readAt_of_getElem? _ _ _ ha0 hsz]
      simp only [Option.some_bind]
  · intro hab fuel
    conv => lhs; unfold growLoop
    rw [if_pos hpass, hcurEq, hs]
    simp only [Option.bind_eq_bind, Option.some_bind]
    have hab' : ¬ (s.indexUngrouped ≠ -1 ∧ (s.indexGrouped = -1 ∨
        ops.ge s.weightUngrouped (ops.mul ops.weightFactor s.weightGrouped) = true)) := hab
    rw [if_neg hab']
    rfl

theorem growLoop_path {α : Type} (ops : ScalarOps α) (ctx : ClusterCtx α) (nRows : Nat)
    (hctx : CtxOK ctx nRows) (sizeOfGroups : List Int) (hlenS : sizeOfGroups.length = nRows)
    (magRowDiag : α) (agg0 : List Int) (K : Int) (eqnI : Nat) (hK0 : 0 ≤ K)
    (hK1 : K < (nRows : Int)) (hlen0 : agg0.length = nRows) (hseed : agg0[eqnI]? = some K) :
    ∀ (fuel : Nat) (g g' : GrowState),
      growLoop ops ctx sizeOfGroups magRowDiag fuel g = some g' →
      GrowPath ctx K agg0 eqnI g → GrowPath ctx K agg0 eqnI g' := by
  intro fuel
  induction fuel with
  | zero =>
    intro g g' h _
    simp [growLoop] at h
  | succ fuel ih =>
    intro g g' h hp
    by_cases hpass : g.groupPassI < ctx.groupSize
    · obtain ⟨n, tail, hgr, hcur, hn, hle, hidle, hfirst⟩ := hp
      have hlen : g.agglomIndex.length = nRows := by
        rw [growsTo_length ctx K agg0 eqnI n _ tail hgr]; exact hlen0
      have htail := growsTo_tail ctx K agg0 eqnI hseed n _ tail hgr
      have htl : tail < nRows := by
        have := lt_of_getElem? _ _ _ htail
        omega
      obtain ⟨s, lo, hi, hlo, hhi, _, hU, hG, habs, hnabs⟩ := growLoop_pass ops ctx nRows hctx
        sizeOfGroups hlenS magRowDiag g tail K hcur hlen htl htail hK0 hK1 hpass
      by_cases hab : absorbs ops s
      · obtain ⟨next, hnext, _, hfree, hnbr, heq⟩ := habs hab
        rw [heq fuel] at h
        apply ih _ g' h
        refine ⟨n + 1, next, GrowsTo.absorb n _ tail next hgr hfree htail hnbr, rfl, ?_, ?_, ?_,
          ?_⟩
        · simp only; push_cast; omega
        · simp only; omega
        · intro hgs; omega
        · intro h0; omega
      · rw [hnabs hab fuel] at h
        have hg' := Option.some.inj h
        rw [← hg']
        refine ⟨n, tail, hgr, hcur, hn, hle, ?_, ?_⟩
        · intro hgs; omega
        · intro h0
          subst h0
          obtain ⟨hagg, htl0⟩ := growsTo_zero ctx K agg0 eqnI _ tail hgr
          rcases hG with ⟨h1, _⟩ | ⟨b, hb1, hb2, hb3, hq, _, _⟩
          · exact Or.inl h1
          · right
            refine ⟨b, hb1, ⟨lo, hi, ?_, ?_, hb2, hb3⟩, ?_⟩
            · rw [← htl0]; exact hlo
            · rw [← htl0]; exact hhi
            · rw [← hagg]; exact hq
    · rw [growLoop_done ops ctx sizeOfGroups magRowDiag g hpass fuel] at h
      rw [← Option.some.inj h]
      exact hp

/-! ## One step of the main loop, in detail -/

theorem eqnStep_skip {α : Type} (ops : ScalarOps α) (ctx : ClusterCtx α) (st : ClusterState)
    (eqnI : Nat) (a : Int) (ha : st.agglomIndex[eqnI]? = some a) (hne : a ≠ -1) :
    eqnStep ops ctx st eqnI = some st := by
  unfold eqnStep
  simp only [readAt_natCast, ha, Option.bind_eq_bind, Option.some_bind]
  rw [if_neg hne]
  rfl

theorem eqnStep_detail {α : Type} (ops : ScalarOps α) (ctx : ClusterCtx α) (nRows : Nat)
    (hctx : CtxOK ctx nRows) (w : Int) (st st' : ClusterState) (eqnI : Nat)
    (hinv : MainInv nRows ctx.groupSize w st) (hi : eqnI < nRows)
    (ha : st.agglomIndex[eqnI]? = some (-1))
    (h : eqnStep ops ctx st eqnI = some st') : StepDetail ctx st eqnI st' := by
  have hlenA := hinv.lenA
  have hK0 : 0 ≤ st.nCoarseEqns := by have := hinv.reserved; omega
  have hK1 := nCoarse_lt_nRows nRows ctx.groupSize w st hinv
    (List.mem_iff_getElem?.mpr ⟨eqnI, ha⟩)
  have hseed : (st.agglomIndex.set eqnI st.nCoarseEqns)[eqnI]? = some st.nCoarseEqns := by
    rw [List.getElem?_set_self (by omega)]
  unfold eqnStep at h
  simp only [readAt_natCast, ha, Option.bind_eq_bind, Option.some_bind] at h
  rw [if_pos trivial, writeAt_eq_some _ _ _ (by omega) (by simp; omega)] at h
  simp only [Option.some_bind, Int.toNat_ofNat, Option.bind_eq_some] at h
  obtain ⟨md, _, g, hg, b, hb, hfin⟩ := h
  have hp := growLoop_path ops ctx nRows hctx st.sizeOfGroups hinv.lenS md
    (st.agglomIndex.set eqnI st.nCoarseEqns) st.nCoarseEqns eqnI hK0 hK1 (by simp [hlenA]) hseed
    _ _ g hg
    ⟨0, eqnI, GrowsTo.start, rfl, by simp, by simp only; omega, fun _ => rfl, fun _ => Or.inl rfl⟩
  obtain ⟨n, tail, hgr, hcur, hn, hle, hidle, hfirst⟩ := hp
  cases b with
  | true =>
    rw [if_pos rfl] at hfin
    unfold sealGroup at hfin
    simp only [Option.bind_eq_bind, Option.bind_eq_some] at hfin
    obtain ⟨ae, _, sz, _, sg, _, hst'⟩ := hfin
    simp only [pure, Option.some.injEq] at hst'
    left
    rw [← hst']
    exact ⟨rfl, n, tail, hgr, by omega⟩
  | false =>
    rw [if_neg (by decide)] at hfin
    unfold sealTest at hb
    by_cases hcond : g.groupPassI > 1 ∨ g.indexGrouped = -1
    · rw [if_pos hcond] at hb
      cases hb
    · have hn0 : n = 0 := by omega
      subst hn0
      obtain ⟨hagg, _⟩ := growsTo_zero ctx _ _ eqnI _ tail hgr
      have hgs : 1 < ctx.groupSize := by
        by_contra hle1
        exact hcond (Or.inr (hidle (by omega)))
      rcases hfirst rfl with h1 | ⟨p, hp1, hp2, col, ac, hcol, hac, hac1, hac2⟩
      · exact absurd (Or.inr h1) hcond
      · have hne : eqnI ≠ col := by
          intro he
          rw [← he, hseed] at hac
          exact hac2 (Option.some.inj hac).symm
        have hac' : st.agglomIndex[col]? = some ac := by
          rw [List.getElem?_set_ne hne] at hac
          exact hac
        unfold mergeSeed at hfin
        simp only [Option.bind_eq_bind, Option.bind_eq_some, hp1, readAt_natCast, hcol,
          Option.some.injEq] at hfin
        obtain ⟨c, hc, ac2, hac2', agg2, hw, _, _, _, _, _, _, _, _, hst'⟩ := hfin
        simp only [pure, Option.some.injEq] at hst'
        rw [← hc, readAt_natCast, hagg, hac] at hac2'
        have hac3 := Option.some.inj hac2'
        rw [writeAt_eq_some _ _ _ (by omega) (by
          simp only [Int.toNat_ofNat]
          rw [growsTo_length ctx _ _ eqnI 0 _ tail hgr]
          simp only [List.length_set]
          omega)] at hw
        have hagg2 := Option.some.inj hw
        right
        refine ⟨?_, hgs, col, ac, ⟨p, hp2, hcol⟩, hac', hac1, ?_⟩
        · rw [← hst']
        · rw [← hst', ← hagg2, hagg, ← hac3]
          simp only [Int.toNat_ofNat, List.set_set]

theorem eqnStep_full {α : Type} (ops : ScalarOps α) (ctx : ClusterCtx α) (nRows : Nat)
    (hctx : CtxOK ctx nRows) (w : Int) (st : ClusterState) (eqnI : Nat)
    (hinv : MainInv nRows ctx.groupSize w st) (hi : eqnI < nRows) :
    ∃ st', eqnStep ops ctx st eqnI = some st' ∧ MainInv nRows ctx.groupSize w st' ∧
      (st.agglomIndex[eqnI]? = some (-1) → StepDetail ctx st eqnI st') ∧
      (st.agglomIndex[eqnI]? ≠ some (-1) → st' = st) := by
  obtain ⟨st', hrun, hpost, _, _⟩ := eqnStep_spec ops ctx nRows hctx w st eqnI hinv hi
  refine ⟨st', hrun, hpost, ?_, ?_⟩
  · intro ha
    exact eqnStep_detail ops ctx nRows hctx w st st' eqnI hinv hi ha hrun
  · intro hne
    obtain ⟨a, ha⟩ := getElem?_of_lt st.agglomIndex eqnI (by have := hinv.lenA; omega)
    have hne' : a ≠ -1 := by
      intro h
      rw [h] at ha
      exact hne ha
    rw [eqnStep_skip ops ctx st eqnI a ha hne'] at hrun
    exact (Option.some.inj hrun).symm

theorem mainLoop_inv {α : Type} (ops : ScalarOps α) (ctx : ClusterCtx α) (nRows : Nat)
    (hctx : CtxOK ctx nRows) (w : Int) (st0 : ClusterState)
    (hinv0 : MainInv nRows ctx.groupSize w st0) (J : Nat → ClusterState → Prop)
    (h0 : J 0 st0)
    (hstep : ∀ (n : Nat) (st st' : ClusterState), n < nRows →
      MainInv nRows ctx.groupSize w st → J n st → eqnStep ops ctx st n = some st' →
      MainInv nRows ctx.groupSize w st' →
      (st.agglomIndex[n]? = some (-1) → StepDetail ctx st n st') →
      (st.agglomIndex[n]? ≠ some (-1) → st' = st) → J (n + 1) st') :
    ∀ n, n ≤ nRows → ∃ st, (List.range n).foldlM (eqnStep ops ctx) st0 = some st ∧
      MainInv nRows ctx.groupSize w st ∧ J n st := by
  intro n
  induction n with
  | zero => intro _; exact ⟨st0, rfl, hinv0, h0⟩
  | succ n ih =>
    intro hn
    obtain ⟨st, hst, hinv, hJ⟩ := ih (by omega)
    obtain ⟨st', hrun, hinv', hd, hs⟩ := eqnStep_full ops ctx nRows hctx w st n hinv (by omega)
    refine ⟨st', ?_, hinv', hstep n st st' (by omega) hinv hJ hrun hinv' hd hs⟩
    rw [foldlM_range_succ, hst]
    exact hrun


/-! ## The state in which the main loop is entered -/

theorem clusterSetup_spec {α : Type} (ops : ScalarOps α) (diagFactor : α)
    (m : BlockLduMatrix α) (groupSize : Int) (hwf : WellFormed m)
    (hsym : m.symmetric = true ∨ m.asymmetric = true) :
    ∃ (ctx : ClusterCtx α) (st0 : ClusterState) (zc : List Bool),
      clusterSetup ops diagFactor m groupSize = some (ctx, st0) ∧
      weakEquations ops diagFactor m = some zc ∧ zc.length = m.nRows ∧
      ctx.groupSize = groupSize ∧ ctx.magDiag = m.magDiag ∧ CtxOK ctx m.nRows ∧
      MainInv m.nRows ctx.groupSize (if true ∈ zc then 1 else 0) st0 ∧
      st0.nCoarseEqns = (if true ∈ zc then 1 else 0) ∧
      (∀ i, i < m.nRows →
        st0.agglomIndex[i]? = some (if zc[i]? = some true then 0 else -1)) ∧
      (∀ i j, i < m.nRows → Nbr ctx i j → Coupled m.upperAddr m.lowerAddr i j) ∧
      (∀ j, j ≤ m.nRows →
        ctx.rowOffset[j]? = some (rowStart m.upperAddr m.lowerAddr j : Int)) := by
  obtain ⟨mo, hmo⟩ := calcMagOffDiag_isSome ops m hsym
  obtain ⟨ro, hro, _, hrospec⟩ := calcRowOffset_spec m.nRows m.upperAddr m.lowerAddr
    hwf.upperValid hwf.lowerValid
  obtain ⟨f, hf, _, _, hent⟩ := calcCols_spec ro m.upperAddr m.lowerAddr
    (List.replicate m.nRows (-1)) m.nRows hrospec hwf.upperValid hwf.lowerValid hwf.addrLen
    (by simp)
  have hmolen := calcMagOffDiag_length ops m hwf mo hmo
  obtain ⟨zc, hzc, hzclen⟩ := calcZeroCluster_spec ops diagFactor m hwf mo hmolen
  obtain ⟨nSolo, agg, hsolo, hagglen, hns0, hnsz, hnsa, haggr, haggz⟩ :=
    collectSolo_spec zc m.nRows hzclen
  have hctx := ctxOK_of_wellFormed m hwf ro f mo groupSize hrospec hent hmolen
  have hw : (if nSolo > 0 then (0 : Int) + 1 else 0) = (if true ∈ zc then 1 else 0) := by
    by_cases hz : true ∈ zc
    · rw [if_pos hz, if_pos (by have := hnsz.mpr hz; omega)]
      rfl
    · rw [if_neg hz, if_neg (by intro h; exact hz (hnsz.mp (by omega)))]
  have hinv0 : MainInv m.nRows groupSize (if true ∈ zc then 1 else 0)
      { agglomIndex := agg, sizeOfGroups := List.replicate m.nRows 0,
        nCoarseEqns := (if true ∈ zc then 1 else 0) } := by
    refine ⟨hagglen, by simp, ⟨by split <;> omega, le_refl _⟩, ?_, ?_, ?_, ?_⟩
    · intro a ha
      rcases haggr a ha with h | h
      · exact Or.inl h
      · right
        have hz : true ∈ zc := hnsz.mp (hnsa.mpr (h ▸ ha))
        simp only [if_pos hz]
        omega
    · intro k hk0 hk1
      simp only at hk1
      by_cases hz : true ∈ zc
      · rw [if_pos hz] at hk1
        have : k = 0 := by omega
        rw [this]
        exact hnsa.mp (hnsz.mpr hz)
      · rw [if_neg hz] at hk1
        omega
    · intro k hk0 hk1
      simp only at hk1
      omega
    · intro k _ hk1
      simp only
      exact List.getElem?_replicate_of_lt hk1
  refine ⟨{ rowOffset := ro, cols := f.cols, cIndex := f.cIndex, magDiag := m.magDiag,
            magOffDiag := mo, groupSize := groupSize },
    { agglomIndex := agg, sizeOfGroups := List.replicate m.nRows 0,
      nCoarseEqns := (if true ∈ zc then 1 else 0) }, zc, ?_, ?_, hzclen, rfl, rfl, hctx, hinv0,
    rfl, haggz, ?_, hrospec⟩
  · unfold clusterSetup
    simp only [hro, hf, hmo, hzc, hsolo, hw, Option.bind_eq_bind, Option.some_bind]
    rfl
  · unfold weakEquations
    rw [hmo]
    exact hzc
  · rintro i j hi ⟨p, ⟨lo, hi', hlo, hhi, hp1, hp2⟩, hcol⟩
    simp only at hlo hhi hcol
    rw [hrospec i (by omega)] at hlo
    rw [hrospec (i + 1) (by omega)] at hhi
    have hlo' : rowStart m.upperAddr m.lowerAddr i = lo := by
      have := Option.some.inj hlo; omega
    have hhi' : rowStart m.upperAddr m.lowerAddr (i + 1) = hi' := by
      have := Option.some.inj hhi; omega
    rcases hent i p hi (by omega) (by omega) with ⟨c, col, _, h2, h3, h4⟩ | ⟨c, col, _, h2, h3, h4⟩
    · rw [hcol] at h2
      rw [← Option.some.inj h2] at h4
      exact ⟨c, Or.inl ⟨h3, h4⟩⟩
    · rw [hcol] at h2
      rw [← Option.some.inj h2] at h4
      exact ⟨c, Or.inr ⟨h3, h4⟩⟩

theorem clusterPrefix_of_setup {α : Type} (ops : ScalarOps α) (diagFactor : α)
    (m : BlockLduMatrix α) (groupSize : Int) (ctx : ClusterCtx α) (st0 : ClusterState)
    (h : clusterSetup ops diagFactor m groupSize = some (ctx, st0)) (n : Nat) :
    clusterPrefix ops diagFactor m groupSize n = (List.range n).foldlM (eqnStep ops ctx) st0 := by
  unfold clusterPrefix
  rw [h]
  rfl

theorem construct_of_prefix {α : Type} (ops : ScalarOps α) (diagFactor : α)
    (m : BlockLduMatrix α) (groupSize minCoarseEqns : Int) (cs : ClusterState)
    (h : clusterPrefix ops diagFactor m groupSize m.nRows = some cs) :
    construct ops diagFactor singlePartition m groupSize minCoarseEqns
      = some { agglomIndex := cs.agglomIndex, nCoarseEqns := cs.nCoarseEqns,
               coarsen := decide (cs.nCoarseEqns > minCoarseEqns ∧
                 3 * cs.nCoarseEqns ≤ 2 * (m.nRows : Int)) } := by
  unfold clusterPrefix clusterSetup at h
  simp only [Option.bind_eq_bind, Option.bind_eq_some] at h
  obtain ⟨p, ⟨ro, hro, f, hf, mo, hmo, zc, hzc, sa, hsa, hp⟩, hrun⟩ := h
  simp only [pure, Option.some.injEq] at hp
  rw [← hp] at hrun
  unfold construct calcAgglomeration
  simp only [hro, hf, hmo, hzc, hsa, List.length_replicate, Option.bind_eq_bind,
    Option.some_bind]
  have h0 : singlePartition.nSoloOthers = 0 := rfl
  have h1 : singlePartition.coarsenOthers = true := rfl
  simp only [h0, h1, add_zero, Bool.and_true]
  simp only at hrun
  rw [hrun]
  simp only [Option.some_bind]
  by_cases hg : cs.nCoarseEqns > minCoarseEqns ∧ 3 * cs.nCoarseEqns ≤ 2 * (m.nRows : Int)
  · rw [if_pos hg, decide_eq_true hg]
    rfl
  · rw [if_neg hg, decide_eq_false hg]
    rfl

/-! ## What a growth trace changes -/

theorem growsTo_count {α : Type} (ctx : ClusterCtx α) (K : Int) (agg0 : List Int) (seed : Nat)
    (hK : K ≠ -1) (n : Nat) (agg : List Int) (tail : Nat)
    (h : GrowsTo ctx K agg0 seed n agg tail) : agg.count K = agg0.count K + n := by
  induction h with
  | start => rfl
  | absorb n agg tail next _ hn _ _ ih =>
    rw [count_set_fresh _ _ _ _ hn hK, if_pos rfl, ih]
    omega

theorem growsTo_keep {α : Type} (ctx : ClusterCtx α) (K : Int) (agg0 : List Int) (seed : Nat)
    (n : Nat) (agg : List Int) (tail : Nat) (h : GrowsTo ctx K agg0 seed n agg tail)
    (i : Nat) (a : Int) (hi : agg0[i]? = some a) (ha : a ≠ -1) : agg[i]? = some a := by
  induction h with
  | start => exact hi
  | absorb n agg tail next _ hn _ _ ih =>
    have hne : next ≠ i := by
      intro h
      rw [h, ih] at hn
      exact ha (Option.some.inj hn)
    rw [List.getElem?_set_ne hne]
    exact ih

theorem growsTo_other {α : Type} (ctx : ClusterCtx α) (K : Int) (agg0 : List Int) (seed : Nat)
    (n : Nat) (agg : List Int) (tail : Nat) (h : GrowsTo ctx K agg0 seed n agg tail)
    (i : Nat) (a : Int) (hi : agg[i]? = some a) (ha : a ≠ K) : agg0[i]? = some a := by
  induction h with
  | start => exact hi
  | absorb n agg tail next _ hn _ _ ih =>
    by_cases hne : next = i
    · rw [hne, List.getElem?_set_self (by rw [← hne]; exact lt_of_getElem? _ _ _ hn)] at hi
      exact absurd (Option.some.inj hi).symm ha
    · rw [List.getElem?_set_ne hne] at hi
      exact ih hi

theorem prefix_step {α : Type} (ops : ScalarOps α) (ctx : ClusterCtx α) (nRows : Nat)
    (hctx : CtxOK ctx nRows) (w : Int) (st0 : ClusterState)
    (hinv0 : MainInv nRows ctx.groupSize w st0) (n : Nat) (hn : n < nRows) :
    ∃ st st', (List.range n).foldlM (eqnStep ops ctx) st0 = some st ∧
      (List.range (n + 1)).foldlM (eqnStep ops ctx) st0 = some st' ∧
      eqnStep ops ctx st n = some st' ∧
      MainInv nRows ctx.groupSize w st ∧ MainInv nRows ctx.groupSize w st' ∧
      (st.agglomIndex[n]? = some (-1) → StepDetail ctx st n st') ∧
      (st.agglomIndex[n]? ≠ some (-1) → st' = st) := by
  obtain ⟨st, hst, hinv, _⟩ := mainLoop_inv ops ctx nRows hctx w st0 hinv0 (fun _ _ => True)
    trivial (fun _ _ _ _ _ _ _ _ _ _ => trivial) n (by omega)
  obtain ⟨st', hrun, hinv', hd, hs⟩ := eqnStep_full ops ctx nRows hctx w st n hinv hn
  refine ⟨st, st', hst, ?_, hrun, hinv, hinv', hd, hs⟩
  rw [foldlM_range_succ, hst]
  exact hrun

theorem count_fresh_cluster (nRows : Nat) (groupSize w : Int) (st : ClusterState)
    (hinv : MainInv nRows groupSize w st) (eqnI : Nat)
    (ha : st.agglomIndex[eqnI]? = some (-1)) :
    (st.agglomIndex.set eqnI st.nCoarseEqns).count st.nCoarseEqns = 1 := by
  have hK0 : 0 ≤ st.nCoarseEqns := by have := hinv.reserved; omega
  have h0 : st.agglomIndex.count st.nCoarseEqns = 0 := by
    rw [List.count_eq_zero]
    intro hmem
    have := hinv.range _ hmem
    omega
  rw [count_set_fresh _ _ _ _ ha (by omega), if_pos rfl, h0]

/-! ## The extension rule of a growth pass -/

/-- A growth pass (`groupPassI < groupSize_`) on a valid state scans the
row of the current equation `cur`, whose cluster is `aCur`, and the scan
returns the best ungrouped and the best grouped neighbour. The pass absorbs
exactly when an ungrouped neighbour exists and either no neighbour lies in
another cluster or `weightUngrouped >= weightFactor_*weightGrouped`; then the
best ungrouped neighbour `next` gets the cluster of `cur` and the loop goes on
from `next` with `groupPassI + 1`. Otherwise the loop ends at once with
`agglomIndex_` unchanged. For the rational arithmetic the factor is `0.65`. -/
theorem growth_extension_rule {α : Type} (ops : ScalarOps α) (ctx : ClusterCtx α) (nRows : Nat)
    (hctx : CtxOK ctx nRows) (sizeOfGroups : List Int) (hlenS : sizeOfGroups.length = nRows)
    (magRowDiag : α) (g : GrowState) (cur : Nat) (aCur : Int)
    (hcurEq : g.curEqn = (cur : Int)) (hlen : g.agglomIndex.length = nRows)
    (hc : cur < nRows) (hcur : g.agglomIndex[cur]? = some aCur)
    (ha0 : 0 ≤ aCur) (ha1 : aCur < (nRows : Int)) (hpass : g.groupPassI < ctx.groupSize) :
    ∃ (s : ScanState α) (lo hi : Nat),
      ctx.rowOffset[cur]? = some (lo : Int) ∧ ctx.rowOffset[cur + 1]? = some (hi : Int) ∧
      scanRow ops ctx g.agglomIndex (cur : Int) magRowDiag = some s ∧
      BestOf ops ctx magRowDiag (UngroupedAt ctx.cols g.agglomIndex) lo hi
        s.indexUngrouped s.weightUngrouped ∧
      BestOf ops ctx magRowDiag (GroupedAt ctx.cols g.agglomIndex aCur) lo hi
        s.indexGrouped s.weightGrouped ∧
      (absorbs ops s ↔
        ((∃ p, lo ≤ p ∧ p < hi ∧ UngroupedAt ctx.cols g.agglomIndex p) ∧
          ((∀ p, lo ≤ p → p < hi → ¬ GroupedAt ctx.cols g.agglomIndex aCur p) ∨
            ops.ge s.weightUngrouped (ops.mul ops.weightFactor s.weightGrouped) = true))) ∧
      (absorbs ops s → ∃ next : Nat, next < nRows ∧
        readAt ctx.cols s.indexUngrouped = some (next : Int) ∧
        g.agglomIndex[next]? = some (-1) ∧ Nbr ctx cur next ∧
        ∀ fuel, growLoop ops ctx sizeOfGroups magRowDiag (fuel + 1) g
          = growLoop ops ctx sizeOfGroups magRowDiag fuel
              { agglomIndex := g.agglomIndex.set next aCur, curEqn := (next : Int),
                indexUngrouped := s.indexUngrouped, indexGrouped := s.indexGrouped,
                groupPassI := g.groupPassI + 1 }) ∧
      (¬ absorbs ops s → ∀ fuel, growLoop ops ctx sizeOfGroups magRowDiag (fuel + 1) g
          = some { agglomIndex := g.agglomIndex, curEqn := g.curEqn,
                   indexUngrouped := s.indexUngrouped, indexGrouped := s.indexGrouped,
                   groupPassI := g.groupPassI }) ∧
      ratOps.weightFactor = 13 / 20 ∧
      (∀ a b : ℚ, ratOps.ge a (ratOps.mul ratOps.weightFactor b) = true ↔ 13 / 20 * b ≤ a) := by
  obtain ⟨s, lo, hi, hlo, hhi, hs, hU, hG, habs, hnabs⟩ := growLoop_pass ops ctx nRows hctx
    sizeOfGroups hlenS magRowDiag g cur aCur hcurEq hlen hc hcur ha0 ha1 hpass
  have hUex : s.indexUngrouped ≠ -1 ↔
      ∃ p, lo ≤ p ∧ p < hi ∧ UngroupedAt ctx.cols g.agglomIndex p := by
    rcases hU with ⟨h1, h2⟩ | ⟨b, h1, h2, h3, h4, _, _⟩
    · constructor
      · intro h; exact absurd h1 h
      · rintro ⟨p, hp1, hp2, hq⟩; exact absurd hq (h2 p hp1 hp2)
    · constructor
      · intro _; exact ⟨b, h2, h3, h4⟩
      · intro _; omega
  have hGex : s.indexGrouped = -1 ↔
      ∀ p, lo ≤ p → p < hi → ¬ GroupedAt ctx.cols g.agglomIndex aCur p := by
    rcases hG with ⟨h1, h2⟩ | ⟨b, h1, h2, h3, h4, _, _⟩
    · exact ⟨fun _ => h2, fun _ => h1⟩
    · constructor
      · intro h; omega
      · intro h; exact absurd h4 (h b h2 h3)
  refine ⟨s, lo, hi, hlo, hhi, hs, hU, hG, ?_, habs, hnabs, rfl, ?_⟩
  · unfold absorbs
    rw [hUex, hGex]
  · intro a b
    simp [ratOps]

/-- The extension rule on the chain of five equations with `groupSize = 4`: the first pass of
the seed 0. -/
theorem growth_extension_rule_witness :
    ∃ (ctx : ClusterCtx ℚ) (st0 : ClusterState),
      clusterSetup ratOps diagFactorDefault chain5 4 = some (ctx, st0) ∧
      ∃ (s : ScanState ℚ) (lo hi : Nat),
        ctx.rowOffset[0]? = some (lo : Int) ∧ ctx.rowOffset[0 + 1]? = some (hi : Int) ∧
        scanRow ratOps ctx (st0.agglomIndex.set 0 0) ((0 : Nat) : Int) 4 = some s ∧
        BestOf ratOps ctx 4 (UngroupedAt ctx.cols (st0.agglomIndex.set 0 0)) lo hi
          s.indexUngrouped s.weightUngrouped ∧
        BestOf ratOps ctx 4 (GroupedAt ctx.cols (st0.agglomIndex.set 0 0) 0) lo hi
          s.indexGrouped s.weightGrouped ∧
        (absorbs ratOps s ↔
          ((∃ p, lo ≤ p ∧ p < hi ∧ UngroupedAt ctx.cols (st0.agglomIndex.set 0 0) p) ∧
            ((∀ p, lo ≤ p → p < hi → ¬ GroupedAt ctx.cols (st0.agglomIndex.set 0 0) 0 p) ∨
              ratOps.ge s.weightUngrouped (ratOps.mul ratOps.weightFactor s.weightGrouped)
                = true))) ∧
        (absorbs ratOps s → ∃ next : Nat, next < 5 ∧
          readAt ctx.cols s.indexUngrouped = some (next : Int) ∧
          (st0.agglomIndex.set 0 0)[next]? = some (-1) ∧ Nbr ctx 0 next ∧
          ∀ fuel, growLoop ratOps ctx st0.sizeOfGroups 4 (fuel + 1)
              ⟨st0.agglomIndex.set 0 0, ((0 : Nat) : Int), -1, -1, 1⟩
            = growLoop ratOps ctx st0.sizeOfGroups 4 fuel
                { agglomIndex := (st0.agglomIndex.set 0 0).set next 0, curEqn := (next : Int),
                  indexUngrouped := s.indexUngrouped, indexGrouped := s.indexGrouped,
                  groupPassI := 1 + 1 }) ∧
        (¬ absorbs ratOps s → ∀ fuel, growLoop ratOps ctx st0.sizeOfGroups 4 (fuel + 1)
              ⟨st0.agglomIndex.set 0 0, ((0 : Nat) : Int), -1, -1, 1⟩
            = some { agglomIndex := st0.agglomIndex.set 0 0, curEqn := ((0 : Nat) : Int),
                     indexUngrouped := s.indexUngrouped, indexGrouped := s.indexGrouped,
                     groupPassI := 1 }) ∧
        ratOps.weightFactor = 13 / 20 ∧
        (∀ a b : ℚ, ratOps.ge a (ratOps.mul ratOps.weightFactor b) = true ↔ 13 / 20 * b ≤ a) := by
  obtain ⟨ctx, st0, zc, hset, _, _, hgs, _, hctx, hinv, _, _, _, _⟩ :=
    clusterSetup_spec ratOps diagFactorDefault chain5 4 chain5_wellFormed (Or.inl rfl)
  have hlenA : st0.agglomIndex.length = 5 := hinv.lenA
  exact ⟨ctx, st0, hset,
    growth_extension_rule ratOps ctx 5 hctx st0.sizeOfGroups hinv.lenS 4
      ⟨st0.agglomIndex.set 0 0, ((0 : Nat) : Int), -1, -1, 1⟩ 0 0 rfl
      (by simp [hlenA]) (by decide)
      (by simp only; rw [List.getElem?_set_self (by omega)]) (by decide) (by decide)
      (by simp only; rw [hgs]; decide)⟩

/-! ## The growth bound -/

theorem singleton_step {α : Type} (ctx : ClusterCtx α) (st st' : ClusterState) (eqnI : Nat)
    (hgs : ctx.groupSize ≤ 1) (hd : StepDetail ctx st eqnI st') :
    st'.nCoarseEqns = st.nCoarseEqns + 1 ∧
      st'.agglomIndex = st.agglomIndex.set eqnI st.nCoarseEqns := by
  rcases hd with ⟨h1, n, tail, hgr, hle⟩ | ⟨_, h2, _⟩
  · have hn : n = 0 := by omega
    subst hn
    exact ⟨h1, (growsTo_zero ctx _ _ eqnI _ tail hgr).1⟩
  · omega

theorem singleton_clusters {α : Type} (ops : ScalarOps α) (ctx : ClusterCtx α) (nRows : Nat)
    (hctx : CtxOK ctx nRows) (w : Int) (st0 : ClusterState)
    (hinv0 : MainInv nRows ctx.groupSize w st0) (hgs : ctx.groupSize ≤ 1)
    (h0 : ∀ a ∈ st0.agglomIndex, a < w) :
    ∃ cs, (List.range nRows).foldlM (eqnStep ops ctx) st0 = some cs ∧
      (∀ a ∈ cs.agglomIndex, 0 ≤ a ∧ a < cs.nCoarseEqns) ∧
      (∀ (i : Nat) (a : Int), st0.agglomIndex[i]? = some a → a ≠ -1 →
        cs.agglomIndex[i]? = some a) ∧
      (∀ (i : Nat) (a : Int), cs.agglomIndex[i]? = some a → a < w →
        st0.agglomIndex[i]? = some a) ∧
      (∀ (i j : Nat) (a : Int), cs.agglomIndex[i]? = some a → cs.agglomIndex[j]? = some a →
        w ≤ a → i = j) := by
  obtain ⟨cs, hcs, _, hrange, hmono⟩ := mainLoop_spec ops ctx nRows hctx w st0 hinv0
  obtain ⟨cs', hcs', hinv', hJ1, hJ2⟩ := mainLoop_inv ops ctx nRows hctx w st0 hinv0
    (fun _ st =>
      (∀ (i : Nat) (a : Int), st.agglomIndex[i]? = some a → a < w → a ≠ -1 →
        st0.agglomIndex[i]? = some a) ∧
      (∀ (i j : Nat) (a : Int), st.agglomIndex[i]? = some a → st.agglomIndex[j]? = some a →
        w ≤ a → i = j))
    ⟨fun i a h _ _ => h, fun i j a hi _ hw => by
      have := h0 a (List.mem_iff_getElem?.mpr ⟨i, hi⟩)
      omega⟩
    (by
      intro n st st' hn hinv ⟨hJ1, hJ2⟩ _ _ hd hs
      by_cases ha : st.agglomIndex[n]? = some (-1)
      · obtain ⟨_, hagg⟩ := singleton_step ctx st st' n hgs (hd ha)
        have hnl : n < st.agglomIndex.length := lt_of_getElem? _ _ _ ha
        have hres := hinv.reserved
        have hlt : ∀ (i : Nat) (a : Int), st.agglomIndex[i]? = some a → a < st.nCoarseEqns := by
          intro i a hi
          have := hinv.range a (List.mem_iff_getElem?.mpr ⟨i, hi⟩)
          omega
        rw [hagg]
        constructor
        · intro i a hi haw hne
          by_cases hin : n = i
          · rw [← hin, List.getElem?_set_self hnl] at hi
            have := Option.some.inj hi
            omega
          · rw [List.getElem?_set_ne hin] at hi
            exact hJ1 i a hi haw hne
        · intro i j a hi hj haw
          by_cases hin : n = i
          · by_cases hjn : n = j
            · omega
            · rw [← hin, List.getElem?_set_self hnl] at hi
              rw [List.getElem?_set_ne hjn] at hj
              have := hlt j a hj
              have := Option.some.inj hi
              omega
          · by_cases hjn : n = j
            · rw [← hjn, List.getElem?_set_self hnl] at hj
              rw [List.getElem?_set_ne hin] at hi
              have := hlt i a hi
              have := Option.some.inj hj
              omega
            · rw [List.getElem?_set_ne hin] at hi
              rw [List.getElem?_set_ne hjn] at hj
              exact hJ2 i j a hi hj haw
      · rw [hs ha]
        exact ⟨hJ1, hJ2⟩)
    nRows (le_refl _)
  rw [hcs] at hcs'
  have hEq := Option.some.inj hcs'
  subst hEq
  refine ⟨cs, hcs, hrange, hmono, ?_, hJ2⟩
  intro i a hi haw
  have := hrange a (List.mem_iff_getElem?.mpr ⟨i, hi⟩)
  exact hJ1 i a hi haw (by omega)

/-- On a single partition, every step of the main loop of the clustering of a symmetric or
asymmetric matrix (single partition) returns; a step whose equation `n` is
ungrouped either seals the new cluster `K` after `k <= max(groupSize - 1, 0)`
absorptions, with exactly `k + 1 <= max(groupSize, 1)` members, or absorbs
nothing and merges the seed, which needs `groupSize > 1`. With
`groupSize <= 1` every such step seals the singleton `{n}`, and at the end of
the loop no two equations share a cluster unless both are weak. -/
theorem growth_bound {α : Type} (ops : ScalarOps α) (diagFactor : α) (m : BlockLduMatrix α)
    (groupSize : Int) (hwf : WellFormed m) (hsym : m.symmetric = true ∨ m.asymmetric = true) :
    ∃ (ctx : ClusterCtx α) (st0 : ClusterState) (zc : List Bool),
      clusterSetup ops diagFactor m groupSize = some (ctx, st0) ∧
      weakEquations ops diagFactor m = some zc ∧
      (∀ n, n < m.nRows → ∃ st st',
        clusterPrefix ops diagFactor m groupSize n = some st ∧
        clusterPrefix ops diagFactor m groupSize (n + 1) = some st' ∧
        eqnStep ops ctx st n = some st' ∧
        (st.agglomIndex[n]? ≠ some (-1) → st' = st) ∧
        (st.agglomIndex[n]? = some (-1) →
          ((st'.nCoarseEqns = st.nCoarseEqns + 1 ∧
            ∃ k tail : Nat,
              GrowsTo ctx st.nCoarseEqns (st.agglomIndex.set n st.nCoarseEqns) n k
                st'.agglomIndex tail ∧
              (k : Int) ≤ max (groupSize - 1) 0 ∧
              st'.agglomIndex.count st.nCoarseEqns = k + 1 ∧
              ((k + 1 : Nat) : Int) ≤ max groupSize 1) ∨
           (st'.nCoarseEqns = st.nCoarseEqns ∧ 1 < groupSize ∧
            ∃ (col : Nat) (ac : Int), Nbr ctx n col ∧ st.agglomIndex[col]? = some ac ∧
              ac ≠ -1 ∧ st'.agglomIndex = st.agglomIndex.set n ac)) ∧
          (groupSize ≤ 1 → st'.nCoarseEqns = st.nCoarseEqns + 1 ∧
            st'.agglomIndex = st.agglomIndex.set n st.nCoarseEqns))) ∧
      (groupSize ≤ 1 → ∃ cs, clusterPrefix ops diagFactor m groupSize m.nRows = some cs ∧
        (∀ i : Nat, zc[i]? = some true → cs.agglomIndex[i]? = some 0) ∧
        (∀ i j : Nat, i < m.nRows → j < m.nRows → cs.agglomIndex[i]? = cs.agglomIndex[j]? →
          i ≠ j → zc[i]? = some true ∧ zc[j]? = some true)) := by
  obtain ⟨ctx, st0, zc, hset, hzc, hzclen, hgs, _, hctx, hinv0, hK0, hagg0, _, _⟩ :=
    clusterSetup_spec ops diagFactor m groupSize hwf hsym
  refine ⟨ctx, st0, zc, hset, hzc, ?_, ?_⟩
  · intro n hn
    obtain ⟨st, st', h1, h2, h3, hinv, _, hd, hs⟩ := prefix_step ops ctx m.nRows hctx _ st0
      hinv0 n hn
    refine ⟨st, st', ?_, ?_, h3, hs, ?_⟩
    · rw [clusterPrefix_of_setup ops diagFactor m groupSize ctx st0 hset]; exact h1
    · rw [clusterPrefix_of_setup ops diagFactor m groupSize ctx st0 hset]; exact h2
    · intro ha
      have hdet := hd ha
      refine ⟨?_, ?_⟩
      · rcases hdet with ⟨e1, k, tail, hgr, hle⟩ | ⟨e1, e2, e3⟩
        · left
          have hKne : st.nCoarseEqns ≠ -1 := by have := hinv.reserved; omega
          have hcnt := growsTo_count ctx _ _ n hKne k _ tail hgr
          rw [count_fresh_cluster m.nRows ctx.groupSize _ st hinv n ha] at hcnt
          rw [hgs] at hle
          refine ⟨e1, k, tail, hgr, by omega, by omega, by push_cast; omega⟩
        · right
          rw [hgs] at e2
          exact ⟨e1, e2, e3⟩
      · intro hle
        exact singleton_step ctx st st' n (by rw [hgs]; exact hle) hdet
  · intro hle
    have hw0 : ∀ a ∈ st0.agglomIndex, a < (if true ∈ zc then 1 else 0 : Int) := by
      intro a ha
      obtain ⟨i, hi⟩ := List.mem_iff_getElem?.mp ha
      have hil : i < m.nRows := by
        have := lt_of_getElem? _ _ _ hi
        have := hinv0.lenA
        omega
      rw [hagg0 i hil] at hi
      by_cases hz : zc[i]? = some true
      · rw [if_pos hz] at hi
        have hmem : true ∈ zc := List.mem_iff_getElem?.mpr ⟨i, hz⟩
        rw [if_pos hmem, ← Option.some.inj hi]
        decide
      · rw [if_neg hz] at hi
        rw [← Option.some.inj hi]
        split <;> decide
    obtain ⟨cs, hcs, hrange, hmono, hback, hinj⟩ := singleton_clusters ops ctx m.nRows hctx _
      st0 hinv0 (by rw [hgs]; exact hle) hw0
    have hweak : ∀ (i : Nat) (a : Int), i < m.nRows → cs.agglomIndex[i]? = some a →
        a < (if true ∈ zc then 1 else 0 : Int) → zc[i]? = some true := by
      intro i a hil hi ha
      have h1 := hback i a hi ha
      rw [hagg0 i hil] at h1
      by_contra hz
      rw [if_neg hz] at h1
      have h2 := hrange a (List.mem_iff_getElem?.mpr ⟨i, hi⟩)
      have := Option.some.inj h1
      omega
    refine ⟨cs, ?_, ?_, ?_⟩
    · rw [clusterPrefix_of_setup ops diagFactor m groupSize ctx st0 hset]; exact hcs
    · intro i hi
      have hil : i < m.nRows := by
        have := lt_of_getElem? _ _ _ hi
        omega
      have h1 := hagg0 i hil
      rw [if_pos hi] at h1
      exact hmono i 0 h1 (by decide)
    · intro i j hil hjl hij hne
      obtain ⟨a, ha⟩ := getElem?_of_lt cs.agglomIndex i (by
        obtain ⟨x, hx⟩ := getElem?_of_lt st0.agglomIndex i (by have := hinv0.lenA; omega)
        by_cases hx1 : x = -1
        · by_contra hcon
          have hlen0 := hinv0.lenA
          have := mainLoop_spec ops ctx m.nRows hctx _ st0 hinv0
          obtain ⟨cs2, hcs2, hinv2, _, _⟩ := this
          rw [hcs] at hcs2
          have := hinv2.lenA
          rw [← Option.some.inj hcs2] at this
          omega
        · exact lt_of_getElem? _ _ _ (hmono i x hx hx1))
      have hja : cs.agglomIndex[j]? = some a := by rw [← hij]; exact ha
      by_cases haw : (if true ∈ zc then 1 else 0 : Int) ≤ a
      · exact absurd (hinj i j a ha hja haw) hne
      · exact ⟨hweak i a hil ha (by omega), hweak j a hjl hja (by omega)⟩

/-- The growth bound on the chain of five equations with `groupSize = 1`. -/
theorem growth_bound_witness :
    ∃ (ctx : ClusterCtx ℚ) (st0 : ClusterState) (zc : List Bool),
      clusterSetup ratOps diagFactorDefault chain5 1 = some (ctx, st0) ∧
      weakEquations ratOps diagFactorDefault chain5 = some zc ∧
      (∀ n, n < chain5.nRows → ∃ st st',
        clusterPrefix ratOps diagFactorDefault chain5 1 n = some st ∧
        clusterPrefix ratOps diagFactorDefault chain5 1 (n + 1) = some st' ∧
        eqnStep ratOps ctx st n = some st' ∧
        (st.agglomIndex[n]? ≠ some (-1) → st' = st) ∧
        (st.agglomIndex[n]? = some (-1) →
          ((st'.nCoarseEqns = st.nCoarseEqns + 1 ∧
            ∃ k tail : Nat,
              GrowsTo ctx st.nCoarseEqns (st.agglomIndex.set n st.nCoarseEqns) n k
                st'.agglomIndex tail ∧
              (k : Int) ≤ max (1 - 1) 0 ∧
              st'.agglomIndex.count st.nCoarseEqns = k + 1 ∧
              ((k + 1 : Nat) : Int) ≤ max 1 1) ∨
           (st'.nCoarseEqns = st.nCoarseEqns ∧ (1 : Int) < 1 ∧
            ∃ (col : Nat) (ac : Int), Nbr ctx n col ∧ st.agglomIndex[col]? = some ac ∧
              ac ≠ -1 ∧ st'.agglomIndex = st.agglomIndex.set n ac)) ∧
          ((1 : Int) ≤ 1 → st'.nCoarseEqns = st.nCoarseEqns + 1 ∧
            st'.agglomIndex = st.agglomIndex.set n st.nCoarseEqns))) ∧
      ((1 : Int) ≤ 1 → ∃ cs, clusterPrefix ratOps diagFactorDefault chain5 1 chain5.nRows
          = some cs ∧
        (∀ i : Nat, zc[i]? = some true → cs.agglomIndex[i]? = some 0) ∧
        (∀ i j : Nat, i < chain5.nRows → j < chain5.nRows →
          cs.agglomIndex[i]? = cs.agglomIndex[j]? →
          i ≠ j → zc[i]? = some true ∧ zc[j]? = some true)) :=
  growth_bound ratOps diagFactorDefault chain5 1 chain5_wellFormed (Or.inl rfl)


/-! ## The members of the weak cluster -/

theorem weak2_wellFormed : WellFormed weak2 :=
  ⟨by decide, by unfold ValidAddr; decide, by unfold ValidAddr; decide, by decide,
    fun _ => by decide, fun h => by cases h⟩

theorem stepDetail_mono {α : Type} (ctx : ClusterCtx α) (st st' : ClusterState) (n : Nat)
    (ha : st.agglomIndex[n]? = some (-1)) (hd : StepDetail ctx st n st')
    (i : Nat) (a : Int) (hi : st.agglomIndex[i]? = some a) (hne : a ≠ -1) :
    st'.agglomIndex[i]? = some a := by
  have hin : n ≠ i := by
    intro h
    rw [h, hi] at ha
    exact hne (Option.some.inj ha)
  rcases hd with ⟨_, k, tail, hgr, _⟩ | ⟨_, _, col, ac, _, _, _, hagg⟩
  · apply growsTo_keep ctx _ _ n k _ tail hgr i a _ hne
    rw [List.getElem?_set_ne hin]
    exact hi
  · rw [hagg, List.getElem?_set_ne hin]
    exact hi

theorem stepDetail_zero {α : Type} (ctx : ClusterCtx α) (st st' : ClusterState) (n : Nat)
    (ha : st.agglomIndex[n]? = some (-1)) (hK : 1 ≤ st.nCoarseEqns)
    (hd : StepDetail ctx st n st') (i : Nat) (h1 : st'.agglomIndex[i]? = some 0)
    (h0 : st.agglomIndex[i]? ≠ some 0) :
    i = n ∧ st'.nCoarseEqns = st.nCoarseEqns ∧ 1 < ctx.groupSize ∧
      ∃ col : Nat, Nbr ctx n col ∧ st.agglomIndex[col]? = some 0 := by
  have hnl : n < st.agglomIndex.length := lt_of_getElem? _ _ _ ha
  rcases hd with ⟨_, k, tail, hgr, _⟩ | ⟨e1, e2, col, ac, hnbr, hac, _, hagg⟩
  · exfalso
    have h2 := growsTo_other ctx _ _ n k _ tail hgr i 0 h1 (by omega)
    by_cases hin : n = i
    · rw [← hin, List.getElem?_set_self hnl] at h2
      have := Option.some.inj h2
      omega
    · rw [List.getElem?_set_ne hin] at h2
      exact h0 h2
  · rw [hagg] at h1
    by_cases hin : n = i
    · rw [← hin, List.getElem?_set_self hnl] at h1
      have hac0 := Option.some.inj h1
      rw [hac0] at hac
      exact ⟨hin.symm, e1, e2, col, hnbr, hac⟩
    · rw [List.getElem?_set_ne hin] at h1
      exact absurd h1 h0

/-- C27 fails on `weak2` with `groupSize = 4`: equation 0 is weak and
equation 1 is not, the loop reaches equation 1 with `agglomIndex_ = [0, -1]`,
the seed 1 has no ungrouped neighbour, its best grouped neighbour is the weak
equation 0, `sizeOfGroups[0] = 0` passes the size test and the seed is merged
into cluster 0: the final cluster 0 holds the non-weak equation 1. -/
theorem weak_cluster_counterexample :
    weakEquations ratOps diagFactorDefault weak2 = some [true, false] ∧
    (clusterPrefix ratOps diagFactorDefault weak2 4 1).map
        (fun s => (s.agglomIndex, s.sizeOfGroups, s.nCoarseEqns))
      = some ([0, -1], [0, 0], 1) ∧
    (clusterPrefix ratOps diagFactorDefault weak2 4 2).map
        (fun s => (s.agglomIndex, s.sizeOfGroups, s.nCoarseEqns))
      = some ([0, 0], [1, 0], 1) ∧
    construct ratOps diagFactorDefault singlePartition weak2 4 0 = some ⟨[0, 0], 1, true⟩ := by
  refine ⟨by decide!, by decide!, by decide!, by decide!⟩

/-- C27 amended: when at least one equation is weak (single partition), every
weak equation ends in cluster 0; a step of the main loop adds a member to
cluster 0 only by merging its own seed `n`, which needs `groupSize > 1` and an
equation coupled to `n` that is already in cluster 0; so every non-weak
equation of the final cluster 0 is coupled to another member of cluster 0. -/
theorem weak_cluster_members {α : Type} (ops : ScalarOps α) (diagFactor : α)
    (m : BlockLduMatrix α) (groupSize minCoarseEqns : Int) (hwf : WellFormed m)
    (hsym : m.symmetric = true ∨ m.asymmetric = true) (zc : List Bool)
    (hzc : weakEquations ops diagFactor m = some zc) (hw : true ∈ zc) :
    ∃ st', construct ops diagFactor singlePartition m groupSize minCoarseEqns = some st' ∧
      (∀ i : Nat, zc[i]? = some true → st'.agglomIndex[i]? = some 0) ∧
      (∀ i : Nat, i < m.nRows → zc[i]? ≠ some true → st'.agglomIndex[i]? = some 0 →
        1 < groupSize ∧
        ∃ j : Nat, Coupled m.upperAddr m.lowerAddr i j ∧ st'.agglomIndex[j]? = some 0) ∧
      (∀ n, n < m.nRows → ∃ st st1,
        clusterPrefix ops diagFactor m groupSize n = some st ∧
        clusterPrefix ops diagFactor m groupSize (n + 1) = some st1 ∧
        ∀ i : Nat, st1.agglomIndex[i]? = some 0 → st.agglomIndex[i]? ≠ some 0 →
          i = n ∧ st.agglomIndex[n]? = some (-1) ∧ st1.nCoarseEqns = st.nCoarseEqns ∧
          1 < groupSize ∧
          ∃ col : Nat, Coupled m.upperAddr m.lowerAddr n col ∧
            st.agglomIndex[col]? = some 0) := by
  obtain ⟨ctx, st0, zc', hset, hzc', hzclen, hgs, _, hctx, hinv0, hK0, hagg0, hnbr, _⟩ :=
    clusterSetup_spec ops diagFactor m groupSize hwf hsym
  rw [hzc] at hzc'
  have hz := Option.some.inj hzc'
  subst hz
  rw [if_pos hw] at hinv0 hK0
  have hpre := clusterPrefix_of_setup ops diagFactor m groupSize ctx st0 hset
  have hstepz : ∀ (n : Nat) (st st1 : ClusterState), n < m.nRows →
      MainInv m.nRows ctx.groupSize 1 st →
      (st.agglomIndex[n]? = some (-1) → StepDetail ctx st n st1) →
      (st.agglomIndex[n]? ≠ some (-1) → st1 = st) →
      ∀ i : Nat, st1.agglomIndex[i]? = some 0 → st.agglomIndex[i]? ≠ some 0 →
        i = n ∧ st.agglomIndex[n]? = some (-1) ∧ st1.nCoarseEqns = st.nCoarseEqns ∧
        1 < groupSize ∧
        ∃ col : Nat, Coupled m.upperAddr m.lowerAddr n col ∧
          st.agglomIndex[col]? = some 0 := by
    intro n st st1 hn hinv hd hs i h1 h0
    by_cases ha : st.agglomIndex[n]? = some (-1)
    · obtain ⟨e1, e2, e3, col, e4, e5⟩ := stepDetail_zero ctx st st1 n ha
        (by have := hinv.reserved; omega) (hd ha) i h1 h0
      rw [hgs] at e3
      exact ⟨e1, ha, e2, e3, col, hnbr n col hn e4, e5⟩
    · rw [hs ha] at h1
      exact absurd h1 h0
  obtain ⟨cs, hcs, _, hrange, hmono⟩ := mainLoop_spec ops ctx m.nRows hctx 1 st0 hinv0
  obtain ⟨cs', hcs', hinv', hJ⟩ := mainLoop_inv ops ctx m.nRows hctx 1 st0 hinv0
    (fun _ st => ∀ i : Nat, i < m.nRows → zc[i]? ≠ some true → st.agglomIndex[i]? = some 0 →
        1 < groupSize ∧
        ∃ j : Nat, Coupled m.upperAddr m.lowerAddr i j ∧ st.agglomIndex[j]? = some 0)
    (by
      intro i hi hz h0
      rw [hagg0 i hi, if_neg hz] at h0
      have := Option.some.inj h0
      omega)
    (by
      intro n st st1 hn hinv hJ _ _ hd hs i hi hz h1
      by_cases ha : st.agglomIndex[n]? = some (-1)
      · by_cases h0 : st.agglomIndex[i]? = some 0
        · obtain ⟨e, j, hc, hj⟩ := hJ i hi hz h0
          exact ⟨e, j, hc, stepDetail_mono ctx st st1 n ha (hd ha) j 0 hj (by decide)⟩
        · obtain ⟨e1, _, _, e3, col, e4, e5⟩ := hstepz n st st1 hn hinv hd hs i h1 h0
          rw [e1]
          exact ⟨e3, col, e4, stepDetail_mono ctx st st1 n ha (hd ha) col 0 e5 (by decide)⟩
      · rw [hs ha] at h1 ⊢
        exact hJ i hi hz h1)
    m.nRows (le_refl _)
  rw [hcs] at hcs'
  have hEq := Option.some.inj hcs'
  subst hEq
  refine ⟨_, construct_of_prefix ops diagFactor m groupSize minCoarseEqns cs
    (by rw [hpre]; exact hcs), ?_, hJ, ?_⟩
  · intro i hi
    have hil : i < m.nRows := by
      have := lt_of_getElem? _ _ _ hi
      omega
    have h1 := hagg0 i hil
    rw [if_pos hi] at h1
    exact hmono i 0 h1 (by decide)
  · intro n hn
    obtain ⟨st, st1, h1, h2, _, hinv, _, hd, hs⟩ := prefix_step ops ctx m.nRows hctx 1 st0
      hinv0 n hn
    exact ⟨st, st1, by rw [hpre]; exact h1, by rw [hpre]; exact h2,
      hstepz n st st1 hn hinv hd hs⟩

/-- C27 amended, on `weak2` with `groupSize = 4`. -/
theorem weak_cluster_members_witness :
    ∃ st', construct ratOps diagFactorDefault singlePartition weak2 4 0 = some st' ∧
      (∀ i : Nat, [true, false][i]? = some true → st'.agglomIndex[i]? = some 0) ∧
      (∀ i : Nat, i < weak2.nRows → [true, false][i]? ≠ some true →
        st'.agglomIndex[i]? = some 0 →
        (1 : Int) < 4 ∧
        ∃ j : Nat, Coupled weak2.upperAddr weak2.lowerAddr i j ∧
          st'.agglomIndex[j]? = some 0) ∧
      (∀ n, n < weak2.nRows → ∃ st st1,
        clusterPrefix ratOps diagFactorDefault weak2 4 n = some st ∧
        clusterPrefix ratOps diagFactorDefault weak2 4 (n + 1) = some st1 ∧
        ∀ i : Nat, st1.agglomIndex[i]? = some 0 → st.agglomIndex[i]? ≠ some 0 →
          i = n ∧ st.agglomIndex[n]? = some (-1) ∧ st1.nCoarseEqns = st.nCoarseEqns ∧
          (1 : Int) < 4 ∧
          ∃ col : Nat, Coupled weak2.upperAddr weak2.lowerAddr n col ∧
            st.agglomIndex[col]? = some 0) :=
  weak_cluster_members ratOps diagFactorDefault weak2 4 0 weak2_wellFormed (Or.inl rfl)
    [true, false] (by decide!) (by decide)


/-! ## Clusters are connected -/

theorem coupled_symm (upperAddr lowerAddr : List Int) (i j : Nat)
    (h : Coupled upperAddr lowerAddr i j) : Coupled upperAddr lowerAddr j i := by
  obtain ⟨c, h | h⟩ := h
  · exact ⟨c, Or.inr ⟨h.2, h.1⟩⟩
  · exact ⟨c, Or.inl ⟨h.2, h.1⟩⟩

theorem connected_frame (upperAddr lowerAddr agg agg' : List Int) (k : Int)
    (hsame : ∀ i : Nat, agg'[i]? = some k ↔ agg[i]? = some k)
    (h : ConnectedIn upperAddr lowerAddr agg k) : ConnectedIn upperAddr lowerAddr agg' k := by
  intro i j hi hj
  apply Relation.ReflTransGen.mono _ (h i j ((hsame i).mp hi) ((hsame j).mp hj))
  intro a b ⟨hc, ha, hb⟩
  exact ⟨hc, (hsame a).mpr ha, (hsame b).mpr hb⟩

theorem connected_other (upperAddr lowerAddr agg : List Int) (x : Nat) (v k : Int)
    (hx : agg[x]? = some (-1)) (hk : k ≠ -1) (hv : v ≠ k)
    (h : ConnectedIn upperAddr lowerAddr agg k) :
    ConnectedIn upperAddr lowerAddr (agg.set x v) k := by
  apply connected_frame upperAddr lowerAddr agg _ k _ h
  intro i
  by_cases hxi : x = i
  · rw [← hxi, List.getElem?_set_self (lt_of_getElem? _ _ _ hx), hx]
    constructor
    · intro h; exact absurd (Option.some.inj h) hv
    · intro h; exact absurd (Option.some.inj h).symm hk
  · rw [List.getElem?_set_ne hxi]

theorem connected_add (upperAddr lowerAddr agg : List Int) (x y : Nat) (k : Int)
    (hx : agg[x]? = some (-1)) (hy : agg[y]? = some k)
    (hc : Coupled upperAddr lowerAddr y x)
    (h : ConnectedIn upperAddr lowerAddr agg k) :
    ConnectedIn upperAddr lowerAddr (agg.set x k) k := by
  have hxl : x < agg.length := lt_of_getElem? _ _ _ hx
  have hxk : (agg.set x k)[x]? = some k := List.getElem?_set_self hxl
  have hold : ∀ i : Nat, agg[i]? = some k → (agg.set x k)[i]? = some k := by
    intro i hi
    by_cases hxi : x = i
    · rw [← hxi]; exact hxk
    · rw [List.getElem?_set_ne hxi]; exact hi
  have hlift : ∀ i j : Nat, agg[i]? = some k → agg[j]? = some k →
      Relation.ReflTransGen
        (fun a b : Nat => Coupled upperAddr lowerAddr a b ∧
          (agg.set x k)[a]? = some k ∧ (agg.set x k)[b]? = some k) i j := by
    intro i j hi hj
    apply Relation.ReflTransGen.mono _ (h i j hi hj)
    intro a b ⟨hc', ha, hb⟩
    exact ⟨hc', hold a ha, hold b hb⟩
  have hyk := hold y hy
  intro i j hi hj
  by_cases hxi : x = i
  · by_cases hxj : x = j
    · rw [← hxi, ← hxj]
    · rw [List.getElem?_set_ne hxj] at hj
      rw [← hxi]
      exact Relation.ReflTransGen.head ⟨coupled_symm _ _ _ _ hc, hxk, hyk⟩ (hlift y j hy hj)
  · rw [List.getElem?_set_ne hxi] at hi
    by_cases hxj : x = j
    · rw [← hxj]
      exact Relation.ReflTransGen.tail (hlift i y hi hy) ⟨hc, hyk, hxk⟩
    · rw [List.getElem?_set_ne hxj] at hj
      exact hlift i j hi hj

theorem connected_single (upperAddr lowerAddr agg : List Int) (x : Nat) (k : Int)
    (hk : k ∉ agg) :
    ConnectedIn upperAddr lowerAddr (agg.set x k) k := by
  have hmem : ∀ i : Nat, (agg.set x k)[i]? = some k → i = x := by
    intro i hi
    by_contra hne
    rw [List.getElem?_set_ne (fun h => hne h.symm)] at hi
    exact hk (List.mem_iff_getElem?.mpr ⟨i, hi⟩)
  intro i j hi hj
  rw [hmem i hi, hmem j hj]

theorem growsTo_connected {α : Type} (ctx : ClusterCtx α) (upperAddr lowerAddr : List Int)
    (nRows : Nat) (hnbr : ∀ i j, i < nRows → Nbr ctx i j → Coupled upperAddr lowerAddr i j)
    (K : Int) (agg0 : List Int) (seed : Nat) (hlen : agg0.length = nRows) (hK : K ≠ -1)
    (P : Int → Prop)
    (h0 : ∀ k, k ≠ -1 → P k → ConnectedIn upperAddr lowerAddr agg0 k)
    (n : Nat) (agg : List Int) (tail : Nat) (h : GrowsTo ctx K agg0 seed n agg tail) :
    ∀ k, k ≠ -1 → P k → ConnectedIn upperAddr lowerAddr agg k := by
  induction h with
  | start => exact h0
  | absorb n agg tail next hgr hn ht hnb ih =>
    intro k hk hP
    have htl : tail < nRows := by
      have := lt_of_getElem? _ _ _ ht
      rw [growsTo_length ctx K agg0 seed n agg tail hgr] at this
      omega
    by_cases hkK : K = k
    · rw [← hkK]
      exact connected_add upperAddr lowerAddr agg next tail K hn ht
        (hnbr tail next htl hnb) (ih K hK (by rw [hkK]; exact hP))
    · exact connected_other upperAddr lowerAddr agg next K k hn hk hkK (ih k hk hP)

/-! ## Totality and safety of the clustering -/

theorem pair2_wellFormed : WellFormed pair2 :=
  ⟨by decide, by unfold ValidAddr; decide, by unfold ValidAddr; decide, by decide,
    fun _ => by decide, fun h => by cases h⟩

theorem ratOps_max_pos (a b : ℚ) (ha : 0 < a) (hb : 0 < b) : 0 < ratOps.max a b := by
  simp only [ratOps]
  split
  · exact hb
  · exact ha

theorem clustering_total {α : Type} (ops : ScalarOps α) (diagFactor : α) (m : BlockLduMatrix α)
    (groupSize minCoarseEqns : Int) (hwf : WellFormed m)
    (hsym : m.symmetric = true ∨ m.asymmetric = true) :
    ∃ (ro : List Int) (st' : AgglomState),
      calcRowOffset m.nRows m.upperAddr m.lowerAddr = some ro ∧ ro.length = m.nRows + 1 ∧
      ro[0]? = some 0 ∧ ro[m.nRows]? = some (2 * (m.upperAddr.length : Int)) ∧
      (∀ i j : Nat, i ≤ j → j ≤ m.nRows → ∃ a b : Int,
        ro[i]? = some a ∧ ro[j]? = some b ∧ a ≤ b) ∧
      construct ops diagFactor singlePartition m groupSize minCoarseEqns = some st' ∧
      st'.agglomIndex.length = m.nRows ∧
      ∀ a ∈ st'.agglomIndex, 0 ≤ a ∧ a < st'.nCoarseEqns ∧ st'.nCoarseEqns ≤ (m.nRows : Int) := by
  obtain ⟨ro, hro, hrolen, hrospec⟩ := calcRowOffset_spec m.nRows m.upperAddr m.lowerAddr
    hwf.upperValid hwf.lowerValid
  obtain ⟨ctx, st0, zc, hset, _, _, _, _, hctx, hinv0, _, _, _, _⟩ :=
    clusterSetup_spec ops diagFactor m groupSize hwf hsym
  obtain ⟨cs, hcs, hinv, hrange, _⟩ := mainLoop_spec ops ctx m.nRows hctx _ st0 hinv0
  have hpre := clusterPrefix_of_setup ops diagFactor m groupSize ctx st0 hset
  refine ⟨ro, _, hro, hrolen, ?_, ?_, ?_, construct_of_prefix ops diagFactor m groupSize
    minCoarseEqns cs (by rw [hpre]; exact hcs), hinv.lenA, ?_⟩
  · rw [hrospec 0 (by omega)]
    simp [rowStart]
  · rw [hrospec m.nRows (le_refl _), rowStart_total _ _ _ hwf.upperValid hwf.lowerValid,
      ← hwf.addrLen]
    congr 1
    push_cast
    ring
  · intro i j hij hj
    refine ⟨_, _, hrospec i (by omega), hrospec j hj, ?_⟩
    exact_mod_cast rowStart_mono m.upperAddr m.lowerAddr i j hij
  · intro a ha
    have h1 := hrange a ha
    refine ⟨h1.1, h1.2, ?_⟩
    simp only
    by_contra hgt
    have h2 := sum_count_le_length cs.agglomIndex cs.nCoarseEqns.toNat
    have h3 : cs.nCoarseEqns.toNat ≤ ∑ k in Finset.range cs.nCoarseEqns.toNat,
        cs.agglomIndex.count (k : Int) := by
      have := Finset.card_nsmul_le_sum (Finset.range cs.nCoarseEqns.toNat)
        (fun k => cs.agglomIndex.count (k : Int)) 1
        (fun k hk => by
          have hk2 := Finset.mem_range.mp hk
          exact List.count_pos_iff.mpr (hinv.surj (k : Int) (by omega) (by omega)))
      simpa using this
    have h4 := hinv.lenA
    omega

/-- C29 evaluated on `pair2` with `groupSize = 1` on a partition that has no
weak equation while the other partitions contribute one (`nSolo` reduced to
1): `nCoarseEqns_` starts at 1 with cluster 0 empty, the seed 0 is sealed as
cluster 1 and the seed 1 gets the cluster id 2, so that
`sizeOfGroups[agglomIndex_[eqnI]]++` reads `sizeOfGroups[2]` in a list of
`nRows = 2` entries: the access is out of range and the run has no result.
The same matrix on a single partition returns the map `[0, 1]`. -/
theorem cluster_id_overflow_evaluation :
    calcAgglomeration ratOps diagFactorDefault ⟨1, true⟩ pair2 1 0 ⟨[-1, -1], 0, false⟩ = none ∧
    (clusterSetup ratOps diagFactorDefault pair2 1).map
        (fun p => (p.2.agglomIndex, p.2.sizeOfGroups, p.2.nCoarseEqns))
      = some ([-1, -1], [0, 0], 0) ∧
    (clusterSetup ratOps diagFactorDefault pair2 1).bind (fun p =>
        (eqnStep ratOps p.1 ⟨p.2.agglomIndex, p.2.sizeOfGroups, 0 + 1⟩ 0).map
          (fun s => (s.agglomIndex, s.sizeOfGroups, s.nCoarseEqns)))
      = some ([1, -1], [0, 1], 2) ∧
    (clusterSetup ratOps diagFactorDefault pair2 1).bind (fun p =>
        (growLoop ratOps p.1 [0, 1] 4 2 ⟨[1, 2], 1, -1, -1, 1⟩).map
          (fun g => (g.agglomIndex, g.curEqn, g.indexUngrouped, g.indexGrouped, g.groupPassI)))
      = some ([1, 2], 1, -1, -1, 1) ∧
    (sealGroup ⟨[1, -1], [0, 1], 2⟩ ⟨[1, 2], 1, -1, -1, 1⟩ 1).map
        (fun s => s.nCoarseEqns) = none ∧
    readAt ([0, 1] : List Int) 2 = none ∧
    (clusterSetup ratOps diagFactorDefault pair2 1).bind (fun p =>
        (eqnStep ratOps p.1 ⟨[1, -1], [0, 1], 2⟩ 1).map
          (fun s => (s.agglomIndex, s.sizeOfGroups, s.nCoarseEqns))) = none ∧
    construct ratOps diagFactorDefault singlePartition pair2 1 0 = some ⟨[0, 1], 2, false⟩ := by
  refine ⟨by decide!, by decide!, by decide!, by decide!, by decide, by decide, by decide!,
    by decide!⟩


/-! ## The growth loop and the step of the main loop, for any counter -/

theorem growLoop_pass_gen {α : Type} (ops : ScalarOps α) (ctx : ClusterCtx α) (nRows : Nat)
    (hctx : CtxOK ctx nRows) (sizeOfGroups : List Int)
    (magRowDiag : α) (g : GrowState) (cur : Nat) (aCur : Int)
    (hcurEq : g.curEqn = (cur : Int)) (hlen : g.agglomIndex.length = nRows)
    (hc : cur < nRows) (hcur : g.agglomIndex[cur]? = some aCur)
    (ha0 : 0 ≤ aCur) (hpass : g.groupPassI < ctx.groupSize) :
    ∃ (s : ScanState α) (lo hi : Nat),
      ctx.rowOffset[cur]? = some (lo : Int) ∧ ctx.rowOffset[cur + 1]? = some (hi : Int) ∧
      scanRow ops ctx g.agglomIndex (cur : Int) magRowDiag = some s ∧
      BestOf ops ctx magRowDiag (UngroupedAt ctx.cols g.agglomIndex) lo hi
        s.indexUngrouped s.weightUngrouped ∧
      BestOf ops ctx magRowDiag (GroupedAt ctx.cols g.agglomIndex aCur) lo hi
        s.indexGrouped s.weightGrouped ∧
      (absorbs ops s → ∃ next : Nat, next < nRows ∧
        readAt ctx.cols s.indexUngrouped = some (next : Int) ∧
        g.agglomIndex[next]? = some (-1) ∧ Nbr ctx cur next ∧
        ∀ fuel, growLoop ops ctx sizeOfGroups magRowDiag (fuel + 1) g
          = (readAt sizeOfGroups aCur).bind (fun _ =>
              growLoop ops ctx sizeOfGroups magRowDiag fuel
                { agglomIndex := g.agglomIndex.set next aCur, curEqn := (next : Int),
                  indexUngrouped := s.indexUngrouped, indexGrouped := s.indexGrouped,
                  groupPassI := g.groupPassI + 1 })) ∧
      (¬ absorbs ops s → ∀ fuel, growLoop ops ctx sizeOfGroups magRowDiag (fuel + 1) g
          = some { agglomIndex := g.agglomIndex, curEqn := g.curEqn,
                   indexUngrouped := s.indexUngrouped, indexGrouped := s.indexGrouped,
                   groupPassI := g.groupPassI }) := by
  obtain ⟨s, lo, hi, hlo, hhi, hs, hU, hG⟩ := scanRow_best ops ctx nRows hctx g.agglomIndex cur
    aCur magRowDiag hlen hc hcur
  refine ⟨s, lo, hi, hlo, hhi, hs, hU, hG, ?_, ?_⟩
  · intro hab
    rcases hU with ⟨h1, _⟩ | ⟨b, hb1, hb2, hb3, ⟨col, hcol, hacol⟩, _, _⟩
    · exact absurd h1 hab.1
    · have hcoln : col < nRows := by
        have := lt_of_getElem? _ _ _ hacol
        omega
      have hne : col ≠ cur := by
        intro h
        rw [h, hcur] at hacol
        have := Option.some.inj hacol
        omega
      have hrd : readAt ctx.cols s.indexUngrouped = some (col : Int) := by
        rw [hb1, readAt_natCast]; exact hcol
      refine ⟨col, hcoln, hrd, hacol, ⟨b, ⟨lo, hi, hlo, hhi, hb2, hb3⟩, hcol⟩, ?_⟩
      intro fuel
      have hcur2 : (g.agglomIndex.set col aCur)[cur]? = some aCur := by
        rw [List.getElem?_set_ne hne]
        exact hcur
      conv => lhs; unfold growLoop
      rw [if_pos hpass, hcurEq, hs]
      simp only [Option.bind_eq_bind, Option.some_bind]
      have hab' : s.indexUngrouped ≠ -1 ∧ (s.indexGrouped = -1 ∨
          ops.ge s.weightUngrouped (ops.mul ops.weightFactor s.weightGrouped) = true) := hab
      rw [if_pos hab', hrd]
      simp only [Option.some_bind, readAt_natCast, hcur]
      rw [writeAt_eq_some _ _ _ (by omega) (by simp; omega)]
      simp only [Option.some_bind, Int.toNat_ofNat, hcur2]
  · intro hab fuel
    conv => lhs; unfold growLoop
    rw [if_pos hpass, hcurEq, hs]
    simp only [Option.bind_eq_bind, Option.some_bind]
    have hab' : ¬ (s.indexUngrouped ≠ -1 ∧ (s.indexGrouped = -1 ∨
        ops.ge s.weightUngrouped (ops.mul ops.weightFactor s.weightGrouped) = true)) := hab
    rw [if_neg hab']
    rfl

theorem growLoop_path_gen {α : Type} (ops : ScalarOps α) (ctx : ClusterCtx α) (nRows : Nat)
    (hctx : CtxOK ctx nRows) (sizeOfGroups : List Int)
    (magRowDiag : α) (agg0 : List Int) (K : Int) (eqnI : Nat) (hK0 : 0 ≤ K)
    (hlen0 : agg0.length = nRows) (hseed : agg0[eqnI]? = some K) :
    ∀ (fuel : Nat) (g g' : GrowState),
      growLoop ops ctx sizeOfGroups magRowDiag fuel g = some g' →
      GrowPath ctx K agg0 eqnI g → GrowPath ctx K agg0 eqnI g' := by
  intro fuel
  induction fuel with
  | zero =>
    intro g g' h _
    simp [growLoop] at h
  | succ fuel ih =>
    intro g g' h hp
    by_cases hpass : g.groupPassI < ctx.groupSize
    · obtain ⟨n, tail, hgr, hcur, hn, hle, hidle, hfirst⟩ := hp
      have hlen : g.agglomIndex.length = nRows := by
        rw [growsTo_length ctx K agg0 eqnI n _ tail hgr]; exact hlen0
      have htail := growsTo_tail ctx K agg0 eqnI hseed n _ tail hgr
      have htl : tail < nRows := by
        have := lt_of_getElem? _ _ _ htail
        omega
      obtain ⟨s, lo, hi, hlo, hhi, _, hU, hG, habs, hnabs⟩ := growLoop_pass_gen ops ctx nRows
        hctx sizeOfGroups magRowDiag g tail K hcur hlen htl htail hK0 hpass
      by_cases hab : absorbs ops s
      · obtain ⟨next, hnext, _, hfree, hnbr, heq⟩ := habs hab
        rw [heq fuel] at h
        simp only [Option.bind_eq_some] at h
        obtain ⟨_, _, h⟩ := h
        apply ih _ g' h
        refine ⟨n + 1, next, GrowsTo.absorb n _ tail next hgr hfree htail hnbr, rfl, ?_, ?_, ?_,
          ?_⟩
        · simp only; push_cast; omega
        · simp only; omega
        · intro hgs; omega
        · intro h0; omega
      · rw [hnabs hab fuel] at h
        have hg' := Option.some.inj h
        rw [← hg']
        refine ⟨n, tail, hgr, hcur, hn, hle, ?_, ?_⟩
        · intro hgs; omega
        · intro h0
          subst h0
          obtain ⟨hagg, htl0⟩ := growsTo_zero ctx K agg0 eqnI _ tail hgr
          rcases hG with ⟨h1, _⟩ | ⟨b, hb1, hb2, hb3, hq, _, _⟩
          · exact Or.inl h1
          · right
            refine ⟨b, hb1, ⟨lo, hi, ?_, ?_, hb2, hb3⟩, ?_⟩
            · rw [← htl0]; exact hlo
            · rw [← htl0]; exact hhi
            · rw [← hagg]; exact hq
    · rw [growLoop_done ops ctx sizeOfGroups magRowDiag g hpass fuel] at h
      rw [← Option.some.inj h]
      exact hp

theorem growsTo_mem {α : Type} (ctx : ClusterCtx α) (K : Int) (agg0 : List Int) (seed : Nat)
    (n : Nat) (agg : List Int) (tail : Nat) (h : GrowsTo ctx K agg0 seed n agg tail)
    (a : Int) (ha : a ∈ agg) : a ∈ agg0 ∨ a = K := by
  induction h with
  | start => exact Or.inl ha
  | absorb n agg tail next _ hn _ _ ih =>
    rcases List.mem_or_eq_of_mem_set ha with h | h
    · exact ih h
    · exact Or.inr h

theorem stateOK_of_mainInv (nRows : Nat) (groupSize w : Int) (st : ClusterState)
    (h : MainInv nRows groupSize w st) : StateOK nRows st :=
  ⟨h.lenA, h.lenS, by have := h.reserved; omega, h.range⟩

theorem eqnStep_detail_gen {α : Type} (ops : ScalarOps α) (ctx : ClusterCtx α) (nRows : Nat)
    (hctx : CtxOK ctx nRows) (st st' : ClusterState) (eqnI : Nat)
    (hok : StateOK nRows st) (hi : eqnI < nRows)
    (ha : st.agglomIndex[eqnI]? = some (-1))
    (h : eqnStep ops ctx st eqnI = some st') :
    StepDetail ctx st eqnI st' ∧ StateOK nRows st' := by
  have hlenA := hok.lenA
  have hK0 := hok.nonneg
  have hseed : (st.agglomIndex.set eqnI st.nCoarseEqns)[eqnI]? = some st.nCoarseEqns := by
    rw [List.getElem?_set_self (by omega)]
  have hrange0 : ∀ a ∈ st.agglomIndex.set eqnI st.nCoarseEqns,
      a = -1 ∨ (0 ≤ a ∧ a ≤ st.nCoarseEqns) := by
    intro a hmem
    rcases List.mem_or_eq_of_mem_set hmem with h1 | h1
    · have := hok.range a h1
      omega
    · omega
  unfold eqnStep at h
  simp only [readAt_natCast, ha, Option.bind_eq_bind, Option.some_bind] at h
  rw [if_pos trivial, writeAt_eq_some _ _ _ (by omega) (by simp; omega)] at h
  simp only [Option.some_bind, Int.toNat_ofNat, Option.bind_eq_some] at h
  obtain ⟨md, _, g, hg, b, hb, hfin⟩ := h
  have hp := growLoop_path_gen ops ctx nRows hctx st.sizeOfGroups md
    (st.agglomIndex.set eqnI st.nCoarseEqns) st.nCoarseEqns eqnI hK0 (by simp [hlenA]) hseed
    _ _ g hg
    ⟨0, eqnI, GrowsTo.start, rfl, by simp, by simp only; omega, fun _ => rfl, fun _ => Or.inl rfl⟩
  obtain ⟨n, tail, hgr, hcur, hn, hle, hidle, hfirst⟩ := hp
  have hglen : g.agglomIndex.length = nRows := by
    rw [growsTo_length ctx _ _ eqnI n _ tail hgr]
    simp [hlenA]
  cases b with
  | true =>
    rw [if_pos rfl] at hfin
    unfold sealGroup at hfin
    simp only [Option.bind_eq_bind, Option.bind_eq_some] at hfin
    obtain ⟨ae, _, sz, _, sg, hsg, hst'⟩ := hfin
    simp only [pure, Option.some.injEq] at hst'
    have hsglen : sg.length = nRows := by
      unfold writeAt at hsg
      split at hsg
      · rw [← Option.some.inj hsg]
        simp [hok.lenS]
      · cases hsg
    rw [← hst']
    refine ⟨Or.inl ⟨rfl, n, tail, hgr, by omega⟩, hglen, hsglen, by simp only; omega, ?_⟩
    intro a hmem
    simp only at hmem ⊢
    rcases growsTo_mem ctx _ _ eqnI n _ tail hgr a hmem with h1 | h1
    · have := hrange0 a h1
      omega
    · omega
  | false =>
    rw [if_neg (by decide)] at hfin
    unfold sealTest at hb
    by_cases hcond : g.groupPassI > 1 ∨ g.indexGrouped = -1
    · rw [if_pos hcond] at hb
      cases hb
    · have hn0 : n = 0 := by omega
      subst hn0
      obtain ⟨hagg, _⟩ := growsTo_zero ctx _ _ eqnI _ tail hgr
      have hgs : 1 < ctx.groupSize := by
        by_contra hle1
        exact hcond (Or.inr (hidle (by omega)))
      rcases hfirst rfl with h1 | ⟨p, hp1, hp2, col, ac, hcol, hac, hac1, hac2⟩
      · exact absurd (Or.inr h1) hcond
      · have hne : eqnI ≠ col := by
          intro he
          rw [← he, hseed] at hac
          exact hac2 (Option.some.inj hac).symm
        have hac' : st.agglomIndex[col]? = some ac := by
          rw [List.getElem?_set_ne hne] at hac
          exact hac
        have hacr := hok.range ac (List.mem_iff_getElem?.mpr ⟨col, hac'⟩)
        unfold mergeSeed at hfin
        simp only [Option.bind_eq_bind, Option.bind_eq_some, hp1, readAt_natCast, hcol,
          Option.some.injEq] at hfin
        obtain ⟨c, hc, ac2, hac2', agg2, hw, _, _, _, _, _, _, sg, hsg, hst'⟩ := hfin
        simp only [pure, Option.some.injEq] at hst'
        rw [← hc, readAt_natCast, hagg, hac] at hac2'
        have hac3 := Option.some.inj hac2'
        rw [writeAt_eq_some _ _ _ (by omega) (by
          simp only [Int.toNat_ofNat]
          omega)] at hw
        have hagg2 := Option.some.inj hw
        have hsglen : sg.length = nRows := by
          unfold writeAt at hsg
          split at hsg
          · rw [← Option.some.inj hsg]
            simp [hok.lenS]
          · cases hsg
        have haggeq : st'.agglomIndex = st.agglomIndex.set eqnI ac := by
          rw [← hst', ← hagg2, hagg, ← hac3]
          simp only [Int.toNat_ofNat, List.set_set]
        refine ⟨Or.inr ⟨by rw [← hst'], hgs, col, ac, ⟨p, hp2, hcol⟩, hac', hac1, haggeq⟩, ?_, ?_,
          ?_, ?_⟩
        · rw [haggeq]; simp [hlenA]
        · rw [← hst']; exact hsglen
        · rw [← hst']; exact hK0
        · intro a hmem
          rw [haggeq] at hmem
          have hnc : st'.nCoarseEqns = st.nCoarseEqns := by rw [← hst']
          rw [hnc]
          rcases List.mem_or_eq_of_mem_set hmem with h1 | h1
          · exact hok.range a h1
          · omega

theorem foldlM_range_ret {σ : Type} (f : σ → Nat → Option σ) (Inv : Nat → σ → Prop)
    (init : σ) (h0 : Inv 0 init) :
    ∀ (n : Nat) (s : σ), (List.range n).foldlM f init = some s →
      (∀ k t t', k < n → Inv k t → f t k = some t' → Inv (k + 1) t') → Inv n s := by
  intro n
  induction n with
  | zero =>
    intro s h _
    simp only [List.range_zero, List.foldlM_nil, pure, Option.some.injEq] at h
    rw [← h]
    exact h0
  | succ n ih =>
    intro s h hstep
    rw [foldlM_range_succ] at h
    simp only [Option.bind_eq_some] at h
    obtain ⟨t, ht, hs⟩ := h
    exact hstep n t s (by omega) (ih t ht (fun k a b hk => hstep k a b (by omega))) hs

theorem mainLoop_ret {α : Type} (ops : ScalarOps α) (ctx : ClusterCtx α) (nRows : Nat)
    (hctx : CtxOK ctx nRows) (st0 : ClusterState) (hok0 : StateOK nRows st0)
    (J : Nat → ClusterState → Prop) (h0 : J 0 st0)
    (hstep : ∀ (n : Nat) (st st' : ClusterState), n < nRows → StateOK nRows st → J n st →
      eqnStep ops ctx st n = some st' → StateOK nRows st' →
      (st.agglomIndex[n]? = some (-1) → StepDetail ctx st n st') →
      (st.agglomIndex[n]? ≠ some (-1) → st' = st) → J (n + 1) st')
    (n : Nat) (hn : n ≤ nRows) (st : ClusterState)
    (h : (List.range n).foldlM (eqnStep ops ctx) st0 = some st) :
    StateOK nRows st ∧ J n st := by
  apply foldlM_range_ret (eqnStep ops ctx) (fun k s => StateOK nRows s ∧ J k s) st0
    ⟨hok0, h0⟩ n st h
  intro k t t' hk ⟨hok, hJ⟩ hrun
  by_cases ha : t.agglomIndex[k]? = some (-1)
  · obtain ⟨hd, hok'⟩ := eqnStep_detail_gen ops ctx nRows hctx t t' k hok (by omega) ha hrun
    exact ⟨hok', hstep k t t' (by omega) hok hJ hrun hok' (fun _ => hd)
      (fun hne => absurd ha hne)⟩
  · obtain ⟨a, haa⟩ := getElem?_of_lt t.agglomIndex k (by have := hok.lenA; omega)
    have hne' : a ≠ -1 := by
      intro h1
      rw [h1] at haa
      exact ha haa
    rw [eqnStep_skip ops ctx t k a haa hne'] at hrun
    have heq := (Option.some.inj hrun).symm
    rw [heq]
    exact ⟨hok, hstep k t t (by omega) hok hJ (eqnStep_skip ops ctx t k a haa hne') hok
      (fun h1 => absurd h1 ha) (fun _ => rfl)⟩

/-! ## Setup of the main loop and the constructor, for any contribution of the others -/

theorem clusterSetupIn_spec {α : Type} (ops : ScalarOps α) (diagFactor : α) (env : ParEnv)
    (m : BlockLduMatrix α) (groupSize : Int) (hwf : WellFormed m)
    (hsym : m.symmetric = true ∨ m.asymmetric = true) (henv : 0 ≤ env.nSoloOthers) :
    ∃ (ctx : ClusterCtx α) (st0 : ClusterState) (zc : List Bool) (nSolo : Int),
      clusterSetupIn ops diagFactor env m groupSize = some (ctx, st0) ∧
      weakEquations ops diagFactor m = some zc ∧ zc.length = m.nRows ∧
      ctx.groupSize = groupSize ∧ CtxOK ctx m.nRows ∧ StateOK m.nRows st0 ∧
      (0 < nSolo ↔ true ∈ zc) ∧ 0 ≤ nSolo ∧
      st0.nCoarseEqns = (if nSolo + env.nSoloOthers > 0 then 1 else 0) ∧
      (∀ i, i < m.nRows →
        st0.agglomIndex[i]? = some (if zc[i]? = some true then 0 else -1)) ∧
      (∀ i j, i < m.nRows → Nbr ctx i j → Coupled m.upperAddr m.lowerAddr i j) := by
  obtain ⟨mo, hmo⟩ := calcMagOffDiag_isSome ops m hsym
  obtain ⟨ro, hro, _, hrospec⟩ := calcRowOffset_spec m.nRows m.upperAddr m.lowerAddr
    hwf.upperValid hwf.lowerValid
  obtain ⟨f, hf, _, _, hent⟩ := calcCols_spec ro m.upperAddr m.lowerAddr
    (List.replicate m.nRows (-1)) m.nRows hrospec hwf.upperValid hwf.lowerValid hwf.addrLen
    (by simp)
  have hmolen := calcMagOffDiag_length ops m hwf mo hmo
  obtain ⟨zc, hzc, hzclen⟩ := calcZeroCluster_spec ops diagFactor m hwf mo hmolen
  obtain ⟨nSolo, agg, hsolo, hagglen, hns0, hnsz, hnsa, haggr, haggz⟩ :=
    collectSolo_spec zc m.nRows hzclen
  have hctx := ctxOK_of_wellFormed m hwf ro f mo groupSize hrospec hent hmolen
  refine ⟨{ rowOffset := ro, cols := f.cols, cIndex := f.cIndex, magDiag := m.magDiag,
            magOffDiag := mo, groupSize := groupSize },
    { agglomIndex := agg, sizeOfGroups := List.replicate m.nRows 0,
      nCoarseEqns := (if nSolo + env.nSoloOthers > 0 then 1 else 0) }, zc, nSolo, ?_, ?_, hzclen,
    rfl, hctx, ?_, hnsz, hns0, rfl, haggz, ?_⟩
  · unfold clusterSetupIn
    simp only [hro, hf, hmo, hzc, hsolo, Option.bind_eq_bind, Option.some_bind]
    rfl
  · unfold weakEquations
    rw [hmo]
    exact hzc
  · refine ⟨hagglen, by simp, by simp only; split <;> omega, ?_⟩
    intro a ha
    simp only at ha ⊢
    rcases haggr a ha with h | h
    · exact Or.inl h
    · right
      have hpos : 0 < nSolo := hnsa.mpr (h ▸ ha)
      rw [if_pos (by omega)]
      omega
  · rintro i j hi ⟨p, ⟨lo, hi', hlo, hhi, hp1, hp2⟩, hcol⟩
    simp only at hlo hhi hcol
    rw [hrospec i (by omega)] at hlo
    rw [hrospec (i + 1) (by omega)] at hhi
    have hlo' : rowStart m.upperAddr m.lowerAddr i = lo := by
      have := Option.some.inj hlo; omega
    have hhi' : rowStart m.upperAddr m.lowerAddr (i + 1) = hi' := by
      have := Option.some.inj hhi; omega
    rcases hent i p hi (by omega) (by omega) with ⟨c, col, _, h2, h3, h4⟩ | ⟨c, col, _, h2, h3, h4⟩
    · rw [hcol] at h2
      rw [← Option.some.inj h2] at h4
      exact ⟨c, Or.inl ⟨h3, h4⟩⟩
    · rw [hcol] at h2
      rw [← Option.some.inj h2] at h4
      exact ⟨c, Or.inr ⟨h3, h4⟩⟩

theorem clusterPrefixIn_of_setup {α : Type} (ops : ScalarOps α) (diagFactor : α) (env : ParEnv)
    (m : BlockLduMatrix α) (groupSize : Int) (ctx : ClusterCtx α) (st0 : ClusterState)
    (h : clusterSetupIn ops diagFactor env m groupSize = some (ctx, st0)) (n : Nat) :
    clusterPrefixIn ops diagFactor env m groupSize n
      = (List.range n).foldlM (eqnStep ops ctx) st0 := by
  unfold clusterPrefixIn
  rw [h]
  rfl

theorem construct_eq_prefixIn {α : Type} (ops : ScalarOps α) (diagFactor : α) (env : ParEnv)
    (m : BlockLduMatrix α) (groupSize minCoarseEqns : Int)
    (hsym : m.symmetric = true ∨ m.asymmetric = true) :
    construct ops diagFactor env m groupSize minCoarseEqns
      = (clusterPrefixIn ops diagFactor env m groupSize m.nRows).map (fun cs =>
          { agglomIndex := cs.agglomIndex, nCoarseEqns := cs.nCoarseEqns,
            coarsen := (decide (cs.nCoarseEqns > minCoarseEqns ∧
              3 * cs.nCoarseEqns ≤ 2 * (m.nRows : Int)) && env.coarsenOthers) }) := by
  obtain ⟨mo, hmo⟩ := calcMagOffDiag_isSome ops m hsym
  unfold construct calcAgglomeration clusterPrefixIn clusterSetupIn
  simp only [hmo, List.length_replicate, Option.bind_eq_bind, Option.some_bind]
  cases calcRowOffset m.nRows m.upperAddr m.lowerAddr with
  | none => rfl
  | some ro =>
    simp only [Option.some_bind]
    cases calcCols ro m.upperAddr m.lowerAddr (List.replicate m.nRows (-1)) with
    | none => rfl
    | some f =>
      simp only [Option.some_bind]
      cases calcZeroCluster ops diagFactor m mo with
      | none => rfl
      | some zc =>
        simp only [Option.some_bind]
        cases collectSolo zc 0 (List.replicate m.nRows (-1)) with
        | none => rfl
        | some p =>
          simp only [Option.some_bind, pure]
          cases (List.range m.nRows).foldlM (eqnStep ops
              { rowOffset := ro, cols := f.cols, cIndex := f.cIndex, magDiag := m.magDiag,
                magOffDiag := mo, groupSize := groupSize })
              { agglomIndex := p.2, sizeOfGroups := List.replicate m.nRows 0,
                nCoarseEqns := if p.1 + env.nSoloOthers > 0 then 0 + 1 else 0 } with
          | none => rfl
          | some cs =>
            simp only [Option.some_bind, Option.map_some']
            by_cases hg : cs.nCoarseEqns > minCoarseEqns ∧
                3 * cs.nCoarseEqns ≤ 2 * (m.nRows : Int)
            · rw [if_pos hg, decide_eq_true hg]
            · rw [if_neg hg, decide_eq_false hg]

theorem clusterSetupIn_eq_single {α : Type} (ops : ScalarOps α) (diagFactor : α) (env : ParEnv)
    (m : BlockLduMatrix α) (groupSize : Int) (hwf : WellFormed m)
    (hsym : m.symmetric = true ∨ m.asymmetric = true) (zc : List Bool)
    (hzc : weakEquations ops diagFactor m = some zc)
    (henv : env.nSoloOthers = 0 ∨ (0 ≤ env.nSoloOthers ∧ true ∈ zc)) :
    clusterSetupIn ops diagFactor env m groupSize = clusterSetup ops diagFactor m groupSize := by
  obtain ⟨mo, hmo⟩ := calcMagOffDiag_isSome ops m hsym
  have hmolen := calcMagOffDiag_length ops m hwf mo hmo
  obtain ⟨zc', hzc', hzclen⟩ := calcZeroCluster_spec ops diagFactor m hwf mo hmolen
  obtain ⟨nSolo, agg, hsolo, _, hns0, hnsz, _⟩ := collectSolo_spec zc' m.nRows hzclen
  have hz : zc = zc' := by
    unfold weakEquations at hzc
    rw [hmo] at hzc
    simp only [Option.some_bind] at hzc
    rw [hzc'] at hzc
    exact (Option.some.inj hzc).symm
  subst hz
  unfold clusterSetupIn clusterSetup
  simp only [hmo, hzc', hsolo, Option.bind_eq_bind, Option.some_bind]
  have hif : (if nSolo + env.nSoloOthers > 0 then (0 : Int) + 1 else 0)
      = (if nSolo > 0 then 0 + 1 else 0) := by
    rcases henv with h | ⟨h1, h2⟩
    · rw [h, add_zero]
    · have := hnsz.mpr h2
      rw [if_pos (by omega), if_pos (by omega)]
  rw [hif]

/-! ## Clusters are connected, on every partition -/

theorem stepDetail_connected_gen {α : Type} (ctx : ClusterCtx α) (upperAddr lowerAddr : List Int)
    (nRows : Nat) (hnbr : ∀ i j, i < nRows → Nbr ctx i j → Coupled upperAddr lowerAddr i j)
    (w : Int) (st st' : ClusterState) (n : Nat) (hn : n < nRows)
    (hok : StateOK nRows st)
    (ha : st.agglomIndex[n]? = some (-1)) (hd : StepDetail ctx st n st')
    (h : ∀ k, k ≠ -1 → w ≤ k → ConnectedIn upperAddr lowerAddr st.agglomIndex k) :
    ∀ k, k ≠ -1 → w ≤ k → ConnectedIn upperAddr lowerAddr st'.agglomIndex k := by
  have hres := hok.nonneg
  have hlen := hok.lenA
  have hKne : st.nCoarseEqns ≠ -1 := by omega
  have hKfresh : st.nCoarseEqns ∉ st.agglomIndex := by
    intro hmem
    have := hok.range _ hmem
    omega
  rcases hd with ⟨_, m, tail, hgr, _⟩ | ⟨_, _, col, ac, hnb, hac, hac1, hagg⟩
  · apply growsTo_connected ctx upperAddr lowerAddr nRows hnbr st.nCoarseEqns _ n
      (by simp [hlen]) hKne (fun k => w ≤ k) _ m _ tail hgr
    intro k hk hwk
    by_cases hkK : st.nCoarseEqns = k
    · rw [← hkK]
      exact connected_single upperAddr lowerAddr st.agglomIndex n st.nCoarseEqns hKfresh
    · exact connected_other upperAddr lowerAddr st.agglomIndex n st.nCoarseEqns k ha hk hkK
        (h k hk hwk)
  · intro k hk hwk
    rw [hagg]
    by_cases hkK : ac = k
    · rw [← hkK]
      exact connected_add upperAddr lowerAddr st.agglomIndex n col ac ha hac
        (coupled_symm _ _ _ _ (hnbr n col hn hnb)) (h ac hac1 (by rw [hkK]; exact hwk))
    · exact connected_other upperAddr lowerAddr st.agglomIndex n ac k ha hk hkK (h k hk hwk)

theorem stepDetail_grouped {α : Type} (ctx : ClusterCtx α) (st st' : ClusterState) (n : Nat)
    (ha : st.agglomIndex[n]? = some (-1)) (hK : 0 ≤ st.nCoarseEqns)
    (hd : StepDetail ctx st n st') : ∃ a : Int, st'.agglomIndex[n]? = some a ∧ a ≠ -1 := by
  have hnl : n < st.agglomIndex.length := lt_of_getElem? _ _ _ ha
  rcases hd with ⟨_, k, tail, hgr, _⟩ | ⟨_, _, col, ac, _, _, hac1, hagg⟩
  · refine ⟨st.nCoarseEqns, ?_, by omega⟩
    exact growsTo_keep ctx _ _ n k _ tail hgr n _ (List.getElem?_set_self hnl) (by omega)
  · exact ⟨ac, by rw [hagg, List.getElem?_set_self hnl], hac1⟩

theorem stepDetail_counter {α : Type} (ctx : ClusterCtx α) (st st' : ClusterState) (n : Nat)
    (hd : StepDetail ctx st n st') : st.nCoarseEqns ≤ st'.nCoarseEqns := by
  rcases hd with ⟨h, _⟩ | ⟨h, _⟩ <;> omega

/-- C28: on every partition of a run (the other partitions contribute a
non-negative `nSolo` and any `coarsen_`), whenever the constructor returns on
a well-formed symmetric or asymmetric matrix, every cluster of the final map
that contains no weak equation is connected in the matrix graph: any two of
its members are joined by a path of off-diagonal coefficients with all ends
in the cluster. The constructor returns whenever the reserved cluster 0 is not
empty on the partition (no weak equation anywhere, or a local one). -/
theorem clusters_connected {α : Type} (ops : ScalarOps α) (diagFactor : α) (env : ParEnv)
    (m : BlockLduMatrix α) (groupSize minCoarseEqns : Int) (hwf : WellFormed m)
    (hsym : m.symmetric = true ∨ m.asymmetric = true) (henv : 0 ≤ env.nSoloOthers) :
    ∃ zc : List Bool, weakEquations ops diagFactor m = some zc ∧
      (∀ st' : AgglomState,
        construct ops diagFactor env m groupSize minCoarseEqns = some st' →
        ∀ k : Int, (∀ i : Nat, st'.agglomIndex[i]? = some k → zc[i]? ≠ some true) →
          ConnectedIn m.upperAddr m.lowerAddr st'.agglomIndex k) ∧
      (env.nSoloOthers = 0 ∨ true ∈ zc →
        ∃ st' : AgglomState,
          construct ops diagFactor env m groupSize minCoarseEqns = some st') := by
  obtain ⟨ctx, st0, zc, nSolo, hset, hzc, hzclen, hgs, hctx, hok0, hnsz, hns0, hK0, hagg0,
    hnbr⟩ := clusterSetupIn_spec ops diagFactor env m groupSize hwf hsym henv
  have hpre := clusterPrefixIn_of_setup ops diagFactor env m groupSize ctx st0 hset
  have hcon := construct_eq_prefixIn ops diagFactor env m groupSize minCoarseEqns hsym
  refine ⟨zc, hzc, ?_, ?_⟩
  · intro st' hst' k hnoweak
    rw [hcon, hpre] at hst'
    simp only [Option.map_eq_some'] at hst'
    obtain ⟨cs, hcs, hst'eq⟩ := hst'
    obtain ⟨hok, hJ1, hJ2, hJ3, hJ4, hJ5⟩ := mainLoop_ret ops ctx m.nRows hctx st0 hok0
      (fun n st => st0.nCoarseEqns ≤ st.nCoarseEqns ∧
        (∀ i : Nat, i < n → st.agglomIndex[i]? ≠ some (-1)) ∧
        (∀ (i : Nat) (a : Int), st0.agglomIndex[i]? = some a → a ≠ -1 →
          st.agglomIndex[i]? = some a) ∧
        (∀ k, k ≠ -1 → st0.nCoarseEqns ≤ k →
          ConnectedIn m.upperAddr m.lowerAddr st.agglomIndex k) ∧
        (st0.nCoarseEqns = 1 → (∃ i : Nat, st.agglomIndex[i]? = some 0) → true ∈ zc))
      (by
        refine ⟨le_refl _, fun i hi => by omega, fun i a h _ => h, ?_, ?_⟩
        · intro k hk hwk i j hi _
          exfalso
          have hil : i < m.nRows := by
            have := lt_of_getElem? _ _ _ hi
            have := hok0.lenA
            omega
          rw [hagg0 i hil] at hi
          by_cases hz : zc[i]? = some true
          · rw [if_pos hz] at hi
            have hpos := hnsz.mpr (List.mem_iff_getElem?.mpr ⟨i, hz⟩)
            rw [hK0, if_pos (by omega)] at hwk
            have := Option.some.inj hi
            omega
          · rw [if_neg hz] at hi
            exact hk (Option.some.inj hi).symm
        · rintro _ ⟨i, hi⟩
          have hil : i < m.nRows := by
            have := lt_of_getElem? _ _ _ hi
            have := hok0.lenA
            omega
          rw [hagg0 i hil] at hi
          by_cases hz : zc[i]? = some true
          · exact List.mem_iff_getElem?.mpr ⟨i, hz⟩
          · rw [if_neg hz] at hi
            have := Option.some.inj hi
            omega)
      (by
        intro n st st1 hn hok ⟨hJ1, hJ2, hJ3, hJ4, hJ5⟩ _ _ hd hs
        by_cases ha : st.agglomIndex[n]? = some (-1)
        · have hdet := hd ha
          refine ⟨?_, ?_, ?_, ?_, ?_⟩
          · have := stepDetail_counter ctx st st1 n hdet
            omega
          · intro i hi
            by_cases hin : i = n
            · obtain ⟨a, ha1, ha2⟩ := stepDetail_grouped ctx st st1 n ha hok.nonneg hdet
              rw [hin, ha1]
              intro h
              exact ha2 (Option.some.inj h)
            · obtain ⟨a, haa⟩ := getElem?_of_lt st.agglomIndex i (by have := hok.lenA; omega)
              have hne : a ≠ -1 := by
                intro h
                rw [h] at haa
                exact hJ2 i (by omega) haa
              rw [stepDetail_mono ctx st st1 n ha hdet i a haa hne]
              intro h
              exact hne (Option.some.inj h)
          · intro i a hi hne
            exact stepDetail_mono ctx st st1 n ha hdet i a (hJ3 i a hi hne) hne
          · exact stepDetail_connected_gen ctx m.upperAddr m.lowerAddr m.nRows hnbr
              st0.nCoarseEqns st st1 n
              hn hok ha hdet hJ4
          · rintro hw1 ⟨i, hi⟩
            by_cases h0 : st.agglomIndex[i]? = some 0
            · exact hJ5 hw1 ⟨i, h0⟩
            · obtain ⟨_, _, _, col, _, hcol⟩ := stepDetail_zero ctx st st1 n ha (by omega) hdet
                i hi h0
              exact hJ5 hw1 ⟨col, hcol⟩
        · rw [hs ha]
          refine ⟨hJ1, ?_, hJ3, hJ4, hJ5⟩
          intro i hi
          by_cases hin : i = n
          · rw [hin]; exact ha
          · exact hJ2 i (by omega))
      m.nRows (le_refl _) cs hcs
    rw [← hst'eq]
    rw [← hst'eq] at hnoweak
    simp only at hnoweak ⊢
    by_cases hmem : k ∈ cs.agglomIndex
    · obtain ⟨i, hi⟩ := List.mem_iff_getElem?.mp hmem
      have hil : i < m.nRows := by
        have := lt_of_getElem? _ _ _ hi
        have := hok.lenA
        omega
      have hk1 : k ≠ -1 := by
        intro h
        rw [h] at hi
        exact hJ2 i hil hi
      have hr := hok.range k hmem
      by_cases hwk : st0.nCoarseEqns ≤ k
      · exact hJ4 k hk1 hwk
      · exfalso
        have hw1 : st0.nCoarseEqns = 1 := by
          rw [hK0] at hwk ⊢
          by_cases hpos : nSolo + env.nSoloOthers > 0
          · rw [if_pos hpos]
          · rw [if_neg hpos] at hwk
            omega
        have hk0 : k = 0 := by omega
        rw [hk0] at hi
        have hz := hJ5 hw1 ⟨i, hi⟩
        obtain ⟨j, hj⟩ := List.mem_iff_getElem?.mp hz
        have hjl : j < m.nRows := by
          have := lt_of_getElem? _ _ _ hj
          omega
        have h1 := hagg0 j hjl
        rw [if_pos hj] at h1
        have h2 := hJ3 j 0 h1 (by decide)
        rw [← hk0] at h2
        exact hnoweak j h2 hj
    · intro i j hi _
      exact absurd (List.mem_iff_getElem?.mpr ⟨i, hi⟩) hmem
  · intro hcase
    have heq := clusterSetupIn_eq_single ops diagFactor env m groupSize hwf hsym zc hzc
      (by
        rcases hcase with h | h
        · exact Or.inl h
        · exact Or.inr ⟨henv, h⟩)
    obtain ⟨ctx1, st1, zc1, hset1, _, _, _, _, hctx1, hinv1, _⟩ :=
      clusterSetup_spec ops diagFactor m groupSize hwf hsym
    obtain ⟨cs, hcs, _⟩ := mainLoop_spec ops ctx1 m.nRows hctx1 (if true ∈ zc1 then 1 else 0)
      st1 hinv1
    rw [← heq, hset] at hset1
    have hp := Option.some.inj hset1
    have hc1 : ctx = ctx1 := congrArg Prod.fst hp
    have hs1 : st0 = st1 := congrArg Prod.snd hp
    rw [← hc1, ← hs1] at hcs
    rw [hcon, hpre, hcs]
    exact ⟨_, rfl⟩

/-- C28 on the chain of five equations with `groupSize = 4`, on a partition
without weak equation while the other partitions hold one: cluster 0 is
reserved and empty, and the run returns the single cluster 1. -/
theorem clusters_connected_witness :
    construct ratOps diagFactorDefault ⟨1, true⟩ chain5 4 0
      = some ⟨[1, 1, 1, 1, 1], 2, true⟩ ∧
    ∃ zc : List Bool, weakEquations ratOps diagFactorDefault chain5 = some zc ∧
      (∀ st' : AgglomState,
        construct ratOps diagFactorDefault ⟨1, true⟩ chain5 4 0 = some st' →
        ∀ k : Int, (∀ i : Nat, st'.agglomIndex[i]? = some k → zc[i]? ≠ some true) →
          ConnectedIn chain5.upperAddr chain5.lowerAddr st'.agglomIndex k) ∧
      ((⟨1, true⟩ : ParEnv).nSoloOthers = 0 ∨ true ∈ zc →
        ∃ st' : AgglomState,
          construct ratOps diagFactorDefault ⟨1, true⟩ chain5 4 0 = some st') :=
  ⟨by decide!,
    clusters_connected ratOps diagFactorDefault ⟨1, true⟩ chain5 4 0 chain5_wellFormed
      (Or.inl rfl) (by decide)⟩

/-! ## The growth bound on every partition -/

theorem count_fresh_cluster_gen (nRows : Nat) (st : ClusterState) (hok : StateOK nRows st)
    (eqnI : Nat) (ha : st.agglomIndex[eqnI]? = some (-1)) :
    (st.agglomIndex.set eqnI st.nCoarseEqns).count st.nCoarseEqns = 1 := by
  have hK0 := hok.nonneg
  have h0 : st.agglomIndex.count st.nCoarseEqns = 0 := by
    rw [List.count_eq_zero]
    intro hmem
    have := hok.range _ hmem
    omega
  rw [count_set_fresh _ _ _ _ ha (by omega), if_pos rfl, h0]

theorem growth_bound_steps {α : Type} (ops : ScalarOps α) (diagFactor : α) (env : ParEnv)
    (m : BlockLduMatrix α) (groupSize : Int) (hwf : WellFormed m)
    (hsym : m.symmetric = true ∨ m.asymmetric = true) (henv : 0 ≤ env.nSoloOthers)
    (n : Nat) (hn : n < m.nRows) (st st' : ClusterState)
    (h1 : clusterPrefixIn ops diagFactor env m groupSize n = some st)
    (h2 : clusterPrefixIn ops diagFactor env m groupSize (n + 1) = some st')
    (ha : st.agglomIndex[n]? = some (-1)) :
    ∃ ctx : ClusterCtx α, ∃ st0 : ClusterState,
      clusterSetupIn ops diagFactor env m groupSize = some (ctx, st0) ∧
      ((st'.nCoarseEqns = st.nCoarseEqns + 1 ∧ st.nCoarseEqns < (m.nRows : Int) ∧
        ∃ k tail : Nat,
          GrowsTo ctx st.nCoarseEqns (st.agglomIndex.set n st.nCoarseEqns) n k
            st'.agglomIndex tail ∧
          (k : Int) ≤ max (groupSize - 1) 0 ∧
          st'.agglomIndex.count st.nCoarseEqns = k + 1 ∧
          ((k + 1 : Nat) : Int) ≤ max groupSize 1) ∨
       (st'.nCoarseEqns = st.nCoarseEqns ∧ 1 < groupSize ∧
        ∃ (col : Nat) (ac : Int), Nbr ctx n col ∧ st.agglomIndex[col]? = some ac ∧
          ac ≠ -1 ∧ st'.agglomIndex = st.agglomIndex.set n ac)) ∧
      (groupSize ≤ 1 → st'.nCoarseEqns = st.nCoarseEqns + 1 ∧
        st'.agglomIndex = st.agglomIndex.set n st.nCoarseEqns) := by
  obtain ⟨ctx, st0, zc, nSolo, hset, _, _, hgs, hctx, hok0, _⟩ :=
    clusterSetupIn_spec ops diagFactor env m groupSize hwf hsym henv
  have hpre := clusterPrefixIn_of_setup ops diagFactor env m groupSize ctx st0 hset
  rw [hpre] at h1 h2
  obtain ⟨hok, _⟩ := mainLoop_ret ops ctx m.nRows hctx st0 hok0 (fun _ _ => True) trivial
    (fun _ _ _ _ _ _ _ _ _ _ => trivial) n (by omega) st h1
  rw [foldlM_range_succ, h1] at h2
  simp only [Option.some_bind] at h2
  obtain ⟨hdet, hok'⟩ := eqnStep_detail_gen ops ctx m.nRows hctx st st' n hok hn ha h2
  refine ⟨ctx, st0, hset, ?_, ?_⟩
  · rcases hdet with ⟨e1, k, tail, hgr, hle⟩ | ⟨e1, e2, e3⟩
    · left
      have hKne : st.nCoarseEqns ≠ -1 := by have := hok.nonneg; omega
      have hcnt := growsTo_count ctx _ _ n hKne k _ tail hgr
      rw [count_fresh_cluster_gen m.nRows st hok n ha] at hcnt
      rw [hgs] at hle
      have hKlt : st.nCoarseEqns < (m.nRows : Int) := by
        unfold eqnStep at h2
        simp only [readAt_natCast, ha, Option.bind_eq_bind, Option.some_bind] at h2
        rw [if_pos trivial] at h2
        simp only [Option.bind_eq_some] at h2
        obtain ⟨_, _, _, _, g, _, b, _, hfin⟩ := h2
        cases b with
        | true =>
          rw [if_pos rfl] at hfin
          have hmem : st.nCoarseEqns ∈ st'.agglomIndex := by
            apply List.count_pos_iff.mp
            omega
          have := hok'.range _ hmem
          have hlen := hok'.lenA
          unfold sealGroup at hfin
          simp only [Option.bind_eq_bind, Option.bind_eq_some] at hfin
          obtain ⟨ae, hae, sz, hsz, sg, hsg, hst'⟩ := hfin
          simp only [pure, Option.some.injEq] at hst'
          have hgagg : g.agglomIndex = st'.agglomIndex := by rw [← hst']
          rw [readAt_natCast, hgagg] at hae
          have hn' := growsTo_keep ctx _ _ n k _ tail hgr n st.nCoarseEqns
            (List.getElem?_set_self (lt_of_getElem? _ _ _ ha)) hKne
          rw [hn'] at hae
          rw [← Option.some.inj hae] at hsz
          unfold readAt at hsz
          rw [if_pos hok.nonneg] at hsz
          have := lt_of_getElem? _ _ _ hsz
          have := hok.lenS
          omega
        | false =>
          exfalso
          rw [if_neg (by decide)] at hfin
          unfold mergeSeed at hfin
          simp only [Option.bind_eq_bind, Option.bind_eq_some] at hfin
          obtain ⟨_, _, _, _, _, _, _, _, _, _, _, _, _, _, hst'⟩ := hfin
          simp only [pure, Option.some.injEq] at hst'
          have : st'.nCoarseEqns = st.nCoarseEqns := by rw [← hst']
          omega
      exact ⟨e1, hKlt, k, tail, hgr, by omega, by omega, by push_cast; omega⟩
    · right
      rw [hgs] at e2
      exact ⟨e1, e2, e3⟩
  · intro hle
    exact singleton_step ctx st st' n (by rw [hgs]; exact hle) hdet

/-- C24 evaluated on `gate6` with `groupSize = 3`: no equation is weak, the
seed 0 grows the cluster `{0, 1, 2}`, the seed 3 absorbs equation 4 and its
second pass scans the row of the tail 4, whose neighbours are equation 5
(ungrouped, coefficient 2) and equation 0 (cluster 0, coefficient 10). With
the weight of the claim, `2/max(1, 1) = 2` and `10/max(1, 100) = 1/10`, an
ungrouped neighbour exists and `2 >= 0.65 * 1/10`, so equation 5 is to be
absorbed. The code scans with `magRowDiag = magDiag[3] = 100`: the weights are
`2/100 = 1/50` and `1/10`, the test `1/50 >= 0.65 * 1/10` fails, the growth
stops and cluster 1 is sealed as `{3, 4}`; equation 5 is merged into cluster 0
later. The same growth loop run with the diagonal of the tail, `magDiag[4] = 1`,
absorbs equation 5. -/
theorem extension_gate_evaluation :
    weakEquations ratOps diagFactorDefault gate6
      = some [false, false, false, false, false, false] ∧
    (clusterPrefix ratOps diagFactorDefault gate6 3 3).map
        (fun s => (s.agglomIndex, s.sizeOfGroups, s.nCoarseEqns))
      = some ([0, 0, 0, -1, -1, -1], [1, 0, 0, 0, 0, 0], 1) ∧
    (clusterSetup ratOps diagFactorDefault gate6 3).bind (fun p =>
        (scanRow ratOps p.1 [0, 0, 0, 1, 1, -1] 4 100).map
          (fun s => (readAt p.1.cols s.indexUngrouped, s.weightUngrouped,
            readAt p.1.cols s.indexGrouped, s.weightGrouped,
            ratOps.ge s.weightUngrouped (ratOps.mul ratOps.weightFactor s.weightGrouped))))
      = some (some 5, 1 / 50, some 0, 1 / 10, false) ∧
    (clusterSetup ratOps diagFactorDefault gate6 3).bind (fun p =>
        (scanRow ratOps p.1 [0, 0, 0, 1, 1, -1] 4 1).map
          (fun s => (readAt p.1.cols s.indexUngrouped, s.weightUngrouped,
            readAt p.1.cols s.indexGrouped, s.weightGrouped,
            ratOps.ge s.weightUngrouped (ratOps.mul ratOps.weightFactor s.weightGrouped))))
      = some (some 5, 2, some 0, 1 / 10, true) ∧
    (clusterSetup ratOps diagFactorDefault gate6 3).bind (fun p =>
        (growLoop ratOps p.1 [1, 0, 0, 0, 0, 0] 100 3 ⟨[0, 0, 0, 1, 1, -1], 4, 6, -1, 2⟩).map
          (fun g => (g.agglomIndex, g.curEqn, g.groupPassI)))
      = some ([0, 0, 0, 1, 1, -1], 4, 2) ∧
    (clusterSetup ratOps diagFactorDefault gate6 3).bind (fun p =>
        (growLoop ratOps p.1 [1, 0, 0, 0, 0, 0] 1 3 ⟨[0, 0, 0, 1, 1, -1], 4, 6, -1, 2⟩).map
          (fun g => (g.agglomIndex, g.curEqn, g.groupPassI)))
      = some ([0, 0, 0, 1, 1, 1], 5, 3) ∧
    (clusterPrefix ratOps diagFactorDefault gate6 3 4).map
        (fun s => (s.agglomIndex, s.sizeOfGroups, s.nCoarseEqns))
      = some ([0, 0, 0, 1, 1, -1], [1, 1, 0, 0, 0, 0], 2) ∧
    construct ratOps diagFactorDefault singlePartition gate6 3 0
      = some ⟨[0, 0, 0, 1, 1, 0], 2, true⟩ := by
  refine ⟨by decide!, by decide!, by decide!, by decide!, by decide!, by decide!, by decide!,
    by decide!⟩

/-! ## The size of the clusters, evaluated -/

/-- C9 evaluated on the star of six equations with `groupSize = 2`: no
equation is weak; the seed 0 absorbs equation 1, so cluster 0 has two members
when it is sealed while its counter `sizeOfGroups[0]` is 1; the seeds 2, 3,
4, 5 are merged one after the other, the counter reading 1, 2, 3, 4 at the
size test; the final cluster 0 holds all six equations, with a counter of 5. -/
theorem cluster_cap_evaluation :
    weakEquations ratOps diagFactorDefault star6 = some (List.replicate 6 false) ∧
    (clusterPrefix ratOps diagFactorDefault star6 2 1).map
        (fun s => (s.agglomIndex, s.sizeOfGroups, s.nCoarseEqns))
      = some ([0, 0, -1, -1, -1, -1], [1, 0, 0, 0, 0, 0], 1) ∧
    (clusterPrefix ratOps diagFactorDefault star6 2 6).map
        (fun s => (s.agglomIndex, s.sizeOfGroups, s.nCoarseEqns))
      = some ([0, 0, 0, 0, 0, 0], [5, 0, 0, 0, 0, 0], 1) ∧
    construct ratOps diagFactorDefault singlePartition star6 2 0
      = some ⟨[0, 0, 0, 0, 0, 0], 1, true⟩ ∧
    clusterSize [0, 0, 0, 0, 0, 0] 0 = 6 := by
  refine ⟨by decide!, by decide!, by decide!, by decide!, by decide!⟩


end Foam
